import Mathlib

/-! # EmaDocs compiler: tokenizer, parser and emitter

A shallow embedding of `src/core/compiler/emadocs-compiler.go`.

* A Go `string` is a byte sequence. It is modelled as `List Char`, the byte
  `b` being the character of code `b`; every function below is defined on
  all characters and treats a code above 127 the way the Go code treats a
  byte above 127 (it matches no lexical rule).
* A Go function returning `(v, error)` returns a pair whose second component
  is `Option GoError`, `none` being the `nil` error.
* A run-time panic of the Go program is `Except.error Failure.panic`.
* The parser has loops that need not terminate; the parser functions take a
  fuel argument that bounds the number of loop iterations and nested calls,
  and `none` means that the fuel ran out.
-/

namespace EmaDocs

/-- Go `string`: a byte sequence. -/
abbrev GoString := List Char

/-- Go `error` values carry a message. -/
abbrev GoError := String

/-- Ways a Go call can fail to return. -/
inductive Failure where
  | panic
  deriving DecidableEq, Repr

/-! ## Token definitions -/

/-- The `TokenType` enumeration (the keyword `type` is spelled `Type_`). -/
inductive TokenType where
  | Page | Component | Style | Event | State | Api | Router | Route | Layout
  | Animation | Type_ | Hook | Plugin | Config | Import | Export | From | As
  | If | Else | For | While | Function | Async | Await | Return | Const | Let
  | Var | True | False | Null | Undefined | Class | Extends | Implements
  | Interface | Enum | Namespace | Render | Computed | Watch | Mounted
  | Unmounted
  | Assign | Equal | NotEqual | Less | Greater | LessEqual | GreaterEqual
  | Plus | Minus | Multiply | Divide | Modulo | And | Or | Not | Arrow
  | LeftParen | RightParen | LeftBrace | RightBrace | LeftBracket
  | RightBracket | Semicolon | Comma | Dot | Colon | Question | Pipe
  | OpeningTagStart | ClosingTagStart | TagEnd | SelfClosingTagEnd
  | Identifier | String | Number | TemplateLiteral
  | Comment | Whitespace | Newline | EOF
  deriving DecidableEq, Repr

/-- The `Token` struct (the field `Type` is spelled `Type_`). -/
structure Token where
  Type_ : TokenType
  Value : GoString
  Line : Nat
  Column : Nat
  deriving DecidableEq, Repr

/-! ## Lexer -/

/-- The `Lexer` struct; the keyword table is the function `keywords`. -/
structure Lexer where
  input : GoString
  position : Nat
  line : Nat
  column : Nat
  deriving DecidableEq, Repr

/-- The keyword table built by `NewLexer`, as an association list. -/
def keywordTable : List (String × TokenType) :=
  [("page", .Page), ("component", .Component), ("style", .Style),
   ("event", .Event), ("state", .State), ("api", .Api), ("router", .Router),
   ("route", .Route), ("layout", .Layout), ("animation", .Animation),
   ("type", .Type_), ("hook", .Hook), ("plugin", .Plugin), ("config", .Config),
   ("import", .Import), ("export", .Export), ("from", .From), ("as", .As),
   ("if", .If), ("else", .Else), ("for", .For), ("while", .While),
   ("function", .Function), ("async", .Async), ("await", .Await),
   ("return", .Return), ("const", .Const), ("let", .Let), ("var", .Var),
   ("true", .True), ("false", .False), ("null", .Null),
   ("undefined", .Undefined), ("class", .Class), ("extends", .Extends),
   ("implements", .Implements), ("interface", .Interface), ("enum", .Enum),
   ("namespace", .Namespace), ("render", .Render), ("computed", .Computed),
   ("watch", .Watch), ("mounted", .Mounted), ("unmounted", .Unmounted)]

/-- The map lookup `l.keywords[value]`: `none` when the key is absent. -/
def keywords (value : GoString) : Option TokenType :=
  (keywordTable.find? (fun kv => kv.1.toList == value)).map (fun kv => kv.2)

/-- The constructor `NewLexer`. -/
def NewLexer (input : GoString) : Lexer :=
  { input := input, position := 0, line := 1, column := 1 }

def isWhitespace (c : Char) : Bool :=
  c == ' ' || c == '\t' || c == '\r' || c == '\n'

def isDigit (c : Char) : Bool :=
  decide ('0' ≤ c) && decide (c ≤ '9')

def isAlpha (c : Char) : Bool :=
  (decide ('a' ≤ c) && decide (c ≤ 'z')) || (decide ('A' ≤ c) && decide (c ≤ 'Z'))

def isAlphaNumeric (c : Char) : Bool :=
  isAlpha c || isDigit c

/-- The slice expression `s[lo:hi]`; Go panics unless `lo <= hi <= len(s)`. -/
def slice (s : GoString) (lo hi : Nat) : Except Failure GoString :=
  if lo ≤ hi ∧ hi ≤ s.length then .ok ((s.drop lo).take (hi - lo)) else .error .panic

/-- The loop of `readLineComment`: advance to the next newline or the end. -/
def readLineCommentLoop : Nat → Lexer → Lexer
  | 0, l => l
  | fuel + 1, l =>
    match l.input[l.position]? with
    | none => l
    | some c =>
      if c != '\n' then readLineCommentLoop fuel { l with position := l.position + 1 }
      else l

def readLineComment (l : Lexer) : Except Failure ((Token × Option GoError) × Lexer) :=
  let start := l.position
  let l1 := readLineCommentLoop (l.input.length - l.position) l
  match slice l1.input start l1.position with
  | .error e => .error e
  | .ok value =>
    let token : Token := { Type_ := .Comment, Value := value, Line := l1.line, Column := l1.column }
    .ok ((token, none), { l1 with column := l1.column + value.length })

/-- The loop of `readBlockComment`, run while `position < len(input)-1`. -/
def readBlockCommentLoop : Nat → Lexer → Lexer
  | 0, l => l
  | fuel + 1, l =>
    if l.position + 1 < l.input.length then
      if l.input[l.position]? == some '*' && l.input[l.position + 1]? == some '/' then
        { l with position := l.position + 2, column := l.column + 2 }
      else if l.input[l.position]? == some '\n' then
        readBlockCommentLoop fuel { l with position := l.position + 1, line := l.line + 1, column := 1 }
      else
        readBlockCommentLoop fuel { l with position := l.position + 1, column := l.column + 1 }
    else l

def readBlockComment (l : Lexer) : Except Failure ((Token × Option GoError) × Lexer) :=
  let start := l.position
  let l0 : Lexer := { l with position := l.position + 2, column := l.column + 2 }
  let l1 := readBlockCommentLoop (l0.input.length - l0.position) l0
  match slice l1.input start l1.position with
  | .error e => .error e
  | .ok value =>
    .ok (({ Type_ := .Comment, Value := value, Line := l1.line, Column := l1.column }, none), l1)

/-- The scanning loop shared (textually duplicated in the source) by
`readString` and `readTemplateLiteral`: run to the closing `quote` or to the
end of input, a backslash taking the next byte with it when there is one. -/
def readQuotedLoop (quote : Char) : Nat → Lexer → Lexer
  | 0, l => l
  | fuel + 1, l =>
    match l.input[l.position]? with
    | none => l
    | some c =>
      if c != quote then
        if c == '\\' && l.position + 1 < l.input.length then
          readQuotedLoop quote fuel { l with position := l.position + 2, column := l.column + 2 }
        else
          readQuotedLoop quote fuel { l with position := l.position + 1, column := l.column + 1 }
      else l

def readString (l : Lexer) : Except Failure ((Token × Option GoError) × Lexer) :=
  match l.input[l.position]? with
  | none => .error .panic
  | some quote =>
    let l0 : Lexer := { l with position := l.position + 1, column := l.column + 1 }
    let start := l0.position
    let l1 := readQuotedLoop quote (l0.input.length - l0.position) l0
    let l2 : Lexer :=
      if l1.position < l1.input.length then
        { l1 with position := l1.position + 1, column := l1.column + 1 }
      else l1
    match slice l2.input start (l2.position - 1) with
    | .error e => .error e
    | .ok value =>
      .ok (({ Type_ := .String, Value := value, Line := l2.line, Column := l2.column }, none), l2)

def readTemplateLiteral (l : Lexer) : Except Failure ((Token × Option GoError) × Lexer) :=
  let l0 : Lexer := { l with position := l.position + 1, column := l.column + 1 }
  let start := l0.position
  let l1 := readQuotedLoop '`' (l0.input.length - l0.position) l0
  let l2 : Lexer :=
    if l1.position < l1.input.length then
      { l1 with position := l1.position + 1, column := l1.column + 1 }
    else l1
  match slice l2.input start (l2.position - 1) with
  | .error e => .error e
  | .ok value =>
    .ok (({ Type_ := .TemplateLiteral, Value := value, Line := l2.line, Column := l2.column }, none), l2)

/-- The loop of `readNumber` and of `readIdentifier`: advance while the
current byte satisfies `keep`. -/
def readWhileLoop (keep : Char → Bool) : Nat → Lexer → Lexer
  | 0, l => l
  | fuel + 1, l =>
    match l.input[l.position]? with
    | none => l
    | some c =>
      if keep c then
        readWhileLoop keep fuel { l with position := l.position + 1, column := l.column + 1 }
      else l

def readNumber (l : Lexer) : Except Failure ((Token × Option GoError) × Lexer) :=
  let start := l.position
  let l1 := readWhileLoop (fun c => isDigit c || c == '.') (l.input.length - l.position) l
  match slice l1.input start l1.position with
  | .error e => .error e
  | .ok value =>
    .ok (({ Type_ := .Number, Value := value, Line := l1.line, Column := l1.column }, none), l1)

def readIdentifier (l : Lexer) : Except Failure ((Token × Option GoError) × Lexer) :=
  let start := l.position
  let l1 := readWhileLoop (fun c => isAlphaNumeric c || c == '_') (l.input.length - l.position) l
  match slice l1.input start l1.position with
  | .error e => .error e
  | .ok value =>
    let tokenType := match keywords value with
      | some t => t
      | none => TokenType.Identifier
    .ok (({ Type_ := tokenType, Value := value, Line := l1.line, Column := l1.column }, none), l1)

/-- An operator or punctuation case of the `switch` in `Tokenize`: append a
token of `n` bytes created at the current line and column, then move on. -/
def emitToken (l : Lexer) (t : TokenType) (value : String) (n : Nat) :
    (Option Token × Option GoError) × Lexer :=
  ((some { Type_ := t, Value := value.toList, Line := l.line, Column := l.column }, none),
   { l with position := l.position + n, column := l.column + n })

/-- The reader calls of `Tokenize`: the token read is appended. -/
def readResult (r : Except Failure ((Token × Option GoError) × Lexer)) :
    Except Failure ((Option Token × Option GoError) × Lexer) :=
  match r with
  | .error e => .error e
  | .ok ((token, err), l) => .ok ((some token, err), l)

/-- The `switch current` of `Tokenize`, with its one-byte lookahead
`l.position+1 < len(l.input) && l.input[l.position+1] == c`. -/
def tokenizeOperator (l : Lexer) (current : Char) : (Option Token × Option GoError) × Lexer :=
  let next := l.input[l.position + 1]?
  if current == '=' then
    if next == some '=' then emitToken l .Equal "==" 2
    else if next == some '>' then emitToken l .Arrow "=>" 2
    else emitToken l .Assign "=" 1
  else if current == '!' then
    if next == some '=' then emitToken l .NotEqual "!=" 2
    else emitToken l .Not "!" 1
  else if current == '<' then
    if next == some '/' then emitToken l .ClosingTagStart "</" 2
    else if next == some '=' then emitToken l .LessEqual "<=" 2
    else emitToken l .OpeningTagStart "<" 1
  else if current == '>' then
    if next == some '=' then emitToken l .GreaterEqual ">=" 2
    else emitToken l .TagEnd ">" 1
  else if current == '+' then emitToken l .Plus "+" 1
  else if current == '-' then emitToken l .Minus "-" 1
  else if current == '*' then emitToken l .Multiply "*" 1
  else if current == '/' then emitToken l .Divide "/" 1
  else if current == '%' then emitToken l .Modulo "%" 1
  else if current == '&' then
    if next == some '&' then emitToken l .And "&&" 2
    else emitToken l .And "&" 1
  else if current == '|' then
    if next == some '|' then emitToken l .Or "||" 2
    else emitToken l .Pipe "|" 1
  else if current == '(' then emitToken l .LeftParen "(" 1
  else if current == ')' then emitToken l .RightParen ")" 1
  else if current == '{' then emitToken l .LeftBrace "\x7b" 1
  else if current == '}' then emitToken l .RightBrace "\x7d" 1
  else if current == '[' then emitToken l .LeftBracket "[" 1
  else if current == ']' then emitToken l .RightBracket "]" 1
  else if current == ';' then emitToken l .Semicolon ";" 1
  else if current == ',' then emitToken l .Comma "," 1
  else if current == '.' then emitToken l .Dot "." 1
  else if current == ':' then emitToken l .Colon ":" 1
  else if current == '?' then emitToken l .Question "?" 1
  else ((none, none), { l with position := l.position + 1, column := l.column + 1 })

/-- One iteration of the loop of `Tokenize` on the byte `current` at
`l.position`: the token appended (if any), the error of the reader called
(if any), and the lexer after the iteration. -/
def tokenizeStep (l : Lexer) (current : Char) :
    Except Failure ((Option Token × Option GoError) × Lexer) :=
  if isWhitespace current then
    if current == '\n' then
      .ok ((some { Type_ := .Newline, Value := ['\n'], Line := l.line, Column := l.column }, none),
           { l with position := l.position + 1, line := l.line + 1, column := 1 })
    else
      .ok ((some { Type_ := .Whitespace, Value := [current], Line := l.line, Column := l.column }, none),
           { l with position := l.position + 1, column := l.column + 1 })
  else if current == '/' && l.input[l.position + 1]? == some '/' then
    readResult (readLineComment l)
  else if current == '/' && l.input[l.position + 1]? == some '*' then
    readResult (readBlockComment l)
  else if current == '"' || current == '\'' then
    readResult (readString l)
  else if current == '`' then
    readResult (readTemplateLiteral l)
  else if isDigit current then
    readResult (readNumber l)
  else if isAlpha current || current == '_' then
    readResult (readIdentifier l)
  else
    .ok (tokenizeOperator l current)

/-- The loop `for l.position < len(l.input)` of `Tokenize` followed by the
final `EOF` token; `fuel` bounds the iterations, each of which moves
`l.position` forward. -/
def tokenizeLoop : Nat → Lexer → List Token → Except Failure (List Token × Option GoError)
  | 0, l, tokens =>
    .ok (tokens ++ [{ Type_ := .EOF, Value := [], Line := l.line, Column := l.column }], none)
  | fuel + 1, l, tokens =>
    match l.input[l.position]? with
    | none =>
      .ok (tokens ++ [{ Type_ := .EOF, Value := [], Line := l.line, Column := l.column }], none)
    | some current =>
      match tokenizeStep l current with
      | .error e => .error e
      | .ok ((_, some err), _) => .ok ([], some err)
      | .ok ((token, none), l1) => tokenizeLoop fuel l1 (tokens ++ token.toList)

/-- The method `Tokenize`, on the lexer `NewLexer(input)`. -/
def Tokenize (input : GoString) : Except Failure (List Token × Option GoError) :=
  tokenizeLoop input.length (NewLexer input) []

/-! ## AST node definitions -/

/-- Go `map[string]string`, as an association list with unique keys. -/
abbrev GoMap := List (GoString × GoString)

/-- The map read `m[key]` with its presence flag. -/
def GoMap.get? (m : GoMap) (key : GoString) : Option GoString :=
  (m.find? (fun kv => kv.1 == key)).map (fun kv => kv.2)

/-- The map write `m[key] = value`. -/
def GoMap.set : GoMap → GoString → GoString → GoMap
  | [], key, value => [(key, value)]
  | (k, v) :: m, key, value =>
    if k == key then (k, value) :: m else (k, v) :: GoMap.set m key value

/-- The implementations of the interface `ASTNode`, one constructor per node
struct with the struct's fields in declaration order. A field of type
`ASTNode` is an `Option`, `none` being the nil interface value. -/
inductive ASTNode where
  | ProgramNode (Statements : List ASTNode)
  | PageNode (Name : GoString) (Attributes : GoMap) (Body : List ASTNode)
  | ComponentNode (Name : GoString) (TypeParams : List GoString)
      (Props Events State Methods : List ASTNode) (Render : Option ASTNode)
  | StyleNode (Selector : GoString) (Rules : List ASTNode)
  | EventNode (EventType Target : GoString) (Body : List ASTNode)
  | StateNode (Name : GoString) (Properties : List ASTNode)
  | ApiNode (Name : GoString) (Properties : GoMap) (Methods : List ASTNode)
  | RouterNode (Routes : List ASTNode)
  | RouteNode (Path Component : GoString) (Options : GoMap)
  | LayoutNode (Name : GoString) (Render : Option ASTNode)
  | AnimationNode (Name : GoString) (Keyframes : List ASTNode)
  | TypeNode (Name : GoString) (Definition : Option ASTNode)
  | HookNode (Name : GoString) (Parameters Body : List ASTNode)
  | PluginNode (Name : GoString) (Properties : GoMap)
  | ConfigNode (Properties : GoMap)
  | ImportNode (Specifiers : List GoString) (Source : GoString)
  | ExportNode (Specifiers : List GoString) (Source : GoString) (IsDefault : Bool)
  | ElementNode (TagName : GoString) (Attributes : GoMap) (Children : List ASTNode)
      (SelfClosing : Bool)
  | TextNode (Value : GoString)
  | ExpressionNode (Expression : GoString)

/-! ## Parser -/

/-- The `Parser` struct. -/
structure Parser where
  tokens : List Token
  current : Nat
  deriving DecidableEq, Repr

def NewParser (tokens : List Token) : Parser :=
  { tokens := tokens, current := 0 }

/-- The method `isAtEnd`: `p.current >= len(p.tokens)` or the current token is `EOF`. -/
def Parser.isAtEnd (p : Parser) : Bool :=
  match p.tokens[p.current]? with
  | none => true
  | some token => token.Type_ == .EOF

def Parser.peek (p : Parser) : Option Token :=
  if p.isAtEnd then none else p.tokens[p.current]?

def Parser.previous (p : Parser) : Option Token :=
  if p.current == 0 then none else p.tokens[p.current - 1]?

/-- The method `advance`: the token returned and the parser afterwards. -/
def Parser.advance (p : Parser) : Option Token × Parser :=
  let p1 : Parser := if !p.isAtEnd then { p with current := p.current + 1 } else p
  (p1.previous, p1)

def Parser.check (p : Parser) (tokenType : TokenType) : Bool :=
  if p.isAtEnd then false
  else match p.tokens[p.current]? with
    | none => false
    | some token => token.Type_ == tokenType

/-- The variadic method `match`. -/
def Parser.match_ (p : Parser) : List TokenType → Bool × Parser
  | [] => (false, p)
  | tokenType :: tokenTypes =>
    if p.check tokenType then (true, p.advance.2) else p.match_ tokenTypes

/-- The statement `p.advance()` whose result is dropped. -/
def Parser.skip (p : Parser) : Parser := p.advance.2

/-- The condition `token := p.peek(); token != nil && token.Type == tokenType`. -/
def Parser.peekIs (p : Parser) (tokenType : TokenType) : Bool :=
  match p.peek with
  | none => false
  | some token => token.Type_ == tokenType

/-- The expression `p.advance().Value`. Every occurrence is guarded by a
`peek` that returned a token, so `advance` returns the token it passed; on a
nil token (which the guard excludes) the model yields the empty string. -/
def Parser.advanceValue (p : Parser) : GoString × Parser :=
  match p.advance with
  | (some token, p1) => (token.Value, p1)
  | (none, p1) => ([], p1)

/-- The condition of `parseEvent`:
`token := p.peek(); token != nil && token.Type == Identifier && token.Value == "on"`. -/
def Parser.peekIsOn (p : Parser) : Bool :=
  match p.peek with
  | none => false
  | some token => token.Type_ == .Identifier && token.Value == "on".toList

/-- The condition of `parseExport`:
`p.check(Identifier)` and then `token := p.peek(); token != nil && token.Value == "default"`. -/
def Parser.peekIsDefault (p : Parser) : Bool :=
  p.check .Identifier &&
    match p.peek with
    | none => false
    | some token => token.Value == "default".toList

/-- The opening of most sub-parsers:
`if token := p.peek(); token != nil && token.Type == Identifier { name = p.advance().Value }`. -/
def Parser.optionalName (p : Parser) : GoString × Parser :=
  if p.peekIs .Identifier then p.advanceValue else ([], p)

/-- What a sub-parser returns: `(ASTNode, error)`. -/
abbrev NodeResult := Option ASTNode × Option GoError

/-- What `parseBlock` and `parseParameters` return: `([]ASTNode, error)`. -/
abbrev ListResult := List ASTNode × Option GoError

/-- The type of `parseBlock` as the sub-parsers call it. -/
abbrev BlockParser := Parser → Option (ListResult × Parser)

/-- The block tail of the sub-parsers:
`if p.check(LeftBrace) { p.advance(); body, _ = p.parseBlock(); if p.check(RightBrace) { p.advance() } }`;
`body` stays nil when no brace follows. -/
def bracedBlock (parseBlock : BlockParser) (p : Parser) : Option (List ASTNode × Parser) :=
  if p.check .LeftBrace then
    match parseBlock p.skip with
    | none => none
    | some ((body, _), p1) =>
      some (body, if p1.check .RightBrace then p1.skip else p1)
  else some ([], p)

/-- The attribute loop of `parsePage`. -/
def parsePageAttributes : Nat → Parser → GoMap → Option (GoMap × Parser)
  | 0, _, _ => none
  | fuel + 1, p, attributes =>
    if !p.check .LeftBrace && !p.isAtEnd then
      if p.peekIs .Identifier then
        let key := p.advanceValue.1
        let p1 := p.advanceValue.2
        if p1.check .Assign then
          let p2 := p1.skip
          if p2.peekIs .String then
            let value := p2.advanceValue.1
            parsePageAttributes fuel p2.advanceValue.2 (attributes.set key value)
          else parsePageAttributes fuel p2 attributes
        else parsePageAttributes fuel p1 attributes
      else parsePageAttributes fuel p.skip attributes
    else some (attributes, p)

def parsePage (parseBlock : BlockParser) (fuel : Nat) (p : Parser) :
    Option (NodeResult × Parser) :=
  let name := p.optionalName.1
  let p1 := p.optionalName.2
  match parsePageAttributes fuel p1 [] with
  | none => none
  | some (attributes, p2) =>
    match bracedBlock parseBlock p2 with
    | none => none
    | some (body, p3) => some ((some (.PageNode name attributes body), none), p3)

/-- The loops of `parseComponent` (type parameters, closed by `Greater`),
`parseImport` and `parseExport` (specifiers, closed by `From`):
`for !p.check(close) && !p.isAtEnd()` collecting identifiers and passing
commas. -/
def parseNameList (close : TokenType) : Nat → Parser → List GoString →
    Option (List GoString × Parser)
  | 0, _, _ => none
  | fuel + 1, p, names =>
    if !p.check close && !p.isAtEnd then
      let names1 := if p.peekIs .Identifier then names ++ [p.advanceValue.1] else names
      let p1 := if p.peekIs .Identifier then p.advanceValue.2 else p
      let p2 := if p1.check .Comma then p1.skip else p1
      parseNameList close fuel p2 names1
    else some (names, p)

def parseComponent (parseBlock : BlockParser) (fuel : Nat) (p : Parser) :
    Option (NodeResult × Parser) :=
  let name := p.optionalName.1
  let p1 := p.optionalName.2
  let typeParamsResult : Option (List GoString × Parser) :=
    if p1.check .Less then
      match parseNameList .Greater fuel p1.skip [] with
      | none => none
      | some (typeParams, p2) =>
        some (typeParams, if p2.check .Greater then p2.skip else p2)
    else some ([], p1)
  match typeParamsResult with
  | none => none
  | some (typeParams, p3) =>
    match bracedBlock parseBlock p3 with
    | none => none
    | some (_, p4) =>
      some ((some (.ComponentNode name typeParams [] [] [] [] none), none), p4)

def parseStyle (parseBlock : BlockParser) (p : Parser) : Option (NodeResult × Parser) :=
  let selector := p.optionalName.1
  let p1 := p.optionalName.2
  match bracedBlock parseBlock p1 with
  | none => none
  | some (rules, p2) => some ((some (.StyleNode selector rules), none), p2)

def parseEvent (parseBlock : BlockParser) (p : Parser) : Option (NodeResult × Parser) :=
  let eventType := p.optionalName.1
  let p1 := p.optionalName.2
  let target := if p1.peekIsOn then p1.skip.optionalName.1 else []
  let p2 := if p1.peekIsOn then p1.skip.optionalName.2 else p1
  match bracedBlock parseBlock p2 with
  | none => none
  | some (body, p3) => some ((some (.EventNode eventType target body), none), p3)

def parseState (parseBlock : BlockParser) (p : Parser) : Option (NodeResult × Parser) :=
  let name := p.optionalName.1
  let p1 := p.optionalName.2
  match bracedBlock parseBlock p1 with
  | none => none
  | some (properties, p2) => some ((some (.StateNode name properties), none), p2)

def parseApi (parseBlock : BlockParser) (p : Parser) : Option (NodeResult × Parser) :=
  let name := p.optionalName.1
  let p1 := p.optionalName.2
  match bracedBlock parseBlock p1 with
  | none => none
  | some (methods, p2) => some ((some (.ApiNode name [] methods), none), p2)

def parseRouter (parseBlock : BlockParser) (p : Parser) : Option (NodeResult × Parser) :=
  match bracedBlock parseBlock p with
  | none => none
  | some (routes, p1) => some ((some (.RouterNode routes), none), p1)

def parseLayout (parseBlock : BlockParser) (p : Parser) : Option (NodeResult × Parser) :=
  let name := p.optionalName.1
  let p1 := p.optionalName.2
  match bracedBlock parseBlock p1 with
  | none => none
  | some (body, p2) => some ((some (.LayoutNode name body.head?), none), p2)

def parseAnimation (parseBlock : BlockParser) (p : Parser) : Option (NodeResult × Parser) :=
  let name := p.optionalName.1
  let p1 := p.optionalName.2
  match bracedBlock parseBlock p1 with
  | none => none
  | some (keyframes, p2) => some ((some (.AnimationNode name keyframes), none), p2)

def parseType (p : Parser) : NodeResult × Parser :=
  let name := p.optionalName.1
  let p1 := p.optionalName.2
  let p2 := if p1.check .Assign then p1.skip else p1
  let p3 := if p2.check .Semicolon then p2.skip else p2
  ((some (.TypeNode name none), none), p3)

/-- The loop of `parseParameters`; the parameters are passed, not collected. -/
def parseParametersLoop : Nat → Parser → Option (ListResult × Parser)
  | 0, _ => none
  | fuel + 1, p =>
    if !p.check .RightParen && !p.isAtEnd then
      let p1 := if p.peekIs .Identifier then p.skip else p
      let p2 := if p1.check .Comma then p1.skip else p1
      parseParametersLoop fuel p2
    else some (([], none), p)

def parseParameters (fuel : Nat) (p : Parser) : Option (ListResult × Parser) :=
  parseParametersLoop fuel p

def parseHook (parseBlock : BlockParser) (fuel : Nat) (p : Parser) :
    Option (NodeResult × Parser) :=
  let name := p.optionalName.1
  let p1 := p.optionalName.2
  let parametersResult : Option (List ASTNode × Parser) :=
    if p1.check .LeftParen then
      match parseParameters fuel p1.skip with
      | none => none
      | some ((parameters, _), p2) =>
        some (parameters, if p2.check .RightParen then p2.skip else p2)
    else some ([], p1)
  match parametersResult with
  | none => none
  | some (parameters, p3) =>
    match bracedBlock parseBlock p3 with
    | none => none
    | some (body, p4) => some ((some (.HookNode name parameters body), none), p4)

/-- The property braces of `parsePlugin` and `parseConfig`: a `LeftBrace`
and a `RightBrace` directly after it are passed. -/
def emptyBraces (p : Parser) : Parser :=
  if p.check .LeftBrace then
    let p1 := p.skip
    if p1.check .RightBrace then p1.skip else p1
  else p

def parsePlugin (p : Parser) : NodeResult × Parser :=
  let name := p.optionalName.1
  let p1 := p.optionalName.2
  ((some (.PluginNode name []), none), emptyBraces p1)

def parseConfig (p : Parser) : NodeResult × Parser :=
  ((some (.ConfigNode []), none), emptyBraces p)

/-- The `from` clause of `parseImport` and `parseExport`. -/
def parseSource (p : Parser) : GoString × Parser :=
  if p.check .From then
    let p1 := p.skip
    if p1.peekIs .String then p1.advanceValue else ([], p1)
  else ([], p)

def parseImport (fuel : Nat) (p : Parser) : Option (NodeResult × Parser) :=
  match parseNameList .From fuel p [] with
  | none => none
  | some (specifiers, p1) =>
    some ((some (.ImportNode specifiers (parseSource p1).1), none), (parseSource p1).2)

def parseExport (fuel : Nat) (p : Parser) : Option (NodeResult × Parser) :=
  let isDefault := p.peekIsDefault
  let p0 := if p.peekIsDefault then p.skip else p
  match parseNameList .From fuel p0 [] with
  | none => none
  | some (specifiers, p1) =>
    some ((some (.ExportNode specifiers (parseSource p1).1 isDefault), none), (parseSource p1).2)

/-- The loop of `parseBlock`, `parseStatement` being the statement parser
it calls. A nil statement makes the loop call `p.advance()` once more. -/
def parseBlockLoop (parseStatement : Parser → Option (NodeResult × Parser)) :
    Nat → Parser → List ASTNode → Option (ListResult × Parser)
  | 0, _, _ => none
  | fuel + 1, p, statements =>
    if !p.check .RightBrace && !p.isAtEnd then
      match parseStatement p with
      | none => none
      | some ((_, some err), p1) => some (([], some err), p1)
      | some ((some statement, none), p1) =>
        parseBlockLoop parseStatement fuel p1 (statements ++ [statement])
      | some ((none, none), p1) =>
        parseBlockLoop parseStatement fuel p1.skip statements
    else some ((statements, none), p)

/-- The method `parseStatement`; `parseBlock` is the loop above over
`parseStatement` itself, with the remaining fuel. -/
def parseStatement : Nat → Parser → Option (NodeResult × Parser)
  | 0, _ => none
  | fuel + 1, p =>
    let parseBlock : BlockParser := fun q => parseBlockLoop (parseStatement fuel) fuel q []
    if (p.match_ [.Page]).1 then parsePage parseBlock fuel (p.match_ [.Page]).2
    else if (p.match_ [.Component]).1 then parseComponent parseBlock fuel (p.match_ [.Component]).2
    else if (p.match_ [.Style]).1 then parseStyle parseBlock (p.match_ [.Style]).2
    else if (p.match_ [.Event]).1 then parseEvent parseBlock (p.match_ [.Event]).2
    else if (p.match_ [.State]).1 then parseState parseBlock (p.match_ [.State]).2
    else if (p.match_ [.Api]).1 then parseApi parseBlock (p.match_ [.Api]).2
    else if (p.match_ [.Router]).1 then parseRouter parseBlock (p.match_ [.Router]).2
    else if (p.match_ [.Layout]).1 then parseLayout parseBlock (p.match_ [.Layout]).2
    else if (p.match_ [.Animation]).1 then parseAnimation parseBlock (p.match_ [.Animation]).2
    else if (p.match_ [.Type_]).1 then some (parseType (p.match_ [.Type_]).2)
    else if (p.match_ [.Hook]).1 then parseHook parseBlock fuel (p.match_ [.Hook]).2
    else if (p.match_ [.Plugin]).1 then some (parsePlugin (p.match_ [.Plugin]).2)
    else if (p.match_ [.Config]).1 then some (parseConfig (p.match_ [.Config]).2)
    else if (p.match_ [.Import]).1 then parseImport fuel (p.match_ [.Import]).2
    else if (p.match_ [.Export]).1 then parseExport fuel (p.match_ [.Export]).2
    else some ((none, none), p.skip)

/-- The method `parseBlock`. -/
def parseBlock (fuel : Nat) (p : Parser) : Option (ListResult × Parser) :=
  parseBlockLoop (parseStatement fuel) fuel p []

/-- The loop of `Parse`, returning the result of `Parse` and the parser. -/
def parseLoop : Nat → Parser → List ASTNode → Option (NodeResult × Parser)
  | 0, _, _ => none
  | fuel + 1, p, statements =>
    if !p.isAtEnd then
      match parseStatement fuel p with
      | none => none
      | some ((_, some err), p1) => some ((none, some err), p1)
      | some ((some statement, none), p1) => parseLoop fuel p1 (statements ++ [statement])
      | some ((none, none), p1) => parseLoop fuel p1 statements
    else some ((some (.ProgramNode statements), none), p)

/-- The method `Parse` on the parser `NewParser(tokens)`: the pair it
returns, or `none` when `fuel` does not suffice. -/
def Parse (fuel : Nat) (tokens : List Token) : Option NodeResult :=
  (parseLoop fuel (NewParser tokens) []).map (fun r => r.1)

/-! ## Code generator -/

/-- The `CodeGenerator` struct; a `strings.Builder` is the text written so far. -/
structure CodeGenerator where
  htmlOutput : GoString
  cssOutput : GoString
  jsOutput : GoString
  components : GoMap
  styles : GoMap
  scripts : GoMap
  deriving DecidableEq, Repr

def NewCodeGenerator : CodeGenerator :=
  { htmlOutput := [], cssOutput := [], jsOutput := [], components := [], styles := [], scripts := [] }

/-- The call `g.htmlOutput.WriteString(s)`. -/
def CodeGenerator.html (g : CodeGenerator) (s : GoString) : CodeGenerator :=
  { g with htmlOutput := g.htmlOutput ++ s }

/-- The call `g.cssOutput.WriteString(s)`. -/
def CodeGenerator.css (g : CodeGenerator) (s : GoString) : CodeGenerator :=
  { g with cssOutput := g.cssOutput ++ s }

/-- The call `g.jsOutput.WriteString(s)`. -/
def CodeGenerator.js (g : CodeGenerator) (s : GoString) : CodeGenerator :=
  { g with jsOutput := g.jsOutput ++ s }

/-- The library function `strings.ToLower` on ASCII text: the letters `A` to
`Z` are mapped to `a` to `z`, every other byte is kept. (On text that is
not ASCII the library decodes UTF-8, which this model does not follow.) -/
def stringsToLower (s : GoString) : GoString :=
  s.map (fun c => if 'A' ≤ c ∧ c ≤ 'Z' then Char.ofNat (c.toNat + 32) else c)

/-- The library function `strings.ToUpper` on ASCII text. -/
def stringsToUpper (s : GoString) : GoString :=
  s.map (fun c => if 'a' ≤ c ∧ c ≤ 'z' then Char.ofNat (c.toNat - 32) else c)

/-- The library function `strings.Join`. -/
def stringsJoin : List GoString → GoString → GoString
  | [], _ => []
  | [a], _ => a
  | a :: b :: rest, sep => a ++ sep ++ stringsJoin (b :: rest) sep

/-- The method `capitalize`: `strings.ToUpper(s[:1]) + s[1:]`. -/
def capitalize (s : GoString) : GoString :=
  match s with
  | [] => []
  | c :: rest => stringsToUpper [c] ++ rest

/-- The head of the document written by `VisitPage` before the body. -/
def pageHead (Attributes : GoMap) (g : CodeGenerator) : CodeGenerator :=
  let g1 := g.html "<!DOCTYPE html>\n<html lang=\"en\">\n<head>\n".toList
  let g2 := g1.html "  <meta charset=\"UTF-8\">\n".toList
  let g3 := g2.html "  <meta name=\"viewport\" content=\"width=device-width, initial-scale=1.0\">\n".toList
  let g4 := match Attributes.get? "title".toList with
    | some title => g3.html ("  <title>".toList ++ title ++ "</title>\n".toList)
    | none => g3
  let g5 := g4.html "  <link rel=\"stylesheet\" href=\"css/theme.css\">\n".toList
  let g6 := g5.html "  <link rel=\"stylesheet\" href=\"css/emadocs.css\">\n".toList
  let g7 := g6.html "  <link rel=\"stylesheet\" href=\"styles.css\">\n".toList
  g7.html "</head>\n<body>\n".toList

/-- The tail of the document written by `VisitPage` after the body. -/
def pageTail (g : CodeGenerator) : CodeGenerator :=
  let g1 := g.html "  <script src=\"js/emadocs.js\"></script>\n".toList
  let g2 := g1.html "  <script src=\"script.js\"></script>\n".toList
  g2.html "</body>\n</html>".toList

def VisitComponent (Name : GoString) (_TypeParams : List GoString)
    (_Props _Events _State _Methods : List ASTNode) (_Render : Option ASTNode)
    (g : CodeGenerator) : CodeGenerator :=
  let g := g.css ("/* ".toList ++ Name ++ " Component */\n".toList)
  let g := g.css (".ema-".toList ++ stringsToLower Name ++ " \x7b\n".toList)
  let g := g.css "  display: block;\n".toList
  let g := g.css "  position: relative;\n".toList
  let g := g.css "  box-sizing: border-box;\n".toList
  let g := g.css "\x7d\n\n".toList
  let g := g.js ("class Ema".toList ++ capitalize Name ++ " extends HTMLElement \x7b\n".toList)
  let g := g.js "  constructor() \x7b\n".toList
  let g := g.js "    super();\n".toList
  let g := g.js "    this.attachShadow(\x7b mode: 'open' \x7d);\n".toList
  let g := g.js "  \x7d\n\n".toList
  let g := g.js "  connectedCallback() \x7b\n".toList
  let g := g.js "    this.render();\n".toList
  let g := g.js "    this.setupEventListeners();\n".toList
  let g := g.js "  \x7d\n\n".toList
  let g := g.js "  render() \x7b\n".toList
  let g := g.js "    this.shadowRoot.innerHTML = this.getTemplate();\n".toList
  let g := g.js "  \x7d\n\n".toList
  let g := g.js "  getTemplate() \x7b\n".toList
  let g := g.js "    return \x60\n".toList
  let g := g.js ("      <div class=\"ema-".toList ++ stringsToLower Name ++ "\">\n".toList)
  let g := g.js "        <slot></slot>\n".toList
  let g := g.js "      </div>\n".toList
  let g := g.js "    \x60;\n".toList
  let g := g.js "  \x7d\n\n".toList
  let g := g.js "  setupEventListeners() \x7b\n".toList
  let g := g.js "    // Event listeners will be added here\n".toList
  let g := g.js "  \x7d\n".toList
  let g := g.js "\x7d\n\n".toList
  g.js ("customElements.define('ema-".toList ++ stringsToLower Name ++ "', Ema".toList
    ++ capitalize Name ++ ");\n".toList)

def VisitStyle (Selector : GoString) (_Rules : List ASTNode) (g : CodeGenerator) :
    CodeGenerator :=
  let g := g.css ("/* ".toList ++ Selector ++ " Styles */\n".toList)
  let g := g.css (".".toList ++ Selector ++ " \x7b\n".toList)
  let g := g.css "  /* Styles will be generated here */\n".toList
  g.css "\x7d\n\n".toList

def VisitEvent (EventType Target : GoString) (_Body : List ASTNode) (g : CodeGenerator) :
    CodeGenerator :=
  let g := g.js ("// Event: ".toList ++ EventType ++ " on ".toList ++ Target ++ "\n".toList)
  let g := g.js ("document.addEventListener('".toList ++ EventType
    ++ "', (event) => \x7b\n".toList)
  let g := g.js "  // Event handler code\n".toList
  g.js "\x7d);\n".toList

def VisitState (Name : GoString) (_Properties : List ASTNode) (g : CodeGenerator) :
    CodeGenerator :=
  let g := g.js ("// State: ".toList ++ Name ++ "\n".toList)
  let g := g.js ("const ".toList ++ Name ++ " = \x7b\n".toList)
  let g := g.js "  // State properties will be generated here\n".toList
  g.js "\x7d;\n".toList

def VisitApi (Name : GoString) (_Properties : GoMap) (_Methods : List ASTNode)
    (g : CodeGenerator) : CodeGenerator :=
  let g := g.js ("// API: ".toList ++ Name ++ "\n".toList)
  let g := g.js ("class ".toList ++ Name ++ " \x7b\n".toList)
  let g := g.js "  constructor() \x7b\n".toList
  let g := g.js "    this.baseUrl = '';\n".toList
  let g := g.js "  \x7d\n\n".toList
  let g := g.js "  // API methods will be generated here\n".toList
  g.js "\x7d\n".toList

def VisitRouter (_Routes : List ASTNode) (g : CodeGenerator) : CodeGenerator :=
  let g := g.js "// Router\n".toList
  let g := g.js "class EmadocsRouter \x7b\n".toList
  let g := g.js "  constructor() \x7b\n".toList
  let g := g.js "    this.routes = new Map();\n".toList
  let g := g.js "    this.init();\n".toList
  let g := g.js "  \x7d\n\n".toList
  let g := g.js "  init() \x7b\n".toList
  let g := g.js "    window.addEventListener('popstate', () => this.handleRoute());\n".toList
  let g := g.js "    this.handleRoute();\n".toList
  let g := g.js "  \x7d\n\n".toList
  let g := g.js "  handleRoute() \x7b\n".toList
  let g := g.js "    const path = window.location.pathname;\n".toList
  let g := g.js "    // Route handling logic\n".toList
  let g := g.js "  \x7d\n".toList
  g.js "\x7d\n".toList

def VisitRoute (_Path _Component : GoString) (_Options : GoMap) (g : CodeGenerator) :
    CodeGenerator := g

def VisitLayout (Name : GoString) (_Render : Option ASTNode) (g : CodeGenerator) :
    CodeGenerator :=
  let g := g.js ("// Layout: ".toList ++ Name ++ "\n".toList)
  g.js "// Layout implementation will be generated here\n".toList

def VisitAnimation (Name : GoString) (_Keyframes : List ASTNode) (g : CodeGenerator) :
    CodeGenerator :=
  let g := g.css ("@keyframes ".toList ++ Name ++ " \x7b\n".toList)
  let g := g.css "  /* Keyframes will be generated here */\n".toList
  g.css "\x7d\n\n".toList

def VisitType (Name : GoString) (_Definition : Option ASTNode) (g : CodeGenerator) :
    CodeGenerator :=
  let g := g.js ("// Type: ".toList ++ Name ++ "\n".toList)
  g.js "// Type definition will be generated here\n".toList

def VisitHook (Name : GoString) (_Parameters _Body : List ASTNode) (g : CodeGenerator) :
    CodeGenerator :=
  let g := g.js ("function use".toList ++ capitalize Name ++ "() \x7b\n".toList)
  let g := g.js "  // Hook implementation\n".toList
  g.js "\x7d\n".toList

def VisitPlugin (Name : GoString) (_Properties : GoMap) (g : CodeGenerator) : CodeGenerator :=
  let g := g.js ("class ".toList ++ Name ++ " \x7b\n".toList)
  let g := g.js "  constructor() \x7b\n".toList
  let g := g.js "    // Plugin initialization\n".toList
  let g := g.js "  \x7d\n".toList
  g.js "\x7d\n".toList

def VisitConfig (_Properties : GoMap) (g : CodeGenerator) : CodeGenerator :=
  let g := g.js "const config = \x7b\n".toList
  let g := g.js "  // Configuration will be generated here\n".toList
  g.js "\x7d;\n".toList

/-- The specifier list and `from` clause written by `VisitImport` and
`VisitExport`, up to the closing `;` and newline. -/
def writeSpecifiers (Specifiers : List GoString) (Source : GoString) (g : CodeGenerator) :
    CodeGenerator :=
  let g1 := match Specifiers with
    | [single] => g.js single
    | _ => ((g.js "\x7b ".toList).js (stringsJoin Specifiers ", ".toList)).js " \x7d".toList
  let g2 := if Source != [] then g1.js (" from '".toList ++ Source ++ "'".toList) else g1
  g2.js ";\n".toList

def VisitImport (Specifiers : List GoString) (Source : GoString) (g : CodeGenerator) :
    CodeGenerator :=
  writeSpecifiers Specifiers Source (g.js "import ".toList)

def VisitExport (Specifiers : List GoString) (Source : GoString) (IsDefault : Bool)
    (g : CodeGenerator) : CodeGenerator :=
  let g1 := g.js "export ".toList
  let g2 := if IsDefault then g1.js "default ".toList else g1
  writeSpecifiers Specifiers Source g2

def VisitElement (_TagName : GoString) (_Attributes : GoMap) (_Children : List ASTNode)
    (_SelfClosing : Bool) (g : CodeGenerator) : CodeGenerator := g

def VisitText (_Value : GoString) (g : CodeGenerator) : CodeGenerator := g

def VisitExpression (_Expression : GoString) (g : CodeGenerator) : CodeGenerator := g

mutual
/-- The method `Accept` of every node type: the call of the visitor method
of the node. `VisitProgram` and `VisitPage`, which visit child nodes, are
written out here. -/
def Accept : ASTNode → CodeGenerator → CodeGenerator
  | .ProgramNode Statements, g => acceptEach Statements g
  | .PageNode _ Attributes Body, g => pageTail (acceptEach Body (pageHead Attributes g))
  | .ComponentNode Name TypeParams Props Events State Methods Render, g =>
    VisitComponent Name TypeParams Props Events State Methods Render g
  | .StyleNode Selector Rules, g => VisitStyle Selector Rules g
  | .EventNode EventType Target Body, g => VisitEvent EventType Target Body g
  | .StateNode Name Properties, g => VisitState Name Properties g
  | .ApiNode Name Properties Methods, g => VisitApi Name Properties Methods g
  | .RouterNode Routes, g => VisitRouter Routes g
  | .RouteNode Path Component Options, g => VisitRoute Path Component Options g
  | .LayoutNode Name Render, g => VisitLayout Name Render g
  | .AnimationNode Name Keyframes, g => VisitAnimation Name Keyframes g
  | .TypeNode Name Definition, g => VisitType Name Definition g
  | .HookNode Name Parameters Body, g => VisitHook Name Parameters Body g
  | .PluginNode Name Properties, g => VisitPlugin Name Properties g
  | .ConfigNode Properties, g => VisitConfig Properties g
  | .ImportNode Specifiers Source, g => VisitImport Specifiers Source g
  | .ExportNode Specifiers Source IsDefault, g => VisitExport Specifiers Source IsDefault g
  | .ElementNode TagName Attributes Children SelfClosing, g =>
    VisitElement TagName Attributes Children SelfClosing g
  | .TextNode Value, g => VisitText Value g
  | .ExpressionNode Expression, g => VisitExpression Expression g
/-- The loop `for _, child := range nodes { child.Accept(g) }`. -/
def acceptEach : List ASTNode → CodeGenerator → CodeGenerator
  | [], g => g
  | node :: nodes, g => acceptEach nodes (Accept node g)
end

/-- The method `VisitProgram`. -/
def VisitProgram (Statements : List ASTNode) (g : CodeGenerator) : CodeGenerator :=
  acceptEach Statements g

/-- The method `VisitPage`. -/
def VisitPage (_Name : GoString) (Attributes : GoMap) (Body : List ASTNode)
    (g : CodeGenerator) : CodeGenerator :=
  pageTail (acceptEach Body (pageHead Attributes g))

/-- The method `Generate`: the error it returns and the generator afterwards. -/
def Generate (g : CodeGenerator) (ast : ASTNode) : Option GoError × CodeGenerator :=
  (none, Accept ast g)

def CodeGenerator.GetHTML (g : CodeGenerator) : GoString := g.htmlOutput

def CodeGenerator.GetCSS (g : CodeGenerator) : GoString := g.cssOutput

def CodeGenerator.GetJS (g : CodeGenerator) : GoString := g.jsOutput

/-! ## Compiler -/

/-- The four values returned by `compileInternal`. -/
structure Outputs where
  html : GoString
  css : GoString
  js : GoString
  err : Option GoError
  deriving DecidableEq, Repr

/-- The method `compileInternal` on the source text `input`. The result is
`none` when `fuel` does not suffice for the parser, `some (.error .panic)`
when the run panics, and otherwise the values returned. -/
def compileInternal (fuel : Nat) (input : GoString) : Option (Except Failure Outputs) :=
  match Tokenize input with
  | .error e => some (.error e)
  | .ok (_, some err) => some (.ok { html := [], css := [], js := [], err := some err })
  | .ok (tokens, none) =>
    match Parse fuel tokens with
    | none => none
    | some (_, some err) => some (.ok { html := [], css := [], js := [], err := some err })
    | some (none, none) => some (.error .panic)
    | some (some ast, none) =>
      match Generate NewCodeGenerator ast with
      | (some err, _) => some (.ok { html := [], css := [], js := [], err := some err })
      | (none, generator) =>
        some (.ok { html := generator.GetHTML, css := generator.GetCSS, js := generator.GetJS,
                    err := none })

/-- The `CompileResult` struct without its wall-clock field `CompileTime`. -/
structure CompileResult where
  Success : Bool
  HTML : GoString
  CSS : GoString
  JS : GoString
  Errors : List GoError
  Warnings : List GoError
  deriving DecidableEq, Repr

/-- The method `Compile` on the source text `input`. -/
def Compile (fuel : Nat) (input : GoString) : Option (Except Failure CompileResult) :=
  match compileInternal fuel input with
  | none => none
  | some (.error e) => some (.error e)
  | some (.ok out) =>
    match out.err with
    | some err =>
      some (.ok { Success := false, HTML := [], CSS := [], JS := [], Errors := [err], Warnings := [] })
    | none =>
      some (.ok { Success := true, HTML := out.html, CSS := out.css, JS := out.js,
                  Errors := [], Warnings := [] })

/-! ## Vocabulary of the specification -/

deriving instance DecidableEq for Except

/-- `Parse` returns `r` on `tokens`: some amount of fuel suffices. -/
def ParsesTo (tokens : List Token) (r : NodeResult) : Prop :=
  ∃ fuel, Parse fuel tokens = some r

/-- The kinds of token the tokenizer retains for layout only. -/
def isTrivia (t : Token) : Bool :=
  t.Type_ == .Whitespace || t.Type_ == .Newline || t.Type_ == .Comment

/-- A token sequence with all Whitespace, Newline and Comment tokens removed. -/
def stripTrivia (tokens : List Token) : List Token :=
  tokens.filter (fun t => !isTrivia t)

/-- The fifteen token kinds on which `parseStatement` dispatches. -/
def isDispatchKeyword (t : TokenType) : Bool :=
  t == .Page || t == .Component || t == .Style || t == .Event || t == .State || t == .Api
    || t == .Router || t == .Layout || t == .Animation || t == .Type_ || t == .Hook
    || t == .Plugin || t == .Config || t == .Import || t == .Export

/-- The concatenation of the `Value` fields of a token sequence. -/
def tokenText (tokens : List Token) : GoString :=
  (tokens.map (fun t => t.Value)).flatten

/-- The parser `p` over a token sequence extended at the front by `pre`. -/
@[irreducible] def Parser.shift (pre : List Token) (p : Parser) : Parser :=
  { tokens := pre ++ p.tokens, current := pre.length + p.current }

/-- A result whose parser is shifted. -/
def shiftResult {α : Type} (pre : List Token) (r : Option (α × Parser)) : Option (α × Parser) :=
  r.map (fun x => (x.1, x.2.shift pre))

/-- A parser function commutes with extending the token sequence at the front. -/
def ShiftInvariant {α : Type} (f : Parser → Option (α × Parser)) : Prop :=
  ∀ (pre : List Token) (p : Parser), f (p.shift pre) = shiftResult pre (f p)

/-- The lexer `l1` reads the same input as `l` from a position that is not
before that of `l` and not past the end of the input. -/
def Lexer.Reaches (l l1 : Lexer) : Prop :=
  l1.input = l.input ∧ l.position ≤ l1.position ∧
    (l.position ≤ l.input.length → l1.position ≤ l.input.length)

/-- What the readers that slice from their start position return: a token
holding exactly the bytes passed, no error, and a lexer further on. -/
def ReadsSegment (l : Lexer) (r : Except Failure ((Token × Option GoError) × Lexer)) : Prop :=
  ∃ tok l1, r = .ok ((tok, none), l1) ∧ l1.input = l.input ∧ l.position < l1.position ∧
    l1.position ≤ l.input.length ∧ tok.Value ++ l.input.drop l1.position = l.input.drop l.position

/-- The bytes for which the `switch` of `Tokenize` has a case. -/
def isOperatorByte (c : Char) : Bool :=
  c ∈ "=!<>+-*/%&|()\x7b\x7d[];,.:?".toList

/-- The text of the token appended by an iteration, empty when none is. -/
def appendedText (t : Option Token) : GoString :=
  match t with
  | some token => token.Value
  | none => []

/-- An iteration of the tokenizer loop that returns no error and moves the
lexer forward inside the input. -/
def Advances (l : Lexer) (r : (Option Token × Option GoError) × Lexer) : Prop :=
  r.1.2 = none ∧ r.2.input = l.input ∧ l.position < r.2.position ∧
    r.2.position ≤ l.input.length

/-- An iteration whose token holds exactly the bytes passed. -/
def KeepsText (l : Lexer) (r : (Option Token × Option GoError) × Lexer) : Prop :=
  appendedText r.1.1 ++ l.input.drop r.2.position = l.input.drop l.position

/-- The three bytes that open a string or template literal. -/
def isQuoteByte (c : Char) : Bool :=
  c == '"' || c == '\'' || c == '\x60'

/-- The bytes the tokenizer recognizes: whitespace, ASCII letters, digits,
the underscore, the quotes and the operator and punctuation bytes. -/
def isRecognizedByte (c : Char) : Bool :=
  isWhitespace c || isAlpha c || isDigit c || c == '_' || isQuoteByte c || isOperatorByte c

/-- The `EOF` token appended when the loop of `Tokenize` ends. -/
def eofToken (l : Lexer) : Token :=
  { Type_ := .EOF, Value := [], Line := l.line, Column := l.column }

/-- The loop of `Tokenize` from the lexer `l`, with the fuel that its
remaining input calls for. -/
def lexFrom (l : Lexer) (tokens : List Token) : Except Failure (List Token × Option GoError) :=
  tokenizeLoop (l.input.length - l.position) l tokens

/-- The bytes of an identifier after its first byte. -/
def isIdentByte (c : Char) : Bool := isAlphaNumeric c || c == '_'

/-- The first byte of an identifier. -/
def isIdentStart (c : Char) : Bool := isAlpha c || c == '_'

/-- The kind `readIdentifier` gives to the text `value`. -/
def identifierType (value : GoString) : TokenType :=
  match keywords value with
  | some t => t
  | none => TokenType.Identifier

/-- The Whitespace tokens of a run of `k` spaces that starts at `column`. -/
def spaceTokens (line : Nat) : Nat → Nat → List Token
  | _, 0 => []
  | column, k + 1 =>
    { Type_ := .Whitespace, Value := [' '], Line := line, Column := column }
      :: spaceTokens line (column + 1) k

/-- The source text `page X \x7b`, `k` spaces, `\x7d`. -/
def pageSource (X : GoString) (k : Nat) : GoString :=
  "page ".toList ++ (X ++ (" \x7b".toList ++ (List.replicate k ' ' ++ "\x7d".toList)))

/-- The tokens of `pageSource X k` for an identifier `X`. -/
def pageTokens (X : GoString) (k : Nat) : List Token :=
  [⟨.Page, "page".toList, 1, 5⟩, ⟨.Whitespace, " ".toList, 1, 5⟩,
   ⟨.Identifier, X, 1, 6 + X.length⟩, ⟨.Whitespace, " ".toList, 1, 6 + X.length⟩,
   ⟨.LeftBrace, "\x7b".toList, 1, 7 + X.length⟩]
    ++ (spaceTokens 1 (8 + X.length) k
    ++ [⟨.RightBrace, "\x7d".toList, 1, 8 + X.length + k⟩, ⟨.EOF, [], 1, 9 + X.length + k⟩])

/-- A non-keyword identifier: a letter or underscore, then letters, digits
and underscores, the whole not in the keyword table. -/
def isPlainIdentifier (X : GoString) : Prop :=
  ∃ c w, X = c :: w ∧ isIdentStart c = true ∧ (∀ d ∈ w, isIdentByte d = true)
    ∧ keywords X = none

/-- The source text `page Home title="T" \x7b \x7d`. -/
def titleSource (T : GoString) : GoString :=
  "page Home title=\"".toList ++ (T ++ "\" \x7b \x7d".toList)

/-- The tokens of `titleSource T` when `T` has no double quote and no backslash. -/
def titleTokens (T : GoString) : List Token :=
  [⟨.Page, "page".toList, 1, 5⟩, ⟨.Whitespace, " ".toList, 1, 5⟩,
   ⟨.Identifier, "Home".toList, 1, 10⟩, ⟨.Whitespace, " ".toList, 1, 10⟩,
   ⟨.Identifier, "title".toList, 1, 16⟩, ⟨.Assign, "=".toList, 1, 16⟩,
   ⟨.String, T, 1, 19 + T.length⟩, ⟨.Whitespace, " ".toList, 1, 19 + T.length⟩,
   ⟨.LeftBrace, "\x7b".toList, 1, 20 + T.length⟩, ⟨.Whitespace, " ".toList, 1, 21 + T.length⟩,
   ⟨.RightBrace, "\x7d".toList, 1, 22 + T.length⟩, ⟨.EOF, [], 1, 23 + T.length⟩]

/-- The markup of a page whose only attribute is the title `T` and whose
body is empty. -/
def titleMarkup (T : GoString) : GoString :=
  "<!DOCTYPE html>\n<html lang=\"en\">\n<head>\n".toList
    ++ "  <meta charset=\"UTF-8\">\n".toList
    ++ "  <meta name=\"viewport\" content=\"width=device-width, initial-scale=1.0\">\n".toList
    ++ "  <title>".toList ++ T ++ "</title>\n".toList
    ++ "  <link rel=\"stylesheet\" href=\"css/theme.css\">\n".toList
    ++ "  <link rel=\"stylesheet\" href=\"css/emadocs.css\">\n".toList
    ++ "  <link rel=\"stylesheet\" href=\"styles.css\">\n".toList
    ++ "</head>\n<body>\n".toList
    ++ "  <script src=\"js/emadocs.js\"></script>\n".toList
    ++ "  <script src=\"script.js\"></script>\n".toList
    ++ "</body>\n</html>".toList

/-- Whatever `f` returns, `g` returns too. -/
def ReturnsMore {α : Type} (f g : Parser → Option α) : Prop :=
  ∀ p r, f p = some r → g p = some r

mutual
/-- The node is a Page node or has one among its child nodes at any depth. -/
def containsPage : ASTNode → Bool
  | .ProgramNode Statements => containsPageList Statements
  | .PageNode _ _ _ => true
  | .ComponentNode _ _ Props Events State Methods Render =>
    containsPageList Props || containsPageList Events || containsPageList State
      || containsPageList Methods || containsPageOption Render
  | .StyleNode _ Rules => containsPageList Rules
  | .EventNode _ _ Body => containsPageList Body
  | .StateNode _ Properties => containsPageList Properties
  | .ApiNode _ _ Methods => containsPageList Methods
  | .RouterNode Routes => containsPageList Routes
  | .RouteNode _ _ _ => false
  | .LayoutNode _ Render => containsPageOption Render
  | .AnimationNode _ Keyframes => containsPageList Keyframes
  | .TypeNode _ Definition => containsPageOption Definition
  | .HookNode _ Parameters Body => containsPageList Parameters || containsPageList Body
  | .PluginNode _ _ => false
  | .ConfigNode _ => false
  | .ImportNode _ _ => false
  | .ExportNode _ _ _ => false
  | .ElementNode _ _ Children _ => containsPageList Children
  | .TextNode _ => false
  | .ExpressionNode _ => false
/-- Some node of the list contains a Page node. -/
def containsPageList : List ASTNode → Bool
  | [] => false
  | node :: nodes => containsPage node || containsPageList nodes
/-- The node, when there is one, contains a Page node. -/
def containsPageOption : Option ASTNode → Bool
  | none => false
  | some node => containsPage node
end

/-- The markup of a page as the specification lists it: the doctype and head
skeleton, the title line when the attribute map has the key `title`, the
three stylesheet links, the end of the head and the start of the body, the
two script tags, and the closing tags. -/
def pageMarkup (title : Option GoString) : GoString :=
  "<!DOCTYPE html>\n<html lang=\"en\">\n<head>\n".toList
    ++ "  <meta charset=\"UTF-8\">\n".toList
    ++ "  <meta name=\"viewport\" content=\"width=device-width, initial-scale=1.0\">\n".toList
    ++ (match title with
        | some T => "  <title>".toList ++ T ++ "</title>\n".toList
        | none => [])
    ++ "  <link rel=\"stylesheet\" href=\"css/theme.css\">\n".toList
    ++ "  <link rel=\"stylesheet\" href=\"css/emadocs.css\">\n".toList
    ++ "  <link rel=\"stylesheet\" href=\"styles.css\">\n".toList
    ++ "</head>\n<body>\n".toList
    ++ "  <script src=\"js/emadocs.js\"></script>\n".toList
    ++ "  <script src=\"script.js\"></script>\n".toList
    ++ "</body>\n</html>".toList

/-- The specifier list of an import or export statement as the specification
words it: the single specifier itself, and otherwise the specifiers joined
by `, ` between `\x7b ` and ` \x7d`. -/
def specifierText (S : List GoString) : GoString :=
  match S with
  | [single] => single
  | _ => "\x7b ".toList ++ List.intercalate ", ".toList S ++ " \x7d".toList

/-- The `from` clause of an import or export statement: empty for the empty
source. -/
def fromClause (src : GoString) : GoString :=
  if src = [] then [] else " from '".toList ++ src ++ "'".toList

/-- The line of an import statement. -/
def importText (S : List GoString) (src : GoString) : GoString :=
  "import ".toList ++ specifierText S ++ fromClause src ++ ";\n".toList

/-- The line of an export statement. -/
def exportText (S : List GoString) (src : GoString) (isDefault : Bool) : GoString :=
  "export ".toList ++ (if isDefault then "default ".toList else []) ++ specifierText S
    ++ fromClause src ++ ";\n".toList

/-- The generator `g` after the texts of `d` have been appended to its three
buffers. -/
def CodeGenerator.append (g d : CodeGenerator) : CodeGenerator :=
  { g with htmlOutput := g.htmlOutput ++ d.htmlOutput, cssOutput := g.cssOutput ++ d.cssOutput,
           jsOutput := g.jsOutput ++ d.jsOutput }

/-- A parser function that returns the nil error whenever it returns. -/
def ReturnsNoError (f : Parser → Option (NodeResult × Parser)) : Prop :=
  ∀ p r, f p = some r → r.1.2 = none

/-- The token sequence `Identifier n1, Comma, ..., Comma, Identifier nk` of
the names `n1..nk`, at any lines and columns. -/
def isSpecifierList : List GoString → List Token → Bool
  | [], [] => true
  | [n], [t] => t.Type_ == .Identifier && t.Value == n
  | n :: n1 :: names, t :: c :: toks =>
    t.Type_ == .Identifier && t.Value == n && c.Type_ == .Comma
      && isSpecifierList (n1 :: names) toks
  | _, _ => false

/-- The text contains the two bytes `*/` side by side. -/
def hasCommentEnd : GoString → Bool
  | [] => false
  | [_] => false
  | c :: d :: rest => (c == '*' && d == '/') || hasCommentEnd (d :: rest)

/-- The line and column after the bytes `w`, counted the way the loop of
`readBlockComment` counts them: a newline starts a line at column 1, every
other byte moves the column by one. -/
def commentPosition : GoString → Nat → Nat → Nat × Nat
  | [], line, column => (line, column)
  | c :: w, line, column =>
    if c == '\n' then commentPosition w (line + 1) 1 else commentPosition w line (column + 1)

/-- The content of a literal closed by the quote `q`: a sequence of bytes
other than `q` and the backslash, and of two-byte pairs of a backslash and
any byte. -/
def isEscapedContent (q : Char) : GoString → Bool
  | [] => true
  | [c] => c != '\\' && c != q
  | c :: d :: rest =>
    if c == '\\' then isEscapedContent q rest
    else c != q && isEscapedContent q (d :: rest)

/-- The text `s` is, byte for byte, the key of an entry of the keyword table
whose kind is `t`. -/
def isKeywordEntry (s : GoString) (t : TokenType) : Prop :=
  ∃ kv ∈ keywordTable, kv.1.toList = s ∧ kv.2 = t

/-- The two-byte operators of the specification with their kinds. -/
def operatorPairs : List (Char × Char × TokenType) :=
  [('=', '=', .Equal), ('=', '>', .Arrow), ('!', '=', .NotEqual), ('<', '=', .LessEqual),
   ('>', '=', .GreaterEqual), ('&', '&', .And), ('|', '|', .Or), ('<', '/', .ClosingTagStart)]

/-- The kinds of the first bytes of the two-byte operators when they stand
alone. -/
def operatorSingles : List (Char × TokenType) :=
  [('=', .Assign), ('!', .Not), ('<', .OpeningTagStart), ('>', .TagEnd), ('&', .And),
   ('|', .Pipe)]

/-- The byte `b` completes a two-byte operator that starts with `a`. -/
def completesPair (a b : Char) : Bool :=
  operatorPairs.any (fun p => p.1 == a && p.2.1 == b)

/-- The token appended by an iteration, if any, is not of kind `EOF`. -/
def AppendsNoEOF (r : (Option Token × Option GoError) × Lexer) : Prop :=
  ∀ tok, r.1.1 = some tok → tok.Type_ ≠ .EOF

/-- The line of the end of the source as the specification counts it: 1
plus the number of newline bytes. -/
def sourceLine (input : GoString) : Nat :=
  1 + input.count '\n'

/-- The column of the end of the source as the specification counts it: 1
plus the number of bytes after the last newline (after the start when there
is no newline). -/
def sourceColumn (input : GoString) : Nat :=
  1 + (input.reverse.takeWhile (fun c => c != '\n')).length

mutual
/-- The tree has the shape the specification ascribes to parser output: no
Element, Text, Expression or Route node at any depth, every Component node
with empty Props, Events, State and Methods and a nil Render, every Type
node with a nil Definition. -/
def isParserShaped : ASTNode → Bool
  | .ProgramNode Statements => isParserShapedList Statements
  | .PageNode _ _ Body => isParserShapedList Body
  | .ComponentNode _ _ Props Events State Methods Render =>
    Props.isEmpty && Events.isEmpty && State.isEmpty && Methods.isEmpty && Render.isNone
  | .StyleNode _ Rules => isParserShapedList Rules
  | .EventNode _ _ Body => isParserShapedList Body
  | .StateNode _ Properties => isParserShapedList Properties
  | .ApiNode _ _ Methods => isParserShapedList Methods
  | .RouterNode Routes => isParserShapedList Routes
  | .RouteNode _ _ _ => false
  | .LayoutNode _ Render => isParserShapedOption Render
  | .AnimationNode _ Keyframes => isParserShapedList Keyframes
  | .TypeNode _ Definition => Definition.isNone
  | .HookNode _ Parameters Body => isParserShapedList Parameters && isParserShapedList Body
  | .PluginNode _ _ => true
  | .ConfigNode _ => true
  | .ImportNode _ _ => true
  | .ExportNode _ _ _ => true
  | .ElementNode _ _ _ _ => false
  | .TextNode _ => false
  | .ExpressionNode _ => false
/-- Every node of the list has the shape of parser output. -/
def isParserShapedList : List ASTNode → Bool
  | [] => true
  | node :: nodes => isParserShaped node && isParserShapedList nodes
/-- The node, when there is one, has the shape of parser output. -/
def isParserShapedOption : Option ASTNode → Bool
  | none => true
  | some node => isParserShaped node
end

/-- Every node a statement parser returns has the shape of parser output. -/
def ReturnsShaped (f : Parser → Option (NodeResult × Parser)) : Prop :=
  ∀ p r, f p = some r → isParserShapedOption r.1.1 = true

/-- Every node list a block parser returns has the shape of parser output. -/
def ReturnsShapedList (b : BlockParser) : Prop :=
  ∀ p r, b p = some r → isParserShapedList r.1.1 = true

/-- The first token of the sequence has the kind `k`. -/
def headIs (ts : List Token) (k : TokenType) : Bool :=
  match ts with
  | t :: _ => t.Type_ == k
  | [] => false

/-- The pairs `(k, v)` of the triples `Identifier k, Assign, String v` at
the attribute positions of a page header, in order. The first position is
the start of the sequence; after a triple the next position is behind it,
after an `Identifier, Assign` without String behind the two, and after any
other token behind that token. -/
def attributeTriples : List Token → List (GoString × GoString)
  | [] => []
  | [_] => []
  | [_, _] => []
  | t :: a :: s :: rest =>
    if t.Type_ == .Identifier && a.Type_ == .Assign then
      if s.Type_ == .String then (t.Value, s.Value) :: attributeTriples rest
      else attributeTriples (s :: rest)
    else attributeTriples (a :: s :: rest)
termination_by structural ts => ts

/-- The name a page header gives: the text of the first token when that is
an identifier, and otherwise empty. -/
def pageName (ts : List Token) : GoString :=
  match ts with
  | t :: _ => if t.Type_ == .Identifier then t.Value else []
  | [] => []

/-- The tokens of a page header behind the name. -/
def afterPageName (ts : List Token) : List Token :=
  match ts with
  | t :: rest => if t.Type_ == .Identifier then rest else t :: rest
  | [] => []

/-- The value of the last pair with key `k`. -/
def lastValue (k : GoString) (pairs : List (GoString × GoString)) : Option GoString :=
  (pairs.reverse.find? (fun kv => kv.1 == k)).map (fun kv => kv.2)

/-- The map built by writing the pairs in order. -/
def writeAll (pairs : List (GoString × GoString)) (m : GoMap) : GoMap :=
  pairs.foldl (fun m kv => m.set kv.1 kv.2) m

/-- The kinds that open a loop of the parser which need not advance: the
specifier loops of `import` and `export`, the parameter loop behind `(` and
the type parameter loop behind a `Less` token. -/
def isLoopOpener (k : TokenType) : Bool :=
  k == .Import || k == .Export || k == .LeftParen || k == .Less

/-- A parser function that, from every cursor with fewer than `n` tokens
left, returns with the same tokens and a cursor not before the one it was
given. -/
def Advancing {α : Type} (toks : List Token) (n : Nat) (f : Parser → Option (α × Parser)) :
    Prop :=
  ∀ p, p.tokens = toks → toks.length - p.current < n →
    ∃ r q, f p = some (r, q) ∧ q.tokens = toks ∧ p.current ≤ q.current

/-- A statement parser that in addition moves the cursor whenever it is not
at the end. -/
def AdvancingStrictly (toks : List Token) (n : Nat)
    (s : Parser → Option (NodeResult × Parser)) : Prop :=
  ∀ p, p.tokens = toks → toks.length - p.current < n →
    ∃ r q, s p = some (r, q) ∧ q.tokens = toks ∧ p.current ≤ q.current
      ∧ (p.isAtEnd = false → p.current < q.current)

/-- The position at the end of the input that counting from the lexer's
position, line and column leads to. -/
def restPosition (l : Lexer) : Nat × Nat :=
  commentPosition (l.input.drop l.position) l.line l.column

/-- The three kinds of the claim: `Less`, `Greater` and `SelfClosingTagEnd`. -/
def isUnproducedKind (k : TokenType) : Bool :=
  k == .Less || k == .Greater || k == .SelfClosingTagEnd

/-- The token appended by an iteration, if any, has none of the three kinds. -/
def AppendsProduced (r : (Option Token × Option GoError) × Lexer) : Prop :=
  ∀ tok, r.1.1 = some tok → isUnproducedKind tok.Type_ = false

mutual
/-- No Component node of the tree, at any depth, has a type parameter. -/
def hasNoTypeParams : ASTNode → Bool
  | .ProgramNode Statements => hasNoTypeParamsList Statements
  | .PageNode _ _ Body => hasNoTypeParamsList Body
  | .ComponentNode _ TypeParams Props Events State Methods Render =>
    TypeParams.isEmpty && hasNoTypeParamsList Props && hasNoTypeParamsList Events
      && hasNoTypeParamsList State && hasNoTypeParamsList Methods
      && hasNoTypeParamsOption Render
  | .StyleNode _ Rules => hasNoTypeParamsList Rules
  | .EventNode _ _ Body => hasNoTypeParamsList Body
  | .StateNode _ Properties => hasNoTypeParamsList Properties
  | .ApiNode _ _ Methods => hasNoTypeParamsList Methods
  | .RouterNode Routes => hasNoTypeParamsList Routes
  | .RouteNode _ _ _ => true
  | .LayoutNode _ Render => hasNoTypeParamsOption Render
  | .AnimationNode _ Keyframes => hasNoTypeParamsList Keyframes
  | .TypeNode _ Definition => hasNoTypeParamsOption Definition
  | .HookNode _ Parameters Body => hasNoTypeParamsList Parameters && hasNoTypeParamsList Body
  | .PluginNode _ _ => true
  | .ConfigNode _ => true
  | .ImportNode _ _ => true
  | .ExportNode _ _ _ => true
  | .ElementNode _ _ Children _ => hasNoTypeParamsList Children
  | .TextNode _ => true
  | .ExpressionNode _ => true
/-- No Component node of the trees of the list has a type parameter. -/
def hasNoTypeParamsList : List ASTNode → Bool
  | [] => true
  | node :: nodes => hasNoTypeParams node && hasNoTypeParamsList nodes
/-- No Component node of the tree, when there is one, has a type parameter. -/
def hasNoTypeParamsOption : Option ASTNode → Bool
  | none => true
  | some node => hasNoTypeParams node
end

/-- A statement parser that, over the tokens `toks`, keeps the tokens and
returns no Component node with a type parameter. -/
def ReturnsTypeless (toks : List Token) (f : Parser → Option (NodeResult × Parser)) : Prop :=
  ∀ p r, p.tokens = toks → f p = some r →
    r.2.tokens = toks ∧ hasNoTypeParamsOption r.1.1 = true

/-- A block parser that, over the tokens `toks`, keeps the tokens and
returns no Component node with a type parameter. -/
def ReturnsTypelessList (toks : List Token) (b : BlockParser) : Prop :=
  ∀ p r, p.tokens = toks → b p = some r →
    r.2.tokens = toks ∧ hasNoTypeParamsList r.1.1 = true

/-- The tokens of the source text `component<T>\x7b\x7d`. -/
def typedComponentTokens : List Token :=
  [⟨.Component, "component".toList, 1, 10⟩, ⟨.OpeningTagStart, "<".toList, 1, 10⟩,
   ⟨.Identifier, "T".toList, 1, 12⟩, ⟨.TagEnd, ">".toList, 1, 12⟩,
   ⟨.LeftBrace, "\x7b".toList, 1, 13⟩, ⟨.RightBrace, "\x7d".toList, 1, 14⟩,
   ⟨.EOF, [], 1, 15⟩]

/-- The part of the page skeleton in front of the body: doctype, head with
the title line when there is a title, the three stylesheet links, the end of
the head and the start of the body. -/
def pageOpening (title : Option GoString) : GoString :=
  "<!DOCTYPE html>\n<html lang=\"en\">\n<head>\n".toList
    ++ "  <meta charset=\"UTF-8\">\n".toList
    ++ "  <meta name=\"viewport\" content=\"width=device-width, initial-scale=1.0\">\n".toList
    ++ (match title with
        | some T => "  <title>".toList ++ T ++ "</title>\n".toList
        | none => [])
    ++ "  <link rel=\"stylesheet\" href=\"css/theme.css\">\n".toList
    ++ "  <link rel=\"stylesheet\" href=\"css/emadocs.css\">\n".toList
    ++ "  <link rel=\"stylesheet\" href=\"styles.css\">\n".toList
    ++ "</head>\n<body>\n".toList

/-- The part of the page skeleton behind the body: the two script tags and
the closing tags. -/
def pageClosing : GoString :=
  "  <script src=\"js/emadocs.js\"></script>\n".toList
    ++ "  <script src=\"script.js\"></script>\n".toList
    ++ "</body>\n</html>".toList

/-- The node is a Page node. -/
def isPageNode : ASTNode → Bool
  | .PageNode _ _ _ => true
  | _ => false

/-- The node is a Program node. -/
def isProgramNode : ASTNode → Bool
  | .ProgramNode _ => true
  | _ => false

/-- What the emitter meets at a visited Page node: its start, with the entry
of the key `title` of its attribute map, and its end. -/
inductive PageEvent where
  | opened (title : Option GoString)
  | closed
  deriving DecidableEq, Repr

mutual
/-- The starts and ends of the Page nodes the emitter visits from `node`, in
visiting order: Program visits its statements, Page its body, and no other
node visits a child. -/
def pageEvents : ASTNode → List PageEvent
  | .ProgramNode Statements => pageEventsList Statements
  | .PageNode _ Attributes Body =>
    [.opened (Attributes.get? "title".toList)] ++ pageEventsList Body ++ [.closed]
  | .ComponentNode _ _ _ _ _ _ _ => []
  | .StyleNode _ _ => []
  | .EventNode _ _ _ => []
  | .StateNode _ _ => []
  | .ApiNode _ _ _ => []
  | .RouterNode _ => []
  | .RouteNode _ _ _ => []
  | .LayoutNode _ _ => []
  | .AnimationNode _ _ => []
  | .TypeNode _ _ => []
  | .HookNode _ _ _ => []
  | .PluginNode _ _ => []
  | .ConfigNode _ => []
  | .ImportNode _ _ => []
  | .ExportNode _ _ _ => []
  | .ElementNode _ _ _ _ => []
  | .TextNode _ => []
  | .ExpressionNode _ => []
/-- The events of the nodes of a list, one node after the other. -/
def pageEventsList : List ASTNode → List PageEvent
  | [] => []
  | node :: nodes => pageEvents node ++ pageEventsList nodes
end

/-- The text of one event: the front part of the skeleton with the title at
a start, the back part at an end. -/
def eventText : PageEvent → GoString
  | .opened title => pageOpening title
  | .closed => pageClosing

/-- The texts of a sequence of events side by side. -/
def eventsText : List PageEvent → GoString
  | [] => []
  | e :: es => eventText e ++ eventsText es

/-- The events of pages that stand side by side, none inside another. -/
def sideBySide : List (Option GoString) → List PageEvent
  | [] => []
  | title :: titles => .opened title :: .closed :: sideBySide titles

/-- The whole page skeletons for the titles, side by side. -/
def skeletons : List (Option GoString) → GoString
  | [] => []
  | title :: titles => pageMarkup title ++ skeletons titles

/-- The kinds of the two literal tokens whose delimiters are in no token. -/
def isLiteralKind (k : TokenType) : Bool :=
  k == .String || k == .TemplateLiteral

/-- The quote byte `q` opens a literal whose token has the kind `k`: a
double or single quote a String, a backtick a TemplateLiteral. -/
def opensKind (q : Char) (k : TokenType) : Bool :=
  (k == .String && (q == '"' || q == '\'')) || (k == .TemplateLiteral && q == '\x60')

/-- The piece of source text `seg` the token stands for: a String or
TemplateLiteral token for its `Value` between two equal delimiters of its
kind, every other token for its `Value`. -/
def IsSourceOf (t : Token) (seg : GoString) : Prop :=
  if isLiteralKind t.Type_ = true then
    ∃ q, opensKind q t.Type_ = true ∧ seg = q :: (t.Value ++ [q])
  else seg = t.Value

/-- The tokens, each with its delimiters put back, spell the text. -/
def Restores : List Token → GoString → Prop
  | [], text => text = []
  | t :: ts, text => ∃ seg rest, IsSourceOf t seg ∧ text = seg ++ rest ∧ Restores ts rest

/-- The literal opened by the quote `q` in front of the text is closed in
it: a byte `q` is reached, a backslash taking the byte behind it along. -/
def closesLiteral (q : Char) : GoString → Bool
  | [] => false
  | [c] => c == q
  | c :: d :: rest =>
    if c == q then true
    else if c == '\\' then closesLiteral q rest
    else closesLiteral q (d :: rest)

/-- The text ends inside a literal that is never closed: the tokens before
the last two restore a front part of the text, behind it stands a quote byte
that opens a literal of the kind of the last token but one and is not closed
in the rest, and the last token is `EOF`. -/
def EndsInOpenLiteral (ts : List Token) (text : GoString) : Prop :=
  ∃ pre lit eof p q rest, ts = pre ++ [lit, eof] ∧ text = p ++ q :: rest ∧ Restores pre p
    ∧ opensKind q lit.Type_ = true ∧ closesLiteral q rest = false ∧ eof.Type_ = .EOF

/-! # Theorems -/

/-! ## Tokenizer: run-time faults -/

/-- C1 (fails on the code): on an input whose last byte is an opening quote
or backtick, `readString` and `readTemplateLiteral` slice
`input[start : position-1]` with `start = len(input)` and `position-1 =
len(input)-1`, and the run panics. -/
theorem tokenize_panics_on_final_quote :
    Tokenize "\"".toList = .error .panic ∧ Tokenize "'".toList = .error .panic
      ∧ Tokenize "\x60".toList = .error .panic
      ∧ Tokenize "page X \"".toList = .error .panic := by
  decide

/-! ## Parser: loops that do not advance -/

/-- The specifier loop makes no progress on a token that is neither an
identifier nor a comma nor the closing kind: every iteration leaves the
parser where it was. -/
theorem parseNameList_stuck (close : TokenType) (p : Parser)
    (h1 : p.check close = false) (h2 : p.isAtEnd = false)
    (h3 : p.peekIs .Identifier = false) (h4 : p.check .Comma = false) :
    ∀ (fuel : Nat) (names : List GoString), parseNameList close fuel p names = none := by
  intro fuel
  induction fuel with
  | zero => intro names; rfl
  | succ n ih =>
    intro names
    simp [parseNameList, h1, h2, h3, h4, ih]

/-- `Parse` does not return on a token sequence that starts with `import`
followed by a Whitespace token. -/
theorem Parse_import_whitespace (t0 t1 : Token) (rest : List Token)
    (h0 : t0.Type_ = .Import) (h1 : t1.Type_ = .Whitespace) :
    ∀ fuel, Parse fuel (t0 :: t1 :: rest) = none := by
  intro fuel
  have hstuck : ∀ n names, parseNameList .From n ⟨t0 :: t1 :: rest, 1⟩ names = none :=
    parseNameList_stuck _ _ (by simp [Parser.check, Parser.isAtEnd, h1])
      (by simp [Parser.isAtEnd, h1]) (by simp [Parser.peekIs, Parser.peek, Parser.isAtEnd, h1])
      (by simp [Parser.check, Parser.isAtEnd, h1])
  match fuel with
  | 0 => rfl
  | 1 => simp [Parse, parseLoop, NewParser, Parser.isAtEnd, h0, parseStatement]
  | n + 2 =>
    simp [Parse, parseLoop, NewParser, Parser.isAtEnd, h0, parseStatement, Parser.match_,
      Parser.check, Parser.advance, parseImport, hstuck]

/-- C2 (fails on the code): the tokens of `import A` are Import, Whitespace,
Identifier, EOF, and on them the specifier loop of `parseImport` never
advances past the Whitespace token, so `Parse` returns for no amount of
fuel. -/
theorem parse_diverges_on_import :
    Tokenize "import A".toList
        = .ok ([⟨.Import, "import".toList, 1, 7⟩, ⟨.Whitespace, " ".toList, 1, 7⟩,
                ⟨.Identifier, "A".toList, 1, 9⟩, ⟨.EOF, [], 1, 9⟩], none)
      ∧ ∀ fuel, Parse fuel [⟨.Import, "import".toList, 1, 7⟩, ⟨.Whitespace, " ".toList, 1, 7⟩,
                ⟨.Identifier, "A".toList, 1, 9⟩, ⟨.EOF, [], 1, 9⟩] = none :=
  ⟨by decide, Parse_import_whitespace _ _ _ rfl rfl⟩

/-! ## Whole pipeline on the sample sources of the specification -/

/-- C7 (fails on the code): on `import A, B from "src"` and on
`import A from "src"` the compiler does not return: the parser stays in the
specifier loop of `parseImport` on the Whitespace token after `import`. -/
theorem compile_import_diverges :
    (∀ fuel, compileInternal fuel "import A, B from \"src\"".toList = none)
      ∧ (∀ fuel, compileInternal fuel "import A from \"src\"".toList = none)
      ∧ (∀ fuel, Compile fuel "import A, B from \"src\"".toList = none)
      ∧ (∀ fuel, Compile fuel "import A from \"src\"".toList = none) := by
  have h1 : Tokenize "import A, B from \"src\"".toList
      = .ok ([⟨.Import, "import".toList, 1, 7⟩, ⟨.Whitespace, " ".toList, 1, 7⟩,
          ⟨.Identifier, "A".toList, 1, 9⟩, ⟨.Comma, ",".toList, 1, 9⟩,
          ⟨.Whitespace, " ".toList, 1, 10⟩, ⟨.Identifier, "B".toList, 1, 12⟩,
          ⟨.Whitespace, " ".toList, 1, 12⟩, ⟨.From, "from".toList, 1, 17⟩,
          ⟨.Whitespace, " ".toList, 1, 17⟩, ⟨.String, "src".toList, 1, 23⟩,
          ⟨.EOF, [], 1, 23⟩], none) := by decide
  have h2 : Tokenize "import A from \"src\"".toList
      = .ok ([⟨.Import, "import".toList, 1, 7⟩, ⟨.Whitespace, " ".toList, 1, 7⟩,
          ⟨.Identifier, "A".toList, 1, 9⟩,
          ⟨.Whitespace, " ".toList, 1, 9⟩, ⟨.From, "from".toList, 1, 14⟩,
          ⟨.Whitespace, " ".toList, 1, 14⟩, ⟨.String, "src".toList, 1, 20⟩,
          ⟨.EOF, [], 1, 20⟩], none) := by decide
  have c1 : ∀ fuel, compileInternal fuel "import A, B from \"src\"".toList = none := by
    intro fuel
    rw [compileInternal, h1]
    simp only []
    rw [Parse_import_whitespace _ _ _ (by rfl) (by rfl)]
  have c2 : ∀ fuel, compileInternal fuel "import A from \"src\"".toList = none := by
    intro fuel
    rw [compileInternal, h2]
    simp only []
    rw [Parse_import_whitespace _ _ _ (by rfl) (by rfl)]
  exact ⟨c1, c2, fun fuel => by simp only [Compile, c1], fun fuel => by simp only [Compile, c2]⟩

/-! ## Parser: independence of the tokens before the cursor -/

theorem shift_getElem (pre ts : List Token) (i : Nat) :
    (pre ++ ts)[pre.length + i]? = ts[i]? := by
  rw [List.getElem?_append_right (Nat.le_add_right _ _)]
  simp

@[simp] theorem isAtEnd_shift (pre : List Token) (p : Parser) :
    (p.shift pre).isAtEnd = p.isAtEnd := by
  simp [Parser.isAtEnd, Parser.shift, shift_getElem]

@[simp] theorem peek_shift (pre : List Token) (p : Parser) :
    (p.shift pre).peek = p.peek := by
  simp only [Parser.peek, isAtEnd_shift]
  simp [Parser.shift, shift_getElem]

@[simp] theorem check_shift (pre : List Token) (p : Parser) (k : TokenType) :
    (p.shift pre).check k = p.check k := by
  simp only [Parser.check, isAtEnd_shift]
  simp [Parser.shift, shift_getElem]

@[simp] theorem peekIs_shift (pre : List Token) (p : Parser) (k : TokenType) :
    (p.shift pre).peekIs k = p.peekIs k := by
  simp [Parser.peekIs]

@[simp] theorem skip_shift (pre : List Token) (p : Parser) :
    (p.shift pre).skip = p.skip.shift pre := by
  simp only [Parser.skip, Parser.advance, isAtEnd_shift]
  cases h : p.isAtEnd <;> simp [Parser.shift, Nat.add_assoc]

theorem advanceValue_shift (pre : List Token) (p : Parser) (h : p.isAtEnd = false) :
    (p.shift pre).advanceValue = (p.advanceValue.1, p.advanceValue.2.shift pre) := by
  simp only [Parser.advanceValue, Parser.advance, isAtEnd_shift, h]
  simp [Parser.previous, Parser.shift, ← Nat.add_assoc, shift_getElem]
  cases p.tokens[p.current]? <;> simp [Nat.add_assoc]

theorem isAtEnd_of_peekIs {p : Parser} {k : TokenType} (h : p.peekIs k = true) :
    p.isAtEnd = false := by
  cases hp : p.isAtEnd
  · rfl
  · simp [Parser.peekIs, Parser.peek, hp] at h

@[simp] theorem optionalName_shift (pre : List Token) (p : Parser) :
    (p.shift pre).optionalName = (p.optionalName.1, p.optionalName.2.shift pre) := by
  simp only [Parser.optionalName, peekIs_shift]
  cases h : p.peekIs .Identifier
  · simp
  · simp [advanceValue_shift pre p (isAtEnd_of_peekIs h)]

theorem match_shift (pre : List Token) (p : Parser) (ks : List TokenType) :
    (p.shift pre).match_ ks = ((p.match_ ks).1, (p.match_ ks).2.shift pre) := by
  induction ks with
  | nil => rfl
  | cons k ks ih =>
    simp only [Parser.match_, check_shift]
    cases h : p.check k
    · simpa using ih
    · exact congrArg (Prod.mk true) (skip_shift pre p)

theorem bracedBlock_shift {parseBlock : BlockParser} (hb : ShiftInvariant parseBlock)
    (pre : List Token) (p : Parser) :
    bracedBlock parseBlock (p.shift pre) = shiftResult pre (bracedBlock parseBlock p) := by
  simp only [bracedBlock, check_shift, skip_shift, hb pre]
  cases p.check .LeftBrace
  · simp [shiftResult]
  · cases hq : parseBlock p.skip with
    | none => simp [shiftResult]
    | some r =>
      obtain ⟨⟨body, e⟩, p1⟩ := r
      cases hc : p1.check .RightBrace <;> simp [shiftResult, hc]

theorem parsePageAttributes_shift (pre : List Token) :
    ∀ (fuel : Nat) (p : Parser) (attributes : GoMap),
      parsePageAttributes fuel (p.shift pre) attributes
        = shiftResult pre (parsePageAttributes fuel p attributes) := by
  intro fuel
  induction fuel with
  | zero => intro p a; rfl
  | succ n ih =>
    intro p a
    rw [parsePageAttributes, parsePageAttributes]
    simp only [check_shift, isAtEnd_shift, peekIs_shift, skip_shift]
    by_cases h1 : (!p.check .LeftBrace && !p.isAtEnd) = true
    · rw [if_pos h1, if_pos h1]
      by_cases h2 : p.peekIs .Identifier = true
      · rw [if_pos h2, if_pos h2, advanceValue_shift pre p (isAtEnd_of_peekIs h2)]
        simp only [check_shift, skip_shift, peekIs_shift]
        by_cases h3 : p.advanceValue.2.check .Assign = true
        · rw [if_pos h3, if_pos h3]
          by_cases h4 : p.advanceValue.2.skip.peekIs .String = true
          · rw [if_pos h4, if_pos h4, advanceValue_shift pre _ (isAtEnd_of_peekIs h4)]
            exact ih _ _
          · rw [if_neg h4, if_neg h4]
            exact ih _ _
        · rw [if_neg h3, if_neg h3]
          exact ih _ _
      · rw [if_neg h2, if_neg h2]
        exact ih _ _
    · rw [if_neg h1, if_neg h1]
      rfl

theorem parsePage_shift {parseBlock : BlockParser} (hb : ShiftInvariant parseBlock)
    (fuel : Nat) : ShiftInvariant (parsePage parseBlock fuel) := by
  intro pre p
  unfold parsePage
  simp only [optionalName_shift, parsePageAttributes_shift]
  cases h : parsePageAttributes fuel p.optionalName.2 [] with
  | none => simp [shiftResult]
  | some r =>
    obtain ⟨a, p2⟩ := r
    simp only [shiftResult, Option.map_some', bracedBlock_shift hb pre p2]
    cases bracedBlock parseBlock p2 with
    | none => simp
    | some r2 => simp

theorem shiftResult_some {α : Type} (pre : List Token) (a : α) (p : Parser) :
    shiftResult pre (some (a, p)) = some (a, p.shift pre) := rfl

theorem shiftResult_some_pair {α : Type} (pre : List Token) (x : α × Parser) :
    shiftResult pre (some x) = some (x.1, x.2.shift pre) := rfl

theorem shiftResult_none {α : Type} (pre : List Token) :
    shiftResult pre (none : Option (α × Parser)) = none := rfl

theorem parseNameList_shift (close : TokenType) (pre : List Token) :
    ∀ (fuel : Nat) (p : Parser) (names : List GoString),
      parseNameList close fuel (p.shift pre) names
        = shiftResult pre (parseNameList close fuel p names) := by
  intro fuel
  induction fuel with
  | zero => intro p a; rfl
  | succ n ih =>
    intro p a
    rw [parseNameList, parseNameList]
    simp only [check_shift, isAtEnd_shift, peekIs_shift]
    by_cases h1 : (!p.check close && !p.isAtEnd) = true
    · rw [if_pos h1, if_pos h1]
      by_cases h2 : p.peekIs .Identifier = true
      · simp only [h2, if_true, advanceValue_shift pre p (isAtEnd_of_peekIs h2), check_shift,
          skip_shift]
        by_cases h3 : p.advanceValue.2.check .Comma = true
        · simp only [h3, if_true]; exact ih _ _
        · simp only [if_neg h3]; exact ih _ _
      · simp only [if_neg h2, check_shift, skip_shift]
        by_cases h3 : p.check .Comma = true
        · simp only [h3, if_true]; exact ih _ _
        · simp only [if_neg h3]; exact ih _ _
    · rw [if_neg h1, if_neg h1]
      rfl

theorem parseComponent_shift {parseBlock : BlockParser} (hb : ShiftInvariant parseBlock)
    (fuel : Nat) : ShiftInvariant (parseComponent parseBlock fuel) := by
  intro pre p
  unfold parseComponent
  simp only [optionalName_shift, check_shift, skip_shift, parseNameList_shift]
  by_cases h1 : p.optionalName.2.check .Less = true
  · simp only [h1, if_true]
    cases h2 : parseNameList .Greater fuel p.optionalName.2.skip [] with
    | none => simp [shiftResult]
    | some r =>
      obtain ⟨tp, p2⟩ := r
      simp only [shiftResult_some, check_shift, skip_shift]
      by_cases h3 : p2.check .Greater = true
      · simp only [h3, if_true, bracedBlock_shift hb pre]
        cases bracedBlock parseBlock p2.skip <;> simp [shiftResult]
      · simp only [if_neg h3, bracedBlock_shift hb pre]
        cases bracedBlock parseBlock p2 <;> simp [shiftResult]
  · simp only [if_neg h1, bracedBlock_shift hb pre]
    cases bracedBlock parseBlock p.optionalName.2 <;> simp [shiftResult]

theorem parseStyle_shift {parseBlock : BlockParser} (hb : ShiftInvariant parseBlock) :
    ShiftInvariant (parseStyle parseBlock) := by
  intro pre p
  unfold parseStyle
  simp only [optionalName_shift, bracedBlock_shift hb pre]
  cases bracedBlock parseBlock p.optionalName.2 <;> simp [shiftResult]

theorem parseState_shift {parseBlock : BlockParser} (hb : ShiftInvariant parseBlock) :
    ShiftInvariant (parseState parseBlock) := by
  intro pre p
  unfold parseState
  simp only [optionalName_shift, bracedBlock_shift hb pre]
  cases bracedBlock parseBlock p.optionalName.2 <;> simp [shiftResult]

theorem parseApi_shift {parseBlock : BlockParser} (hb : ShiftInvariant parseBlock) :
    ShiftInvariant (parseApi parseBlock) := by
  intro pre p
  unfold parseApi
  simp only [optionalName_shift, bracedBlock_shift hb pre]
  cases bracedBlock parseBlock p.optionalName.2 <;> simp [shiftResult]

theorem parseRouter_shift {parseBlock : BlockParser} (hb : ShiftInvariant parseBlock) :
    ShiftInvariant (parseRouter parseBlock) := by
  intro pre p
  unfold parseRouter
  simp only [bracedBlock_shift hb pre]
  cases bracedBlock parseBlock p <;> simp [shiftResult]

theorem parseLayout_shift {parseBlock : BlockParser} (hb : ShiftInvariant parseBlock) :
    ShiftInvariant (parseLayout parseBlock) := by
  intro pre p
  unfold parseLayout
  simp only [optionalName_shift, bracedBlock_shift hb pre]
  cases bracedBlock parseBlock p.optionalName.2 <;> simp [shiftResult]

theorem parseAnimation_shift {parseBlock : BlockParser} (hb : ShiftInvariant parseBlock) :
    ShiftInvariant (parseAnimation parseBlock) := by
  intro pre p
  unfold parseAnimation
  simp only [optionalName_shift, bracedBlock_shift hb pre]
  cases bracedBlock parseBlock p.optionalName.2 <;> simp [shiftResult]

@[simp] theorem peekIsOn_shift (pre : List Token) (p : Parser) :
    (p.shift pre).peekIsOn = p.peekIsOn := by
  simp [Parser.peekIsOn]

@[simp] theorem peekIsDefault_shift (pre : List Token) (p : Parser) :
    (p.shift pre).peekIsDefault = p.peekIsDefault := by
  simp [Parser.peekIsDefault]

theorem parseEvent_shift {parseBlock : BlockParser} (hb : ShiftInvariant parseBlock) :
    ShiftInvariant (parseEvent parseBlock) := by
  intro pre p
  unfold parseEvent
  simp only [optionalName_shift, peekIsOn_shift, skip_shift]
  by_cases h2 : p.optionalName.2.peekIsOn = true
  · simp only [h2, if_true, bracedBlock_shift hb pre]
    cases bracedBlock parseBlock p.optionalName.2.skip.optionalName.2 <;> simp [shiftResult]
  · simp only [if_neg h2, bracedBlock_shift hb pre]
    cases bracedBlock parseBlock p.optionalName.2 <;> simp [shiftResult]

theorem parseType_shift (pre : List Token) (p : Parser) :
    parseType (p.shift pre) = ((parseType p).1, (parseType p).2.shift pre) := by
  unfold parseType
  simp only [optionalName_shift, check_shift, skip_shift]
  by_cases h1 : p.optionalName.2.check .Assign = true
  · simp only [h1, if_true, check_shift, skip_shift]
    by_cases h2 : p.optionalName.2.skip.check .Semicolon = true
    · simp [h2]
    · simp [h2]
  · simp only [if_neg h1, check_shift, skip_shift]
    by_cases h2 : p.optionalName.2.check .Semicolon = true
    · simp [h2]
    · simp [h2]

theorem parseParametersLoop_shift (pre : List Token) :
    ∀ (fuel : Nat) (p : Parser),
      parseParametersLoop fuel (p.shift pre) = shiftResult pre (parseParametersLoop fuel p) := by
  intro fuel
  induction fuel with
  | zero => intro p; rfl
  | succ n ih =>
    intro p
    rw [parseParametersLoop, parseParametersLoop]
    simp only [check_shift, isAtEnd_shift, peekIs_shift, skip_shift]
    by_cases h1 : (!p.check .RightParen && !p.isAtEnd) = true
    · rw [if_pos h1, if_pos h1]
      by_cases h2 : p.peekIs .Identifier = true
      · simp only [h2, if_true, check_shift, skip_shift]
        by_cases h3 : p.skip.check .Comma = true
        · simp only [h3, if_true]; exact ih _
        · simp only [if_neg h3]; exact ih _
      · simp only [if_neg h2, check_shift, skip_shift]
        by_cases h3 : p.check .Comma = true
        · simp only [h3, if_true]; exact ih _
        · simp only [if_neg h3]; exact ih _
    · rw [if_neg h1, if_neg h1]
      rfl

theorem parseHook_shift {parseBlock : BlockParser} (hb : ShiftInvariant parseBlock)
    (fuel : Nat) : ShiftInvariant (parseHook parseBlock fuel) := by
  intro pre p
  unfold parseHook
  simp only [parseParameters, optionalName_shift, check_shift, skip_shift,
    parseParametersLoop_shift]
  by_cases h1 : p.optionalName.2.check .LeftParen = true
  · simp only [h1, if_true]
    cases h2 : parseParametersLoop fuel p.optionalName.2.skip with
    | none => simp [shiftResult]
    | some r =>
      obtain ⟨⟨ps, e⟩, p2⟩ := r
      simp only [shiftResult_some, check_shift, skip_shift]
      by_cases h3 : p2.check .RightParen = true
      · simp only [h3, if_true, bracedBlock_shift hb pre]
        cases bracedBlock parseBlock p2.skip <;> simp [shiftResult]
      · simp only [if_neg h3, bracedBlock_shift hb pre]
        cases bracedBlock parseBlock p2 <;> simp [shiftResult]
  · simp only [if_neg h1, bracedBlock_shift hb pre]
    cases bracedBlock parseBlock p.optionalName.2 <;> simp [shiftResult]

@[simp] theorem emptyBraces_shift (pre : List Token) (p : Parser) :
    emptyBraces (p.shift pre) = (emptyBraces p).shift pre := by
  unfold emptyBraces
  simp only [check_shift, skip_shift]
  by_cases h1 : p.check .LeftBrace = true
  · simp only [h1, if_true]
    by_cases h2 : p.skip.check .RightBrace = true
    · simp [h2]
    · simp [h2]
  · simp [h1]

theorem parsePlugin_shift (pre : List Token) (p : Parser) :
    parsePlugin (p.shift pre) = ((parsePlugin p).1, (parsePlugin p).2.shift pre) := by
  unfold parsePlugin
  simp

theorem parseConfig_shift (pre : List Token) (p : Parser) :
    parseConfig (p.shift pre) = ((parseConfig p).1, (parseConfig p).2.shift pre) := by
  unfold parseConfig
  simp

theorem parseSource_shift (pre : List Token) (p : Parser) :
    parseSource (p.shift pre) = ((parseSource p).1, (parseSource p).2.shift pre) := by
  unfold parseSource
  simp only [check_shift, skip_shift, peekIs_shift]
  by_cases h1 : p.check .From = true
  · simp only [h1, if_true]
    by_cases h2 : p.skip.peekIs .String = true
    · simp [h2, advanceValue_shift pre _ (isAtEnd_of_peekIs h2)]
    · simp [h2]
  · simp [h1]

theorem parseImport_shift (fuel : Nat) : ShiftInvariant (parseImport fuel) := by
  intro pre p
  unfold parseImport
  simp only [parseNameList_shift]
  cases parseNameList .From fuel p [] with
  | none => rfl
  | some r => simp [shiftResult, parseSource_shift]

theorem parseExport_shift (fuel : Nat) : ShiftInvariant (parseExport fuel) := by
  intro pre p
  unfold parseExport
  simp only [peekIsDefault_shift, skip_shift]
  by_cases h1 : p.peekIsDefault = true
  · simp only [h1, if_true, parseNameList_shift]
    cases parseNameList .From fuel p.skip [] with
    | none => rfl
    | some r => simp [shiftResult, parseSource_shift]
  · simp only [if_neg h1, parseNameList_shift]
    cases parseNameList .From fuel p [] with
    | none => rfl
    | some r => simp [shiftResult, parseSource_shift]

theorem parseBlockLoop_shift {parseStatement : Parser → Option (NodeResult × Parser)}
    (hs : ShiftInvariant parseStatement) (pre : List Token) :
    ∀ (fuel : Nat) (p : Parser) (statements : List ASTNode),
      parseBlockLoop parseStatement fuel (p.shift pre) statements
        = shiftResult pre (parseBlockLoop parseStatement fuel p statements) := by
  intro fuel
  induction fuel with
  | zero => intro p a; rfl
  | succ n ih =>
    intro p a
    rw [parseBlockLoop, parseBlockLoop]
    simp only [check_shift, isAtEnd_shift, hs pre p]
    by_cases h1 : (!p.check .RightBrace && !p.isAtEnd) = true
    · rw [if_pos h1, if_pos h1]
      cases h2 : parseStatement p with
      | none => rfl
      | some r =>
        obtain ⟨⟨node, err⟩, p1⟩ := r
        simp only [shiftResult_some]
        cases err with
        | some e => cases node <;> rfl
        | none =>
          cases node with
          | none => simp only [skip_shift]; exact ih _ _
          | some s => exact ih _ _
    · rw [if_neg h1, if_neg h1]
      rfl

theorem parseStatement_shift : ∀ fuel : Nat, ShiftInvariant (parseStatement fuel) := by
  intro fuel
  induction fuel with
  | zero => intro pre p; rfl
  | succ n ih =>
    intro pre p
    have hb : ShiftInvariant (fun q => parseBlockLoop (parseStatement n) n q []) :=
      fun pre q => parseBlockLoop_shift ih pre n q []
    have e1 := fun q => parsePage_shift hb n pre q
    have e2 := fun q => parseComponent_shift hb n pre q
    have e3 := fun q => parseStyle_shift hb pre q
    have e4 := fun q => parseEvent_shift hb pre q
    have e5 := fun q => parseState_shift hb pre q
    have e6 := fun q => parseApi_shift hb pre q
    have e7 := fun q => parseRouter_shift hb pre q
    have e8 := fun q => parseLayout_shift hb pre q
    have e9 := fun q => parseAnimation_shift hb pre q
    have e10 := fun q => parseHook_shift hb n pre q
    have e11 := fun q => parseImport_shift n pre q
    have e12 := fun q => parseExport_shift n pre q
    rw [parseStatement, parseStatement]
    simp only [match_shift, skip_shift, e1, e2, e3, e4, e5, e6, e7, e8, e9, e10, e11, e12,
      parseType_shift, parsePlugin_shift, parseConfig_shift, apply_ite (shiftResult pre),
      shiftResult_some_pair]

theorem parseLoop_shift (pre : List Token) :
    ∀ (fuel : Nat) (p : Parser) (statements : List ASTNode),
      parseLoop fuel (p.shift pre) statements = shiftResult pre (parseLoop fuel p statements) := by
  intro fuel
  induction fuel with
  | zero => intro p a; rfl
  | succ n ih =>
    intro p a
    rw [parseLoop, parseLoop]
    simp only [isAtEnd_shift, parseStatement_shift n pre p]
    by_cases h1 : (!p.isAtEnd) = true
    · rw [if_pos h1, if_pos h1]
      cases h2 : parseStatement n p with
      | none => rfl
      | some r =>
        obtain ⟨⟨node, err⟩, p1⟩ := r
        simp only [shiftResult_some]
        cases err with
        | some e => cases node <;> rfl
        | none =>
          cases node with
          | none => exact ih _ _
          | some s => exact ih _ _
    · rw [if_neg h1, if_neg h1]
      rfl

theorem shift_NewParser (t : Token) (rest : List Token) :
    (NewParser rest).shift [t] = { tokens := t :: rest, current := 1 } := by
  unfold Parser.shift
  rfl

theorem map_fst_shiftResult {α : Type} (pre : List Token) (r : Option (α × Parser)) :
    (shiftResult pre r).map (fun x => x.1) = r.map (fun x => x.1) := by
  cases r <;> rfl

theorem check_cons_zero (t : Token) (rest : List Token) (k : TokenType) :
    Parser.check { tokens := t :: rest, current := 0 } k
      = (!(t.Type_ == .EOF) && t.Type_ == k) := by
  simp [Parser.check, Parser.isAtEnd]
  cases h : (t.Type_ == TokenType.EOF) <;> simp_all

/-- At a token that is neither `EOF` nor a dispatching keyword
`parseStatement` passes the token and returns the nil statement. -/
theorem parseStatement_skip (t : Token) (rest : List Token) (hEOF : t.Type_ ≠ .EOF)
    (hkw : isDispatchKeyword t.Type_ = false) (fuel : Nat) :
    parseStatement (fuel + 1) (NewParser (t :: rest))
      = some ((none, none), { tokens := t :: rest, current := 1 }) := by
  simp only [isDispatchKeyword, Bool.or_eq_false_iff, beq_eq_false_iff_ne, ne_eq] at hkw
  obtain ⟨⟨⟨⟨⟨⟨⟨⟨⟨⟨⟨⟨⟨⟨k1, k2⟩, k3⟩, k4⟩, k5⟩, k6⟩, k7⟩, k8⟩, k9⟩, k10⟩, k11⟩, k12⟩, k13⟩, k14⟩, k15⟩ := hkw
  rw [parseStatement]
  simp [NewParser, Parser.match_, check_cons_zero, hEOF, k1, k2, k3, k4, k5, k6, k7, k8, k9,
    k10, k11, k12, k13, k14, k15, Parser.skip, Parser.advance, Parser.isAtEnd, Parser.previous]

theorem Parse_skip (t : Token) (rest : List Token) (hEOF : t.Type_ ≠ .EOF)
    (hkw : isDispatchKeyword t.Type_ = false) (fuel : Nat) :
    Parse (fuel + 2) (t :: rest) = Parse (fuel + 1) rest := by
  unfold Parse
  rw [parseLoop, parseStatement_skip t rest hEOF hkw fuel]
  have h : (NewParser (t :: rest)).isAtEnd = false := by
    simp [NewParser, Parser.isAtEnd, hEOF]
  simp only [h, Bool.not_false, if_true, ← shift_NewParser, parseLoop_shift, map_fst_shiftResult]

/-- C9: a leading token that is neither `EOF` nor one of the fifteen
dispatching keywords is passed by `parseStatement` with no node and a move
of exactly one token, and `Parse` returns on `t :: rest` exactly what it
returns on `rest`. -/
theorem parse_skips_unrecognized (t : Token) (rest : List Token) (hEOF : t.Type_ ≠ .EOF)
    (hkw : isDispatchKeyword t.Type_ = false) :
    (∀ fuel, parseStatement (fuel + 1) (NewParser (t :: rest))
        = some ((none, none), { tokens := t :: rest, current := 1 }))
      ∧ (∀ fuel, Parse (fuel + 2) (t :: rest) = Parse (fuel + 1) rest)
      ∧ (∀ r, ParsesTo (t :: rest) r ↔ ParsesTo rest r) := by
  refine ⟨parseStatement_skip t rest hEOF hkw, Parse_skip t rest hEOF hkw, ?_⟩
  intro r
  constructor
  · rintro ⟨fuel, h⟩
    match fuel, h with
    | 0, h => simp [Parse, parseLoop] at h
    | 1, h =>
      have h0 : (NewParser (t :: rest)).isAtEnd = false := by
        simp [NewParser, Parser.isAtEnd, hEOF]
      simp [Parse, parseLoop, h0, parseStatement] at h
    | n + 2, h => exact ⟨n + 1, by rw [← Parse_skip t rest hEOF hkw n]; exact h⟩
  · rintro ⟨fuel, h⟩
    match fuel, h with
    | 0, h => simp [Parse, parseLoop] at h
    | n + 1, h => exact ⟨n + 2, by rw [Parse_skip t rest hEOF hkw n]; exact h⟩

/-- Witness of C9 at the identifier token `x` before the tokens of `state`. -/
theorem parse_skips_unrecognized_witness :
    Parse 3 [⟨.Identifier, "x".toList, 1, 2⟩, ⟨.State, "state".toList, 1, 7⟩, ⟨.EOF, [], 1, 7⟩]
      = Parse 2 [⟨.State, "state".toList, 1, 7⟩, ⟨.EOF, [], 1, 7⟩] :=
  (parse_skips_unrecognized ⟨.Identifier, "x".toList, 1, 2⟩
    [⟨.State, "state".toList, 1, 7⟩, ⟨.EOF, [], 1, 7⟩] (by decide) (by decide)).2.1 1

/-! ## Tokenizer: steps, fuel and the text of the tokens -/

theorem getElem?_of_drop_cons {s : GoString} {i : Nat} {c : Char} {r : GoString}
    (h : s.drop i = c :: r) : s[i]? = some c := by
  have := congrArg List.head? h
  simpa [List.head?_drop] using this

theorem drop_succ_of_drop_cons {s : GoString} {i : Nat} {c : Char} {r : GoString}
    (h : s.drop i = c :: r) : s.drop (i + 1) = r := by
  have := congrArg List.tail h
  simpa [List.tail_drop] using this

theorem drop_add_of_drop_append {s : GoString} {i : Nat} {w r : GoString}
    (h : s.drop i = w ++ r) : s.drop (i + w.length) = r := by
  rw [← List.drop_drop, h, List.drop_left]

theorem length_of_drop_append {s : GoString} {i : Nat} {w r : GoString}
    (h : s.drop i = w ++ r) : i + w.length + r.length = s.length ∨ (w = [] ∧ r = []) := by
  have := congrArg List.length h
  simp at this
  by_cases hw : w.length + r.length = 0
  · right
    constructor
    · exact List.length_eq_zero.mp (by omega)
    · exact List.length_eq_zero.mp (by omega)
  · left; omega

theorem le_length_of_drop_append {s : GoString} {i : Nat} {w r : GoString}
    (h : s.drop i = w ++ r) (hi : i ≤ s.length) : i + w.length ≤ s.length := by
  have := congrArg List.length h
  simp at this
  omega

theorem lt_length_of_drop_cons {s : GoString} {i : Nat} {c : Char} {r : GoString}
    (h : s.drop i = c :: r) : i < s.length := by
  have := congrArg List.length h
  simp at this
  omega

theorem drop_eq_cons_of_getElem? {s : GoString} {i : Nat} {c : Char}
    (h : s[i]? = some c) : s.drop i = c :: s.drop (i + 1) := by
  obtain ⟨hi, hc⟩ := List.getElem?_eq_some_iff.mp h
  rw [← hc]
  exact List.drop_eq_getElem_cons hi

/-- A slice with bounds in range is the segment between them. -/
theorem slice_append_drop (s : GoString) (lo hi : Nat) (h1 : lo ≤ hi) (h2 : hi ≤ s.length) :
    ∃ v, slice s lo hi = .ok v ∧ v ++ s.drop hi = s.drop lo ∧ v.length = hi - lo := by
  refine ⟨(s.drop lo).take (hi - lo), by simp [slice, h1, h2], ?_, ?_⟩
  · have : s.drop hi = (s.drop lo).drop (hi - lo) := by
      rw [List.drop_drop]; congr 1; omega
    rw [this, List.take_append_drop]
  · simp; omega

theorem slice_of_drop_append {s : GoString} {i : Nat} {w r : GoString}
    (h : s.drop i = w ++ r) (hi : i ≤ s.length) : slice s i (i + w.length) = .ok w := by
  have hle := le_length_of_drop_append h hi
  simp [slice, hle, h]

theorem Lexer.Reaches.refl (l : Lexer) : l.Reaches l := ⟨rfl, Nat.le_refl _, fun h => h⟩

theorem Lexer.Reaches.trans {a b c : Lexer} (h1 : a.Reaches b) (h2 : b.Reaches c) :
    a.Reaches c := by
  obtain ⟨i1, p1, b1⟩ := h1
  obtain ⟨i2, p2, b2⟩ := h2
  refine ⟨i2.trans i1, Nat.le_trans p1 p2, fun h => ?_⟩
  have := b1 h
  rw [i1] at b2
  exact b2 this

theorem readLineCommentLoop_reaches :
    ∀ (fuel : Nat) (l : Lexer), l.Reaches (readLineCommentLoop fuel l) := by
  intro fuel
  induction fuel with
  | zero => intro l; exact Lexer.Reaches.refl l
  | succ n ih =>
    intro l
    rw [readLineCommentLoop]
    cases h : l.input[l.position]? with
    | none => exact Lexer.Reaches.refl l
    | some c =>
      have hlt := (List.getElem?_eq_some_iff.mp h).1
      simp only []
      split
      · refine Lexer.Reaches.trans ?_ (ih _)
        exact ⟨rfl, Nat.le_succ _, fun _ => hlt⟩
      · exact Lexer.Reaches.refl l

theorem readWhileLoop_reaches (keep : Char → Bool) :
    ∀ (fuel : Nat) (l : Lexer), l.Reaches (readWhileLoop keep fuel l) := by
  intro fuel
  induction fuel with
  | zero => intro l; exact Lexer.Reaches.refl l
  | succ n ih =>
    intro l
    rw [readWhileLoop]
    cases h : l.input[l.position]? with
    | none => exact Lexer.Reaches.refl l
    | some c =>
      have hlt := (List.getElem?_eq_some_iff.mp h).1
      simp only []
      split
      · refine Lexer.Reaches.trans ?_ (ih _)
        exact ⟨rfl, Nat.le_succ _, fun _ => hlt⟩
      · exact Lexer.Reaches.refl l

theorem readQuotedLoop_reaches (quote : Char) :
    ∀ (fuel : Nat) (l : Lexer), l.Reaches (readQuotedLoop quote fuel l) := by
  intro fuel
  induction fuel with
  | zero => intro l; exact Lexer.Reaches.refl l
  | succ n ih =>
    intro l
    rw [readQuotedLoop]
    cases h : l.input[l.position]? with
    | none => exact Lexer.Reaches.refl l
    | some c =>
      have hlt := (List.getElem?_eq_some_iff.mp h).1
      simp only []
      split
      · split
        · rename_i h2
          simp only [Bool.and_eq_true, decide_eq_true_eq] at h2
          refine Lexer.Reaches.trans ?_ (ih _)
          exact ⟨rfl, Nat.le_add_right _ _, fun _ => h2.2⟩
        · refine Lexer.Reaches.trans ?_ (ih _)
          exact ⟨rfl, Nat.le_succ _, fun _ => hlt⟩
      · exact Lexer.Reaches.refl l

theorem readBlockCommentLoop_reaches :
    ∀ (fuel : Nat) (l : Lexer), l.Reaches (readBlockCommentLoop fuel l) := by
  intro fuel
  induction fuel with
  | zero => intro l; exact Lexer.Reaches.refl l
  | succ n ih =>
    intro l
    rw [readBlockCommentLoop]
    split
    · rename_i h1
      split
      · exact ⟨rfl, Nat.le_add_right _ _, fun _ => h1⟩
      · split
        · refine Lexer.Reaches.trans ?_ (ih _)
          exact ⟨rfl, Nat.le_succ _, fun _ => Nat.le_of_lt h1⟩
        · refine Lexer.Reaches.trans ?_ (ih _)
          exact ⟨rfl, Nat.le_succ _, fun _ => Nat.le_of_lt h1⟩
    · exact Lexer.Reaches.refl l

theorem readLineComment_reads (l : Lexer) (c : Char) (hc : l.input[l.position]? = some c)
    (hn : c ≠ '\n') : ReadsSegment l (readLineComment l) := by
  have hlt := (List.getElem?_eq_some_iff.mp hc).1
  obtain ⟨n, hn1⟩ : ∃ n, l.input.length - l.position = n + 1 := ⟨l.input.length - l.position - 1, by omega⟩
  have hloop : readLineCommentLoop (l.input.length - l.position) l
      = readLineCommentLoop n { l with position := l.position + 1 } := by
    rw [hn1, readLineCommentLoop, hc]
    simp [hn]
  obtain ⟨hi, hp, hb⟩ := readLineCommentLoop_reaches n { l with position := l.position + 1 }
  simp only [] at hi hp hb
  have hb := hb hlt
  obtain ⟨v, hv, hcat, hlen⟩ := slice_append_drop l.input l.position
    (readLineCommentLoop n { l with position := l.position + 1 }).position (by omega) hb
  unfold readLineComment
  simp only [hloop, hi, hv]
  exact ⟨_, _, rfl, rfl, by simp only []; omega, hb, hcat⟩

theorem readWhile_reads (keep : Char → Bool) (l : Lexer) (c : Char)
    (hc : l.input[l.position]? = some c) (hk : keep c = true) :
    ∃ v, slice l.input l.position (readWhileLoop keep (l.input.length - l.position) l).position
          = .ok v ∧
      (readWhileLoop keep (l.input.length - l.position) l).input = l.input ∧
      l.position < (readWhileLoop keep (l.input.length - l.position) l).position ∧
      (readWhileLoop keep (l.input.length - l.position) l).position ≤ l.input.length ∧
      v ++ l.input.drop (readWhileLoop keep (l.input.length - l.position) l).position
        = l.input.drop l.position := by
  have hlt := (List.getElem?_eq_some_iff.mp hc).1
  obtain ⟨n, hn1⟩ : ∃ n, l.input.length - l.position = n + 1 := ⟨l.input.length - l.position - 1, by omega⟩
  have hloop : readWhileLoop keep (l.input.length - l.position) l
      = readWhileLoop keep n { l with position := l.position + 1, column := l.column + 1 } := by
    rw [hn1, readWhileLoop, hc]
    simp [hk]
  obtain ⟨hi, hp, hb⟩ := readWhileLoop_reaches keep n
    { l with position := l.position + 1, column := l.column + 1 }
  simp only [] at hi hp hb
  have hb := hb hlt
  rw [hloop]
  obtain ⟨v, hv, hcat, hlen⟩ := slice_append_drop l.input l.position
    ((readWhileLoop keep n
      { l with position := l.position + 1, column := l.column + 1 }).position) (by omega) hb
  exact ⟨v, hv, hi, by omega, hb, hcat⟩

theorem readNumber_reads (l : Lexer) (c : Char) (hc : l.input[l.position]? = some c)
    (hd : isDigit c = true) : ReadsSegment l (readNumber l) := by
  obtain ⟨v, hv, hi, hp, hb, hcat⟩ :=
    readWhile_reads (fun c => isDigit c || c == '.') l c hc (by simp [hd])
  unfold readNumber
  simp only [hi, hv]
  exact ⟨_, _, rfl, hi, hp, hb, hcat⟩

theorem readIdentifier_reads (l : Lexer) (c : Char) (hc : l.input[l.position]? = some c)
    (hd : (isAlpha c || c == '_') = true) : ReadsSegment l (readIdentifier l) := by
  obtain ⟨v, hv, hi, hp, hb, hcat⟩ :=
    readWhile_reads (fun c => isAlphaNumeric c || c == '_') l c hc (by
      simp only [isAlphaNumeric]
      simp only [Bool.or_eq_true] at hd ⊢
      rcases hd with h | h
      · exact Or.inl (Or.inl h)
      · exact Or.inr h)
  unfold readIdentifier
  simp only [hi, hv]
  exact ⟨_, _, rfl, hi, hp, hb, hcat⟩

theorem readBlockComment_reads (l : Lexer) (hlt : l.position + 1 < l.input.length) :
    ReadsSegment l (readBlockComment l) := by
  obtain ⟨hi, hp, hb⟩ := readBlockCommentLoop_reaches (l.input.length - (l.position + 2))
    { l with position := l.position + 2, column := l.column + 2 }
  simp only [] at hi hp hb
  have hb := hb hlt
  obtain ⟨v, hv, hcat, hlen⟩ := slice_append_drop l.input l.position
    ((readBlockCommentLoop (l.input.length - (l.position + 2))
      { l with position := l.position + 2, column := l.column + 2 }).position) (by omega) hb
  unfold readBlockComment
  simp only [hi, hv]
  exact ⟨_, _, rfl, hi, by omega, hb, hcat⟩

theorem one_byte {s : GoString} {i : Nat} {c : Char} (h : s[i]? = some c) :
    i + 1 ≤ s.length ∧ [c] ++ s.drop (i + 1) = s.drop i := by
  have hlt := (List.getElem?_eq_some_iff.mp h).1
  exact ⟨hlt, by rw [drop_eq_cons_of_getElem? h]; rfl⟩

theorem two_bytes {s : GoString} {i : Nat} {c d : Char} (h : s[i]? = some c)
    (h2 : s[i + 1]? = some d) : i + 2 ≤ s.length ∧ [c, d] ++ s.drop (i + 2) = s.drop i := by
  have hlt := (List.getElem?_eq_some_iff.mp h2).1
  exact ⟨hlt, by rw [drop_eq_cons_of_getElem? h, drop_eq_cons_of_getElem? h2]; rfl⟩

theorem ite_both {α : Type} {P : α → Prop} {c : Prop} [Decidable c] {a b : α}
    (ha : c → P a) (hb : ¬c → P b) : P (if c then a else b) := by
  split
  · exact ha ‹_›
  · exact hb ‹_›

theorem tokenizeOperator_advances (l : Lexer) (c : Char) (hc : l.input[l.position]? = some c) :
    Advances l (tokenizeOperator l c) := by
  have h1 := (one_byte hc).1
  have key : ∀ (t : TokenType) (v : String), Advances l (emitToken l t v 1) :=
    fun t v => ⟨rfl, rfl, Nat.lt_succ_self _, h1⟩
  have key2 : ∀ (t : TokenType) (v : String) (d : Char),
      (l.input[l.position + 1]? == some d) = true → Advances l (emitToken l t v 2) :=
    fun t v d hd => ⟨rfl, rfl, by simp [emitToken],
      (two_bytes hc (by simpa using hd)).1⟩
  unfold tokenizeOperator
  dsimp only []
  repeat' first
    | (refine ite_both (P := Advances l) (fun _ => ?_) (fun _ => ?_))
    | exact key _ _
    | exact key2 _ _ _ ‹_›
    | exact ⟨rfl, rfl, Nat.lt_succ_self _, h1⟩

theorem tokenizeOperator_keepsText (l : Lexer) (c : Char)
    (hc : l.input[l.position]? = some c) :
    isOperatorByte c = true → KeepsText l (tokenizeOperator l c) := by
  have key1 : ∀ (t : TokenType) (v : String) (d : Char), (c == d) = true → v.toList = [d] →
      isOperatorByte c = true → KeepsText l (emitToken l t v 1) := by
    intro t v d hd hv _
    have := eq_of_beq hd
    subst this
    simp only [KeepsText, emitToken, appendedText, hv]
    exact (one_byte hc).2
  have key2 : ∀ (t : TokenType) (v : String) (d e : Char), (c == d) = true →
      (l.input[l.position + 1]? == some e) = true → v.toList = [d, e] →
      isOperatorByte c = true → KeepsText l (emitToken l t v 2) := by
    intro t v d e hd he hv _
    have := eq_of_beq hd
    subst this
    simp only [KeepsText, emitToken, appendedText, hv]
    exact (two_bytes hc (by simpa using he)).2
  unfold tokenizeOperator
  dsimp only []
  repeat' first
    | (refine ite_both (P := fun r => isOperatorByte c = true → KeepsText l r)
        (fun _ => ?_) (fun _ => ?_) <;> beta_reduce)
    | exact key2 _ _ _ _ ‹_› ‹_› rfl
    | exact key1 _ _ _ ‹_› rfl
  intro hop
  simp [isOperatorByte] at hop
  simp_all

theorem readResult_of_reads {l : Lexer} {r : Except Failure ((Token × Option GoError) × Lexer)}
    (h : ReadsSegment l r) :
    ∃ x, readResult r = .ok x ∧ Advances l x ∧ KeepsText l x := by
  obtain ⟨tok, l1, hr, hi, hp, hb, hcat⟩ := h
  exact ⟨((some tok, none), l1), by rw [hr]; rfl, ⟨rfl, hi, hp, hb⟩, hcat⟩

theorem quoted_advances (quote : Char) (t : TokenType) (l : Lexer)
    (hlt : l.position < l.input.length)
    (x : (Token × Option GoError) × Lexer)
    (h : (let l0 : Lexer := { l with position := l.position + 1, column := l.column + 1 }
          let start := l0.position
          let l1 := readQuotedLoop quote (l0.input.length - l0.position) l0
          let l2 : Lexer :=
            if l1.position < l1.input.length then
              { l1 with position := l1.position + 1, column := l1.column + 1 }
            else l1
          match slice l2.input start (l2.position - 1) with
          | .error e => .error e
          | .ok value =>
            .ok (({ Type_ := t, Value := value, Line := l2.line, Column := l2.column }, none), l2))
        = Except.ok x) :
    x.1.2 = none ∧ x.2.input = l.input ∧ l.position < x.2.position ∧
      x.2.position ≤ l.input.length := by
  obtain ⟨hi, hp, hb⟩ := readQuotedLoop_reaches quote (l.input.length - (l.position + 1))
    { l with position := l.position + 1, column := l.column + 1 }
  simp only [] at hi hp hb
  have hb := hb hlt
  dsimp only [] at h
  generalize readQuotedLoop quote (l.input.length - (l.position + 1))
    { l with position := l.position + 1, column := l.column + 1 } = l1 at h hi hp hb
  rw [hi] at h
  split at h
  · cases h
  · rename_i v hv
    cases h
    dsimp only []
    split
    · exact ⟨rfl, rfl, by simp only []; omega, by simp only []; omega⟩
    · exact ⟨rfl, hi, by omega, hb⟩

theorem readString_advances (l : Lexer) (x : (Token × Option GoError) × Lexer)
    (h : readString l = .ok x) :
    x.1.2 = none ∧ x.2.input = l.input ∧ l.position < x.2.position ∧
      x.2.position ≤ l.input.length := by
  unfold readString at h
  cases hc : l.input[l.position]? with
  | none => rw [hc] at h; cases h
  | some quote =>
    rw [hc] at h
    exact quoted_advances quote .String l (List.getElem?_eq_some_iff.mp hc).1 x h

theorem readTemplateLiteral_advances (l : Lexer) (hlt : l.position < l.input.length)
    (x : (Token × Option GoError) × Lexer) (h : readTemplateLiteral l = .ok x) :
    x.1.2 = none ∧ x.2.input = l.input ∧ l.position < x.2.position ∧
      x.2.position ≤ l.input.length :=
  quoted_advances '\x60' .TemplateLiteral l hlt x h

theorem tokenizeStep_cases (l : Lexer) (c : Char) (hc : l.input[l.position]? = some c) :
    (∃ x, tokenizeStep l c = .ok x ∧ Advances l x ∧
        (isQuoteByte c = false → isRecognizedByte c = true → KeepsText l x))
      ∨ (isQuoteByte c = true ∧ ∀ x, tokenizeStep l c = .ok x → Advances l x) := by
  have h1 := one_byte hc
  unfold tokenizeStep
  by_cases hw : isWhitespace c = true
  · left
    rw [if_pos hw]
    by_cases hn : (c == '\n') = true
    · rw [if_pos hn]
      have := eq_of_beq hn
      subst this
      exact ⟨_, rfl, ⟨rfl, rfl, Nat.lt_succ_self _, h1.1⟩, fun _ _ => h1.2⟩
    · rw [if_neg hn]
      exact ⟨_, rfl, ⟨rfl, rfl, Nat.lt_succ_self _, h1.1⟩, fun _ _ => h1.2⟩
  rw [if_neg hw]
  by_cases hlc : (c == '/' && l.input[l.position + 1]? == some '/') = true
  · left
    rw [if_pos hlc]
    have hne : c ≠ '\n' := by
      intro h; subst h; simp at hlc
    obtain ⟨x, hx, ha, hk⟩ := readResult_of_reads (readLineComment_reads l c hc hne)
    exact ⟨x, hx, ha, fun _ _ => hk⟩
  rw [if_neg hlc]
  by_cases hbc : (c == '/' && l.input[l.position + 1]? == some '*') = true
  · left
    rw [if_pos hbc]
    have hlt : l.position + 1 < l.input.length := by
      simp only [Bool.and_eq_true, beq_iff_eq] at hbc
      exact (List.getElem?_eq_some_iff.mp hbc.2).1
    obtain ⟨x, hx, ha, hk⟩ := readResult_of_reads (readBlockComment_reads l hlt)
    exact ⟨x, hx, ha, fun _ _ => hk⟩
  rw [if_neg hbc]
  by_cases hs : (c == '"' || c == '\'') = true
  · right
    rw [if_pos hs]
    refine ⟨by simp only [isQuoteByte, hs, Bool.true_or], fun x hx => ?_⟩
    cases hr : readString l with
    | error e => rw [hr] at hx; cases hx
    | ok y =>
      rw [hr] at hx
      obtain ⟨⟨tok, err⟩, l1⟩ := y
      cases hx
      exact readString_advances l _ hr
  rw [if_neg hs]
  by_cases ht : (c == '\x60') = true
  · right
    rw [if_pos ht]
    refine ⟨by simp only [isQuoteByte, ht, Bool.or_true], fun x hx => ?_⟩
    cases hr : readTemplateLiteral l with
    | error e => rw [hr] at hx; cases hx
    | ok y =>
      rw [hr] at hx
      obtain ⟨⟨tok, err⟩, l1⟩ := y
      cases hx
      exact readTemplateLiteral_advances l h1.1 _ hr
  rw [if_neg ht]
  left
  by_cases hd : isDigit c = true
  · rw [if_pos hd]
    obtain ⟨x, hx, ha, hk⟩ := readResult_of_reads (readNumber_reads l c hc hd)
    exact ⟨x, hx, ha, fun _ _ => hk⟩
  rw [if_neg hd]
  by_cases hal : (isAlpha c || c == '_') = true
  · rw [if_pos hal]
    obtain ⟨x, hx, ha, hk⟩ := readResult_of_reads (readIdentifier_reads l c hc hal)
    exact ⟨x, hx, ha, fun _ _ => hk⟩
  rw [if_neg hal]
  refine ⟨_, rfl, tokenizeOperator_advances l c hc, fun hq hrec => ?_⟩
  apply tokenizeOperator_keepsText l c hc
  simp only [isRecognizedByte, Bool.or_eq_true] at hrec
  simp only [Bool.or_eq_true, not_or] at hal
  rcases hrec with ((((h | h) | h) | h) | h) | h
  · exact absurd h hw
  · exact absurd h hal.1
  · exact absurd h hd
  · exact absurd h hal.2
  · rw [hq] at h; cases h
  · exact h

theorem tokenizeLoop_of_none (fuel : Nat) (l : Lexer) (tokens : List Token)
    (h : l.input[l.position]? = none) :
    tokenizeLoop fuel l tokens = .ok (tokens ++ [eofToken l], none) := by
  cases fuel with
  | zero => rfl
  | succ n => rw [tokenizeLoop, h]; rfl

theorem tokenizeLoop_of_step (fuel : Nat) (l : Lexer) (tokens : List Token) (c : Char)
    (tok : Option Token) (l1 : Lexer) (hc : l.input[l.position]? = some c)
    (hs : tokenizeStep l c = .ok ((tok, none), l1)) :
    tokenizeLoop (fuel + 1) l tokens = tokenizeLoop fuel l1 (tokens ++ tok.toList) := by
  rw [tokenizeLoop, hc]
  simp only [hs]

/-- More fuel than the remaining input calls for changes nothing. -/
theorem tokenizeLoop_succ : ∀ (fuel : Nat) (l : Lexer) (tokens : List Token),
    l.input.length - l.position ≤ fuel →
      tokenizeLoop (fuel + 1) l tokens = tokenizeLoop fuel l tokens := by
  intro fuel
  induction fuel with
  | zero =>
    intro l tokens h
    have hnone : l.input[l.position]? = none := List.getElem?_eq_none (by omega)
    rw [tokenizeLoop_of_none _ _ _ hnone, tokenizeLoop_of_none _ _ _ hnone]
  | succ n ih =>
    intro l tokens h
    cases hc : l.input[l.position]? with
    | none => rw [tokenizeLoop_of_none _ _ _ hc, tokenizeLoop_of_none _ _ _ hc]
    | some c =>
      rw [tokenizeLoop, tokenizeLoop, hc]
      simp only []
      cases hs : tokenizeStep l c with
      | error e => rfl
      | ok x =>
        obtain ⟨⟨tok, err⟩, l1⟩ := x
        have hadv : Advances l ((tok, err), l1) := by
          rcases tokenizeStep_cases l c hc with ⟨y, hy, ha, _⟩ | ⟨_, hall⟩
          · rw [hs] at hy; cases hy; exact ha
          · exact hall _ hs
        obtain ⟨herr, hi, hp, hb⟩ := hadv
        simp only [] at herr hi hp hb
        subst herr
        simp only []
        apply ih
        rw [hi]
        omega

theorem tokenizeLoop_fuel (l : Lexer) (tokens : List Token) :
    ∀ k : Nat, tokenizeLoop (l.input.length - l.position + k) l tokens = lexFrom l tokens := by
  intro k
  induction k with
  | zero => rfl
  | succ k ih => rw [← Nat.add_assoc, tokenizeLoop_succ _ _ _ (by omega), ih]

theorem Tokenize_eq_lexFrom (input : GoString) : Tokenize input = lexFrom (NewLexer input) [] := rfl

theorem lexFrom_of_none (l : Lexer) (tokens : List Token) (h : l.input[l.position]? = none) :
    lexFrom l tokens = .ok (tokens ++ [eofToken l], none) :=
  tokenizeLoop_of_none _ l tokens h

theorem lexFrom_of_step (l : Lexer) (tokens : List Token) (c : Char)
    (tok : Option Token) (l1 : Lexer) (hc : l.input[l.position]? = some c)
    (hs : tokenizeStep l c = .ok ((tok, none), l1)) :
    lexFrom l tokens = lexFrom l1 (tokens ++ tok.toList) := by
  have hadv : Advances l ((tok, none), l1) := by
    rcases tokenizeStep_cases l c hc with ⟨y, hy, ha, _⟩ | ⟨_, hall⟩
    · rw [hs] at hy; cases hy; exact ha
    · exact hall _ hs
  obtain ⟨_, hi, hp, hb⟩ := hadv
  simp only [] at hi hp hb
  have hlt := (List.getElem?_eq_some_iff.mp hc).1
  obtain ⟨k, hk⟩ : ∃ k, l.input.length - l.position = (l1.input.length - l1.position + k) + 1 :=
    ⟨l1.position - l.position - 1, by rw [hi]; omega⟩
  unfold lexFrom
  rw [hk, tokenizeLoop_of_step _ l tokens c tok l1 hc hs, tokenizeLoop_fuel]
  rfl

theorem tokenText_append (a b : List Token) : tokenText (a ++ b) = tokenText a ++ tokenText b := by
  simp [tokenText]

theorem tokenText_toList (t : Option Token) : tokenText t.toList = appendedText t := by
  cases t <;> simp [tokenText, appendedText]

/-- From any lexer inside an input of recognized bytes without quotes, the
loop returns tokens whose texts spell the tokens so far and the rest of the
input. -/
theorem tokenizeLoop_text : ∀ (fuel : Nat) (l : Lexer) (tokens : List Token),
    l.input.length - l.position ≤ fuel →
    (∀ c ∈ l.input, isRecognizedByte c = true ∧ isQuoteByte c = false) →
    ∃ ts, tokenizeLoop fuel l tokens = .ok (ts, none) ∧
      tokenText ts = tokenText tokens ++ l.input.drop l.position := by
  intro fuel
  induction fuel with
  | zero =>
    intro l tokens h _
    have hnone : l.input[l.position]? = none := List.getElem?_eq_none (by omega)
    refine ⟨_, tokenizeLoop_of_none _ _ _ hnone, ?_⟩
    rw [tokenText_append, List.drop_eq_nil_of_le (by omega)]
    simp [tokenText, eofToken]
  | succ n ih =>
    intro l tokens h hall
    cases hc : l.input[l.position]? with
    | none =>
      refine ⟨_, tokenizeLoop_of_none _ _ _ hc, ?_⟩
      rw [tokenText_append, List.drop_eq_nil_of_le (by
        rcases Nat.lt_or_ge l.position l.input.length with hlt | hge
        · rw [List.getElem?_eq_getElem hlt] at hc; cases hc
        · exact hge)]
      simp [tokenText, eofToken]
    | some c =>
      obtain ⟨hrec, hq⟩ := hall c (List.getElem?_mem hc)
      rcases tokenizeStep_cases l c hc with ⟨x, hx, ha, hk⟩ | ⟨hq2, _⟩
      · obtain ⟨⟨tok, err⟩, l1⟩ := x
        obtain ⟨herr, hi, hp, hb⟩ := ha
        simp only [] at herr hi hp hb
        subst herr
        have hk := hk hq hrec
        simp only [KeepsText] at hk
        obtain ⟨ts, hts, htext⟩ := ih l1 (tokens ++ tok.toList) (by rw [hi]; omega)
          (by rw [hi]; exact hall)
        refine ⟨ts, by rw [tokenizeLoop_of_step _ l tokens c tok l1 hc hx]; exact hts, ?_⟩
        rw [htext, tokenText_append, tokenText_toList, hi, List.append_assoc, hk]
      · rw [hq] at hq2; cases hq2

/-- Restricted round trip of the tokenizer. -/
theorem Tokenize_text (input : GoString)
    (h : ∀ c ∈ input, isRecognizedByte c = true ∧ isQuoteByte c = false) :
    ∃ ts, Tokenize input = .ok (ts, none) ∧ tokenText ts = input := by
  obtain ⟨ts, hts, htext⟩ := tokenizeLoop_text input.length (NewLexer input) []
    (by simp [NewLexer]) h
  exact ⟨ts, hts, by simpa [tokenText, NewLexer] using htext⟩

/-! ## Tokenizer: round trip of the token texts -/

/-- C3 (fails as stated): the input `"a"` consists of recognized bytes
only, its tokens are a String token with text `a` and `EOF`, and their texts
spell `a`, not the input: the quotes of a string literal are in no token. -/
theorem roundtrip_fails_on_string :
    ("\"a\"".toList.all isRecognizedByte) = true
      ∧ Tokenize "\"a\"".toList = .ok ([⟨.String, "a".toList, 1, 4⟩, ⟨.EOF, [], 1, 4⟩], none)
      ∧ tokenText [⟨.String, "a".toList, 1, 4⟩, ⟨.EOF, [], 1, 4⟩] ≠ "\"a\"".toList := by
  decide

/-! ## Tokenizer: steps on a known head of the remaining input -/

theorem isDigit_false_of_isAlpha {c : Char} (h : isAlpha c = true) : isDigit c = false := by
  cases hd : isDigit c
  · rfl
  · exfalso
    simp only [isAlpha, isDigit, Bool.or_eq_true, Bool.and_eq_true, decide_eq_true_eq] at h hd
    rcases h with h | h
    · exact absurd (Char.le_trans h.1 hd.2) (by decide)
    · exact absurd (Char.le_trans h.1 hd.2) (by decide)

theorem isIdentStart_facts {c : Char} (h : isIdentStart c = true) :
    isWhitespace c = false ∧ (c == '/') = false ∧ (c == '"' || c == '\'') = false
      ∧ (c == '\x60') = false ∧ isDigit c = false ∧ isIdentByte c = true := by
  simp only [isIdentStart, Bool.or_eq_true] at h
  have side : ∀ d : Char, isIdentStart d = false → (c == d) = false := by
    intro d hd
    cases hcd : c == d
    · rfl
    · have := eq_of_beq hcd
      subst this
      simp only [isIdentStart, Bool.or_eq_false_iff] at hd
      rcases h with h | h
      · rw [hd.1] at h; cases h
      · rw [hd.2] at h; cases h
  have hdig : isDigit c = false := by
    rcases h with h | h
    · exact isDigit_false_of_isAlpha h
    · have := eq_of_beq h
      subst this
      decide
  refine ⟨?_, side _ (by decide), ?_, side _ (by decide), hdig, ?_⟩
  · simp only [isWhitespace, side ' ' (by decide), side '\t' (by decide), side '\r' (by decide),
      side '\n' (by decide), Bool.or_self]
  · simp only [side '"' (by decide), side '\'' (by decide), Bool.or_self]
  · simp only [isIdentByte, isAlphaNumeric, Bool.or_eq_true]
    rcases h with h | h
    · exact Or.inl (Or.inl h)
    · exact Or.inr h

/-- The loop of `readNumber` and `readIdentifier` passes a run `w` of bytes
that satisfy `keep` and stops before the next byte when that one does not. -/
theorem readWhileLoop_run (keep : Char → Bool) :
    ∀ (w : GoString) (fuel : Nat) (l : Lexer) (rest : GoString),
      l.input.drop l.position = w ++ rest → (∀ c ∈ w, keep c = true) →
      (∀ c, rest.head? = some c → keep c = false) → w.length ≤ fuel →
      readWhileLoop keep fuel l
        = { l with position := l.position + w.length, column := l.column + w.length } := by
  intro w
  induction w with
  | nil =>
    intro fuel l rest h _ hrest _
    cases fuel with
    | zero => rfl
    | succ n =>
      rw [readWhileLoop]
      cases rest with
      | nil =>
        have : l.input[l.position]? = none := by
          have := congrArg List.length h
          simp at this
          exact List.getElem?_eq_none (by omega)
        rw [this]
        rfl
      | cons c r =>
        rw [getElem?_of_drop_cons (by simpa using h)]
        simp [hrest c rfl]
  | cons c w ih =>
    intro fuel l rest h hall hrest hfuel
    cases fuel with
    | zero => simp at hfuel
    | succ n =>
      rw [readWhileLoop, getElem?_of_drop_cons (by simpa using h)]
      simp only [hall c (List.mem_cons_self _ _), if_true]
      rw [ih n _ rest (drop_succ_of_drop_cons (by simpa using h))
        (fun d hd => hall d (List.mem_cons_of_mem _ hd)) hrest (by simpa using hfuel)]
      simp only [List.length_cons, Lexer.mk.injEq, true_and]
      omega

theorem lexFrom_cons (l : Lexer) (tokens : List Token) (c : Char) (rest : GoString)
    (tok : Option Token) (l1 : Lexer) (h : l.input.drop l.position = c :: rest)
    (hs : tokenizeStep l c = .ok ((tok, none), l1)) :
    lexFrom l tokens = lexFrom l1 (tokens ++ tok.toList) :=
  lexFrom_of_step l tokens c tok l1 (getElem?_of_drop_cons h) hs

theorem lexFrom_nil (l : Lexer) (tokens : List Token) (h : l.input.drop l.position = []) :
    lexFrom l tokens = .ok (tokens ++ [eofToken l], none) := by
  apply lexFrom_of_none
  have := congrArg List.length h
  simp at this
  exact List.getElem?_eq_none (by omega)

theorem tokenizeStep_space (l : Lexer) :
    tokenizeStep l ' '
      = .ok ((some { Type_ := .Whitespace, Value := [' '], Line := l.line, Column := l.column },
              none), { l with position := l.position + 1, column := l.column + 1 }) := rfl

theorem tokenizeStep_leftBrace (l : Lexer) :
    tokenizeStep l '\x7b'
      = .ok ((some { Type_ := .LeftBrace, Value := ['\x7b'], Line := l.line, Column := l.column },
              none), { l with position := l.position + 1, column := l.column + 1 }) := rfl

theorem tokenizeStep_rightBrace (l : Lexer) :
    tokenizeStep l '\x7d'
      = .ok ((some { Type_ := .RightBrace, Value := ['\x7d'], Line := l.line, Column := l.column },
              none), { l with position := l.position + 1, column := l.column + 1 }) := rfl

theorem lexFrom_spaces : ∀ (k : Nat) (input : GoString) (position line column : Nat)
    (tokens : List Token) (rest : GoString),
    input.drop position = List.replicate k ' ' ++ rest →
    lexFrom ⟨input, position, line, column⟩ tokens
      = lexFrom ⟨input, position + k, line, column + k⟩ (tokens ++ spaceTokens line column k) := by
  intro k
  induction k with
  | zero => intro input position line column tokens rest _; simp [spaceTokens]
  | succ k ih =>
    intro input position line column tokens rest h
    rw [lexFrom_cons _ tokens ' ' (List.replicate k ' ' ++ rest) _ _ h (tokenizeStep_space _)]
    simp only [Option.toList]
    rw [ih input (position + 1) line (column + 1) _ rest (drop_succ_of_drop_cons h)]
    simp only [spaceTokens, List.append_assoc, List.singleton_append]
    congr 2 <;> omega

/-- An identifier or keyword `w` at the head of the remaining input becomes
one token, created after the lexer has passed it. -/
theorem lexFrom_identifier (input : GoString) (position line column : Nat)
    (tokens : List Token) (c : Char) (w rest : GoString)
    (h : input.drop position = c :: w ++ rest) (hc : isIdentStart c = true)
    (hw : ∀ d ∈ w, isIdentByte d = true) (hrest : ∀ d, rest.head? = some d → isIdentByte d = false) :
    lexFrom ⟨input, position, line, column⟩ tokens
      = lexFrom ⟨input, position + (w.length + 1), line, column + (w.length + 1)⟩
          (tokens ++ [{ Type_ := identifierType (c :: w), Value := c :: w, Line := line,
                        Column := column + (w.length + 1) }]) := by
  obtain ⟨f1, f2, f3, f4, f5, f6⟩ := isIdentStart_facts hc
  have hlen : position ≤ input.length := by
    have := lt_length_of_drop_cons (r := w ++ rest) (by simpa using h)
    omega
  have hrun := readWhileLoop_run isIdentByte (c :: w) (input.length - position)
    ⟨input, position, line, column⟩ rest (by simpa using h)
    (by
      intro d hd
      rcases List.mem_cons.mp hd with rfl | hd
      · exact f6
      · exact hw d hd)
    hrest (by
      have := congrArg List.length h
      simp at this
      simp only [List.length_cons]
      omega)
  have hslice := slice_of_drop_append (s := input) (i := position) (w := c :: w) (r := rest)
    (by simpa using h) hlen
  refine lexFrom_cons ⟨input, position, line, column⟩ tokens c (w ++ rest)
    (some { Type_ := identifierType (c :: w), Value := c :: w, Line := line,
            Column := column + (w.length + 1) })
    ⟨input, position + (w.length + 1), line, column + (w.length + 1)⟩ (by simpa using h) ?_
  unfold tokenizeStep
  simp only [f1, f2, f3, f4, f5, Bool.false_and, Bool.false_eq_true, if_false]
  have hc2 : (isAlpha c || c == '_') = true := hc
  rw [if_pos hc2]
  unfold readIdentifier
  have hkeep : (fun c => isAlphaNumeric c || c == '_') = isIdentByte := rfl
  simp only [List.length_cons] at hrun hslice
  simp only [hkeep, hrun, hslice]
  rfl

theorem Tokenize_pageSource (X : GoString) (k : Nat) (hX : isPlainIdentifier X) :
    Tokenize (pageSource X k) = .ok (pageTokens X k, none) := by
  obtain ⟨c, w, rfl, hc, hw, hkw⟩ := hX
  have hty : identifierType (c :: w) = .Identifier := by simp [identifierType, hkw]
  generalize hI : pageSource (c :: w) k = I
  have h0 : I.drop 0
      = 'p' :: ['a', 'g', 'e'] ++ (' ' :: (c :: w ++ (' ' :: '\x7b' ::
          (List.replicate k ' ' ++ '\x7d' :: [])))) := by rw [← hI]; rfl
  have h1 : I.drop 4 = ' ' :: (c :: w ++ (' ' :: '\x7b' :: (List.replicate k ' ' ++ '\x7d' :: []))) :=
    drop_add_of_drop_append (w := ['p', 'a', 'g', 'e']) h0
  have h2 : I.drop 5 = c :: w ++ (' ' :: '\x7b' :: (List.replicate k ' ' ++ '\x7d' :: [])) :=
    drop_succ_of_drop_cons h1
  have h3 : I.drop (5 + (w.length + 1))
      = ' ' :: '\x7b' :: (List.replicate k ' ' ++ '\x7d' :: []) :=
    drop_add_of_drop_append (w := c :: w) h2
  have h4 := drop_succ_of_drop_cons h3
  have h5 := drop_succ_of_drop_cons h4
  have h6 := drop_add_of_drop_append (w := List.replicate k ' ') h5
  have h7 := drop_succ_of_drop_cons h6
  rw [Tokenize_eq_lexFrom, NewLexer]
  refine (lexFrom_identifier I 0 1 1 [] 'p' ['a', 'g', 'e'] _ h0 (by decide) (by decide)
      (by intro d hd; cases hd; decide)).trans ?_
  refine (lexFrom_cons ⟨I, 4, 1, 5⟩ _ ' ' _ _ _ h1 (tokenizeStep_space _)).trans ?_
  refine (lexFrom_identifier I 5 1 6 _ c w _ h2 hc hw (by intro d hd; cases hd; decide)).trans ?_
  refine (lexFrom_cons ⟨I, 5 + (w.length + 1), 1, 6 + (w.length + 1)⟩ _ ' ' _ _ _ h3
      (tokenizeStep_space _)).trans ?_
  refine (lexFrom_cons ⟨I, 5 + (w.length + 1) + 1, 1, 6 + (w.length + 1) + 1⟩ _ '\x7b' _ _ _ h4
      (tokenizeStep_leftBrace _)).trans ?_
  refine (lexFrom_spaces k I (5 + (w.length + 1) + 1 + 1) 1 (6 + (w.length + 1) + 1 + 1) _ _
      h5).trans ?_
  refine (lexFrom_cons ⟨I, 5 + (w.length + 1) + 1 + 1 + k, 1,
      6 + (w.length + 1) + 1 + 1 + k⟩ _ '\x7d' _ _ _ (by simpa using h6)
      (tokenizeStep_rightBrace _)).trans ?_
  refine (lexFrom_nil _ _ (by simpa using h7)).trans ?_
  simp only [pageTokens, eofToken, hty, Option.toList, List.nil_append, List.append_assoc,
    List.cons_append, List.length_cons, String.toList]
  have e1 : identifierType ['p', 'a', 'g', 'e'] = .Page := by decide
  have a1 : 6 + (w.length + 1) + 1 = 7 + (w.length + 1) := by omega
  have a2 : 7 + (w.length + 1) + 1 = 8 + (w.length + 1) := by omega
  have a3 : 8 + (w.length + 1) + k + 1 = 9 + (w.length + 1) + k := by omega
  simp only [a1, a2, a3, e1, List.length_nil]

/-! ## Parser: a page followed by braces around whitespace -/

theorem shift_mk (pre ts : List Token) (c : Nat) :
    Parser.shift pre { tokens := ts, current := c }
      = { tokens := pre ++ ts, current := pre.length + c } := by
  unfold Parser.shift
  rfl

/-- Inside a block every second token of a run of unrecognized tokens is
passed by `parseBlock` itself: after a run `ws` of Whitespace tokens the
block loop stops on the closing brace when `ws` has even length, and past it
when the length is odd. -/
theorem parseBlockLoop_whitespace (rb eof : Token) (hrb : rb.Type_ = .RightBrace)
    (heof : eof.Type_ = .EOF) (n : Nat) :
    ∀ (k : Nat) (ws : List Token), ws.length = k → (∀ t ∈ ws, t.Type_ = .Whitespace) →
      ∀ m : Nat, k + 1 ≤ m →
      parseBlockLoop (parseStatement (n + 1)) m { tokens := ws ++ [rb, eof], current := 0 } []
        = some (([], none), { tokens := ws ++ [rb, eof], current := k + k % 2 }) := by
  intro k
  induction k using Nat.strong_induction_on with
  | _ k ih =>
    intro ws hk hws m hm
    obtain ⟨m, rfl⟩ : ∃ m', m = m' + 1 := ⟨m - 1, by omega⟩
    match ws, hk, hws with
    | [], hk, _ =>
      subst hk
      rw [parseBlockLoop]
      simp [Parser.check, Parser.isAtEnd, hrb]
    | [w], hk, hws =>
      subst hk
      have hw : w.Type_ = .Whitespace := hws w (List.mem_singleton_self w)
      obtain ⟨m, rfl⟩ : ∃ m', m = m' + 1 := ⟨m - 1, by simp at hm; omega⟩
      have hskip := parseStatement_skip w [rb, eof] (by rw [hw]; decide) (by rw [hw]; decide) n
      rw [NewParser] at hskip
      rw [parseBlockLoop]
      simp only [List.singleton_append, hskip]
      rw [parseBlockLoop]
      simp [Parser.check, Parser.isAtEnd, hw, hrb, heof, Parser.skip, Parser.advance]
    | w1 :: w2 :: ws, hk, hws =>
      have hw1 : w1.Type_ = .Whitespace := hws w1 (by simp)
      have hw2 : w2.Type_ = .Whitespace := hws w2 (by simp)
      have hskip := parseStatement_skip w1 (w2 :: (ws ++ [rb, eof])) (by rw [hw1]; decide)
        (by rw [hw1]; decide) n
      rw [NewParser] at hskip
      simp only [List.length_cons] at hk
      have hrec := ih ws.length (by omega) ws rfl (fun t ht => hws t (by simp [ht])) m
        (by omega)
      rw [parseBlockLoop]
      have hcond : (!Parser.check { tokens := w1 :: w2 :: (ws ++ [rb, eof]), current := 0 }
          .RightBrace && !Parser.isAtEnd { tokens := w1 :: w2 :: (ws ++ [rb, eof]), current := 0 })
          = true := by
        simp [Parser.check, Parser.isAtEnd, hw1]
      have hskip2 : Parser.skip { tokens := w1 :: w2 :: (ws ++ [rb, eof]), current := 1 }
          = Parser.shift [w1, w2] { tokens := ws ++ [rb, eof], current := 0 } := by
        rw [shift_mk]
        simp [Parser.skip, Parser.advance, Parser.isAtEnd, hw2]
      simp only [List.cons_append] at hskip ⊢
      rw [if_pos hcond, hskip]
      simp only []
      rw [hskip2, parseBlockLoop_shift (parseStatement_shift (n + 1)) [w1, w2] m _ [], hrec]
      simp only [shiftResult_some, shift_mk, List.cons_append, List.nil_append]
      congr 3
      simp only [List.length_cons, List.length_nil]
      omega

/-- The braces of a block whose content is a run of Whitespace tokens: the
block tail of a sub-parser passes both braces and stops on `EOF`. -/
theorem bracedBlock_whitespace (lb rb eof : Token) (hlb : lb.Type_ = .LeftBrace)
    (hrb : rb.Type_ = .RightBrace) (heof : eof.Type_ = .EOF) (ws : List Token)
    (hws : ∀ t ∈ ws, t.Type_ = .Whitespace) (f : Nat) (hf : ws.length + 1 ≤ f) :
    bracedBlock (fun q => parseBlockLoop (parseStatement f) f q [])
        { tokens := lb :: (ws ++ [rb, eof]), current := 0 }
      = some ([], Parser.shift (lb :: ws) { tokens := [rb, eof], current := 1 }) := by
  obtain ⟨n, rfl⟩ : ∃ n, f = n + 1 := ⟨f - 1, by omega⟩
  have hblock := parseBlockLoop_whitespace rb eof hrb heof n ws.length ws rfl hws (n + 1) hf
  have hskip : Parser.skip { tokens := lb :: (ws ++ [rb, eof]), current := 0 }
      = Parser.shift [lb] { tokens := ws ++ [rb, eof], current := 0 } := by
    rw [shift_mk]
    simp [Parser.skip, Parser.advance, Parser.isAtEnd, hlb]
  have hend : ({ tokens := ws ++ [rb, eof], current := ws.length + ws.length % 2 } : Parser)
      = Parser.shift ws { tokens := [rb, eof], current := ws.length % 2 } := by
    rw [shift_mk]
  have hcheck : Parser.check { tokens := lb :: (ws ++ [rb, eof]), current := 0 } .LeftBrace
      = true := by
    simp [Parser.check, Parser.isAtEnd, hlb]
  unfold bracedBlock
  rw [if_pos hcheck, hskip]
  simp only []
  rw [parseBlockLoop_shift (parseStatement_shift (n + 1)) [lb] (n + 1) _ [], hblock, hend]
  simp only [shiftResult_some, check_shift, skip_shift]
  rcases Nat.mod_two_eq_zero_or_one ws.length with h | h
  · rw [h]
    have h1 : Parser.check { tokens := [rb, eof], current := 0 } .RightBrace = true := by
      simp [Parser.check, Parser.isAtEnd, hrb]
    have h2 : Parser.skip { tokens := [rb, eof], current := 0 }
        = { tokens := [rb, eof], current := 1 } := by
      simp [Parser.skip, Parser.advance, Parser.isAtEnd, hrb]
    simp only [h1, h2, if_true, shift_mk, List.cons_append, List.nil_append, List.length_cons,
      List.length_nil]
    congr 3
    omega
  · rw [h]
    have h1 : Parser.check { tokens := [rb, eof], current := 1 } .RightBrace = false := by
      simp [Parser.check, Parser.isAtEnd, heof]
    simp only [h1, shift_mk, List.cons_append, List.nil_append, List.length_cons,
      List.length_nil]
    simp only [Bool.false_eq_true, if_false]
    congr 3
    omega

/-- On the tokens `page`, Whitespace, Identifier, Whitespace, an opening
brace, a run of Whitespace tokens, a closing brace and `EOF`, the call of
`parsePage` after the keyword returns the page with the cursor on `EOF`. -/
theorem parsePage_braces (pageTok ws1 x ws2 lb rb eof : Token)
    (h1 : ws1.Type_ = .Whitespace) (hx : x.Type_ = .Identifier) (h2 : ws2.Type_ = .Whitespace)
    (hlb : lb.Type_ = .LeftBrace) (hrb : rb.Type_ = .RightBrace) (heof : eof.Type_ = .EOF)
    (ws : List Token) (hws : ∀ t ∈ ws, t.Type_ = .Whitespace) (f : Nat)
    (hf : ws.length + 4 ≤ f) :
    parsePage (fun q => parseBlockLoop (parseStatement f) f q []) f
        { tokens := pageTok :: ws1 :: x :: ws2 :: lb :: (ws ++ [rb, eof]), current := 1 }
      = some ((some (.PageNode [] [] []), none),
          { tokens := pageTok :: ws1 :: x :: ws2 :: lb :: (ws ++ [rb, eof]),
            current := ws.length + 6 }) := by
  obtain ⟨g, rfl⟩ : ∃ g, f = g + 4 := ⟨f - 4, by omega⟩
  have hname : Parser.optionalName
      { tokens := pageTok :: ws1 :: x :: ws2 :: lb :: (ws ++ [rb, eof]), current := 1 }
      = ([], { tokens := pageTok :: ws1 :: x :: ws2 :: lb :: (ws ++ [rb, eof]), current := 1 }) := by
    simp [Parser.optionalName, Parser.peekIs, Parser.peek, Parser.isAtEnd, h1]
  have hattrs : parsePageAttributes (g + 4)
      { tokens := pageTok :: ws1 :: x :: ws2 :: lb :: (ws ++ [rb, eof]), current := 1 } []
      = some ([], Parser.shift [pageTok, ws1, x, ws2]
          { tokens := lb :: (ws ++ [rb, eof]), current := 0 }) := by
    rw [shift_mk]
    simp [parsePageAttributes, Parser.check, Parser.isAtEnd, Parser.peekIs, Parser.peek,
      Parser.skip, Parser.advance, Parser.advanceValue, Parser.previous, h1, hx, h2, hlb]
  unfold parsePage
  simp only [hname, hattrs]
  rw [bracedBlock_shift (fun pre q => parseBlockLoop_shift (parseStatement_shift (g + 4)) pre
      (g + 4) q []) [pageTok, ws1, x, ws2],
    bracedBlock_whitespace lb rb eof hlb hrb heof ws hws (g + 4) (by omega)]
  simp only [shiftResult_some, shift_mk, List.cons_append, List.nil_append, List.length_cons,
    List.length_nil]
  have e : 0 + 1 + 1 + 1 + 1 + (ws.length + 1 + 1) = ws.length + 6 := by omega
  rw [e]

/-- `Parse` on the same tokens returns a program with exactly one page. -/
theorem Parse_page_braces (pageTok ws1 x ws2 lb rb eof : Token) (hp : pageTok.Type_ = .Page)
    (h1 : ws1.Type_ = .Whitespace) (hx : x.Type_ = .Identifier) (h2 : ws2.Type_ = .Whitespace)
    (hlb : lb.Type_ = .LeftBrace) (hrb : rb.Type_ = .RightBrace) (heof : eof.Type_ = .EOF)
    (ws : List Token) (hws : ∀ t ∈ ws, t.Type_ = .Whitespace) (fuel : Nat)
    (hf : ws.length + 6 ≤ fuel) :
    Parse fuel (pageTok :: ws1 :: x :: ws2 :: lb :: (ws ++ [rb, eof]))
      = some (some (.ProgramNode [.PageNode [] [] []]), none) := by
  obtain ⟨f, rfl⟩ : ∃ f, fuel = f + 2 := ⟨fuel - 2, by omega⟩
  have hpage := parsePage_braces pageTok ws1 x ws2 lb rb eof h1 hx h2 hlb hrb heof ws hws f
    (by omega)
  have hmatch : Parser.match_
      { tokens := pageTok :: ws1 :: x :: ws2 :: lb :: (ws ++ [rb, eof]), current := 0 } [.Page]
      = (true, { tokens := pageTok :: ws1 :: x :: ws2 :: lb :: (ws ++ [rb, eof]), current := 1 }) := by
    simp [Parser.match_, Parser.check, Parser.isAtEnd, Parser.advance, hp]
  have hstmt : parseStatement (f + 1)
      { tokens := pageTok :: ws1 :: x :: ws2 :: lb :: (ws ++ [rb, eof]), current := 0 }
      = some ((some (.PageNode [] [] []), none),
          { tokens := pageTok :: ws1 :: x :: ws2 :: lb :: (ws ++ [rb, eof]),
            current := ws.length + 6 }) := by
    rw [parseStatement]
    simp only [hmatch, if_true]
    exact hpage
  have hend : Parser.isAtEnd
      { tokens := pageTok :: ws1 :: x :: ws2 :: lb :: (ws ++ [rb, eof]),
        current := ws.length + 6 } = true := by
    have hsh : Parser.mk (pageTok :: ws1 :: x :: ws2 :: lb :: (ws ++ [rb, eof])) (ws.length + 6)
        = Parser.shift (pageTok :: ws1 :: x :: ws2 :: lb :: ws)
            { tokens := [rb, eof], current := 1 } := by
      rw [shift_mk]
      simp only [List.cons_append, List.length_cons, Parser.mk.injEq, true_and]
    rw [hsh, isAtEnd_shift]
    simp [Parser.isAtEnd, heof]
  have hstart : Parser.isAtEnd
      { tokens := pageTok :: ws1 :: x :: ws2 :: lb :: (ws ++ [rb, eof]), current := 0 }
      = false := by
    simp [Parser.isAtEnd, hp]
  unfold Parse
  rw [NewParser, parseLoop]
  simp only [hstart, Bool.not_false, if_true, hstmt]
  obtain ⟨f, rfl⟩ : ∃ g, f = g + 1 := ⟨f - 1, by omega⟩
  rw [parseLoop]
  simp [hend]

theorem length_spaceTokens (line : Nat) : ∀ (k column : Nat),
    (spaceTokens line column k).length = k := by
  intro k
  induction k with
  | zero => intro column; rfl
  | succ k ih => intro column; simp [spaceTokens, ih]

theorem type_spaceTokens (line : Nat) : ∀ (k column : Nat),
    ∀ t ∈ spaceTokens line column k, t.Type_ = .Whitespace := by
  intro k
  induction k with
  | zero => intro column t ht; simp [spaceTokens] at ht
  | succ k ih =>
    intro column t ht
    simp only [spaceTokens, List.mem_cons] at ht
    rcases ht with rfl | ht
    · rfl
    · exact ih _ t ht

/-- C10: for every non-keyword identifier `X` and every number `k` of spaces
between the braces, the source `page X \x7b`, `k` spaces, `\x7d` is
tokenized to `pageTokens X k`; on these tokens the call of `parsePage` after
the keyword passes both braces and returns with the cursor on the `EOF`
token (index `k + 6`), given fuel `k + 4` or more; and `Parse` returns a
program with exactly one page, whose body is empty, given fuel `k + 6` or
more. -/
theorem parse_page_braces (X : GoString) (k : Nat) (hX : isPlainIdentifier X) :
    Tokenize (pageSource X k) = .ok (pageTokens X k, none)
      ∧ (∀ f, k + 4 ≤ f →
          parsePage (fun q => parseBlockLoop (parseStatement f) f q []) f
              { tokens := pageTokens X k, current := 1 }
            = some ((some (.PageNode [] [] []), none),
                { tokens := pageTokens X k, current := k + 6 }))
      ∧ (pageTokens X k)[k + 6]? = some ⟨.EOF, [], 1, 9 + X.length + k⟩
      ∧ (∀ fuel, k + 6 ≤ fuel →
          Parse fuel (pageTokens X k) = some (some (.ProgramNode [.PageNode [] [] []]), none)) := by
  have hlen := length_spaceTokens 1 k (8 + X.length)
  have hty := type_spaceTokens 1 k (8 + X.length)
  refine ⟨Tokenize_pageSource X k hX, ?_, ?_, ?_⟩
  · intro f hf
    have := parsePage_braces ⟨.Page, "page".toList, 1, 5⟩ ⟨.Whitespace, " ".toList, 1, 5⟩
      ⟨.Identifier, X, 1, 6 + X.length⟩ ⟨.Whitespace, " ".toList, 1, 6 + X.length⟩
      ⟨.LeftBrace, "\x7b".toList, 1, 7 + X.length⟩ ⟨.RightBrace, "\x7d".toList, 1, 8 + X.length + k⟩
      ⟨.EOF, [], 1, 9 + X.length + k⟩ rfl rfl rfl rfl rfl rfl
      (spaceTokens 1 (8 + X.length) k) hty f (by omega)
    rw [hlen] at this
    exact this
  · have e : k + 6 = (5 + k) + 1 := by omega
    simp only [pageTokens, List.cons_append, List.nil_append, List.getElem?_cons_succ, e]
    rw [show 5 + k = k + 1 + 1 + 1 + 1 + 1 from by omega]
    simp only [List.getElem?_cons_succ]
    rw [List.getElem?_append_right (by omega)]
    simp [hlen]
  · intro fuel hf
    exact Parse_page_braces ⟨.Page, "page".toList, 1, 5⟩ ⟨.Whitespace, " ".toList, 1, 5⟩
      ⟨.Identifier, X, 1, 6 + X.length⟩ ⟨.Whitespace, " ".toList, 1, 6 + X.length⟩
      ⟨.LeftBrace, "\x7b".toList, 1, 7 + X.length⟩ ⟨.RightBrace, "\x7d".toList, 1, 8 + X.length + k⟩
      ⟨.EOF, [], 1, 9 + X.length + k⟩ rfl rfl rfl rfl rfl rfl rfl
      (spaceTokens 1 (8 + X.length) k) hty fuel (by omega)

/-- Witness of C10 at `X = Home` and three spaces. -/
theorem parse_page_braces_witness :
    Tokenize (pageSource "Home".toList 3) = .ok (pageTokens "Home".toList 3, none)
      ∧ Parse 9 (pageTokens "Home".toList 3)
          = some (some (.ProgramNode [.PageNode [] [] []]), none) :=
  have h := parse_page_braces "Home".toList 3
    ⟨'H', "ome".toList, rfl, by decide, by decide, by decide⟩
  ⟨h.1, h.2.2.2 9 (by decide)⟩

/-! ## Whole pipeline: a page with a title -/

/-- The loop of `readString` passes a run `body` of bytes that are neither
the quote nor a backslash. -/
theorem readQuotedLoop_run (quote : Char) :
    ∀ (body : GoString) (fuel : Nat) (l : Lexer) (rest : GoString),
      l.input.drop l.position = body ++ quote :: rest →
      (∀ c ∈ body, c ≠ quote ∧ c ≠ '\\') → body.length ≤ fuel →
      readQuotedLoop quote fuel l
        = { l with position := l.position + body.length, column := l.column + body.length } := by
  intro body
  induction body with
  | nil =>
    intro fuel l rest h _ _
    cases fuel with
    | zero => rfl
    | succ n =>
      rw [readQuotedLoop, getElem?_of_drop_cons (by simpa using h)]
      simp
  | cons c body ih =>
    intro fuel l rest h hall hfuel
    cases fuel with
    | zero => simp at hfuel
    | succ n =>
      obtain ⟨hq, hb⟩ := hall c (List.mem_cons_self _ _)
      have hne : (c != quote) = true := by simp [hq]
      have hbs : ¬ ((c == '\\' && decide (l.position + 1 < l.input.length)) = true) := by
        simp [hb]
      rw [readQuotedLoop, getElem?_of_drop_cons (by simpa using h)]
      simp only []
      rw [if_pos hne, if_neg hbs,
        ih n { l with position := l.position + 1, column := l.column + 1 } rest
          (drop_succ_of_drop_cons (by simpa using h))
          (fun d hd => hall d (List.mem_cons_of_mem _ hd)) (by simpa using hfuel)]
      simp only [List.length_cons, Lexer.mk.injEq, true_and]
      omega

/-- A double-quoted literal whose content has no double quote and no
backslash becomes one String token holding the content. -/
theorem lexFrom_string (input : GoString) (position line column : Nat)
    (tokens : List Token) (body rest : GoString)
    (h : input.drop position = '"' :: (body ++ '"' :: rest))
    (hbody : ∀ c ∈ body, c ≠ '"' ∧ c ≠ '\\') :
    lexFrom ⟨input, position, line, column⟩ tokens
      = lexFrom ⟨input, position + 1 + body.length + 1, line, column + 1 + body.length + 1⟩
          (tokens ++ [{ Type_ := .String, Value := body, Line := line,
                        Column := column + 1 + body.length + 1 }]) := by
  have hc := getElem?_of_drop_cons h
  have h1 := drop_succ_of_drop_cons h
  have hlt := lt_length_of_drop_cons h
  have hlen := congrArg List.length h1
  simp only [List.length_drop, List.length_append, List.length_cons] at hlen
  have hrun := readQuotedLoop_run '"' body (input.length - (position + 1))
    ⟨input, position + 1, line, column + 1⟩ rest h1 hbody (by omega)
  have hslice := slice_of_drop_append (s := input) (i := position + 1) (w := body)
    (r := '"' :: rest) h1 (by omega)
  refine lexFrom_cons ⟨input, position, line, column⟩ tokens '"' (body ++ '"' :: rest)
    (some { Type_ := .String, Value := body, Line := line,
            Column := column + 1 + body.length + 1 })
    ⟨input, position + 1 + body.length + 1, line, column + 1 + body.length + 1⟩ h ?_
  have hstep : tokenizeStep ⟨input, position, line, column⟩ '"'
      = readResult (readString ⟨input, position, line, column⟩) := rfl
  rw [hstep]
  unfold readString
  simp only [hc, hrun]
  have hlt2 : position + 1 + body.length < input.length := by omega
  simp only [hlt2, if_true, Nat.add_sub_cancel, hslice]
  rfl

theorem tokenizeStep_assign (l : Lexer) (h : l.input[l.position + 1]? = some '"') :
    tokenizeStep l '='
      = .ok ((some { Type_ := .Assign, Value := ['='], Line := l.line, Column := l.column },
              none), { l with position := l.position + 1, column := l.column + 1 }) := by
  have hstep : tokenizeStep l '=' = .ok (tokenizeOperator l '=') := rfl
  rw [hstep]
  unfold tokenizeOperator
  simp [h, emitToken]

theorem Tokenize_titleSource (T : GoString) (hT : ∀ c ∈ T, c ≠ '"' ∧ c ≠ '\\') :
    Tokenize (titleSource T) = .ok (titleTokens T, none) := by
  generalize hI : titleSource T = I
  have h0 : I.drop 0 = 'p' :: ['a', 'g', 'e'] ++ (' ' :: ('H' :: ['o', 'm', 'e'] ++ (' ' ::
      ('t' :: ['i', 't', 'l', 'e'] ++ ('=' :: ('"' :: (T ++ '"' :: ' ' :: '\x7b' :: ' ' ::
        '\x7d' :: []))))))) := by rw [← hI]; rfl
  have h1 := drop_add_of_drop_append (w := ['p', 'a', 'g', 'e']) h0
  have h2 := drop_succ_of_drop_cons h1
  have h3 := drop_add_of_drop_append (w := ['H', 'o', 'm', 'e']) h2
  have h4 := drop_succ_of_drop_cons h3
  have h5 := drop_add_of_drop_append (w := ['t', 'i', 't', 'l', 'e']) h4
  have h6 := drop_succ_of_drop_cons h5
  have h7 : I.drop (16 + 1 + T.length) = '"' :: ' ' :: '\x7b' :: ' ' :: '\x7d' :: [] :=
    drop_add_of_drop_append (w := T) (drop_succ_of_drop_cons h6)
  have h8 := drop_succ_of_drop_cons h7
  have h9 := drop_succ_of_drop_cons h8
  have h10 := drop_succ_of_drop_cons h9
  have h11 := drop_succ_of_drop_cons h10
  have h12 := drop_succ_of_drop_cons h11
  rw [Tokenize_eq_lexFrom, NewLexer]
  refine (lexFrom_identifier I 0 1 1 [] 'p' ['a', 'g', 'e'] _ h0 (by decide) (by decide)
      (by intro d hd; cases hd; decide)).trans ?_
  refine (lexFrom_cons ⟨I, 4, 1, 5⟩ _ ' ' _ _ _ h1 (tokenizeStep_space _)).trans ?_
  refine (lexFrom_identifier I 5 1 6 _ 'H' ['o', 'm', 'e'] _ h2 (by decide) (by decide)
      (by intro d hd; cases hd; decide)).trans ?_
  refine (lexFrom_cons ⟨I, 9, 1, 10⟩ _ ' ' _ _ _ h3 (tokenizeStep_space _)).trans ?_
  refine (lexFrom_identifier I 10 1 11 _ 't' ['i', 't', 'l', 'e'] _ h4 (by decide) (by decide)
      (by intro d hd; cases hd; decide)).trans ?_
  refine (lexFrom_cons ⟨I, 15, 1, 16⟩ _ '=' _ _ _ h5
      (tokenizeStep_assign _ (getElem?_of_drop_cons h6))).trans ?_
  refine (lexFrom_string I 16 1 17 _ T _ h6 hT).trans ?_
  refine (lexFrom_cons ⟨I, 16 + 1 + T.length + 1, 1, 17 + 1 + T.length + 1⟩ _ ' ' _ _ _ h8
      (tokenizeStep_space _)).trans ?_
  refine (lexFrom_cons ⟨I, 16 + 1 + T.length + 1 + 1, 1, 17 + 1 + T.length + 1 + 1⟩ _ '\x7b'
      _ _ _ h9 (tokenizeStep_leftBrace _)).trans ?_
  refine (lexFrom_cons ⟨I, 16 + 1 + T.length + 1 + 1 + 1, 1, 17 + 1 + T.length + 1 + 1 + 1⟩ _ ' '
      _ _ _ h10 (tokenizeStep_space _)).trans ?_
  refine (lexFrom_cons ⟨I, 16 + 1 + T.length + 1 + 1 + 1 + 1, 1,
      17 + 1 + T.length + 1 + 1 + 1 + 1⟩ _ '\x7d' _ _ _ h11 (tokenizeStep_rightBrace _)).trans ?_
  refine (lexFrom_nil _ _ h12).trans ?_
  have e1 : identifierType ['p', 'a', 'g', 'e'] = .Page := by decide
  have e2 : identifierType ['H', 'o', 'm', 'e'] = .Identifier := by decide
  have e3 : identifierType ['t', 'i', 't', 'l', 'e'] = .Identifier := by decide
  have a1 : 17 + 1 + T.length + 1 = 19 + T.length := by omega
  have a2 : 19 + T.length + 1 = 20 + T.length := by omega
  have a3 : 20 + T.length + 1 = 21 + T.length := by omega
  have a4 : 21 + T.length + 1 = 22 + T.length := by omega
  have a5 : 22 + T.length + 1 = 23 + T.length := by omega
  simp only [titleTokens, eofToken, e1, e2, e3, Option.toList, List.nil_append,
    List.append_assoc, List.cons_append, List.length_cons, List.length_nil, String.toList,
    a1, a2, a3, a4, a5]

theorem Generate_title (T : GoString) :
    Generate NewCodeGenerator (.ProgramNode [.PageNode [] [("title".toList, T)] []])
      = (none, { htmlOutput := titleMarkup T, cssOutput := [], jsOutput := [],
                 components := [], styles := [], scripts := [] }) := by
  simp only [Generate, Accept, acceptEach, pageHead, pageTail, GoMap.get?, CodeGenerator.html,
    NewCodeGenerator, titleMarkup, List.find?, List.nil_append, List.append_assoc,
    beq_self_eq_true, Option.map_some']

/-- On the tokens of `page Home title="T" \x7b \x7d` the call of `parsePage`
after the keyword returns the page with the title attribute. -/
theorem parsePage_title (pageTok ws1 home ws2 title assign str ws3 lb ws4 rb eof : Token)
    (h1 : ws1.Type_ = .Whitespace) (hh : home.Type_ = .Identifier) (h2 : ws2.Type_ = .Whitespace)
    (ht : title.Type_ = .Identifier) (ha : assign.Type_ = .Assign) (hs : str.Type_ = .String)
    (h3 : ws3.Type_ = .Whitespace) (hlb : lb.Type_ = .LeftBrace) (h4 : ws4.Type_ = .Whitespace)
    (hrb : rb.Type_ = .RightBrace) (heof : eof.Type_ = .EOF) (f : Nat) (hf : 8 ≤ f) :
    parsePage (fun q => parseBlockLoop (parseStatement f) f q []) f
        { tokens := pageTok :: ws1 :: home :: ws2 :: title :: assign :: str :: ws3 :: lb
            :: ([ws4] ++ [rb, eof]), current := 1 }
      = some ((some (.PageNode [] [(title.Value, str.Value)] []), none),
          { tokens := pageTok :: ws1 :: home :: ws2 :: title :: assign :: str :: ws3 :: lb
            :: ([ws4] ++ [rb, eof]), current := 11 }) := by
  obtain ⟨g, rfl⟩ : ∃ g, f = g + 8 := ⟨f - 8, by omega⟩
  have hname : Parser.optionalName
      { tokens := pageTok :: ws1 :: home :: ws2 :: title :: assign :: str :: ws3 :: lb
          :: ([ws4] ++ [rb, eof]), current := 1 }
      = ([], { tokens := pageTok :: ws1 :: home :: ws2 :: title :: assign :: str :: ws3 :: lb
          :: ([ws4] ++ [rb, eof]), current := 1 }) := by
    simp [Parser.optionalName, Parser.peekIs, Parser.peek, Parser.isAtEnd, h1]
  have hattrs : parsePageAttributes (g + 8)
      { tokens := pageTok :: ws1 :: home :: ws2 :: title :: assign :: str :: ws3 :: lb
          :: ([ws4] ++ [rb, eof]), current := 1 } []
      = some ([(title.Value, str.Value)],
          Parser.shift [pageTok, ws1, home, ws2, title, assign, str, ws3]
            { tokens := lb :: ([ws4] ++ [rb, eof]), current := 0 }) := by
    rw [shift_mk]
    simp [parsePageAttributes, Parser.check, Parser.isAtEnd, Parser.peekIs, Parser.peek,
      Parser.skip, Parser.advance, Parser.advanceValue, Parser.previous, GoMap.set,
      h1, hh, h2, ht, ha, hs, h3, hlb]
  unfold parsePage
  simp only [hname, hattrs]
  rw [bracedBlock_shift (fun pre q => parseBlockLoop_shift (parseStatement_shift (g + 8)) pre
      (g + 8) q []) [pageTok, ws1, home, ws2, title, assign, str, ws3],
    bracedBlock_whitespace lb rb eof hlb hrb heof [ws4] (by simpa using h4) (g + 8)
      (by simp)]
  simp only [shiftResult_some, shift_mk, List.cons_append, List.nil_append, List.length_cons,
    List.length_nil]

theorem Parse_title (pageTok ws1 home ws2 title assign str ws3 lb ws4 rb eof : Token)
    (hp : pageTok.Type_ = .Page)
    (h1 : ws1.Type_ = .Whitespace) (hh : home.Type_ = .Identifier) (h2 : ws2.Type_ = .Whitespace)
    (ht : title.Type_ = .Identifier) (ha : assign.Type_ = .Assign) (hs : str.Type_ = .String)
    (h3 : ws3.Type_ = .Whitespace) (hlb : lb.Type_ = .LeftBrace) (h4 : ws4.Type_ = .Whitespace)
    (hrb : rb.Type_ = .RightBrace) (heof : eof.Type_ = .EOF) (fuel : Nat) (hf : 10 ≤ fuel) :
    Parse fuel (pageTok :: ws1 :: home :: ws2 :: title :: assign :: str :: ws3 :: lb
        :: ([ws4] ++ [rb, eof]))
      = some (some (.ProgramNode [.PageNode [] [(title.Value, str.Value)] []]), none) := by
  obtain ⟨f, rfl⟩ : ∃ f, fuel = f + 2 := ⟨fuel - 2, by omega⟩
  have hpage := parsePage_title pageTok ws1 home ws2 title assign str ws3 lb ws4 rb eof
    h1 hh h2 ht ha hs h3 hlb h4 hrb heof f (by omega)
  have hmatch : Parser.match_
      { tokens := pageTok :: ws1 :: home :: ws2 :: title :: assign :: str :: ws3 :: lb
          :: ([ws4] ++ [rb, eof]), current := 0 } [.Page]
      = (true, { tokens := pageTok :: ws1 :: home :: ws2 :: title :: assign :: str :: ws3 :: lb
          :: ([ws4] ++ [rb, eof]), current := 1 }) := by
    simp [Parser.match_, Parser.check, Parser.isAtEnd, Parser.advance, hp]
  have hstmt : parseStatement (f + 1)
      { tokens := pageTok :: ws1 :: home :: ws2 :: title :: assign :: str :: ws3 :: lb
          :: ([ws4] ++ [rb, eof]), current := 0 }
      = some ((some (.PageNode [] [(title.Value, str.Value)] []), none),
          { tokens := pageTok :: ws1 :: home :: ws2 :: title :: assign :: str :: ws3 :: lb
            :: ([ws4] ++ [rb, eof]), current := 11 }) := by
    rw [parseStatement]
    simp only [hmatch, if_true]
    exact hpage
  have hend : Parser.isAtEnd
      { tokens := pageTok :: ws1 :: home :: ws2 :: title :: assign :: str :: ws3 :: lb
          :: ([ws4] ++ [rb, eof]), current := 11 } = true := by
    simp [Parser.isAtEnd, heof]
  have hstart : Parser.isAtEnd
      { tokens := pageTok :: ws1 :: home :: ws2 :: title :: assign :: str :: ws3 :: lb
          :: ([ws4] ++ [rb, eof]), current := 0 } = false := by
    simp [Parser.isAtEnd, hp]
  unfold Parse
  rw [NewParser, parseLoop]
  simp only [hstart, Bool.not_false, if_true, hstmt]
  obtain ⟨f, rfl⟩ : ∃ g, f = g + 1 := ⟨f - 1, by omega⟩
  rw [parseLoop]
  simp only [hend, Bool.not_true, Bool.false_eq_true, if_false, Option.map_some',
    List.nil_append]

/-- C8: for every title text `T` without double quote and backslash,
compiling `page Home title="T" \x7b \x7d` succeeds (given fuel 10 or more)
with the markup `titleMarkup T`, the fixed skeleton with the one line
`  <title>T</title>` in the head and only the two script tags in the body,
and with empty style and script outputs. -/
theorem compile_page_title (T : GoString) (hT : ∀ c ∈ T, c ≠ '"' ∧ c ≠ '\\') (fuel : Nat)
    (hf : 10 ≤ fuel) :
    Compile fuel (titleSource T) = some (.ok ⟨true, titleMarkup T, [], [], [], []⟩) := by
  have hparse : Parse fuel (titleTokens T)
      = some (some (.ProgramNode [.PageNode [] [("title".toList, T)] []]), none) :=
    Parse_title _ _ _ _ _ _ _ _ _ _ _ _ rfl rfl rfl rfl rfl rfl rfl rfl rfl rfl rfl rfl fuel hf
  unfold Compile compileInternal
  simp only [Tokenize_titleSource T hT, hparse, Generate_title T]
  rfl

set_option maxRecDepth 100000 in
/-- Witness of C8: the instance `T = Hi` of the specification. -/
theorem compile_page_title_witness :
    Compile 10 "page Home title=\"Hi\" \x7b \x7d".toList
      = some (.ok ⟨true,
          ("<!DOCTYPE html>\n<html lang=\"en\">\n<head>\n  <meta charset=\"UTF-8\">\n"
            ++ "  <meta name=\"viewport\" content=\"width=device-width, initial-scale=1.0\">\n"
            ++ "  <title>Hi</title>\n"
            ++ "  <link rel=\"stylesheet\" href=\"css/theme.css\">\n"
            ++ "  <link rel=\"stylesheet\" href=\"css/emadocs.css\">\n"
            ++ "  <link rel=\"stylesheet\" href=\"styles.css\">\n</head>\n<body>\n"
            ++ "  <script src=\"js/emadocs.js\"></script>\n"
            ++ "  <script src=\"script.js\"></script>\n</body>\n</html>").toList,
          [], [], [], []⟩) :=
  compile_page_title "Hi".toList (by decide) 10 (by decide)

/-! ## Tokenizer: the iteration bounds of the reader loops are not binding -/

/-- The iteration bound of the loop of `readLineComment` is never what ends
it: with the remaining input as fuel, more fuel gives the same lexer. -/
theorem readLineCommentLoop_succ : ∀ (fuel : Nat) (l : Lexer),
    l.input.length - l.position ≤ fuel →
      readLineCommentLoop (fuel + 1) l = readLineCommentLoop fuel l := by
  intro fuel
  induction fuel with
  | zero =>
    intro l h
    have hn : l.input[l.position]? = none := List.getElem?_eq_none (by omega)
    simp only [readLineCommentLoop, hn]
  | succ n ih =>
    intro l h
    rw [readLineCommentLoop]
    conv_rhs => rw [readLineCommentLoop]
    cases hc : l.input[l.position]? with
    | none => rfl
    | some c =>
      simp only []
      split
      · exact ih _ (by simp only []; omega)
      · rfl

/-- The same for the loop of `readNumber` and `readIdentifier`. -/
theorem readWhileLoop_succ (keep : Char → Bool) : ∀ (fuel : Nat) (l : Lexer),
    l.input.length - l.position ≤ fuel →
      readWhileLoop keep (fuel + 1) l = readWhileLoop keep fuel l := by
  intro fuel
  induction fuel with
  | zero =>
    intro l h
    have hn : l.input[l.position]? = none := List.getElem?_eq_none (by omega)
    simp only [readWhileLoop, hn]
  | succ n ih =>
    intro l h
    rw [readWhileLoop]
    conv_rhs => rw [readWhileLoop]
    cases hc : l.input[l.position]? with
    | none => rfl
    | some c =>
      simp only []
      split
      · exact ih _ (by simp only []; omega)
      · rfl

/-- The same for the loop of `readString` and `readTemplateLiteral`. -/
theorem readQuotedLoop_succ (quote : Char) : ∀ (fuel : Nat) (l : Lexer),
    l.input.length - l.position ≤ fuel →
      readQuotedLoop quote (fuel + 1) l = readQuotedLoop quote fuel l := by
  intro fuel
  induction fuel with
  | zero =>
    intro l h
    have hn : l.input[l.position]? = none := List.getElem?_eq_none (by omega)
    simp only [readQuotedLoop, hn]
  | succ n ih =>
    intro l h
    rw [readQuotedLoop]
    conv_rhs => rw [readQuotedLoop]
    cases hc : l.input[l.position]? with
    | none => rfl
    | some c =>
      simp only []
      split
      · split
        · exact ih _ (by simp only []; omega)
        · exact ih _ (by simp only []; omega)
      · rfl

/-- The same for the loop of `readBlockComment`. -/
theorem readBlockCommentLoop_succ : ∀ (fuel : Nat) (l : Lexer),
    l.input.length - l.position ≤ fuel →
      readBlockCommentLoop (fuel + 1) l = readBlockCommentLoop fuel l := by
  intro fuel
  induction fuel with
  | zero =>
    intro l h
    have hn : ¬ (l.position + 1 < l.input.length) := by omega
    simp only [readBlockCommentLoop, if_neg hn]
  | succ n ih =>
    intro l h
    rw [readBlockCommentLoop]
    conv_rhs => rw [readBlockCommentLoop]
    split
    · split
      · rfl
      · split
        · exact ih _ (by simp only []; omega)
        · exact ih _ (by simp only []; omega)
    · rfl

/-! ## Parser: more fuel returns the same result -/

theorem ite_returns {α : Type} {c : Prop} [Decidable c] {a b a1 b1 : Option α} {r : α}
    (ha : a = some r → a1 = some r) (hb : b = some r → b1 = some r) :
    (if c then a else b) = some r → (if c then a1 else b1) = some r := by
  split
  · exact ha
  · exact hb

theorem parsePageAttributes_mono : ∀ (n : Nat) (p : Parser) (a : GoMap) (r : GoMap × Parser),
    parsePageAttributes n p a = some r → parsePageAttributes (n + 1) p a = some r := by
  intro n
  induction n with
  | zero => intro p a r h; cases h
  | succ n ih =>
    intro p a r h
    rw [parsePageAttributes] at h
    rw [parsePageAttributes]
    revert h
    refine ite_returns (ite_returns (ite_returns (ite_returns ?_ ?_) ?_) ?_) (fun h => h)
    all_goals exact ih _ _ _

theorem parseNameList_mono (close : TokenType) :
    ∀ (n : Nat) (p : Parser) (a : List GoString) (r : List GoString × Parser),
    parseNameList close n p a = some r → parseNameList close (n + 1) p a = some r := by
  intro n
  induction n with
  | zero => intro p a r h; cases h
  | succ n ih =>
    intro p a r h
    rw [parseNameList] at h
    rw [parseNameList]
    revert h
    refine ite_returns ?_ (fun h => h)
    exact ih _ _ _

theorem parseParametersLoop_mono : ∀ (n : Nat) (p : Parser) (r : ListResult × Parser),
    parseParametersLoop n p = some r → parseParametersLoop (n + 1) p = some r := by
  intro n
  induction n with
  | zero => intro p r h; cases h
  | succ n ih =>
    intro p r h
    rw [parseParametersLoop] at h
    rw [parseParametersLoop]
    revert h
    refine ite_returns ?_ (fun h => h)
    exact ih _ _

theorem bracedBlock_mono {b b1 : BlockParser} (hb : ReturnsMore b b1) :
    ReturnsMore (bracedBlock b) (bracedBlock b1) := by
  intro p r h
  unfold bracedBlock at h ⊢
  revert h
  refine ite_returns ?_ (fun h => h)
  intro h
  cases hq : b p.skip with
  | none => rw [hq] at h; cases h
  | some x => rw [hq] at h; rw [hb _ _ hq]; exact h

theorem parsePage_mono {b b1 : BlockParser} (hb : ReturnsMore b b1) (n : Nat) :
    ReturnsMore (parsePage b n) (parsePage b1 (n + 1)) := by
  intro p r h
  unfold parsePage at h ⊢
  simp only [] at h ⊢
  cases ha : parsePageAttributes n p.optionalName.2 [] with
  | none => rw [ha] at h; cases h
  | some x =>
    rw [ha] at h
    rw [parsePageAttributes_mono _ _ _ _ ha]
    simp only [] at h ⊢
    cases hq : bracedBlock b x.2 with
    | none => rw [hq] at h; cases h
    | some y => rw [hq] at h; rw [bracedBlock_mono hb _ _ hq]; exact h

theorem parseStyle_mono {b b1 : BlockParser} (hb : ReturnsMore b b1) :
    ReturnsMore (parseStyle b) (parseStyle b1) := by
  intro p r h
  unfold parseStyle at h ⊢
  simp only [] at h ⊢
  cases hq : bracedBlock b p.optionalName.2 with
  | none => rw [hq] at h; cases h
  | some y => rw [hq] at h; rw [bracedBlock_mono hb _ _ hq]; exact h

theorem parseState_mono {b b1 : BlockParser} (hb : ReturnsMore b b1) :
    ReturnsMore (parseState b) (parseState b1) := by
  intro p r h
  unfold parseState at h ⊢
  simp only [] at h ⊢
  cases hq : bracedBlock b p.optionalName.2 with
  | none => rw [hq] at h; cases h
  | some y => rw [hq] at h; rw [bracedBlock_mono hb _ _ hq]; exact h

theorem parseApi_mono {b b1 : BlockParser} (hb : ReturnsMore b b1) :
    ReturnsMore (parseApi b) (parseApi b1) := by
  intro p r h
  unfold parseApi at h ⊢
  simp only [] at h ⊢
  cases hq : bracedBlock b p.optionalName.2 with
  | none => rw [hq] at h; cases h
  | some y => rw [hq] at h; rw [bracedBlock_mono hb _ _ hq]; exact h

theorem parseRouter_mono {b b1 : BlockParser} (hb : ReturnsMore b b1) :
    ReturnsMore (parseRouter b) (parseRouter b1) := by
  intro p r h
  unfold parseRouter at h ⊢
  cases hq : bracedBlock b p with
  | none => rw [hq] at h; cases h
  | some y => rw [hq] at h; rw [bracedBlock_mono hb _ _ hq]; exact h

theorem parseLayout_mono {b b1 : BlockParser} (hb : ReturnsMore b b1) :
    ReturnsMore (parseLayout b) (parseLayout b1) := by
  intro p r h
  unfold parseLayout at h ⊢
  simp only [] at h ⊢
  cases hq : bracedBlock b p.optionalName.2 with
  | none => rw [hq] at h; cases h
  | some y => rw [hq] at h; rw [bracedBlock_mono hb _ _ hq]; exact h

theorem parseAnimation_mono {b b1 : BlockParser} (hb : ReturnsMore b b1) :
    ReturnsMore (parseAnimation b) (parseAnimation b1) := by
  intro p r h
  unfold parseAnimation at h ⊢
  simp only [] at h ⊢
  cases hq : bracedBlock b p.optionalName.2 with
  | none => rw [hq] at h; cases h
  | some y => rw [hq] at h; rw [bracedBlock_mono hb _ _ hq]; exact h

theorem parseEvent_mono {b b1 : BlockParser} (hb : ReturnsMore b b1) :
    ReturnsMore (parseEvent b) (parseEvent b1) := by
  intro p r h
  unfold parseEvent at h ⊢
  simp only [] at h ⊢
  revert h
  generalize (if p.optionalName.2.peekIsOn = true then p.optionalName.2.skip.optionalName.2
    else p.optionalName.2) = p2
  intro h
  cases hq : bracedBlock b p2 with
  | none => rw [hq] at h; cases h
  | some y => rw [hq] at h; rw [bracedBlock_mono hb _ _ hq]; exact h

theorem parseComponent_mono {b b1 : BlockParser} (hb : ReturnsMore b b1) (n : Nat) :
    ReturnsMore (parseComponent b n) (parseComponent b1 (n + 1)) := by
  intro p r h
  unfold parseComponent at h ⊢
  simp only [] at h ⊢
  by_cases hc : p.optionalName.2.check .Less = true
  · simp only [hc, if_true] at h ⊢
    cases ha : parseNameList .Greater n p.optionalName.2.skip [] with
    | none => rw [ha] at h; cases h
    | some x =>
      rw [ha] at h
      rw [parseNameList_mono _ _ _ _ _ ha]
      simp only [] at h ⊢
      revert h
      generalize (if x.2.check .Greater = true then x.2.skip else x.2) = p3
      intro h
      cases hq : bracedBlock b p3 with
      | none => rw [hq] at h; cases h
      | some y => rw [hq] at h; rw [bracedBlock_mono hb _ _ hq]; exact h
  · simp only [if_neg hc] at h ⊢
    cases hq : bracedBlock b p.optionalName.2 with
    | none => rw [hq] at h; cases h
    | some y => rw [hq] at h; rw [bracedBlock_mono hb _ _ hq]; exact h

theorem parseHook_mono {b b1 : BlockParser} (hb : ReturnsMore b b1) (n : Nat) :
    ReturnsMore (parseHook b n) (parseHook b1 (n + 1)) := by
  intro p r h
  unfold parseHook parseParameters at h ⊢
  simp only [] at h ⊢
  by_cases hc : p.optionalName.2.check .LeftParen = true
  · simp only [hc, if_true] at h ⊢
    cases ha : parseParametersLoop n p.optionalName.2.skip with
    | none => rw [ha] at h; cases h
    | some x =>
      rw [ha] at h
      rw [parseParametersLoop_mono _ _ _ ha]
      simp only [] at h ⊢
      revert h
      generalize (if x.2.check .RightParen = true then x.2.skip else x.2) = p3
      intro h
      cases hq : bracedBlock b p3 with
      | none => rw [hq] at h; cases h
      | some y => rw [hq] at h; rw [bracedBlock_mono hb _ _ hq]; exact h
  · simp only [if_neg hc] at h ⊢
    cases hq : bracedBlock b p.optionalName.2 with
    | none => rw [hq] at h; cases h
    | some y => rw [hq] at h; rw [bracedBlock_mono hb _ _ hq]; exact h

theorem parseImport_mono (n : Nat) : ReturnsMore (parseImport n) (parseImport (n + 1)) := by
  intro p r h
  unfold parseImport at h ⊢
  cases ha : parseNameList .From n p [] with
  | none => rw [ha] at h; cases h
  | some x => rw [ha] at h; rw [parseNameList_mono _ _ _ _ _ ha]; exact h

theorem parseExport_mono (n : Nat) : ReturnsMore (parseExport n) (parseExport (n + 1)) := by
  intro p r h
  unfold parseExport at h ⊢
  simp only [] at h ⊢
  cases ha : parseNameList .From n (if p.peekIsDefault = true then p.skip else p) [] with
  | none => rw [ha] at h; cases h
  | some x => rw [ha] at h; rw [parseNameList_mono _ _ _ _ _ ha]; exact h

theorem parseBlockLoop_mono {s s1 : Parser → Option (NodeResult × Parser)}
    (hs : ReturnsMore s s1) :
    ∀ (n : Nat) (p : Parser) (a : List ASTNode) (r : ListResult × Parser),
      parseBlockLoop s n p a = some r → parseBlockLoop s1 (n + 1) p a = some r := by
  intro n
  induction n with
  | zero => intro p a r h; cases h
  | succ n ih =>
    intro p a r h
    rw [parseBlockLoop] at h
    rw [parseBlockLoop]
    revert h
    refine ite_returns ?_ (fun h => h)
    intro h
    cases hq : s p with
    | none => rw [hq] at h; cases h
    | some x =>
      rw [hq] at h
      rw [hs _ _ hq]
      obtain ⟨⟨node, err⟩, p1⟩ := x
      cases err with
      | some e => cases node <;> exact h
      | none =>
        cases node with
        | none => exact ih _ _ _ h
        | some st => exact ih _ _ _ h

theorem parseStatement_mono : ∀ n : Nat,
    ReturnsMore (parseStatement n) (parseStatement (n + 1)) := by
  intro n
  induction n with
  | zero => intro p r h; cases h
  | succ n ih =>
    intro p r h
    have hb : ReturnsMore (fun q => parseBlockLoop (parseStatement n) n q [])
        (fun q => parseBlockLoop (parseStatement (n + 1)) (n + 1) q []) :=
      fun q r h => parseBlockLoop_mono ih n q [] r h
    rw [parseStatement] at h
    rw [parseStatement]
    revert h
    refine ite_returns (parsePage_mono hb n _ _) ?_
    refine ite_returns (parseComponent_mono hb n _ _) ?_
    refine ite_returns (parseStyle_mono hb _ _) ?_
    refine ite_returns (parseEvent_mono hb _ _) ?_
    refine ite_returns (parseState_mono hb _ _) ?_
    refine ite_returns (parseApi_mono hb _ _) ?_
    refine ite_returns (parseRouter_mono hb _ _) ?_
    refine ite_returns (parseLayout_mono hb _ _) ?_
    refine ite_returns (parseAnimation_mono hb _ _) ?_
    refine ite_returns (fun h => h) ?_
    refine ite_returns (parseHook_mono hb n _ _) ?_
    refine ite_returns (fun h => h) ?_
    refine ite_returns (fun h => h) ?_
    refine ite_returns (parseImport_mono n _ _) ?_
    refine ite_returns (parseExport_mono n _ _) ?_
    exact fun h => h

theorem parseLoop_mono : ∀ (n : Nat) (p : Parser) (a : List ASTNode) (r : NodeResult × Parser),
    parseLoop n p a = some r → parseLoop (n + 1) p a = some r := by
  intro n
  induction n with
  | zero => intro p a r h; cases h
  | succ n ih =>
    intro p a r h
    rw [parseLoop] at h
    rw [parseLoop]
    revert h
    refine ite_returns ?_ (fun h => h)
    intro h
    cases hq : parseStatement n p with
    | none => rw [hq] at h; cases h
    | some x =>
      rw [hq] at h
      rw [parseStatement_mono n _ _ hq]
      obtain ⟨⟨node, err⟩, p1⟩ := x
      cases err with
      | some e => cases node <;> exact h
      | none =>
        cases node with
        | none => exact ih _ _ _ h
        | some st => exact ih _ _ _ h

/-- Once `Parse` returns with some fuel it returns the same with more. -/
theorem Parse_mono (tokens : List Token) (r : NodeResult) (n : Nat)
    (h : Parse n tokens = some r) : ∀ m, n ≤ m → Parse m tokens = some r := by
  have step : ∀ k, Parse (n + k) tokens = some r := by
    intro k
    induction k with
    | zero => exact h
    | succ k ih =>
      unfold Parse at ih ⊢
      cases hq : parseLoop (n + k) (NewParser tokens) [] with
      | none => rw [hq] at ih; cases ih
      | some x =>
        rw [hq] at ih
        rw [← Nat.add_assoc, parseLoop_mono _ _ _ _ hq]
        exact ih
  intro m hm
  obtain ⟨k, rfl⟩ : ∃ k, m = n + k := ⟨m - n, by omega⟩
  exact step k

/-- What `Parse` returns does not depend on the fuel. -/
theorem ParsesTo_unique (tokens : List Token) (r r1 : NodeResult)
    (h : ParsesTo tokens r) (h1 : ParsesTo tokens r1) : r = r1 := by
  obtain ⟨n, hn⟩ := h
  obtain ⟨m, hm⟩ := h1
  have a := Parse_mono tokens r n hn (n + m) (by omega)
  have b := Parse_mono tokens r1 m hm (n + m) (by omega)
  rw [a] at b
  exact Option.some.inj b

theorem compileInternal_mono (input : GoString) (r : Except Failure Outputs) (n : Nat)
    (h : compileInternal n input = some r) : ∀ m, n ≤ m → compileInternal m input = some r := by
  intro m hm
  unfold compileInternal at h ⊢
  cases ht : Tokenize input with
  | error e => rw [ht] at h; exact h
  | ok x =>
    obtain ⟨tokens, err⟩ := x
    rw [ht] at h
    cases err with
    | some e => exact h
    | none =>
      simp only [] at h ⊢
      cases hp : Parse n tokens with
      | none => rw [hp] at h; cases h
      | some y => rw [hp] at h; rw [Parse_mono tokens y n hp m hm]; exact h

/-- Once `Compile` returns with some fuel it returns the same with more. -/
theorem Compile_mono (input : GoString) (r : Except Failure CompileResult) (n : Nat)
    (h : Compile n input = some r) : ∀ m, n ≤ m → Compile m input = some r := by
  intro m hm
  unfold Compile at h ⊢
  cases hc : compileInternal n input with
  | none => rw [hc] at h; cases h
  | some x => rw [hc] at h; rw [compileInternal_mono input x n hc m hm]; exact h

/-! ## The retained Whitespace tokens in the parser -/

/-- C4 (fails on the code): the tokens of `page X \x7b\x7d` parse to a page
with the empty name (whatever fuel suffices), the same tokens without the
Whitespace tokens to a page named `X`. -/
theorem parse_keeps_whitespace :
    Tokenize "page X \x7b\x7d".toList
        = .ok ([⟨.Page, "page".toList, 1, 5⟩, ⟨.Whitespace, " ".toList, 1, 5⟩,
                ⟨.Identifier, "X".toList, 1, 7⟩, ⟨.Whitespace, " ".toList, 1, 7⟩,
                ⟨.LeftBrace, "\x7b".toList, 1, 8⟩, ⟨.RightBrace, "\x7d".toList, 1, 9⟩,
                ⟨.EOF, [], 1, 10⟩], none)
      ∧ (∀ fuel, 6 ≤ fuel →
          Parse fuel [⟨.Page, "page".toList, 1, 5⟩, ⟨.Whitespace, " ".toList, 1, 5⟩,
                ⟨.Identifier, "X".toList, 1, 7⟩, ⟨.Whitespace, " ".toList, 1, 7⟩,
                ⟨.LeftBrace, "\x7b".toList, 1, 8⟩, ⟨.RightBrace, "\x7d".toList, 1, 9⟩,
                ⟨.EOF, [], 1, 10⟩]
            = some (some (.ProgramNode [.PageNode [] [] []]), none))
      ∧ (∀ fuel, 6 ≤ fuel →
          Parse fuel (stripTrivia [⟨.Page, "page".toList, 1, 5⟩, ⟨.Whitespace, " ".toList, 1, 5⟩,
                ⟨.Identifier, "X".toList, 1, 7⟩, ⟨.Whitespace, " ".toList, 1, 7⟩,
                ⟨.LeftBrace, "\x7b".toList, 1, 8⟩, ⟨.RightBrace, "\x7d".toList, 1, 9⟩,
                ⟨.EOF, [], 1, 10⟩])
            = some (some (.ProgramNode [.PageNode "X".toList [] []]), none)) :=
  ⟨by decide, Parse_mono _ _ 6 (by rfl), Parse_mono _ _ 6 (by rfl)⟩

set_option maxRecDepth 100000 in
/-- C5 (fails on the code): compiling `component Foo \x7b \x7d` yields
(whatever fuel suffices) the output of a component with the empty name,
selector `.ema-` and registration of `ema-`, because the Whitespace token
after `component` keeps `parseComponent` from reading the name; neither
`.ema-foo` nor the registration of `ema-foo` occurs in the output. -/
theorem compile_component_loses_name :
    (∀ fuel, 9 ≤ fuel →
        Compile fuel "component Foo \x7b \x7d".toList
          = some (.ok ⟨true, [],
              (VisitComponent [] [] [] [] [] [] none NewCodeGenerator).cssOutput,
              (VisitComponent [] [] [] [] [] [] none NewCodeGenerator).jsOutput, [], []⟩))
      ∧ (VisitComponent [] [] [] [] [] [] none NewCodeGenerator).cssOutput
          = ("/*  Component */\n.ema- \x7b\n  display: block;\n  position: relative;\n"
              ++ "  box-sizing: border-box;\n\x7d\n\n").toList
      ∧ ¬ (".ema-foo".toList <:+: (VisitComponent [] [] [] [] [] [] none NewCodeGenerator).cssOutput)
      ∧ ¬ ("customElements.define('ema-foo', EmaFoo);".toList
            <:+: (VisitComponent [] [] [] [] [] [] none NewCodeGenerator).jsOutput) := by
  refine ⟨Compile_mono _ _ 9 (by decide), by decide, by decide, by decide⟩

set_option maxRecDepth 100000 in
/-- C6 (fails on the code): `component Foo \x7b state \x7d` and
`component Foo \x7b\x7d` compile (whatever fuel suffices) to different script
outputs: the component sub-parser does not reach the brace behind the
Whitespace token, so the body is parsed at top level and `state` emits a
state object. -/
theorem compile_component_body_leaks :
    (∀ fuel, 11 ≤ fuel →
        Compile fuel "component Foo \x7b\x7d".toList
          = some (.ok ⟨true, [],
              (VisitComponent [] [] [] [] [] [] none NewCodeGenerator).cssOutput,
              (VisitComponent [] [] [] [] [] [] none NewCodeGenerator).jsOutput, [], []⟩))
      ∧ (∀ fuel, 11 ≤ fuel →
        Compile fuel "component Foo \x7b state \x7d".toList
          = some (.ok ⟨true, [],
              (VisitComponent [] [] [] [] [] [] none NewCodeGenerator).cssOutput,
              (VisitComponent [] [] [] [] [] [] none NewCodeGenerator).jsOutput
                ++ ("// State: \nconst  = \x7b\n  // State properties will be generated here\n"
                    ++ "\x7d;\n").toList, [], []⟩))
      ∧ (∀ fuel, 11 ≤ fuel →
        Compile fuel "component Foo \x7b state \x7d".toList
          ≠ Compile fuel "component Foo \x7b\x7d".toList) := by
  have h1 := Compile_mono "component Foo \x7b\x7d".toList
    (.ok ⟨true, [],
      (VisitComponent [] [] [] [] [] [] none NewCodeGenerator).cssOutput,
      (VisitComponent [] [] [] [] [] [] none NewCodeGenerator).jsOutput, [], []⟩) 11 (by decide)
  have h2 := Compile_mono "component Foo \x7b state \x7d".toList
    (.ok ⟨true, [],
      (VisitComponent [] [] [] [] [] [] none NewCodeGenerator).cssOutput,
      (VisitComponent [] [] [] [] [] [] none NewCodeGenerator).jsOutput
        ++ ("// State: \nconst  = \x7b\n  // State properties will be generated here\n"
            ++ "\x7d;\n").toList, [], []⟩) 11 (by decide)
  refine ⟨h1, h2, fun fuel hf => ?_⟩
  rw [h1 fuel hf, h2 fuel hf]
  decide

/-! ## Emitter: the text appended by each handler -/

theorem append_assoc_gen (g a b : CodeGenerator) :
    (g.append a).append b = g.append (a.append b) := by
  simp only [List.append_assoc, CodeGenerator.append]

theorem pageHead_append (Attributes : GoMap) (g : CodeGenerator) :
    pageHead Attributes g = g.append (pageHead Attributes NewCodeGenerator) := by
  unfold pageHead
  cases Attributes.get? "title".toList <;>
    simp only [List.nil_append, List.append_nil, List.append_assoc, CodeGenerator.append, CodeGenerator.html, NewCodeGenerator]

theorem pageTail_append (g : CodeGenerator) :
    pageTail g = g.append (pageTail NewCodeGenerator) := by
  unfold pageTail
  simp only [List.nil_append, List.append_nil, List.append_assoc, CodeGenerator.append, CodeGenerator.html, NewCodeGenerator]

mutual
theorem Accept_append : ∀ (node : ASTNode) (g : CodeGenerator),
    Accept node g = g.append (Accept node NewCodeGenerator)
  | .ProgramNode Statements, g => by
    rw [Accept, Accept]; exact acceptEach_append Statements g
  | .PageNode _ Attributes Body, g => by
    rw [Accept, Accept, pageTail_append, acceptEach_append Body, pageHead_append,
      pageTail_append (acceptEach Body (pageHead Attributes NewCodeGenerator)),
      acceptEach_append Body (pageHead Attributes NewCodeGenerator)]
    simp only [append_assoc_gen]
  | .ComponentNode .., g => by
    simp only [List.nil_append, List.append_nil, List.append_assoc, Accept, VisitComponent, CodeGenerator.append, CodeGenerator.css, CodeGenerator.js,
      NewCodeGenerator]
  | .StyleNode .., g => by
    simp only [List.nil_append, List.append_nil, List.append_assoc, Accept, VisitStyle, CodeGenerator.append, CodeGenerator.css, NewCodeGenerator]
  | .EventNode .., g => by
    simp only [List.nil_append, List.append_nil, List.append_assoc, Accept, VisitEvent, CodeGenerator.append, CodeGenerator.js, NewCodeGenerator]
  | .StateNode .., g => by
    simp only [List.nil_append, List.append_nil, List.append_assoc, Accept, VisitState, CodeGenerator.append, CodeGenerator.js, NewCodeGenerator]
  | .ApiNode .., g => by
    simp only [List.nil_append, List.append_nil, List.append_assoc, Accept, VisitApi, CodeGenerator.append, CodeGenerator.js, NewCodeGenerator]
  | .RouterNode .., g => by
    simp only [List.nil_append, List.append_nil, List.append_assoc, Accept, VisitRouter, CodeGenerator.append, CodeGenerator.js, NewCodeGenerator]
  | .RouteNode .., g => by
    simp only [List.nil_append, List.append_nil, List.append_assoc, Accept, VisitRoute, CodeGenerator.append, NewCodeGenerator]
  | .LayoutNode .., g => by
    simp only [List.nil_append, List.append_nil, List.append_assoc, Accept, VisitLayout, CodeGenerator.append, CodeGenerator.js, NewCodeGenerator]
  | .AnimationNode .., g => by
    simp only [List.nil_append, List.append_nil, List.append_assoc, Accept, VisitAnimation, CodeGenerator.append, CodeGenerator.css, NewCodeGenerator]
  | .TypeNode .., g => by
    simp only [List.nil_append, List.append_nil, List.append_assoc, Accept, VisitType, CodeGenerator.append, CodeGenerator.js, NewCodeGenerator]
  | .HookNode .., g => by
    simp only [List.nil_append, List.append_nil, List.append_assoc, Accept, VisitHook, CodeGenerator.append, CodeGenerator.js, NewCodeGenerator]
  | .PluginNode .., g => by
    simp only [List.nil_append, List.append_nil, List.append_assoc, Accept, VisitPlugin, CodeGenerator.append, CodeGenerator.js, NewCodeGenerator]
  | .ConfigNode .., g => by
    simp only [List.nil_append, List.append_nil, List.append_assoc, Accept, VisitConfig, CodeGenerator.append, CodeGenerator.js, NewCodeGenerator]
  | .ImportNode Specifiers Source, g => by
    simp only [Accept, VisitImport, writeSpecifiers]
    split <;> split <;>
      simp only [List.nil_append, List.append_nil, List.append_assoc, CodeGenerator.append,
        CodeGenerator.js, NewCodeGenerator, Bool.false_eq_true, if_false, if_true]
  | .ExportNode Specifiers Source IsDefault, g => by
    simp only [Accept, VisitExport, writeSpecifiers]
    cases IsDefault <;> split <;> split <;>
      simp only [List.nil_append, List.append_nil, List.append_assoc, CodeGenerator.append,
        CodeGenerator.js, NewCodeGenerator, Bool.false_eq_true, if_false, if_true]
  | .ElementNode .., g => by
    simp only [List.nil_append, List.append_nil, List.append_assoc, Accept, VisitElement, CodeGenerator.append, NewCodeGenerator]
  | .TextNode .., g => by
    simp only [List.nil_append, List.append_nil, List.append_assoc, Accept, VisitText, CodeGenerator.append, NewCodeGenerator]
  | .ExpressionNode .., g => by
    simp only [List.nil_append, List.append_nil, List.append_assoc, Accept, VisitExpression, CodeGenerator.append, NewCodeGenerator]
theorem acceptEach_append : ∀ (nodes : List ASTNode) (g : CodeGenerator),
    acceptEach nodes g = g.append (acceptEach nodes NewCodeGenerator)
  | [], g => by
    simp only [List.nil_append, List.append_nil, List.append_assoc, acceptEach, CodeGenerator.append, NewCodeGenerator]
  | node :: nodes, g => by
    rw [acceptEach, acceptEach, acceptEach_append nodes (Accept node g), Accept_append node g,
      acceptEach_append nodes (Accept node NewCodeGenerator), append_assoc_gen]
end

theorem acceptEach_concat : ∀ (xs ys : List ASTNode) (g : CodeGenerator),
    acceptEach (xs ++ ys) g = acceptEach ys (acceptEach xs g)
  | [], ys, g => by rw [List.nil_append, acceptEach]
  | x :: xs, ys, g => by
    rw [List.cons_append, acceptEach, acceptEach, acceptEach_concat xs ys]

/-- C15: emitting `Program(xs ++ ys)` on fresh buffers gives, in each of the
markup, style and script buffers, the text of `Program(xs)` followed by the
text of `Program(ys)`; emitting `Program([])` returns no error and leaves the
three buffers empty. -/
theorem program_emission_concat (xs ys : List ASTNode) :
    (Generate NewCodeGenerator (.ProgramNode (xs ++ ys))).2.GetHTML
        = (Generate NewCodeGenerator (.ProgramNode xs)).2.GetHTML
          ++ (Generate NewCodeGenerator (.ProgramNode ys)).2.GetHTML
      ∧ (Generate NewCodeGenerator (.ProgramNode (xs ++ ys))).2.GetCSS
        = (Generate NewCodeGenerator (.ProgramNode xs)).2.GetCSS
          ++ (Generate NewCodeGenerator (.ProgramNode ys)).2.GetCSS
      ∧ (Generate NewCodeGenerator (.ProgramNode (xs ++ ys))).2.GetJS
        = (Generate NewCodeGenerator (.ProgramNode xs)).2.GetJS
          ++ (Generate NewCodeGenerator (.ProgramNode ys)).2.GetJS
      ∧ VisitProgram (xs ++ ys) NewCodeGenerator
        = (VisitProgram xs NewCodeGenerator).append (VisitProgram ys NewCodeGenerator)
      ∧ Generate NewCodeGenerator (.ProgramNode []) = (none, NewCodeGenerator)
      ∧ (Generate NewCodeGenerator (.ProgramNode [])).2.GetHTML = []
      ∧ (Generate NewCodeGenerator (.ProgramNode [])).2.GetCSS = []
      ∧ (Generate NewCodeGenerator (.ProgramNode [])).2.GetJS = [] := by
  have key : acceptEach (xs ++ ys) NewCodeGenerator
      = (acceptEach xs NewCodeGenerator).append (acceptEach ys NewCodeGenerator) := by
    rw [acceptEach_concat, acceptEach_append ys]
  simp only [Generate, Accept, CodeGenerator.GetHTML, CodeGenerator.GetCSS, CodeGenerator.GetJS,
    VisitProgram, key, acceptEach]
  simp only [CodeGenerator.append, NewCodeGenerator, and_self]

mutual
theorem Accept_html_of_not_containsPage : ∀ (node : ASTNode) (g : CodeGenerator),
    containsPage node = false → (Accept node g).htmlOutput = g.htmlOutput
  | .ProgramNode Statements, g, h => by
    rw [containsPage] at h
    rw [Accept]
    exact acceptEach_html_of_not_containsPage Statements g h
  | .PageNode _ _ _, g, h => by
    rw [containsPage] at h
    exact absurd h (by decide)
  | .ComponentNode .., g, _ => by
    simp only [Accept, VisitComponent, CodeGenerator.css, CodeGenerator.js]
  | .StyleNode .., g, _ => by simp only [Accept, VisitStyle, CodeGenerator.css]
  | .EventNode .., g, _ => by simp only [Accept, VisitEvent, CodeGenerator.js]
  | .StateNode .., g, _ => by simp only [Accept, VisitState, CodeGenerator.js]
  | .ApiNode .., g, _ => by simp only [Accept, VisitApi, CodeGenerator.js]
  | .RouterNode .., g, _ => by simp only [Accept, VisitRouter, CodeGenerator.js]
  | .RouteNode .., g, _ => by simp only [Accept, VisitRoute]
  | .LayoutNode .., g, _ => by simp only [Accept, VisitLayout, CodeGenerator.js]
  | .AnimationNode .., g, _ => by simp only [Accept, VisitAnimation, CodeGenerator.css]
  | .TypeNode .., g, _ => by simp only [Accept, VisitType, CodeGenerator.js]
  | .HookNode .., g, _ => by simp only [Accept, VisitHook, CodeGenerator.js]
  | .PluginNode .., g, _ => by simp only [Accept, VisitPlugin, CodeGenerator.js]
  | .ConfigNode .., g, _ => by simp only [Accept, VisitConfig, CodeGenerator.js]
  | .ImportNode Specifiers Source, g, _ => by
    rw [Accept_append]
    simp only [Accept, VisitImport, writeSpecifiers]
    split <;> split <;>
      simp only [List.nil_append, List.append_nil, CodeGenerator.append,
        CodeGenerator.js, NewCodeGenerator]
  | .ExportNode Specifiers Source IsDefault, g, _ => by
    rw [Accept_append]
    simp only [Accept, VisitExport, writeSpecifiers]
    cases IsDefault <;> split <;> split <;>
      simp only [List.nil_append, List.append_nil, CodeGenerator.append,
        CodeGenerator.js, NewCodeGenerator, Bool.false_eq_true, if_false, if_true]
  | .ElementNode .., g, _ => by simp only [Accept, VisitElement]
  | .TextNode .., g, _ => by simp only [Accept, VisitText]
  | .ExpressionNode .., g, _ => by simp only [Accept, VisitExpression]
theorem acceptEach_html_of_not_containsPage : ∀ (nodes : List ASTNode) (g : CodeGenerator),
    containsPageList nodes = false → (acceptEach nodes g).htmlOutput = g.htmlOutput
  | [], g, _ => by rw [acceptEach]
  | node :: nodes, g, h => by
    rw [containsPageList, Bool.or_eq_false_iff] at h
    rw [acceptEach, acceptEach_html_of_not_containsPage nodes _ h.2,
      Accept_html_of_not_containsPage node g h.1]
end

theorem pageHead_html (Attributes : GoMap) (g : CodeGenerator) :
    (pageTail (pageHead Attributes g)).htmlOutput
      = g.htmlOutput ++ pageMarkup (Attributes.get? "title".toList) := by
  unfold pageHead pageTail pageMarkup
  cases Attributes.get? "title".toList <;>
    simp only [List.nil_append, List.append_nil, List.append_assoc, CodeGenerator.html]

/-- C13: for every Page node whose body contains no Page node at any depth,
the text appended to the markup buffer is the skeleton, the title line when
and only when the attribute map has the key `title` (with its value copied),
the three stylesheet links, the end of the head and start of the body, the
two script tags and the closing tags; two such pages with the same `title`
entry give the same markup whatever their names, other attributes and
bodies. -/
theorem page_emission (Name : GoString) (Attributes : GoMap) (Body : List ASTNode)
    (g : CodeGenerator) (h : containsPageList Body = false) :
    (Accept (.PageNode Name Attributes Body) g).htmlOutput
        = g.htmlOutput ++ pageMarkup (Attributes.get? "title".toList)
      ∧ (VisitPage Name Attributes Body g).htmlOutput
        = g.htmlOutput ++ pageMarkup (Attributes.get? "title".toList)
      ∧ (∀ (Name1 : GoString) (Attributes1 : GoMap) (Body1 : List ASTNode),
          containsPageList Body1 = false →
          Attributes1.get? "title".toList = Attributes.get? "title".toList →
          (Accept (.PageNode Name1 Attributes1 Body1) g).htmlOutput
            = (Accept (.PageNode Name Attributes Body) g).htmlOutput) := by
  have key : ∀ (N : GoString) (A : GoMap) (B : List ASTNode), containsPageList B = false →
      (Accept (.PageNode N A B) g).htmlOutput
        = g.htmlOutput ++ pageMarkup (A.get? "title".toList) := by
    intro N A B hB
    have h2 := pageHead_html A g
    rw [pageTail_append] at h2
    rw [Accept, pageTail_append]
    simp only [CodeGenerator.append] at h2 ⊢
    rw [acceptEach_html_of_not_containsPage B _ hB, h2]
  refine ⟨key Name Attributes Body h, key Name Attributes Body h, fun N1 A1 B1 hB1 hA => ?_⟩
  rw [key N1 A1 B1 hB1, key Name Attributes Body h, hA]

theorem page_emission_witness :
    (Accept (.PageNode "Home".toList [("lang".toList, "en".toList), ("title".toList, "Hi".toList)]
        [.StateNode "s".toList [], .TextNode "x".toList]) NewCodeGenerator).htmlOutput
      = NewCodeGenerator.htmlOutput ++ pageMarkup (some "Hi".toList) :=
  (page_emission "Home".toList [("lang".toList, "en".toList), ("title".toList, "Hi".toList)]
    [.StateNode "s".toList [], .TextNode "x".toList] NewCodeGenerator (by decide)).1

theorem stringsJoin_eq_intercalate (sep : GoString) :
    ∀ S : List GoString, stringsJoin S sep = List.intercalate sep S
  | [] => by simp [stringsJoin, List.intercalate]
  | [a] => by simp [stringsJoin, List.intercalate]
  | a :: b :: rest => by
    have ih := stringsJoin_eq_intercalate sep (b :: rest)
    rw [stringsJoin, ih]
    simp [List.intercalate, List.intersperse]

theorem writeSpecifiers_text (S : List GoString) (src : GoString) (g : CodeGenerator) :
    writeSpecifiers S src g
      = ⟨g.htmlOutput, g.cssOutput,
          g.jsOutput ++ (specifierText S ++ fromClause src ++ ";\n".toList),
          g.components, g.styles, g.scripts⟩ := by
  unfold writeSpecifiers specifierText fromClause
  by_cases hsrc : src = []
  · subst hsrc
    split <;>
      simp only [bne_self_eq_false, Bool.false_eq_true, if_false, if_true, CodeGenerator.js,
        stringsJoin_eq_intercalate, List.append_assoc, List.nil_append, List.append_nil]
  · have hne : (src != []) = true := by simpa using hsrc
    split <;>
      simp only [hne, hsrc, if_false, if_true, CodeGenerator.js,
        stringsJoin_eq_intercalate, List.append_assoc, List.nil_append, List.append_nil]

/-- C12: emitting an Import node appends to the script buffer exactly
`import `, the specifier text (the single specifier itself, otherwise the
specifiers joined by `, ` in braces), the `from` clause (empty for the empty
source) and `;` with a newline; emitting an Export node appends the same with
`export ` and then `default ` exactly when the flag is set; the markup and
style buffers are unchanged. -/
theorem import_export_emission (S : List GoString) (src : GoString) (isDefault : Bool)
    (g : CodeGenerator) :
    Accept (.ImportNode S src) g
        = ⟨g.htmlOutput, g.cssOutput, g.jsOutput ++ importText S src,
            g.components, g.styles, g.scripts⟩
      ∧ Accept (.ExportNode S src isDefault) g
        = ⟨g.htmlOutput, g.cssOutput, g.jsOutput ++ exportText S src isDefault,
            g.components, g.styles, g.scripts⟩
      ∧ VisitImport S src g = Accept (.ImportNode S src) g
      ∧ VisitExport S src isDefault g = Accept (.ExportNode S src isDefault) g := by
  refine ⟨?_, ?_, by rw [Accept], by rw [Accept]⟩
  · rw [Accept]
    unfold VisitImport importText
    rw [writeSpecifiers_text]
    simp only [CodeGenerator.js, List.append_assoc]
  · rw [Accept]
    unfold VisitExport exportText
    rw [writeSpecifiers_text]
    cases isDefault <;>
      simp only [CodeGenerator.js, List.append_assoc, Bool.false_eq_true, if_false, if_true,
        List.nil_append]

/-- C16: for Style, Event, State, Api, Router, Hook, Plugin and Config nodes
the emitter returns the same generator when the child-node lists and
property maps of the node are replaced by any other values and the name
fields are kept. -/
theorem content_independent_emission (g : CodeGenerator) :
    (∀ (Selector : GoString) (Rules Rules1 : List ASTNode),
        Accept (.StyleNode Selector Rules) g = Accept (.StyleNode Selector Rules1) g)
      ∧ (∀ (EventType Target : GoString) (Body Body1 : List ASTNode),
        Accept (.EventNode EventType Target Body) g = Accept (.EventNode EventType Target Body1) g)
      ∧ (∀ (Name : GoString) (Properties Properties1 : List ASTNode),
        Accept (.StateNode Name Properties) g = Accept (.StateNode Name Properties1) g)
      ∧ (∀ (Name : GoString) (Properties Properties1 : GoMap) (Methods Methods1 : List ASTNode),
        Accept (.ApiNode Name Properties Methods) g = Accept (.ApiNode Name Properties1 Methods1) g)
      ∧ (∀ (Routes Routes1 : List ASTNode),
        Accept (.RouterNode Routes) g = Accept (.RouterNode Routes1) g)
      ∧ (∀ (Name : GoString) (Parameters Parameters1 Body Body1 : List ASTNode),
        Accept (.HookNode Name Parameters Body) g = Accept (.HookNode Name Parameters1 Body1) g)
      ∧ (∀ (Name : GoString) (Properties Properties1 : GoMap),
        Accept (.PluginNode Name Properties) g = Accept (.PluginNode Name Properties1) g)
      ∧ (∀ (Properties Properties1 : GoMap),
        Accept (.ConfigNode Properties) g = Accept (.ConfigNode Properties1) g) := by
  refine ⟨?_, ?_, ?_, ?_, ?_, ?_, ?_, ?_⟩
  · intros; simp only [Accept, VisitStyle]
  · intros; simp only [Accept, VisitEvent]
  · intros; simp only [Accept, VisitState]
  · intros; simp only [Accept, VisitApi]
  · intros; simp only [Accept, VisitRouter]
  · intros; simp only [Accept, VisitHook]
  · intros; simp only [Accept, VisitPlugin]
  · intros; simp only [Accept, VisitConfig]

/-- C17: emitting a Route, Element, Text or Expression node, whatever its
fields, returns the generator unchanged: the markup, style and script
buffers keep their contents. -/
theorem noop_handlers (g : CodeGenerator) :
    (∀ (Path Component : GoString) (Options : GoMap),
        Accept (.RouteNode Path Component Options) g = g)
      ∧ (∀ (TagName : GoString) (Attributes : GoMap) (Children : List ASTNode)
            (SelfClosing : Bool),
        Accept (.ElementNode TagName Attributes Children SelfClosing) g = g)
      ∧ (∀ Value : GoString, Accept (.TextNode Value) g = g)
      ∧ (∀ Expression : GoString, Accept (.ExpressionNode Expression) g = g) := by
  refine ⟨?_, ?_, ?_, ?_⟩
  · intros; rw [Accept, VisitRoute]
  · intros; rw [Accept, VisitElement]
  · intros; rw [Accept, VisitText]
  · intros; rw [Accept, VisitExpression]

/-! ## Pipeline: no stage returns an error -/

theorem tokenizeStep_no_error (l : Lexer) (c : Char) (hc : l.input[l.position]? = some c)
    (x : (Option Token × Option GoError) × Lexer) (h : tokenizeStep l c = .ok x) :
    x.1.2 = none := by
  rcases tokenizeStep_cases l c hc with ⟨x0, h0, ha, _⟩ | ⟨_, hall⟩
  · rw [h0] at h
    cases h
    exact ha.1
  · exact (hall x h).1

theorem tokenizeLoop_no_error : ∀ (fuel : Nat) (l : Lexer) (tokens toks : List Token)
    (e : Option GoError), tokenizeLoop fuel l tokens = .ok (toks, e) → e = none := by
  intro fuel
  induction fuel with
  | zero =>
    intro l tokens toks e h
    rw [tokenizeLoop] at h
    cases h
    rfl
  | succ n ih =>
    intro l tokens toks e h
    rw [tokenizeLoop] at h
    cases hc : l.input[l.position]? with
    | none =>
      rw [hc] at h
      cases h
      rfl
    | some c =>
      rw [hc] at h
      simp only [] at h
      cases hs : tokenizeStep l c with
      | error f => rw [hs] at h; cases h
      | ok x =>
        obtain ⟨⟨tok, err⟩, l1⟩ := x
        have hnone := tokenizeStep_no_error l c hc _ hs
        simp only [] at hnone
        subst hnone
        rw [hs] at h
        exact ih _ _ _ _ h

theorem Tokenize_no_error (input : GoString) (toks : List Token) (e : Option GoError)
    (h : Tokenize input = .ok (toks, e)) : e = none :=
  tokenizeLoop_no_error _ _ _ _ _ h

theorem parsePage_no_error (b : BlockParser) (n : Nat) : ReturnsNoError (parsePage b n) := by
  intro p r h
  unfold parsePage at h
  simp only [] at h
  cases ha : parsePageAttributes n p.optionalName.2 [] with
  | none => rw [ha] at h; cases h
  | some x =>
    rw [ha] at h
    simp only [] at h
    cases hq : bracedBlock b x.2 with
    | none => rw [hq] at h; cases h
    | some y => rw [hq] at h; cases h; rfl

theorem parseStyle_no_error (b : BlockParser) : ReturnsNoError (parseStyle b) := by
  intro p r h
  unfold parseStyle at h
  simp only [] at h
  cases hq : bracedBlock b p.optionalName.2 with
  | none => rw [hq] at h; cases h
  | some y => rw [hq] at h; cases h; rfl

theorem parseState_no_error (b : BlockParser) : ReturnsNoError (parseState b) := by
  intro p r h
  unfold parseState at h
  simp only [] at h
  cases hq : bracedBlock b p.optionalName.2 with
  | none => rw [hq] at h; cases h
  | some y => rw [hq] at h; cases h; rfl

theorem parseApi_no_error (b : BlockParser) : ReturnsNoError (parseApi b) := by
  intro p r h
  unfold parseApi at h
  simp only [] at h
  cases hq : bracedBlock b p.optionalName.2 with
  | none => rw [hq] at h; cases h
  | some y => rw [hq] at h; cases h; rfl

theorem parseRouter_no_error (b : BlockParser) : ReturnsNoError (parseRouter b) := by
  intro p r h
  unfold parseRouter at h
  cases hq : bracedBlock b p with
  | none => rw [hq] at h; cases h
  | some y => rw [hq] at h; cases h; rfl

theorem parseLayout_no_error (b : BlockParser) : ReturnsNoError (parseLayout b) := by
  intro p r h
  unfold parseLayout at h
  simp only [] at h
  cases hq : bracedBlock b p.optionalName.2 with
  | none => rw [hq] at h; cases h
  | some y => rw [hq] at h; cases h; rfl

theorem parseAnimation_no_error (b : BlockParser) : ReturnsNoError (parseAnimation b) := by
  intro p r h
  unfold parseAnimation at h
  simp only [] at h
  cases hq : bracedBlock b p.optionalName.2 with
  | none => rw [hq] at h; cases h
  | some y => rw [hq] at h; cases h; rfl

theorem parseEvent_no_error (b : BlockParser) : ReturnsNoError (parseEvent b) := by
  intro p r h
  unfold parseEvent at h
  simp only [] at h
  revert h
  generalize (if p.optionalName.2.peekIsOn = true then p.optionalName.2.skip.optionalName.2
    else p.optionalName.2) = p2
  intro h
  cases hq : bracedBlock b p2 with
  | none => rw [hq] at h; cases h
  | some y => rw [hq] at h; cases h; rfl

theorem parseComponent_no_error (b : BlockParser) (n : Nat) :
    ReturnsNoError (parseComponent b n) := by
  intro p r h
  unfold parseComponent at h
  simp only [] at h
  by_cases hc : p.optionalName.2.check .Less = true
  · simp only [hc, if_true] at h
    cases ha : parseNameList .Greater n p.optionalName.2.skip [] with
    | none => rw [ha] at h; cases h
    | some x =>
      rw [ha] at h
      simp only [] at h
      revert h
      generalize (if x.2.check .Greater = true then x.2.skip else x.2) = p3
      intro h
      cases hq : bracedBlock b p3 with
      | none => rw [hq] at h; cases h
      | some y => rw [hq] at h; cases h; rfl
  · simp only [if_neg hc] at h
    cases hq : bracedBlock b p.optionalName.2 with
    | none => rw [hq] at h; cases h
    | some y => rw [hq] at h; cases h; rfl

theorem parseHook_no_error (b : BlockParser) (n : Nat) : ReturnsNoError (parseHook b n) := by
  intro p r h
  unfold parseHook parseParameters at h
  simp only [] at h
  by_cases hc : p.optionalName.2.check .LeftParen = true
  · simp only [hc, if_true] at h
    cases ha : parseParametersLoop n p.optionalName.2.skip with
    | none => rw [ha] at h; cases h
    | some x =>
      rw [ha] at h
      simp only [] at h
      revert h
      generalize (if x.2.check .RightParen = true then x.2.skip else x.2) = p3
      intro h
      cases hq : bracedBlock b p3 with
      | none => rw [hq] at h; cases h
      | some y => rw [hq] at h; cases h; rfl
  · simp only [if_neg hc] at h
    cases hq : bracedBlock b p.optionalName.2 with
    | none => rw [hq] at h; cases h
    | some y => rw [hq] at h; cases h; rfl

theorem parseImport_no_error (n : Nat) : ReturnsNoError (parseImport n) := by
  intro p r h
  unfold parseImport at h
  cases ha : parseNameList .From n p [] with
  | none => rw [ha] at h; cases h
  | some x => rw [ha] at h; cases h; rfl

theorem parseExport_no_error (n : Nat) : ReturnsNoError (parseExport n) := by
  intro p r h
  unfold parseExport at h
  simp only [] at h
  cases ha : parseNameList .From n (if p.peekIsDefault = true then p.skip else p) [] with
  | none => rw [ha] at h; cases h
  | some x => rw [ha] at h; cases h; rfl

theorem parseStatement_no_error (n : Nat) : ReturnsNoError (parseStatement n) := by
  intro p r
  cases n with
  | zero => intro h; cases h
  | succ n =>
    rw [parseStatement]
    refine ite_both (P := fun x => x = some r → r.1.2 = none) (fun _ => ?_) (fun _ => ?_)
    · exact parsePage_no_error _ _ _ _
    refine ite_both (P := fun x => x = some r → r.1.2 = none) (fun _ => ?_) (fun _ => ?_)
    · exact parseComponent_no_error _ _ _ _
    refine ite_both (P := fun x => x = some r → r.1.2 = none) (fun _ => ?_) (fun _ => ?_)
    · exact parseStyle_no_error _ _ _
    refine ite_both (P := fun x => x = some r → r.1.2 = none) (fun _ => ?_) (fun _ => ?_)
    · exact parseEvent_no_error _ _ _
    refine ite_both (P := fun x => x = some r → r.1.2 = none) (fun _ => ?_) (fun _ => ?_)
    · exact parseState_no_error _ _ _
    refine ite_both (P := fun x => x = some r → r.1.2 = none) (fun _ => ?_) (fun _ => ?_)
    · exact parseApi_no_error _ _ _
    refine ite_both (P := fun x => x = some r → r.1.2 = none) (fun _ => ?_) (fun _ => ?_)
    · exact parseRouter_no_error _ _ _
    refine ite_both (P := fun x => x = some r → r.1.2 = none) (fun _ => ?_) (fun _ => ?_)
    · exact parseLayout_no_error _ _ _
    refine ite_both (P := fun x => x = some r → r.1.2 = none) (fun _ => ?_) (fun _ => ?_)
    · exact parseAnimation_no_error _ _ _
    refine ite_both (P := fun x => x = some r → r.1.2 = none) (fun _ => ?_) (fun _ => ?_)
    · intro h; cases h; rfl
    refine ite_both (P := fun x => x = some r → r.1.2 = none) (fun _ => ?_) (fun _ => ?_)
    · exact parseHook_no_error _ _ _ _
    refine ite_both (P := fun x => x = some r → r.1.2 = none) (fun _ => ?_) (fun _ => ?_)
    · intro h; cases h; rfl
    refine ite_both (P := fun x => x = some r → r.1.2 = none) (fun _ => ?_) (fun _ => ?_)
    · intro h; cases h; rfl
    refine ite_both (P := fun x => x = some r → r.1.2 = none) (fun _ => ?_) (fun _ => ?_)
    · exact parseImport_no_error _ _ _
    refine ite_both (P := fun x => x = some r → r.1.2 = none) (fun _ => ?_) (fun _ => ?_)
    · exact parseExport_no_error _ _ _
    · intro h; cases h; rfl

theorem parseLoop_no_error : ∀ (n : Nat) (p : Parser) (a : List ASTNode)
    (r : NodeResult × Parser), parseLoop n p a = some r →
      r.1.2 = none ∧ ∃ statements, r.1.1 = some (.ProgramNode statements) := by
  intro n
  induction n with
  | zero => intro p a r h; cases h
  | succ n ih =>
    intro p a r h
    rw [parseLoop] at h
    by_cases hc : (!p.isAtEnd) = true
    · rw [if_pos hc] at h
      cases hq : parseStatement n p with
      | none => rw [hq] at h; cases h
      | some x =>
        have hx := parseStatement_no_error n p x hq
        obtain ⟨⟨node, err⟩, p1⟩ := x
        simp only [] at hx
        subst hx
        rw [hq] at h
        cases node with
        | none => exact ih _ _ _ h
        | some st => exact ih _ _ _ h
    · rw [if_neg hc] at h
      cases h
      exact ⟨rfl, _, rfl⟩

theorem Parse_no_error (fuel : Nat) (tokens : List Token) (ast : Option ASTNode)
    (e : Option GoError) (h : Parse fuel tokens = some (ast, e)) :
    e = none ∧ ∃ statements, ast = some (.ProgramNode statements) := by
  unfold Parse at h
  cases hq : parseLoop fuel (NewParser tokens) [] with
  | none => rw [hq] at h; cases h
  | some x =>
    rw [hq] at h
    have hx := parseLoop_no_error _ _ _ _ hq
    simp only [Option.map_some', Option.some.injEq] at h
    rw [h] at hx
    exact hx

/-- C11: `Tokenize`, `Parse` and `Generate` return the nil error whenever
they return; so whenever `Compile` returns a result, the result has
`Success = true`, no errors and no warnings, and its three texts are the
buffers of the generator run on the tree parsed from the tokens of the
input. -/
theorem compile_always_succeeds (fuel : Nat) (input : GoString) (r : CompileResult)
    (h : Compile fuel input = some (.ok r)) :
    (∀ (inp : GoString) (toks : List Token) (e : Option GoError),
        Tokenize inp = .ok (toks, e) → e = none)
      ∧ (∀ (f : Nat) (tokens : List Token) (ast : Option ASTNode) (e : Option GoError),
        Parse f tokens = some (ast, e) → e = none)
      ∧ (∀ (g : CodeGenerator) (ast : ASTNode), (Generate g ast).1 = none)
      ∧ r.Success = true ∧ r.Errors = [] ∧ r.Warnings = []
      ∧ ∃ tokens ast, Tokenize input = .ok (tokens, none)
          ∧ Parse fuel tokens = some (some ast, none)
          ∧ r.HTML = (Generate NewCodeGenerator ast).2.GetHTML
          ∧ r.CSS = (Generate NewCodeGenerator ast).2.GetCSS
          ∧ r.JS = (Generate NewCodeGenerator ast).2.GetJS := by
  refine ⟨Tokenize_no_error, fun f tokens ast e hp => (Parse_no_error f tokens ast e hp).1,
    fun _ _ => rfl, ?_⟩
  unfold Compile compileInternal at h
  cases ht : Tokenize input with
  | error f => rw [ht] at h; cases h
  | ok x =>
    obtain ⟨tokens, e⟩ := x
    have he := Tokenize_no_error input tokens e ht
    subst he
    rw [ht] at h
    simp only [] at h
    cases hp : Parse fuel tokens with
    | none => rw [hp] at h; cases h
    | some y =>
      obtain ⟨ast, e⟩ := y
      obtain ⟨he, statements, hast⟩ := Parse_no_error fuel tokens ast e hp
      subst he
      subst hast
      rw [hp] at h
      simp only [Generate] at h
      cases h
      exact ⟨rfl, rfl, rfl, tokens, _, rfl, hp, rfl, rfl, rfl⟩

set_option maxRecDepth 100000 in
theorem compile_always_succeeds_witness :
    Compile 4 "state s".toList
        = some (.ok ⟨true, [], [], (VisitState [] [] NewCodeGenerator).jsOutput, [], []⟩)
      ∧ (⟨true, [], [], (VisitState [] [] NewCodeGenerator).jsOutput, [], []⟩
          : CompileResult).Success = true :=
  ⟨by decide, (compile_always_succeeds 4 "state s".toList
    ⟨true, [], [], (VisitState [] [] NewCodeGenerator).jsOutput, [], []⟩ (by decide)).2.2.2.1⟩

/-! ## Parser: import and export on whitespace-free tokens -/

theorem isAtEnd_cons_zero (t : Token) (rest : List Token) :
    Parser.isAtEnd { tokens := t :: rest, current := 0 } = (t.Type_ == .EOF) := by
  simp [Parser.isAtEnd]

theorem peekIs_cons_zero (t : Token) (rest : List Token) (k : TokenType) :
    Parser.peekIs { tokens := t :: rest, current := 0 } k
      = (!(t.Type_ == .EOF) && t.Type_ == k) := by
  simp [Parser.peekIs, Parser.peek, Parser.isAtEnd]
  cases h : (t.Type_ == TokenType.EOF) <;> simp_all

theorem skip_cons_zero (t : Token) (rest : List Token) (h : t.Type_ ≠ .EOF) :
    Parser.skip { tokens := t :: rest, current := 0 }
      = Parser.shift [t] { tokens := rest, current := 0 } := by
  rw [shift_mk]
  simp [Parser.skip, Parser.advance, Parser.isAtEnd, h]

theorem advanceValue_cons_zero (t : Token) (rest : List Token) (h : t.Type_ ≠ .EOF) :
    Parser.advanceValue { tokens := t :: rest, current := 0 }
      = (t.Value, Parser.shift [t] { tokens := rest, current := 0 }) := by
  rw [shift_mk]
  simp [Parser.advanceValue, Parser.advance, Parser.isAtEnd, Parser.previous, h]

/-- The specifier loop on the tokens of the names `names` followed by a
token sequence `tail` that starts with the closing kind or `EOF`: the names
are collected in order and the cursor stops on `tail`. -/
theorem parseNameList_specifiers (tail : List Token)
    (hstop : (!(Parser.mk tail 0).check .From && !(Parser.mk tail 0).isAtEnd) = false)
    (hcomma : (Parser.mk tail 0).check .Comma = false) :
    ∀ (names : List GoString) (toks : List Token), isSpecifierList names toks = true →
      ∀ (acc : List GoString) (fuel : Nat), names.length + 1 ≤ fuel →
        parseNameList .From fuel { tokens := toks ++ tail, current := 0 } acc
          = some (acc ++ names, Parser.shift toks { tokens := tail, current := 0 })
  | [], [], _, acc, fuel, hf => by
    obtain ⟨m, rfl⟩ : ∃ m, fuel = m + 1 := ⟨fuel - 1, by omega⟩
    rw [parseNameList, List.nil_append, hstop]
    simp [shift_mk]
  | [n], [t], h, acc, fuel, hf => by
    obtain ⟨m, rfl⟩ : ∃ m, fuel = m + 2 := ⟨fuel - 2, by simp at hf; omega⟩
    simp only [isSpecifierList, Bool.and_eq_true, beq_iff_eq] at h
    obtain ⟨ht, hv⟩ := h
    have hne : t.Type_ ≠ .EOF := by rw [ht]; decide
    rw [parseNameList]
    simp only [List.singleton_append, check_cons_zero, isAtEnd_cons_zero, peekIs_cons_zero,
      advanceValue_cons_zero t tail hne, check_shift, skip_shift, hcomma, ht, hv]
    simp only [check_shift, skip_shift, hcomma, show (TokenType.Identifier == TokenType.EOF) = false from rfl,
      show (TokenType.Identifier == TokenType.From) = false from rfl,
      show (TokenType.Identifier == TokenType.Identifier) = true from rfl,
      Bool.not_false, Bool.and_true, Bool.and_false, Bool.not_true, if_true, Bool.false_eq_true,
      if_false]
    rw [parseNameList_shift, parseNameList, hstop]
    simp [shiftResult]
  | n :: n1 :: names, t :: c :: toks, h, acc, fuel, hf => by
    obtain ⟨m, rfl⟩ : ∃ m, fuel = m + 1 := ⟨fuel - 1, by omega⟩
    simp only [isSpecifierList, Bool.and_eq_true, beq_iff_eq] at h
    obtain ⟨⟨⟨ht, hv⟩, hc⟩, hrest⟩ := h
    have hne : t.Type_ ≠ .EOF := by rw [ht]; decide
    have hnc : c.Type_ ≠ .EOF := by rw [hc]; decide
    have ih := parseNameList_specifiers tail hstop hcomma (n1 :: names) toks hrest
      (acc ++ [n]) m (by simp only [List.length_cons] at hf ⊢; omega)
    rw [parseNameList]
    simp only [List.cons_append, check_cons_zero, isAtEnd_cons_zero, peekIs_cons_zero,
      advanceValue_cons_zero t _ hne, check_shift, skip_shift, skip_cons_zero c _ hnc, ht, hv, hc]
    simp only [check_shift, skip_shift, skip_cons_zero c _ hnc, check_cons_zero, hc, show (TokenType.Identifier == TokenType.EOF) = false from rfl,
      show (TokenType.Identifier == TokenType.From) = false from rfl,
      show (TokenType.Identifier == TokenType.Identifier) = true from rfl,
      show (TokenType.Comma == TokenType.EOF) = false from rfl,
      show (TokenType.Comma == TokenType.Comma) = true from rfl,
      Bool.not_false, Bool.and_true, Bool.and_false, Bool.not_true, if_true, Bool.false_eq_true,
      if_false]
    rw [parseNameList_shift, parseNameList_shift, ih]
    simp only [shiftResult_some, shift_mk, List.cons_append, List.nil_append, List.append_assoc,
      List.length_cons, List.length_nil]
    simp [Nat.add_comm, Nat.add_left_comm]

theorem match_cons_zero (t : Token) (rest : List Token) (k : TokenType) (h : t.Type_ ≠ .EOF) :
    Parser.match_ { tokens := t :: rest, current := 0 } [k]
      = if t.Type_ == k then (true, Parser.shift [t] { tokens := rest, current := 0 })
        else (false, { tokens := t :: rest, current := 0 }) := by
  have hb : (t.Type_ == TokenType.EOF) = false := by simpa using h
  simp only [Parser.match_, check_cons_zero, hb, Bool.not_false, Bool.true_and]
  cases hk : (t.Type_ == k)
  · simp
  · simp only [if_true]
    exact congrArg (Prod.mk true) (skip_cons_zero t rest h)

/-- An import statement: after the keyword, the specifier tokens of `names`
and a sequence `tail` that starts with `from` or `EOF`. -/
theorem parseStatement_import (tail : List Token)
    (hstop : (!(Parser.mk tail 0).check .From && !(Parser.mk tail 0).isAtEnd) = false)
    (hcomma : (Parser.mk tail 0).check .Comma = false)
    (names : List GoString) (toks : List Token) (h : isSpecifierList names toks = true)
    (imp : Token) (hi : imp.Type_ = .Import) (f : Nat) (hf : names.length + 1 ≤ f) :
    parseStatement (f + 1) { tokens := imp :: (toks ++ tail), current := 0 }
      = some ((some (.ImportNode names (parseSource { tokens := tail, current := 0 }).1), none),
          Parser.shift (imp :: toks) (parseSource { tokens := tail, current := 0 }).2) := by
  have hne : imp.Type_ ≠ .EOF := by rw [hi]; decide
  rw [parseStatement]
  simp only [match_cons_zero _ _ _ hne, hi]
  simp only [show (TokenType.Import == TokenType.Page) = false from rfl,
    show (TokenType.Import == TokenType.Component) = false from rfl,
    show (TokenType.Import == TokenType.Style) = false from rfl,
    show (TokenType.Import == TokenType.Event) = false from rfl,
    show (TokenType.Import == TokenType.State) = false from rfl,
    show (TokenType.Import == TokenType.Api) = false from rfl,
    show (TokenType.Import == TokenType.Router) = false from rfl,
    show (TokenType.Import == TokenType.Layout) = false from rfl,
    show (TokenType.Import == TokenType.Animation) = false from rfl,
    show (TokenType.Import == TokenType.Type_) = false from rfl,
    show (TokenType.Import == TokenType.Hook) = false from rfl,
    show (TokenType.Import == TokenType.Plugin) = false from rfl,
    show (TokenType.Import == TokenType.Config) = false from rfl,
    show (TokenType.Import == TokenType.Import) = true from rfl,
    Bool.false_eq_true, if_false, if_true]
  rw [parseImport_shift f [imp]]
  unfold parseImport
  rw [parseNameList_specifiers tail hstop hcomma names toks h [] f hf]
  simp only [List.nil_append, parseSource_shift, shiftResult_some]
  unfold Parser.shift
  simp
  omega

/-- An export statement, with or without the leading `default`. -/
theorem parseStatement_export (tail : List Token)
    (hstop : (!(Parser.mk tail 0).check .From && !(Parser.mk tail 0).isAtEnd) = false)
    (hcomma : (Parser.mk tail 0).check .Comma = false)
    (names : List GoString) (toks : List Token) (h : isSpecifierList names toks = true)
    (ex : Token) (hx : ex.Type_ = .Export) (f : Nat) (hf : names.length + 1 ≤ f) :
    (∀ dflt : Token, dflt.Type_ = .Identifier → dflt.Value = "default".toList →
      parseStatement (f + 1) { tokens := ex :: dflt :: (toks ++ tail), current := 0 }
        = some ((some (.ExportNode names (parseSource { tokens := tail, current := 0 }).1 true),
              none),
            Parser.shift (ex :: dflt :: toks) (parseSource { tokens := tail, current := 0 }).2))
      ∧ (Parser.peekIsDefault { tokens := toks ++ tail, current := 0 } = false →
        parseStatement (f + 1) { tokens := ex :: (toks ++ tail), current := 0 }
          = some ((some (.ExportNode names (parseSource { tokens := tail, current := 0 }).1 false),
                none),
              Parser.shift (ex :: toks) (parseSource { tokens := tail, current := 0 }).2)) := by
  have hne : ex.Type_ ≠ .EOF := by rw [hx]; decide
  have hchain : ∀ rest : List Token,
      parseStatement (f + 1) { tokens := ex :: rest, current := 0 }
        = parseExport f (Parser.shift [ex] { tokens := rest, current := 0 }) := by
    intro rest
    rw [parseStatement]
    simp only [match_cons_zero _ _ _ hne, hx]
    simp only [show (TokenType.Export == TokenType.Page) = false from rfl,
      show (TokenType.Export == TokenType.Component) = false from rfl,
      show (TokenType.Export == TokenType.Style) = false from rfl,
      show (TokenType.Export == TokenType.Event) = false from rfl,
      show (TokenType.Export == TokenType.State) = false from rfl,
      show (TokenType.Export == TokenType.Api) = false from rfl,
      show (TokenType.Export == TokenType.Router) = false from rfl,
      show (TokenType.Export == TokenType.Layout) = false from rfl,
      show (TokenType.Export == TokenType.Animation) = false from rfl,
      show (TokenType.Export == TokenType.Type_) = false from rfl,
      show (TokenType.Export == TokenType.Hook) = false from rfl,
      show (TokenType.Export == TokenType.Plugin) = false from rfl,
      show (TokenType.Export == TokenType.Config) = false from rfl,
      show (TokenType.Export == TokenType.Import) = false from rfl,
      show (TokenType.Export == TokenType.Export) = true from rfl,
      Bool.false_eq_true, if_false, if_true]
  constructor
  · intro dflt hd hv
    have hnd : dflt.Type_ ≠ .EOF := by rw [hd]; decide
    have hpd : Parser.peekIsDefault { tokens := dflt :: (toks ++ tail), current := 0 } = true := by
      simp [Parser.peekIsDefault, Parser.check, Parser.peek, Parser.isAtEnd, hd, hv]
    rw [hchain, parseExport_shift f [ex]]
    unfold parseExport
    simp only [hpd, if_true, skip_cons_zero dflt _ hnd, parseNameList_shift,
      parseNameList_specifiers tail hstop hcomma names toks h [] f hf, shiftResult_some,
      List.nil_append, parseSource_shift]
    unfold Parser.shift
    simp
    omega
  · intro hpd
    rw [hchain, parseExport_shift f [ex]]
    unfold parseExport
    simp only [hpd, Bool.false_eq_true, if_false,
      parseNameList_specifiers tail hstop hcomma names toks h [] f hf, shiftResult_some,
      List.nil_append, parseSource_shift]
    unfold Parser.shift
    simp
    omega

/-- The loop of `Parse` on one statement that ends on `EOF`. -/
theorem Parse_single (tokens : List Token) (node : ASTNode) (p1 : Parser) (f : Nat)
    (hstart : (NewParser tokens).isAtEnd = false)
    (hs : parseStatement (f + 1) (NewParser tokens) = some ((some node, none), p1))
    (hend : p1.isAtEnd = true) :
    Parse (f + 2) tokens = some (some (.ProgramNode [node]), none) := by
  unfold Parse
  rw [parseLoop]
  simp only [hstart, Bool.not_false, if_true, hs]
  rw [parseLoop]
  simp [hend]

/-- C18: on the whitespace-free tokens `import n1, ..., nk from s` and `EOF`
(any k, commas between the names) `Parse` returns a program with exactly one
Import node, specifiers `[n1..nk]` in order and source `s`; without the
`from` and String tokens the source is empty; for `export` a leading
identifier `default` sets the flag and is no specifier, and otherwise the
flag is unset. -/
theorem parse_import_grammar (names : List GoString) (toks : List Token)
    (h : isSpecifierList names toks = true) (frm str eof : Token)
    (hfrom : frm.Type_ = .From) (hstr : str.Type_ = .String) (heof : eof.Type_ = .EOF)
    (fuel : Nat) (hfuel : names.length + 3 ≤ fuel) :
    (∀ imp : Token, imp.Type_ = .Import →
        Parse fuel (imp :: (toks ++ [frm, str, eof]))
          = some (some (.ProgramNode [.ImportNode names str.Value]), none))
      ∧ (∀ imp : Token, imp.Type_ = .Import →
        Parse fuel (imp :: (toks ++ [eof]))
          = some (some (.ProgramNode [.ImportNode names []]), none))
      ∧ (∀ ex dflt : Token, ex.Type_ = .Export → dflt.Type_ = .Identifier →
          dflt.Value = "default".toList →
        Parse fuel (ex :: dflt :: (toks ++ [frm, str, eof]))
          = some (some (.ProgramNode [.ExportNode names str.Value true]), none))
      ∧ (∀ ex : Token, ex.Type_ = .Export → names.head? ≠ some "default".toList →
        Parse fuel (ex :: (toks ++ [frm, str, eof]))
          = some (some (.ProgramNode [.ExportNode names str.Value false]), none)) := by
  obtain ⟨f, rfl⟩ : ∃ f, fuel = f + 2 := ⟨fuel - 2, by omega⟩
  have hf : names.length + 1 ≤ f := by omega
  have s1 : (!(Parser.mk [frm, str, eof] 0).check .From && !(Parser.mk [frm, str, eof] 0).isAtEnd)
      = false := by
    simp [check_cons_zero, hfrom]
  have c1 : (Parser.mk [frm, str, eof] 0).check .Comma = false := by
    simp [check_cons_zero, hfrom]
  have s2 : (!(Parser.mk [eof] 0).check .From && !(Parser.mk [eof] 0).isAtEnd) = false := by
    simp [isAtEnd_cons_zero, heof]
  have c2 : (Parser.mk [eof] 0).check .Comma = false := by
    simp [check_cons_zero, heof]
  have src1 : parseSource { tokens := [frm, str, eof], current := 0 }
      = (str.Value, { tokens := [frm, str, eof], current := 2 }) := by
    simp [parseSource, Parser.check, Parser.isAtEnd, Parser.skip, Parser.advance, Parser.peekIs,
      Parser.peek, Parser.advanceValue, Parser.previous, hfrom, hstr]
  have src2 : parseSource { tokens := [eof], current := 0 }
      = ([], { tokens := [eof], current := 0 }) := by
    simp [parseSource, Parser.check, Parser.isAtEnd, heof]
  have e1 : ∀ pre : List Token,
      (Parser.shift pre { tokens := [frm, str, eof], current := 2 }).isAtEnd = true := by
    intro pre
    rw [isAtEnd_shift]
    simp [Parser.isAtEnd, heof]
  have e2 : ∀ pre : List Token,
      (Parser.shift pre { tokens := [eof], current := 0 }).isAtEnd = true := by
    intro pre
    rw [isAtEnd_shift]
    simp [Parser.isAtEnd, heof]
  refine ⟨fun imp hi => ?_, fun imp hi => ?_, fun ex dflt hx hd hv => ?_, fun ex hx hnd => ?_⟩
  · have hs := parseStatement_import _ s1 c1 names toks h imp hi f hf
    rw [src1] at hs
    exact Parse_single _ _ _ f (by simp [NewParser, Parser.isAtEnd, hi]) hs (e1 _)
  · have hs := parseStatement_import _ s2 c2 names toks h imp hi f hf
    rw [src2] at hs
    exact Parse_single _ _ _ f (by simp [NewParser, Parser.isAtEnd, hi]) hs (e2 _)
  · have hs := (parseStatement_export _ s1 c1 names toks h ex hx f hf).1 dflt hd hv
    rw [src1] at hs
    exact Parse_single _ _ _ f (by simp [NewParser, Parser.isAtEnd, hx]) hs (e1 _)
  · have hpd : Parser.peekIsDefault { tokens := toks ++ [frm, str, eof], current := 0 }
        = false := by
      match names, toks, h, hnd with
      | [], [], _, _ =>
        simp [Parser.peekIsDefault, Parser.check, Parser.isAtEnd, hfrom]
      | [n], [t], h, hnd =>
        simp only [isSpecifierList, Bool.and_eq_true, beq_iff_eq] at h
        simp only [List.head?_cons, ne_eq, Option.some.injEq] at hnd
        simp [Parser.peekIsDefault, Parser.check, Parser.peek, Parser.isAtEnd, h.1, h.2]
        exact hnd
      | n :: n1 :: names, t :: c :: toks, h, hnd =>
        simp only [isSpecifierList, Bool.and_eq_true, beq_iff_eq] at h
        simp only [List.head?_cons, ne_eq, Option.some.injEq] at hnd
        simp [Parser.peekIsDefault, Parser.check, Parser.peek, Parser.isAtEnd, h.1.1.1, h.1.1.2]
        exact hnd
    have hs := (parseStatement_export _ s1 c1 names toks h ex hx f hf).2 hpd
    rw [src1] at hs
    exact Parse_single _ _ _ f (by simp [NewParser, Parser.isAtEnd, hx]) hs (e1 _)

theorem parse_import_grammar_witness :
    Parse 5 [⟨.Import, "import".toList, 1, 7⟩, ⟨.Identifier, "A".toList, 1, 8⟩,
        ⟨.Comma, ",".toList, 1, 8⟩, ⟨.Identifier, "B".toList, 1, 10⟩,
        ⟨.From, "from".toList, 1, 14⟩, ⟨.String, "src".toList, 1, 19⟩, ⟨.EOF, [], 1, 19⟩]
      = some (some (.ProgramNode [.ImportNode ["A".toList, "B".toList] "src".toList]), none) :=
  (parse_import_grammar ["A".toList, "B".toList]
    [⟨.Identifier, "A".toList, 1, 8⟩, ⟨.Comma, ",".toList, 1, 8⟩,
      ⟨.Identifier, "B".toList, 1, 10⟩]
    (by decide) ⟨.From, "from".toList, 1, 14⟩ ⟨.String, "src".toList, 1, 19⟩ ⟨.EOF, [], 1, 19⟩
    rfl rfl rfl 5 (by decide)).1 ⟨.Import, "import".toList, 1, 7⟩ rfl

/-! ## Tokenizer: block comments that are not closed -/

/-- The loop of `readBlockComment` on a comment that is not closed: it stops
one byte before the end of the input. -/
theorem readBlockCommentLoop_unterminated (c : Char) :
    ∀ (body : GoString) (fuel : Nat) (l : Lexer),
      l.input.drop l.position = body ++ [c] → hasCommentEnd (body ++ [c]) = false →
      body.length ≤ fuel →
      readBlockCommentLoop fuel l
        = ⟨l.input, l.position + body.length, (commentPosition body l.line l.column).1,
            (commentPosition body l.line l.column).2⟩ := by
  intro body
  induction body with
  | nil =>
    intro fuel l h _ _
    have hlen := congrArg List.length h
    simp only [List.length_drop, List.nil_append, List.length_singleton] at hlen
    cases fuel with
    | zero => rfl
    | succ n =>
      rw [readBlockCommentLoop, if_neg (by omega)]
      rfl
  | cons b body ih =>
    intro fuel l h hend hfuel
    cases fuel with
    | zero => simp at hfuel
    | succ n =>
      have h0 : l.input.drop l.position = b :: (body ++ [c]) := by simpa using h
      have h1 := drop_succ_of_drop_cons h0
      have hlen := congrArg List.length h1
      simp only [List.length_drop, List.length_append, List.length_singleton] at hlen
      have hb := getElem?_of_drop_cons h0
      obtain ⟨d, w, hdw⟩ : ∃ d w, body ++ [c] = d :: w := by
        cases body with
        | nil => exact ⟨c, [], rfl⟩
        | cons x xs => exact ⟨x, xs ++ [c], rfl⟩
      have hd : l.input[l.position + 1]? = some d := getElem?_of_drop_cons (by rw [h1, hdw])
      have hend0 : hasCommentEnd (b :: d :: w) = false := by
        rw [← hdw]; simpa using hend
      rw [hasCommentEnd, Bool.or_eq_false_iff] at hend0
      have hclose : (l.input[l.position]? == some '*' && l.input[l.position + 1]? == some '/')
          = false := by
        rw [hb, hd]
        simpa using hend0.1
      rw [readBlockCommentLoop, if_pos (by omega), hclose]
      simp only [Bool.false_eq_true, if_false, hb]
      by_cases hnl : b = '\n'
      · subst hnl
        have hrec := ih n ⟨l.input, l.position + 1, l.line + 1, 1⟩ h1
          (by rw [hdw]; exact hend0.2) (by simpa using hfuel)
        simp only [beq_self_eq_true, if_true]
        rw [hrec]
        simp only [commentPosition, beq_self_eq_true, if_true, List.length_cons, Lexer.mk.injEq,
          true_and, and_true]
        omega
      · have hne : (b == '\n') = false := by simpa using hnl
        have hne2 : (some b == some '\n') = false := by simpa using hnl
        have hrec := ih n ⟨l.input, l.position + 1, l.line, l.column + 1⟩ h1
          (by rw [hdw]; exact hend0.2) (by simpa using hfuel)
        simp only [hne2, Bool.false_eq_true, if_false]
        rw [hrec]
        simp only [commentPosition, hne, Bool.false_eq_true, if_false, List.length_cons,
          Lexer.mk.injEq, true_and, and_true]
        omega

/-- The tokenizer on a block comment that is not closed: the Comment token
holds the input without its last byte, and the loop of `Tokenize` goes on
with that byte. -/
theorem Tokenize_unterminated_comment (body : GoString) (c : Char)
    (h : hasCommentEnd (body ++ [c]) = false) :
    Tokenize ('/' :: '*' :: (body ++ [c]))
      = lexFrom ⟨'/' :: '*' :: (body ++ [c]), body.length + 2, (commentPosition body 1 3).1,
            (commentPosition body 1 3).2⟩
          [⟨.Comment, '/' :: '*' :: body, (commentPosition body 1 3).1,
            (commentPosition body 1 3).2⟩] := by
  have h0 : ('/' :: '*' :: (body ++ [c])).drop 0 = '/' :: ('*' :: (body ++ [c])) := rfl
  have h2 : ('/' :: '*' :: (body ++ [c])).drop (0 + 2) = body ++ [c] := rfl
  have hrun := readBlockCommentLoop_unterminated c body
    (('/' :: '*' :: (body ++ [c])).length - (0 + 2))
    ⟨'/' :: '*' :: (body ++ [c]), 0 + 2, 1, 1 + 2⟩ h2 h (by simp)
  have hslice := slice_of_drop_append (s := '/' :: '*' :: (body ++ [c])) (i := 0)
    (w := '/' :: '*' :: body) (r := [c]) (by simp) (Nat.zero_le _)
  have hstep : tokenizeStep ⟨'/' :: '*' :: (body ++ [c]), 0, 1, 1⟩ '/'
      = readResult (readBlockComment ⟨'/' :: '*' :: (body ++ [c]), 0, 1, 1⟩) := by
    simp [tokenizeStep, isWhitespace]
  rw [Tokenize_eq_lexFrom]
  refine (lexFrom_cons ⟨'/' :: '*' :: (body ++ [c]), 0, 1, 1⟩ [] '/' ('*' :: (body ++ [c]))
    (some ⟨.Comment, '/' :: '*' :: body, (commentPosition body 1 3).1,
      (commentPosition body 1 3).2⟩)
    ⟨'/' :: '*' :: (body ++ [c]), body.length + 2, (commentPosition body 1 3).1,
      (commentPosition body 1 3).2⟩ h0 ?_).trans rfl
  rw [hstep]
  unfold readBlockComment
  simp only [hrun]
  have a1 : 0 + 2 + body.length = 0 + ('/' :: '*' :: body).length := by
    simp only [List.length_cons]; omega
  have a2 : 0 + ('/' :: '*' :: body).length = body.length + 2 := by
    simp only [List.length_cons]; omega
  rw [a1, hslice, a2]
  rfl

theorem tokenizeLoop_extends : ∀ (fuel : Nat) (l : Lexer) (tokens ts : List Token)
    (e : Option GoError), tokenizeLoop fuel l tokens = .ok (ts, e) → ∃ rest, ts = tokens ++ rest := by
  intro fuel
  induction fuel with
  | zero =>
    intro l tokens ts e h
    rw [tokenizeLoop] at h
    cases h
    exact ⟨_, rfl⟩
  | succ n ih =>
    intro l tokens ts e h
    rw [tokenizeLoop] at h
    cases hc : l.input[l.position]? with
    | none =>
      rw [hc] at h
      cases h
      exact ⟨_, rfl⟩
    | some c =>
      rw [hc] at h
      simp only [] at h
      cases hs : tokenizeStep l c with
      | error f => rw [hs] at h; cases h
      | ok x =>
        obtain ⟨⟨tok, err⟩, l1⟩ := x
        have hnone := tokenizeStep_no_error l c hc _ hs
        simp only [] at hnone
        subst hnone
        rw [hs] at h
        obtain ⟨rest, hrest⟩ := ih _ _ _ _ h
        exact ⟨tok.toList ++ rest, by rw [hrest, List.append_assoc]⟩

/-- C19 (fails on the code): the loop of `readBlockComment` runs while
`position < len(input)-1`, so on a block comment that is not closed it stops
one byte early. On `/*a` the result is three tokens, the Comment `/*`, the
Identifier `a` and `EOF`; on `/*"` the run panics; and for every input `/*`
+ body + one byte without `*/` after the opening, the first token returned
is the Comment holding the input without its last byte. -/
theorem unterminated_comment_leaves_last_byte :
    Tokenize "/*a".toList
        = .ok ([⟨.Comment, "/*".toList, 1, 3⟩, ⟨.Identifier, "a".toList, 1, 4⟩,
                ⟨.EOF, [], 1, 4⟩], none)
      ∧ Tokenize "/* x\ny ".toList
        = .ok ([⟨.Comment, "/* x\ny".toList, 2, 2⟩, ⟨.Whitespace, " ".toList, 2, 2⟩,
                ⟨.EOF, [], 2, 3⟩], none)
      ∧ Tokenize "/*\"".toList = .error .panic
      ∧ Tokenize "/*".toList = .ok ([⟨.Comment, "/*".toList, 1, 3⟩, ⟨.EOF, [], 1, 3⟩], none)
      ∧ (∀ (body : GoString) (c : Char), hasCommentEnd (body ++ [c]) = false →
          ∀ (ts : List Token) (e : Option GoError),
            Tokenize ('/' :: '*' :: (body ++ [c])) = .ok (ts, e) →
            ∃ rest, ts = ⟨.Comment, '/' :: '*' :: body, (commentPosition body 1 3).1,
                            (commentPosition body 1 3).2⟩ :: rest) := by
  refine ⟨by decide, by decide, by decide, by decide, fun body c h ts e ht => ?_⟩
  rw [Tokenize_unterminated_comment body c h] at ht
  exact tokenizeLoop_extends _ _ _ _ _ ht

/-! ## Tokenizer: terminated string literals -/

/-- The loop of `readString` passes a content of plain bytes and escape
pairs and stops on the quote after it. -/
theorem readQuotedLoop_escaped (quote : Char) (hquote : quote ≠ '\\') :
    ∀ (body : GoString) (fuel : Nat) (l : Lexer) (rest : GoString),
      l.input.drop l.position = body ++ quote :: rest →
      isEscapedContent quote body = true → body.length ≤ fuel →
      readQuotedLoop quote fuel l
        = { l with position := l.position + body.length, column := l.column + body.length }
  | [], fuel, l, rest, h, _, _ => by
    cases fuel with
    | zero => rfl
    | succ n =>
      rw [readQuotedLoop, getElem?_of_drop_cons (by simpa using h)]
      simp
  | [c], fuel, l, rest, h, hc, hfuel => by
    cases fuel with
    | zero => simp at hfuel
    | succ n =>
      simp only [isEscapedContent, Bool.and_eq_true, bne_iff_ne, ne_eq] at hc
      have hne : (c != quote) = true := by simp [hc.2]
      have hbs : ¬ ((c == '\\' && decide (l.position + 1 < l.input.length)) = true) := by
        simp [hc.1]
      rw [readQuotedLoop, getElem?_of_drop_cons (by simpa using h)]
      simp only []
      rw [if_pos hne, if_neg hbs,
        readQuotedLoop_escaped quote hquote [] n
          { l with position := l.position + 1, column := l.column + 1 } rest
          (drop_succ_of_drop_cons (by simpa using h)) rfl (Nat.zero_le _)]
      simp only [List.length_cons, List.length_nil, Lexer.mk.injEq, true_and]
  | c :: d :: body, fuel, l, rest, h, hc, hfuel => by
    cases fuel with
    | zero => simp at hfuel
    | succ n =>
      have h0 : l.input.drop l.position = c :: (d :: body ++ quote :: rest) := by simpa using h
      have h1 := drop_succ_of_drop_cons h0
      have h2 : l.input.drop (l.position + 1 + 1) = body ++ quote :: rest :=
        drop_succ_of_drop_cons (by simpa using h1)
      have hlt := lt_length_of_drop_cons (by simpa using h1 : l.input.drop (l.position + 1) = d :: (body ++ quote :: rest))
      rw [isEscapedContent] at hc
      rw [readQuotedLoop, getElem?_of_drop_cons h0]
      simp only []
      by_cases hb : c = '\\'
      · subst hb
        have hne : ('\\' != quote) = true := by
          simp only [bne_iff_ne, ne_eq]
          exact fun e => hquote e.symm
        have hbs : (('\\' : Char) == '\\' && decide (l.position + 1 < l.input.length)) = true := by
          simp [hlt]
        simp only [beq_self_eq_true, if_true] at hc
        rw [if_pos hne, if_pos hbs,
          readQuotedLoop_escaped quote hquote body n
            { l with position := l.position + 2, column := l.column + 2 } rest h2 hc
            (by simp only [List.length_cons] at hfuel; omega)]
        simp only [List.length_cons, Lexer.mk.injEq, true_and]
        omega
      · have hbeq : (c == '\\') = false := by simpa using hb
        simp only [hbeq, Bool.false_eq_true, if_false, Bool.and_eq_true, bne_iff_ne, ne_eq] at hc
        have hne : (c != quote) = true := by simp [hc.1]
        have hbs : ¬ ((c == '\\' && decide (l.position + 1 < l.input.length)) = true) := by
          simp [hb]
        rw [if_pos hne, if_neg hbs,
          readQuotedLoop_escaped quote hquote (d :: body) n
            { l with position := l.position + 1, column := l.column + 1 } rest
            (by simpa using h1) hc.2 (by simp only [List.length_cons] at hfuel ⊢; omega)]
        simp only [List.length_cons, Lexer.mk.injEq, true_and]
        omega

/-- C20: for a quote byte `q` (double or single) and a content `c` of plain
bytes and escape pairs, tokenizing `q + c + q` returns exactly the String
token with text `c` (backslashes kept, escaped quotes not ending the
literal) and the `EOF` token. -/
theorem tokenize_terminated_string (q : Char) (c : GoString) (hq : q = '"' ∨ q = '\'')
    (hc : isEscapedContent q c = true) :
    Tokenize (q :: (c ++ [q]))
      = .ok ([⟨.String, c, 1, c.length + 3⟩, ⟨.EOF, [], 1, c.length + 3⟩], none) := by
  have hquote : q ≠ '\\' := by rcases hq with rfl | rfl <;> decide
  have h : (q :: (c ++ [q])).drop 0 = q :: (c ++ q :: []) := rfl
  have hget : (q :: (c ++ [q]))[0]? = some q := getElem?_of_drop_cons h
  have h1 : (q :: (c ++ [q])).drop (0 + 1) = c ++ q :: [] := rfl
  have hrun := readQuotedLoop_escaped q hquote c ((q :: (c ++ [q])).length - (0 + 1))
    ⟨q :: (c ++ [q]), 0 + 1, 1, 1 + 1⟩ [] h1 hc (by simp)
  have hslice := slice_of_drop_append (s := q :: (c ++ [q])) (i := 0 + 1) (w := c)
    (r := [q]) h1 (by simp)
  have hstep : tokenizeStep ⟨q :: (c ++ [q]), 0, 1, 1⟩ q
      = readResult (readString ⟨q :: (c ++ [q]), 0, 1, 1⟩) := by
    rcases hq with rfl | rfl <;> rfl
  rw [Tokenize_eq_lexFrom]
  refine (lexFrom_cons ⟨q :: (c ++ [q]), 0, 1, 1⟩ [] q (c ++ [q])
    (some { Type_ := .String, Value := c, Line := 1, Column := c.length + 3 })
    ⟨q :: (c ++ [q]), c.length + 2, 1, c.length + 3⟩ h ?_).trans ?_
  · rw [hstep]
    unfold readString
    simp only [hget, hrun]
    have hlt2 : 0 + 1 + c.length < (q :: (c ++ [q])).length := by
      simp only [List.length_cons, List.length_append, List.length_nil]
      omega
    simp only [hlt2, if_true, Nat.add_sub_cancel, hslice]
    have a1 : 0 + 1 + c.length + 1 = c.length + 2 := by omega
    have a2 : 1 + 1 + c.length + 1 = c.length + 3 := by omega
    simp only [a1, a2]
    rfl
  · rw [lexFrom_nil _ _ (by simp)]
    rfl

theorem tokenize_terminated_string_witness :
    Tokenize "\"a\\\"b\\\\\"".toList
      = .ok ([⟨.String, "a\\\"b\\\\".toList, 1, 9⟩, ⟨.EOF, [], 1, 9⟩], none) :=
  tokenize_terminated_string '"' "a\\\"b\\\\".toList (Or.inl rfl) (by decide)

/-! ## Tokenizer: identifiers, keywords and unrecognized bytes -/

set_option maxRecDepth 100000 in
theorem keywords_of_entry : ∀ kv ∈ keywordTable, keywords kv.1.toList = some kv.2 := by
  decide

theorem keywords_eq_some_iff (s : GoString) (t : TokenType) :
    keywords s = some t ↔ isKeywordEntry s t := by
  constructor
  · intro h
    unfold keywords at h
    cases hf : keywordTable.find? (fun kv => kv.1.toList == s) with
    | none => rw [hf] at h; cases h
    | some kv =>
      rw [hf] at h
      simp only [Option.map_some', Option.some.injEq] at h
      have hp := List.find?_some hf
      exact ⟨kv, List.mem_of_find?_eq_some hf, by simpa using hp, h⟩
  · rintro ⟨kv, hmem, rfl, rfl⟩
    exact keywords_of_entry kv hmem

/-- C21: for every text made of a letter or underscore followed by letters,
digits and underscores, `Tokenize` returns exactly one token holding the
text and the `EOF` token; the kind of the token is the kind of the entry when
the text is a key of the keyword table (44 entries, compared byte for byte)
and `Identifier` otherwise. -/
theorem tokenize_identifier_or_keyword (c : Char) (w : GoString) (hc : isIdentStart c = true)
    (hw : ∀ d ∈ w, isIdentByte d = true) :
    Tokenize (c :: w)
        = .ok ([⟨identifierType (c :: w), c :: w, 1, w.length + 2⟩,
                ⟨.EOF, [], 1, w.length + 2⟩], none)
      ∧ (∀ t, isKeywordEntry (c :: w) t → identifierType (c :: w) = t)
      ∧ ((∀ t, ¬ isKeywordEntry (c :: w) t) → identifierType (c :: w) = .Identifier)
      ∧ keywordTable.length = 44
      ∧ identifierType "page".toList = .Page
      ∧ identifierType "Page".toList = .Identifier
      ∧ identifierType "default".toList = .Identifier
      ∧ identifierType "on".toList = .Identifier := by
  refine ⟨?_, ?_, ?_, by decide, by decide, by decide, by decide, by decide⟩
  · have h0 : (c :: w).drop 0 = c :: w ++ [] := by simp
    rw [Tokenize_eq_lexFrom]
    refine (lexFrom_identifier (c :: w) 0 1 1 [] c w [] h0 hc hw (by simp)).trans ?_
    rw [lexFrom_nil _ _ (by simp)]
    simp only [eofToken, List.nil_append, List.cons_append]
    have a1 : 1 + (w.length + 1) = w.length + 2 := by omega
    rw [a1]
  · intro t ht
    unfold identifierType
    rw [(keywords_eq_some_iff _ _).mpr ht]
  · intro h
    unfold identifierType
    cases hk : keywords (c :: w) with
    | none => rfl
    | some t => exact absurd ((keywords_eq_some_iff _ _).mp hk) (h t)

theorem tokenize_identifier_or_keyword_witness :
    Tokenize "state_1".toList
      = .ok ([⟨identifierType "state_1".toList, "state_1".toList, 1, 8⟩, ⟨.EOF, [], 1, 8⟩],
          none) :=
  (tokenize_identifier_or_keyword 's' "tate_1".toList (by decide) (by decide)).1

theorem tokenizeStep_noise (l : Lexer) (c : Char) (h : isRecognizedByte c = false) :
    tokenizeStep l c
      = .ok ((none, none), { l with position := l.position + 1, column := l.column + 1 }) := by
  simp only [isRecognizedByte, Bool.or_eq_false_iff] at h
  obtain ⟨⟨⟨⟨⟨h1, h2⟩, h3⟩, h4⟩, h5⟩, h6⟩ := h
  simp only [isQuoteByte, Bool.or_eq_false_iff] at h5
  have hop : ∀ d ∈ "=!<>+-*/%&|()\x7b\x7d[];,.:?".toList, (c == d) = false := by
    intro d hd
    cases hcd : (c == d)
    · rfl
    · have := eq_of_beq hcd
      subst this
      simp only [isOperatorByte, decide_eq_false_iff_not] at h6
      exact absurd hd h6
  have hslash := hop '/' (by decide)
  unfold tokenizeStep
  simp only [h1, h2, h3, h4, h5.1.1, h5.1.2, h5.2, hslash, Bool.false_and, Bool.or_self,
    Bool.false_eq_true, if_false]
  unfold tokenizeOperator
  simp only [hop '=' (by decide), hop '!' (by decide), hop '<' (by decide), hop '>' (by decide),
    hop '+' (by decide), hop '-' (by decide), hop '*' (by decide), hslash, hop '%' (by decide),
    hop '&' (by decide), hop '|' (by decide), hop '(' (by decide), hop ')' (by decide),
    hop '\x7b' (by decide), hop '\x7d' (by decide), hop '[' (by decide), hop ']' (by decide),
    hop ';' (by decide), hop ',' (by decide), hop '.' (by decide), hop ':' (by decide),
    hop '?' (by decide), Bool.false_eq_true, if_false]

theorem lexFrom_noise : ∀ (n : Nat) (input : GoString) (position line column : Nat)
    (tokens : List Token), (∀ c ∈ input, isRecognizedByte c = false) →
    input.length - position = n →
    lexFrom ⟨input, position, line, column⟩ tokens
      = .ok (tokens ++ [⟨.EOF, [], line, column + n⟩], none) := by
  intro n
  induction n with
  | zero =>
    intro input position line column tokens _ hn
    rw [lexFrom_nil _ _ (by simp only [List.drop_eq_nil_iff]; omega)]
    rfl
  | succ n ih =>
    intro input position line column tokens h hn
    have hlt : position < input.length := by omega
    have hc : input[position]? = some input[position] := List.getElem?_eq_getElem hlt
    have hnoise := h _ (List.getElem_mem hlt)
    rw [lexFrom_of_step ⟨input, position, line, column⟩ tokens input[position] none
      ⟨input, position + 1, line, column + 1⟩ hc (tokenizeStep_noise _ _ hnoise),
      ih input (position + 1) line (column + 1) _ h (by omega)]
    simp only [Option.toList, List.append_nil, Nat.add_assoc, Nat.add_comm 1 n]

/-- C23: on an input made only of bytes that match no token rule `Tokenize`
returns the nil error and exactly one token, `EOF`; and wherever the loop of
`Tokenize` meets such a byte it appends no token and moves on by one byte. -/
theorem noise_is_dropped (input : GoString) (h : ∀ c ∈ input, isRecognizedByte c = false) :
    Tokenize input = .ok ([⟨.EOF, [], 1, 1 + input.length⟩], none)
      ∧ (∀ (l : Lexer) (c : Char), isRecognizedByte c = false →
          tokenizeStep l c
            = .ok ((none, none), ⟨l.input, l.position + 1, l.line, l.column + 1⟩))
      ∧ isRecognizedByte '@' = false ∧ isRecognizedByte '#' = false
      ∧ isRecognizedByte '$' = false ∧ isRecognizedByte '^' = false
      ∧ isRecognizedByte '~' = false
      ∧ (∀ c : Char, 128 ≤ c.toNat → isRecognizedByte c = false) := by
  refine ⟨?_, fun l c hc => tokenizeStep_noise l c hc, by decide, by decide, by decide,
    by decide, by decide, ?_⟩
  · rw [Tokenize_eq_lexFrom]
    exact lexFrom_noise input.length input 0 1 1 [] h (by simp)
  · intro c hc
    have key : ∀ d : Char, d.toNat < 128 → (c == d) = false := by
      intro d hd
      cases hcd : c == d
      · rfl
      · have := eq_of_beq hcd
        subst this
        omega
    have hle : ∀ d : Char, d.toNat < 128 → decide (c ≤ d) = false := by
      intro d hd
      rw [decide_eq_false_iff_not]
      intro hcd
      have h2 : c.toNat ≤ d.toNat := hcd
      omega
    have hmem : ∀ s : GoString, (∀ d ∈ s, d.toNat < 128) → decide (c ∈ s) = false := by
      intro s hs
      rw [decide_eq_false_iff_not]
      intro hc2
      have := hs c hc2
      omega
    simp only [isRecognizedByte, isWhitespace, isAlpha, isDigit, isQuoteByte, isOperatorByte,
      key ' ' (by decide), key '\t' (by decide), key '\r' (by decide), key '\n' (by decide),
      key '_' (by decide), key '"' (by decide), key '\'' (by decide), key '\x60' (by decide),
      hle 'z' (by decide), hle 'Z' (by decide), hle '9' (by decide),
      hmem "=!<>+-*/%&|()\x7b\x7d[];,.:?".toList (by decide), Bool.and_false, Bool.or_self]

theorem noise_is_dropped_witness :
    Tokenize ['@', '#', '$', '^', '~', Char.ofNat 200]
      = .ok ([⟨.EOF, [], 1, 7⟩], none) :=
  (noise_is_dropped ['@', '#', '$', '^', '~', Char.ofNat 200] (by decide)).1

/-! ## Tokenizer: restricted round trip and two-byte operators -/

/-- C29: on an input of recognized bytes without double quote, single quote
and backtick `Tokenize` returns the nil error, and the `Value` fields of the
returned tokens, concatenated in order, are the input; every iteration of
the loop on such a byte appends a token that holds exactly the bytes it
passes. -/
theorem restricted_roundtrip (input : GoString)
    (h : ∀ c ∈ input, isRecognizedByte c = true ∧ c ≠ '"' ∧ c ≠ '\'' ∧ c ≠ '\x60') :
    (∃ ts, Tokenize input = .ok (ts, none) ∧ tokenText ts = input)
      ∧ (∀ (l : Lexer) (c : Char), l.input[l.position]? = some c →
          isRecognizedByte c = true → c ≠ '"' → c ≠ '\'' → c ≠ '\x60' →
          ∃ x, tokenizeStep l c = .ok x ∧ x.1.2 = none ∧ l.position < x.2.position
            ∧ appendedText x.1.1 ++ l.input.drop x.2.position = l.input.drop l.position) := by
  have hq : ∀ c : Char, c ≠ '"' → c ≠ '\'' → c ≠ '\x60' → isQuoteByte c = false := by
    intro c h1 h2 h3
    simp [isQuoteByte, h1, h2, h3]
  refine ⟨Tokenize_text input (fun c hc => ⟨(h c hc).1, hq c (h c hc).2.1 (h c hc).2.2.1
    (h c hc).2.2.2⟩), fun l c hc hrec h1 h2 h3 => ?_⟩
  rcases tokenizeStep_cases l c hc with ⟨x, hx, ha, hk⟩ | ⟨hquote, _⟩
  · exact ⟨x, hx, ha.1, ha.2.2.1, hk (hq c h1 h2 h3) hrec⟩
  · rw [hq c h1 h2 h3] at hquote
    cases hquote

set_option maxRecDepth 100000 in
theorem restricted_roundtrip_witness :
    ∃ ts, Tokenize "a_1 = 2.5;\n// c\n/* d\n*/ x<=y".toList = .ok (ts, none)
      ∧ tokenText ts = "a_1 = 2.5;\n// c\n/* d\n*/ x<=y".toList :=
  (restricted_roundtrip "a_1 = 2.5;\n// c\n/* d\n*/ x<=y".toList (by decide)).1

theorem tokenizeStep_pair (a b : Char) (k : TokenType) (h : (a, b, k) ∈ operatorPairs)
    (l : Lexer) (hb : l.input[l.position + 1]? = some b) :
    tokenizeStep l a
      = .ok ((some ⟨k, [a, b], l.line, l.column⟩, none),
          ⟨l.input, l.position + 2, l.line, l.column + 2⟩) := by
  simp only [operatorPairs, List.mem_cons, Prod.mk.injEq, List.mem_singleton, List.not_mem_nil,
    or_false] at h
  rcases h with h | h | h | h | h | h | h | h
  all_goals
    obtain ⟨ha, hb2, hk⟩ := h
    subst ha hb2 hk
    simp [tokenizeStep, isWhitespace, isDigit, isAlpha, tokenizeOperator, emitToken, hb]

theorem tokenizeStep_single (a : Char) (k : TokenType) (h : (a, k) ∈ operatorSingles)
    (l : Lexer) (hb : ∀ b, l.input[l.position + 1]? = some b → completesPair a b = false) :
    tokenizeStep l a
      = .ok ((some ⟨k, [a], l.line, l.column⟩, none),
          ⟨l.input, l.position + 1, l.line, l.column + 1⟩) := by
  have hne : ∀ b, completesPair a b = true → (l.input[l.position + 1]? == some b) = false := by
    intro b hab
    cases hq : l.input[l.position + 1]? == some b
    · rfl
    · rw [hb b (eq_of_beq hq)] at hab
      cases hab
  simp only [operatorSingles, List.mem_cons, Prod.mk.injEq, List.mem_singleton,
    List.not_mem_nil, or_false] at h
  rcases h with ⟨rfl, rfl⟩ | ⟨rfl, rfl⟩ | ⟨rfl, rfl⟩ | ⟨rfl, rfl⟩ | ⟨rfl, rfl⟩ | ⟨rfl, rfl⟩
  · simp [tokenizeStep, isWhitespace, isDigit, isAlpha, tokenizeOperator, emitToken,
      hne '=' (by decide), hne '>' (by decide)]
  · simp [tokenizeStep, isWhitespace, isDigit, isAlpha, tokenizeOperator, emitToken,
      hne '=' (by decide)]
  · simp [tokenizeStep, isWhitespace, isDigit, isAlpha, tokenizeOperator, emitToken,
      hne '=' (by decide), hne '/' (by decide)]
  · simp [tokenizeStep, isWhitespace, isDigit, isAlpha, tokenizeOperator, emitToken,
      hne '=' (by decide)]
  · simp [tokenizeStep, isWhitespace, isDigit, isAlpha, tokenizeOperator, emitToken,
      hne '&' (by decide)]
  · simp [tokenizeStep, isWhitespace, isDigit, isAlpha, tokenizeOperator, emitToken,
      hne '|' (by decide)]

/-- C22: for each of the eight two-byte operators and every rest of the
input, the first iteration of `Tokenize` appends the token of the pair, with
its kind, at line 1 and column 1, and the loop goes on after both bytes, so
the token is the first one of every result `Tokenize` returns; when the
second byte does not complete a pair, the first byte alone is appended as
Assign, Not, OpeningTagStart, TagEnd, And or Pipe and the loop goes on after
that byte. -/
theorem two_byte_operators_win (rest : GoString) :
    (∀ (a b : Char) (k : TokenType), (a, b, k) ∈ operatorPairs →
        Tokenize (a :: b :: rest)
            = lexFrom ⟨a :: b :: rest, 2, 1, 3⟩ [⟨k, [a, b], 1, 1⟩]
          ∧ ∀ (ts : List Token) (e : Option GoError), Tokenize (a :: b :: rest) = .ok (ts, e) →
              ∃ more, ts = ⟨k, [a, b], 1, 1⟩ :: more)
      ∧ (∀ (a : Char) (k : TokenType), (a, k) ∈ operatorSingles →
          (∀ b, rest.head? = some b → completesPair a b = false) →
          Tokenize (a :: rest) = lexFrom ⟨a :: rest, 1, 1, 2⟩ [⟨k, [a], 1, 1⟩]
            ∧ ∀ (ts : List Token) (e : Option GoError), Tokenize (a :: rest) = .ok (ts, e) →
                ∃ more, ts = ⟨k, [a], 1, 1⟩ :: more)
      ∧ Tokenize "<=>".toList
          = .ok ([⟨.LessEqual, "<=".toList, 1, 1⟩, ⟨.TagEnd, ">".toList, 1, 3⟩,
                  ⟨.EOF, [], 1, 4⟩], none)
      ∧ Tokenize "=<".toList
          = .ok ([⟨.Assign, "=".toList, 1, 1⟩, ⟨.OpeningTagStart, "<".toList, 1, 2⟩,
                  ⟨.EOF, [], 1, 3⟩], none) := by
  refine ⟨fun a b k h => ?_, fun a k h hb => ?_, by decide, by decide⟩
  · have hstep := tokenizeStep_pair a b k h ⟨a :: b :: rest, 0, 1, 1⟩ (by simp)
    have heq : Tokenize (a :: b :: rest)
        = lexFrom ⟨a :: b :: rest, 2, 1, 3⟩ [⟨k, [a, b], 1, 1⟩] := by
      rw [Tokenize_eq_lexFrom]
      exact lexFrom_cons ⟨a :: b :: rest, 0, 1, 1⟩ [] a (b :: rest) _ _ rfl hstep
    refine ⟨heq, fun ts e ht => ?_⟩
    rw [heq] at ht
    exact tokenizeLoop_extends _ _ _ _ _ ht
  · have hstep := tokenizeStep_single a k h ⟨a :: rest, 0, 1, 1⟩ (by
      intro b hq
      apply hb b
      cases rest with
      | nil => simp at hq
      | cons r rs => simpa using hq)
    have heq : Tokenize (a :: rest) = lexFrom ⟨a :: rest, 1, 1, 2⟩ [⟨k, [a], 1, 1⟩] := by
      rw [Tokenize_eq_lexFrom]
      exact lexFrom_cons ⟨a :: rest, 0, 1, 1⟩ [] a rest _ _ rfl hstep
    refine ⟨heq, fun ts e ht => ?_⟩
    rw [heq] at ht
    exact tokenizeLoop_extends _ _ _ _ _ ht

/-! ## Tokenizer: the EOF sentinel -/

theorem identifierType_ne_EOF (value : GoString) : identifierType value ≠ .EOF := by
  unfold identifierType
  cases hk : keywords value with
  | none => simp
  | some t =>
    obtain ⟨kv, hmem, _, rfl⟩ := (keywords_eq_some_iff value t).mp hk
    have hall : ∀ kv ∈ keywordTable, kv.2 ≠ TokenType.EOF := by decide
    exact hall kv hmem

theorem readResult_noEOF (r : Except Failure ((Token × Option GoError) × Lexer))
    (h : ∀ x, r = .ok x → x.1.1.Type_ ≠ .EOF) :
    ∀ y, readResult r = .ok y → AppendsNoEOF y := by
  intro y hy tok htok
  cases r with
  | error e => cases hy
  | ok x =>
    obtain ⟨⟨t, e⟩, l1⟩ := x
    simp only [readResult] at hy
    cases hy
    simp only [Option.some.injEq] at htok
    subst htok
    exact h _ rfl

theorem readLineComment_type (l : Lexer) (x : (Token × Option GoError) × Lexer)
    (h : readLineComment l = .ok x) : x.1.1.Type_ ≠ .EOF := by
  unfold readLineComment at h
  simp only [] at h
  split at h
  · cases h
  · cases h; simp

theorem readBlockComment_type (l : Lexer) (x : (Token × Option GoError) × Lexer)
    (h : readBlockComment l = .ok x) : x.1.1.Type_ ≠ .EOF := by
  unfold readBlockComment at h
  simp only [] at h
  split at h
  · cases h
  · cases h; simp

theorem readString_type (l : Lexer) (x : (Token × Option GoError) × Lexer)
    (h : readString l = .ok x) : x.1.1.Type_ ≠ .EOF := by
  unfold readString at h
  split at h
  · cases h
  · simp only [] at h
    split at h
    · cases h
    · cases h; simp

theorem readTemplateLiteral_type (l : Lexer) (x : (Token × Option GoError) × Lexer)
    (h : readTemplateLiteral l = .ok x) : x.1.1.Type_ ≠ .EOF := by
  unfold readTemplateLiteral at h
  simp only [] at h
  split at h
  · cases h
  · cases h; simp

theorem readNumber_type (l : Lexer) (x : (Token × Option GoError) × Lexer)
    (h : readNumber l = .ok x) : x.1.1.Type_ ≠ .EOF := by
  unfold readNumber at h
  simp only [] at h
  split at h
  · cases h
  · cases h; simp

theorem readIdentifier_type (l : Lexer) (x : (Token × Option GoError) × Lexer)
    (h : readIdentifier l = .ok x) : x.1.1.Type_ ≠ .EOF := by
  unfold readIdentifier at h
  simp only [] at h
  split at h
  · cases h
  · cases h
    exact identifierType_ne_EOF _

theorem tokenizeOperator_noEOF (l : Lexer) (c : Char) : AppendsNoEOF (tokenizeOperator l c) := by
  have key : ∀ (t : TokenType) (v : String) (n : Nat), t ≠ .EOF →
      AppendsNoEOF (emitToken l t v n) := by
    intro t v n ht tok h
    simp only [emitToken, Option.some.injEq] at h
    subst h
    exact ht
  unfold tokenizeOperator
  dsimp only []
  repeat' first
    | (refine ite_both (P := AppendsNoEOF) (fun _ => ?_) (fun _ => ?_))
    | exact key _ _ _ (by decide)
  intro tok h
  cases h

theorem tokenizeStep_noEOF (l : Lexer) (c : Char)
    (x : (Option Token × Option GoError) × Lexer) (h : tokenizeStep l c = .ok x) :
    AppendsNoEOF x := by
  revert h
  unfold tokenizeStep
  refine ite_both (P := fun (r : Except Failure ((Option Token × Option GoError) × Lexer)) =>
      r = Except.ok x → AppendsNoEOF x) (fun _ => ?_) (fun _ => ?_)
  · refine ite_both (P := fun (r : Except Failure ((Option Token × Option GoError) × Lexer)) =>
      r = Except.ok x → AppendsNoEOF x) (fun _ => ?_) (fun _ => ?_)
    · intro h tok htok
      cases h
      simp only [Option.some.injEq] at htok
      subst htok
      simp
    · intro h tok htok
      cases h
      simp only [Option.some.injEq] at htok
      subst htok
      simp
  refine ite_both (P := fun (r : Except Failure ((Option Token × Option GoError) × Lexer)) =>
      r = Except.ok x → AppendsNoEOF x) (fun _ => ?_) (fun _ => ?_)
  · exact readResult_noEOF _ (readLineComment_type l) x
  refine ite_both (P := fun (r : Except Failure ((Option Token × Option GoError) × Lexer)) =>
      r = Except.ok x → AppendsNoEOF x) (fun _ => ?_) (fun _ => ?_)
  · exact readResult_noEOF _ (readBlockComment_type l) x
  refine ite_both (P := fun (r : Except Failure ((Option Token × Option GoError) × Lexer)) =>
      r = Except.ok x → AppendsNoEOF x) (fun _ => ?_) (fun _ => ?_)
  · exact readResult_noEOF _ (readString_type l) x
  refine ite_both (P := fun (r : Except Failure ((Option Token × Option GoError) × Lexer)) =>
      r = Except.ok x → AppendsNoEOF x) (fun _ => ?_) (fun _ => ?_)
  · exact readResult_noEOF _ (readTemplateLiteral_type l) x
  refine ite_both (P := fun (r : Except Failure ((Option Token × Option GoError) × Lexer)) =>
      r = Except.ok x → AppendsNoEOF x) (fun _ => ?_) (fun _ => ?_)
  · exact readResult_noEOF _ (readNumber_type l) x
  refine ite_both (P := fun (r : Except Failure ((Option Token × Option GoError) × Lexer)) =>
      r = Except.ok x → AppendsNoEOF x) (fun _ => ?_) (fun _ => ?_)
  · exact readResult_noEOF _ (readIdentifier_type l) x
  · intro h
    cases h
    exact tokenizeOperator_noEOF l c

theorem tokenizeLoop_sentinel : ∀ (fuel : Nat) (l : Lexer) (tokens ts : List Token)
    (e : Option GoError), (∀ t ∈ tokens, t.Type_ ≠ .EOF) →
    tokenizeLoop fuel l tokens = .ok (ts, e) →
    ∃ init line column, ts = init ++ [⟨.EOF, [], line, column⟩] ∧ ∀ t ∈ init, t.Type_ ≠ .EOF := by
  intro fuel
  induction fuel with
  | zero =>
    intro l tokens ts e hall h
    rw [tokenizeLoop] at h
    cases h
    exact ⟨tokens, _, _, rfl, hall⟩
  | succ n ih =>
    intro l tokens ts e hall h
    rw [tokenizeLoop] at h
    cases hc : l.input[l.position]? with
    | none =>
      rw [hc] at h
      cases h
      exact ⟨tokens, _, _, rfl, hall⟩
    | some c =>
      rw [hc] at h
      simp only [] at h
      cases hs : tokenizeStep l c with
      | error f => rw [hs] at h; cases h
      | ok x =>
        obtain ⟨⟨tok, err⟩, l1⟩ := x
        have hnone := tokenizeStep_no_error l c hc _ hs
        have hne := tokenizeStep_noEOF l c _ hs
        simp only [] at hnone
        subst hnone
        rw [hs] at h
        refine ih _ _ _ _ ?_ h
        intro t ht
        rcases List.mem_append.mp ht with ht | ht
        · exact hall t ht
        · cases tok with
          | none => simp at ht
          | some tk =>
            simp only [Option.toList, List.mem_singleton] at ht
            subst ht
            exact hne _ rfl

/-- C24: whenever `Tokenize` returns a token sequence, the sequence is not
empty, its last token has kind `EOF` and the empty text, and no token before
the last has kind `EOF`. -/
theorem eof_sentinel (input : GoString) (ts : List Token) (e : Option GoError)
    (h : Tokenize input = .ok (ts, e)) :
    ts ≠ []
      ∧ (∃ last, ts.getLast? = some last ∧ last.Type_ = .EOF ∧ last.Value = [])
      ∧ (∀ t ∈ ts.dropLast, t.Type_ ≠ .EOF)
      ∧ (∀ i t, ts[i]? = some t → (t.Type_ = .EOF ↔ i + 1 = ts.length)) := by
  obtain ⟨init, line, column, rfl, hall⟩ := tokenizeLoop_sentinel _ _ _ _ _
    (fun t ht => absurd ht (List.not_mem_nil t)) h
  refine ⟨by simp, ⟨⟨.EOF, [], line, column⟩, by simp, rfl, rfl⟩, by simpa using hall,
    fun i t hi => ?_⟩
  by_cases hlt : i < init.length
  · rw [List.getElem?_append_left hlt] at hi
    have hmem : t ∈ init := List.getElem?_mem hi
    constructor
    · intro ht; exact absurd ht (hall t hmem)
    · intro hi2
      simp only [List.length_append, List.length_singleton] at hi2
      omega
  · have hge : init.length ≤ i := by omega
    rw [List.getElem?_append_right hge] at hi
    have hi0 : i - init.length = 0 := by
      cases hk : i - init.length with
      | zero => rfl
      | succ k => rw [hk] at hi; simp at hi
    rw [hi0] at hi
    simp only [List.getElem?_cons_zero, Option.some.injEq] at hi
    subst hi
    simp only [List.length_append, List.length_singleton, true_iff]
    omega

theorem eof_sentinel_witness :
    ∃ last, ([⟨.Identifier, "a".toList, 1, 2⟩, ⟨.EOF, [], 1, 2⟩] : List Token).getLast?
        = some last ∧ last.Type_ = .EOF ∧ last.Value = [] :=
  (eof_sentinel "a".toList [⟨.Identifier, "a".toList, 1, 2⟩, ⟨.EOF, [], 1, 2⟩] none
    (by decide)).2.1

/-! ## Nested blocks and the final position -/

/-- C25 (fails on the code): the block contents Whitespace, State,
LeftBrace, RightBrace parse at top level to one State node, and inside the
braces of a block to no node at all: after `parseStatement` has passed the
Whitespace token, `parseBlock` advances once more and passes the keyword. -/
theorem nested_block_skips_keyword :
    (∀ fuel, 5 ≤ fuel →
        Parse fuel [⟨.Whitespace, " ".toList, 1, 1⟩, ⟨.State, "state".toList, 1, 7⟩,
            ⟨.LeftBrace, "\x7b".toList, 1, 7⟩, ⟨.RightBrace, "\x7d".toList, 1, 8⟩,
            ⟨.EOF, [], 1, 9⟩]
          = some (some (.ProgramNode [.StateNode [] []]), none))
      ∧ parseBlock 5 ⟨[⟨.LeftBrace, "\x7b".toList, 1, 1⟩,
            ⟨.Whitespace, " ".toList, 1, 2⟩, ⟨.State, "state".toList, 1, 8⟩,
            ⟨.LeftBrace, "\x7b".toList, 1, 8⟩, ⟨.RightBrace, "\x7d".toList, 1, 9⟩,
            ⟨.RightBrace, "\x7d".toList, 1, 10⟩, ⟨.EOF, [], 1, 11⟩], 1⟩
          = some (([], none), ⟨[⟨.LeftBrace, "\x7b".toList, 1, 1⟩,
            ⟨.Whitespace, " ".toList, 1, 2⟩, ⟨.State, "state".toList, 1, 8⟩,
            ⟨.LeftBrace, "\x7b".toList, 1, 8⟩, ⟨.RightBrace, "\x7d".toList, 1, 9⟩,
            ⟨.RightBrace, "\x7d".toList, 1, 10⟩, ⟨.EOF, [], 1, 11⟩], 5⟩)
      ∧ (∀ fuel, 6 ≤ fuel →
        Parse fuel [⟨.Router, "router".toList, 1, 7⟩, ⟨.LeftBrace, "\x7b".toList, 1, 7⟩,
            ⟨.Whitespace, " ".toList, 1, 8⟩, ⟨.State, "state".toList, 1, 14⟩,
            ⟨.LeftBrace, "\x7b".toList, 1, 14⟩, ⟨.RightBrace, "\x7d".toList, 1, 15⟩,
            ⟨.RightBrace, "\x7d".toList, 1, 16⟩, ⟨.EOF, [], 1, 17⟩]
          = some (some (.ProgramNode [.RouterNode []]), none)) :=
  ⟨Parse_mono _ _ 5 (by rfl), by rfl, Parse_mono _ _ 6 (by rfl)⟩

/-! ## Parser: the shape of the trees it builds -/

theorem isParserShapedList_append (a b : List ASTNode) :
    isParserShapedList (a ++ b) = (isParserShapedList a && isParserShapedList b) := by
  induction a with
  | nil => simp [isParserShapedList]
  | cons x xs ih => simp [isParserShapedList, ih, Bool.and_assoc]

theorem isParserShapedOption_head (body : List ASTNode) (h : isParserShapedList body = true) :
    isParserShapedOption body.head? = true := by
  cases body with
  | nil => rfl
  | cons x xs =>
    simp only [isParserShapedList, Bool.and_eq_true] at h
    exact h.1

theorem bracedBlock_shaped {b : BlockParser} (hb : ReturnsShapedList b) (p : Parser)
    (r : List ASTNode × Parser) (h : bracedBlock b p = some r) :
    isParserShapedList r.1 = true := by
  unfold bracedBlock at h
  by_cases hc : p.check .LeftBrace = true
  · rw [if_pos hc] at h
    cases hq : b p.skip with
    | none => rw [hq] at h; cases h
    | some y =>
      rw [hq] at h
      have := hb _ _ hq
      cases h
      exact this
  · rw [if_neg hc] at h
    cases h
    rfl

theorem parsePage_shaped {b : BlockParser} (hb : ReturnsShapedList b) (n : Nat) :
    ReturnsShaped (parsePage b n) := by
  intro p r h
  unfold parsePage at h
  simp only [] at h
  cases ha : parsePageAttributes n p.optionalName.2 [] with
  | none => rw [ha] at h; cases h
  | some x =>
    rw [ha] at h
    simp only [] at h
    cases hq : bracedBlock b x.2 with
    | none => rw [hq] at h; cases h
    | some y =>
      rw [hq] at h
      have := bracedBlock_shaped hb _ _ hq
      cases h
      simpa [isParserShapedOption, isParserShaped] using this

theorem parseStyle_shaped {b : BlockParser} (hb : ReturnsShapedList b) :
    ReturnsShaped (parseStyle b) := by
  intro p r h
  unfold parseStyle at h
  simp only [] at h
  cases hq : bracedBlock b p.optionalName.2 with
  | none => rw [hq] at h; cases h
  | some y =>
    rw [hq] at h
    have := bracedBlock_shaped hb _ _ hq
    cases h
    simpa [isParserShapedOption, isParserShaped] using this

theorem parseState_shaped {b : BlockParser} (hb : ReturnsShapedList b) :
    ReturnsShaped (parseState b) := by
  intro p r h
  unfold parseState at h
  simp only [] at h
  cases hq : bracedBlock b p.optionalName.2 with
  | none => rw [hq] at h; cases h
  | some y =>
    rw [hq] at h
    have := bracedBlock_shaped hb _ _ hq
    cases h
    simpa [isParserShapedOption, isParserShaped] using this

theorem parseApi_shaped {b : BlockParser} (hb : ReturnsShapedList b) :
    ReturnsShaped (parseApi b) := by
  intro p r h
  unfold parseApi at h
  simp only [] at h
  cases hq : bracedBlock b p.optionalName.2 with
  | none => rw [hq] at h; cases h
  | some y =>
    rw [hq] at h
    have := bracedBlock_shaped hb _ _ hq
    cases h
    simpa [isParserShapedOption, isParserShaped] using this

theorem parseRouter_shaped {b : BlockParser} (hb : ReturnsShapedList b) :
    ReturnsShaped (parseRouter b) := by
  intro p r h
  unfold parseRouter at h
  cases hq : bracedBlock b p with
  | none => rw [hq] at h; cases h
  | some y =>
    rw [hq] at h
    have := bracedBlock_shaped hb _ _ hq
    cases h
    simpa [isParserShapedOption, isParserShaped] using this

theorem parseLayout_shaped {b : BlockParser} (hb : ReturnsShapedList b) :
    ReturnsShaped (parseLayout b) := by
  intro p r h
  unfold parseLayout at h
  simp only [] at h
  cases hq : bracedBlock b p.optionalName.2 with
  | none => rw [hq] at h; cases h
  | some y =>
    rw [hq] at h
    have := isParserShapedOption_head _ (bracedBlock_shaped hb _ _ hq)
    cases h
    simpa [isParserShapedOption, isParserShaped] using this

theorem parseAnimation_shaped {b : BlockParser} (hb : ReturnsShapedList b) :
    ReturnsShaped (parseAnimation b) := by
  intro p r h
  unfold parseAnimation at h
  simp only [] at h
  cases hq : bracedBlock b p.optionalName.2 with
  | none => rw [hq] at h; cases h
  | some y =>
    rw [hq] at h
    have := bracedBlock_shaped hb _ _ hq
    cases h
    simpa [isParserShapedOption, isParserShaped] using this

theorem parseEvent_shaped {b : BlockParser} (hb : ReturnsShapedList b) :
    ReturnsShaped (parseEvent b) := by
  intro p r h
  unfold parseEvent at h
  simp only [] at h
  revert h
  generalize (if p.optionalName.2.peekIsOn = true then p.optionalName.2.skip.optionalName.2
    else p.optionalName.2) = p2
  intro h
  cases hq : bracedBlock b p2 with
  | none => rw [hq] at h; cases h
  | some y =>
    rw [hq] at h
    have := bracedBlock_shaped hb _ _ hq
    cases h
    simpa [isParserShapedOption, isParserShaped] using this

theorem parseComponent_shaped (b : BlockParser) (n : Nat) :
    ReturnsShaped (parseComponent b n) := by
  intro p r h
  unfold parseComponent at h
  simp only [] at h
  by_cases hc : p.optionalName.2.check .Less = true
  · simp only [hc, if_true] at h
    cases ha : parseNameList .Greater n p.optionalName.2.skip [] with
    | none => rw [ha] at h; cases h
    | some x =>
      rw [ha] at h
      simp only [] at h
      revert h
      generalize (if x.2.check .Greater = true then x.2.skip else x.2) = p3
      intro h
      cases hq : bracedBlock b p3 with
      | none => rw [hq] at h; cases h
      | some y => rw [hq] at h; cases h; rfl
  · simp only [if_neg hc] at h
    cases hq : bracedBlock b p.optionalName.2 with
    | none => rw [hq] at h; cases h
    | some y => rw [hq] at h; cases h; rfl

theorem parseParametersLoop_nil : ∀ (n : Nat) (p : Parser) (r : ListResult × Parser),
    parseParametersLoop n p = some r → r.1.1 = [] := by
  intro n
  induction n with
  | zero => intro p r h; cases h
  | succ n ih =>
    intro p r h
    rw [parseParametersLoop] at h
    by_cases hc : (!p.check .RightParen && !p.isAtEnd) = true
    · rw [if_pos hc] at h
      exact ih _ _ h
    · rw [if_neg hc] at h
      cases h
      rfl

theorem parseHook_shaped {b : BlockParser} (hb : ReturnsShapedList b) (n : Nat) :
    ReturnsShaped (parseHook b n) := by
  intro p r h
  unfold parseHook parseParameters at h
  simp only [] at h
  by_cases hc : p.optionalName.2.check .LeftParen = true
  · simp only [hc, if_true] at h
    cases ha : parseParametersLoop n p.optionalName.2.skip with
    | none => rw [ha] at h; cases h
    | some x =>
      have hnil := parseParametersLoop_nil _ _ _ ha
      rw [ha] at h
      simp only [] at h
      revert h
      generalize (if x.2.check .RightParen = true then x.2.skip else x.2) = p3
      intro h
      cases hq : bracedBlock b p3 with
      | none => rw [hq] at h; cases h
      | some y =>
        rw [hq] at h
        have := bracedBlock_shaped hb _ _ hq
        cases h
        simpa [isParserShapedOption, isParserShaped, hnil, isParserShapedList] using this
  · simp only [if_neg hc] at h
    cases hq : bracedBlock b p.optionalName.2 with
    | none => rw [hq] at h; cases h
    | some y =>
      rw [hq] at h
      have := bracedBlock_shaped hb _ _ hq
      cases h
      simpa [isParserShapedOption, isParserShaped, isParserShapedList] using this

theorem parseImport_shaped (n : Nat) : ReturnsShaped (parseImport n) := by
  intro p r h
  unfold parseImport at h
  cases ha : parseNameList .From n p [] with
  | none => rw [ha] at h; cases h
  | some x => rw [ha] at h; cases h; rfl

theorem parseExport_shaped (n : Nat) : ReturnsShaped (parseExport n) := by
  intro p r h
  unfold parseExport at h
  simp only [] at h
  cases ha : parseNameList .From n (if p.peekIsDefault = true then p.skip else p) [] with
  | none => rw [ha] at h; cases h
  | some x => rw [ha] at h; cases h; rfl

theorem parseBlockLoop_shaped {s : Parser → Option (NodeResult × Parser)}
    (hs : ReturnsShaped s) :
    ∀ (n : Nat) (p : Parser) (a : List ASTNode) (r : ListResult × Parser),
      isParserShapedList a = true → parseBlockLoop s n p a = some r →
      isParserShapedList r.1.1 = true := by
  intro n
  induction n with
  | zero => intro p a r _ h; cases h
  | succ n ih =>
    intro p a r ha h
    rw [parseBlockLoop] at h
    by_cases hc : (!p.check .RightBrace && !p.isAtEnd) = true
    · rw [if_pos hc] at h
      cases hq : s p with
      | none => rw [hq] at h; cases h
      | some x =>
        have hx := hs _ _ hq
        obtain ⟨⟨node, err⟩, p1⟩ := x
        rw [hq] at h
        cases err with
        | some e => cases node <;> (cases h; rfl)
        | none =>
          cases node with
          | none => exact ih _ _ _ ha h
          | some st =>
            refine ih _ _ _ ?_ h
            rw [isParserShapedList_append, ha]
            simpa [isParserShapedList, isParserShapedOption] using hx
    · rw [if_neg hc] at h
      cases h
      exact ha

theorem parseStatement_shaped : ∀ n : Nat, ReturnsShaped (parseStatement n) := by
  intro n
  induction n with
  | zero => intro p r h; cases h
  | succ n ih =>
    intro p r
    have hb : ReturnsShapedList (fun q => parseBlockLoop (parseStatement n) n q []) :=
      fun q r h => parseBlockLoop_shaped ih n q [] r rfl h
    rw [parseStatement]
    refine ite_both (P := fun x => x = some r → isParserShapedOption r.1.1 = true)
      (fun _ => ?_) (fun _ => ?_)
    · exact parsePage_shaped hb _ _ _
    refine ite_both (P := fun x => x = some r → isParserShapedOption r.1.1 = true)
      (fun _ => ?_) (fun _ => ?_)
    · exact parseComponent_shaped _ _ _ _
    refine ite_both (P := fun x => x = some r → isParserShapedOption r.1.1 = true)
      (fun _ => ?_) (fun _ => ?_)
    · exact parseStyle_shaped hb _ _
    refine ite_both (P := fun x => x = some r → isParserShapedOption r.1.1 = true)
      (fun _ => ?_) (fun _ => ?_)
    · exact parseEvent_shaped hb _ _
    refine ite_both (P := fun x => x = some r → isParserShapedOption r.1.1 = true)
      (fun _ => ?_) (fun _ => ?_)
    · exact parseState_shaped hb _ _
    refine ite_both (P := fun x => x = some r → isParserShapedOption r.1.1 = true)
      (fun _ => ?_) (fun _ => ?_)
    · exact parseApi_shaped hb _ _
    refine ite_both (P := fun x => x = some r → isParserShapedOption r.1.1 = true)
      (fun _ => ?_) (fun _ => ?_)
    · exact parseRouter_shaped hb _ _
    refine ite_both (P := fun x => x = some r → isParserShapedOption r.1.1 = true)
      (fun _ => ?_) (fun _ => ?_)
    · exact parseLayout_shaped hb _ _
    refine ite_both (P := fun x => x = some r → isParserShapedOption r.1.1 = true)
      (fun _ => ?_) (fun _ => ?_)
    · exact parseAnimation_shaped hb _ _
    refine ite_both (P := fun x => x = some r → isParserShapedOption r.1.1 = true)
      (fun _ => ?_) (fun _ => ?_)
    · intro h; cases h; rfl
    refine ite_both (P := fun x => x = some r → isParserShapedOption r.1.1 = true)
      (fun _ => ?_) (fun _ => ?_)
    · exact parseHook_shaped hb _ _ _
    refine ite_both (P := fun x => x = some r → isParserShapedOption r.1.1 = true)
      (fun _ => ?_) (fun _ => ?_)
    · intro h; cases h; rfl
    refine ite_both (P := fun x => x = some r → isParserShapedOption r.1.1 = true)
      (fun _ => ?_) (fun _ => ?_)
    · intro h; cases h; rfl
    refine ite_both (P := fun x => x = some r → isParserShapedOption r.1.1 = true)
      (fun _ => ?_) (fun _ => ?_)
    · exact parseImport_shaped _ _ _
    refine ite_both (P := fun x => x = some r → isParserShapedOption r.1.1 = true)
      (fun _ => ?_) (fun _ => ?_)
    · exact parseExport_shaped _ _ _
    · intro h; cases h; rfl

theorem parseLoop_shaped : ∀ (n : Nat) (p : Parser) (a : List ASTNode)
    (r : NodeResult × Parser), isParserShapedList a = true → parseLoop n p a = some r →
      isParserShapedOption r.1.1 = true := by
  intro n
  induction n with
  | zero => intro p a r _ h; cases h
  | succ n ih =>
    intro p a r ha h
    rw [parseLoop] at h
    by_cases hc : (!p.isAtEnd) = true
    · rw [if_pos hc] at h
      cases hq : parseStatement n p with
      | none => rw [hq] at h; cases h
      | some x =>
        have hx := parseStatement_shaped n _ _ hq
        obtain ⟨⟨node, err⟩, p1⟩ := x
        rw [hq] at h
        cases err with
        | some e => cases node <;> (cases h; rfl)
        | none =>
          cases node with
          | none => exact ih _ _ _ ha h
          | some st =>
            refine ih _ _ _ ?_ h
            rw [isParserShapedList_append, ha]
            simpa [isParserShapedList, isParserShapedOption] using hx
    · rw [if_neg hc] at h
      cases h
      simpa [isParserShapedOption, isParserShaped] using ha

/-- C27: whenever `Parse` returns a tree, the tree holds no Element, Text,
Expression or Route node at any depth, every Component node in it has empty
Props, Events, State and Methods and a nil Render, and every Type node a nil
Definition. -/
theorem parser_builds_no_nested_content (fuel : Nat) (tokens : List Token) (ast : ASTNode)
    (e : Option GoError) (h : Parse fuel tokens = some (some ast, e)) :
    isParserShaped ast = true := by
  unfold Parse at h
  cases hq : parseLoop fuel (NewParser tokens) [] with
  | none => rw [hq] at h; cases h
  | some x =>
    rw [hq] at h
    have hx := parseLoop_shaped fuel (NewParser tokens) [] x (by rw [isParserShapedList]) hq
    simp only [Option.map_some', Option.some.injEq] at h
    rw [h] at hx
    exact hx

theorem parser_builds_no_nested_content_witness :
    isParserShaped (.ProgramNode [.ComponentNode "X".toList [] [] [] [] [] none,
      .TypeNode "T".toList none]) = true :=
  parser_builds_no_nested_content 4
    [⟨.Component, "component".toList, 1, 10⟩, ⟨.Identifier, "X".toList, 1, 11⟩,
      ⟨.Type_, "type".toList, 1, 15⟩, ⟨.Identifier, "T".toList, 1, 16⟩, ⟨.EOF, [], 1, 16⟩]
    (.ProgramNode [.ComponentNode "X".toList [] [] [] [] [] none, .TypeNode "T".toList none])
    none (by rfl)

/-! ## Parser: the header of a page -/

theorem GoMap.get?_set (m : GoMap) (k v k1 : GoString) :
    (m.set k v).get? k1 = if k == k1 then some v else m.get? k1 := by
  induction m with
  | nil =>
    simp only [GoMap.set, GoMap.get?, List.find?]
    cases h : k == k1 <;> simp
  | cons kv m ih =>
    obtain ⟨k0, v0⟩ := kv
    simp only [GoMap.set]
    by_cases h0 : (k0 == k) = true
    · have e0 := eq_of_beq h0
      subst e0
      simp only [beq_self_eq_true, if_true, GoMap.get?, List.find?]
      cases h : k0 == k1 <;> simp
    · rw [if_neg h0]
      simp only [GoMap.get?, List.find?] at ih ⊢
      cases h : k0 == k1
      · simp only [ih]
      · have e1 := eq_of_beq h
        subst e1
        have : (k == k0) = false := by
          cases hk : k == k0
          · rfl
          · exact absurd (by rw [eq_of_beq hk]; simp) h0
        simp [this]

theorem writeAll_get? (k : GoString) : ∀ (pairs : List (GoString × GoString)) (m : GoMap),
    (writeAll pairs m).get? k
      = match lastValue k pairs with
        | some v => some v
        | none => m.get? k := by
  intro pairs
  induction pairs using List.reverseRecOn with
  | nil => intro m; rfl
  | append_singleton l a ih =>
    intro m
    simp only [writeAll, List.foldl_append, List.foldl_cons, List.foldl_nil] at ih ⊢
    rw [GoMap.get?_set, ih]
    simp only [lastValue, List.reverse_append, List.reverse_cons, List.reverse_nil,
      List.nil_append, List.singleton_append, List.find?]
    cases h : a.1 == k <;> simp

theorem attributeTriples_skip (t : Token) (rest : List Token)
    (h : (t.Type_ == .Identifier && headIs rest .Assign) = false) :
    attributeTriples (t :: rest) = attributeTriples rest := by
  match rest, h with
  | [], _ => simp [attributeTriples]
  | [a], _ => simp [attributeTriples]
  | a :: s :: r, h =>
    simp only [headIs] at h
    rw [attributeTriples, h]
    simp

theorem attributeTriples_assign (t a : Token) (rest : List Token)
    (ht : t.Type_ = .Identifier) (ha : a.Type_ = .Assign) (h : headIs rest .String = false) :
    attributeTriples (t :: a :: rest) = attributeTriples rest := by
  match rest, h with
  | [], _ => simp [attributeTriples]
  | s :: r, h =>
    simp only [headIs] at h
    rw [attributeTriples]
    simp [ht, ha, h]

theorem attributeTriples_triple (t a s : Token) (rest : List Token)
    (ht : t.Type_ = .Identifier) (ha : a.Type_ = .Assign) (hs : s.Type_ = .String) :
    attributeTriples (t :: a :: s :: rest) = (t.Value, s.Value) :: attributeTriples rest := by
  rw [attributeTriples]
  simp [ht, ha, hs]

theorem check_before_eof (ts : List Token) (eof : Token) (k : TokenType)
    (h : ∀ t ∈ ts, t.Type_ ≠ .EOF) (he : eof.Type_ = .EOF) :
    Parser.check { tokens := ts ++ [eof], current := 0 } k = headIs ts k := by
  cases ts with
  | nil => simp [check_cons_zero, he, headIs]
  | cons t rest =>
    have := h t (List.mem_cons_self _ _)
    simp [check_cons_zero, headIs, this]

theorem peekIs_before_eof (ts : List Token) (eof : Token) (k : TokenType)
    (h : ∀ t ∈ ts, t.Type_ ≠ .EOF) (he : eof.Type_ = .EOF) :
    Parser.peekIs { tokens := ts ++ [eof], current := 0 } k = headIs ts k := by
  cases ts with
  | nil => simp [peekIs_cons_zero, he, headIs]
  | cons t rest =>
    have := h t (List.mem_cons_self _ _)
    simp [peekIs_cons_zero, headIs, this]

theorem shift_shift (a b : List Token) (p : Parser) :
    Parser.shift a (Parser.shift b p) = Parser.shift (a ++ b) p := by
  unfold Parser.shift
  simp [Nat.add_assoc]

/-- The attribute loop of `parsePage` on a header without opening brace:
it runs to `EOF` and writes the triples found at the attribute positions. -/
theorem parsePageAttributes_header (eof : Token) (he : eof.Type_ = .EOF) :
    ∀ (n : Nat) (ts : List Token), ts.length = n →
      (∀ t ∈ ts, t.Type_ ≠ .LeftBrace ∧ t.Type_ ≠ .EOF) →
      ∀ (m : GoMap) (fuel : Nat), ts.length + 1 ≤ fuel →
        parsePageAttributes fuel { tokens := ts ++ [eof], current := 0 } m
          = some (writeAll (attributeTriples ts) m,
              Parser.shift ts { tokens := [eof], current := 0 }) := by
  intro n
  induction n using Nat.strong_induction_on with
  | _ n ih =>
    intro ts hn h m fuel hf
    obtain ⟨f, rfl⟩ : ∃ f, fuel = f + 1 := ⟨fuel - 1, by omega⟩
    have hEOF : ∀ t ∈ ts, t.Type_ ≠ .EOF := fun t ht => (h t ht).2
    cases ts with
    | nil =>
      rw [parsePageAttributes]
      simp [check_cons_zero, isAtEnd_cons_zero, he, shift_mk, attributeTriples, writeAll]
    | cons t rest =>
      obtain ⟨htb, hte⟩ := h t (List.mem_cons_self _ _)
      have hrest : ∀ x ∈ rest, x.Type_ ≠ .LeftBrace ∧ x.Type_ ≠ .EOF :=
        fun x hx => h x (List.mem_cons_of_mem _ hx)
      have hrestE : ∀ x ∈ rest, x.Type_ ≠ .EOF := fun x hx => (hrest x hx).2
      simp only [List.length_cons] at hn hf
      have hcond : (!Parser.check { tokens := t :: rest ++ [eof], current := 0 } .LeftBrace
          && !Parser.isAtEnd { tokens := t :: rest ++ [eof], current := 0 }) = true := by
        simp [check_cons_zero, isAtEnd_cons_zero, htb, hte]
      rw [parsePageAttributes, if_pos hcond]
      by_cases hid : t.Type_ = .Identifier
      · have hpk : Parser.peekIs { tokens := t :: rest ++ [eof], current := 0 } .Identifier
            = true := by
          simp [peekIs_cons_zero, hid]
        rw [if_pos hpk]
        simp only [List.cons_append, advanceValue_cons_zero t _ hte, check_shift, skip_shift,
          peekIs_shift, check_before_eof rest eof _ hrestE he]
        by_cases has : headIs rest .Assign = true
        · rw [if_pos has]
          match rest, hrest, hrestE, has, hn, hf with
          | a :: rest2, hrest, hrestE, has, hn, hf =>
            have ha : a.Type_ = .Assign := by simpa [headIs] using has
            have hae : a.Type_ ≠ .EOF := hrestE a (List.mem_cons_self _ _)
            have hrest2 : ∀ x ∈ rest2, x.Type_ ≠ .LeftBrace ∧ x.Type_ ≠ .EOF :=
              fun x hx => hrest x (List.mem_cons_of_mem _ hx)
            have hrest2E : ∀ x ∈ rest2, x.Type_ ≠ .EOF := fun x hx => (hrest2 x hx).2
            simp only [List.length_cons] at hn hf
            simp only [List.cons_append, skip_cons_zero a _ hae, peekIs_shift,
              peekIs_before_eof rest2 eof _ hrest2E he]
            by_cases hst : headIs rest2 .String = true
            · rw [if_pos hst]
              match rest2, hrest2, hrest2E, hst, hn, hf with
              | s :: rest3, hrest2, hrest2E, hst, hn, hf =>
                have hs : s.Type_ = .String := by simpa [headIs] using hst
                have hse : s.Type_ ≠ .EOF := hrest2E s (List.mem_cons_self _ _)
                have hrest3 : ∀ x ∈ rest3, x.Type_ ≠ .LeftBrace ∧ x.Type_ ≠ .EOF :=
                  fun x hx => hrest2 x (List.mem_cons_of_mem _ hx)
                simp only [List.length_cons] at hn hf
                simp only [List.cons_append, advanceValue_cons_zero s _ hse]
                rw [advanceValue_shift _ _ (by simp [isAtEnd_cons_zero, hse]),
                  advanceValue_shift _ _ (by simp [isAtEnd_cons_zero, hse]),
                  advanceValue_cons_zero s _ hse]
                simp only [shift_shift, parsePageAttributes_shift,
                  ih rest3.length (by omega) rest3 rfl hrest3 _ f (by omega), shiftResult_some,
                  attributeTriples_triple t a s rest3 hid ha hs]
                simp [writeAll]
            · rw [if_neg hst]
              simp only [shift_shift, parsePageAttributes_shift,
                ih rest2.length (by omega) rest2 rfl hrest2 _ f (by omega), shiftResult_some,
                attributeTriples_assign t a rest2 hid ha (by simpa using hst)]
              simp
        · rw [if_neg has]
          simp only [parsePageAttributes_shift,
            ih rest.length (by omega) rest rfl hrest _ f (by omega), shiftResult_some,
            shift_shift, attributeTriples_skip t rest (by simp [has])]
          simp
      · have hpk : Parser.peekIs { tokens := t :: rest ++ [eof], current := 0 } .Identifier
            = false := by
          simp [peekIs_cons_zero, hid]
        rw [if_neg (by rw [hpk]; exact Bool.false_ne_true)]
        simp only [List.cons_append, skip_cons_zero t _ hte, parsePageAttributes_shift,
          ih rest.length (by omega) rest rfl hrest _ f (by omega), shiftResult_some,
          shift_shift, attributeTriples_skip t rest (by simp [hid])]
        simp

theorem optionalName_header (ts : List Token) (eof : Token) (h : ∀ t ∈ ts, t.Type_ ≠ .EOF)
    (he : eof.Type_ = .EOF) :
    ∃ pre, ts = pre ++ afterPageName ts ∧
      Parser.optionalName { tokens := ts ++ [eof], current := 0 }
        = (pageName ts, Parser.shift pre { tokens := afterPageName ts ++ [eof], current := 0 }) := by
  unfold Parser.optionalName
  rw [peekIs_before_eof ts eof _ h he]
  cases ts with
  | nil =>
    refine ⟨[], rfl, ?_⟩
    simp [headIs, pageName, afterPageName, shift_mk]
  | cons t rest =>
    have hte := h t (List.mem_cons_self _ _)
    by_cases hid : t.Type_ = .Identifier
    · refine ⟨[t], by simp [afterPageName, hid], ?_⟩
      simp only [headIs, hid, beq_self_eq_true, if_true, List.cons_append,
        advanceValue_cons_zero t _ hte, pageName, afterPageName]
    · have hb : (t.Type_ == TokenType.Identifier) = false := by simpa using hid
      refine ⟨[], by simp [afterPageName, hb], ?_⟩
      simp only [headIs, hb, Bool.false_eq_true, if_false, pageName, afterPageName, shift_mk,
        List.nil_append, List.length_nil, Nat.zero_add]

theorem parsePage_header (ts : List Token) (eof : Token)
    (h : ∀ t ∈ ts, t.Type_ ≠ .LeftBrace ∧ t.Type_ ≠ .EOF) (he : eof.Type_ = .EOF)
    (b : BlockParser) (f : Nat) (hf : ts.length + 1 ≤ f) :
    parsePage b f { tokens := ts ++ [eof], current := 0 }
      = some ((some (.PageNode (pageName ts) (writeAll (attributeTriples (afterPageName ts)) [])
            []), none),
          Parser.shift ts { tokens := [eof], current := 0 }) := by
  obtain ⟨pre, hpre, hname⟩ := optionalName_header ts eof (fun t ht => (h t ht).2) he
  have hafter : ∀ t ∈ afterPageName ts, t.Type_ ≠ .LeftBrace ∧ t.Type_ ≠ .EOF := by
    intro t ht
    apply h t
    rw [hpre]
    exact List.mem_append_right _ ht
  have hlen : (afterPageName ts).length ≤ ts.length := by
    have := congrArg List.length hpre
    simp only [List.length_append] at this
    omega
  have hloop := parsePageAttributes_header eof he _ (afterPageName ts) rfl hafter [] f
    (by omega)
  have hcheck : Parser.check (Parser.shift ts { tokens := [eof], current := 0 }) .LeftBrace
      = false := by
    rw [check_shift]
    simp [check_cons_zero, he]
  unfold parsePage
  simp only [hname, parsePageAttributes_shift, hloop, shiftResult_some, shift_shift, ← hpre]
  unfold bracedBlock
  simp only [hcheck, Bool.false_eq_true, if_false]

/-- C30: for every token sequence `ts` without `LeftBrace` and `EOF`
token, `Parse` on `Page`, `ts`, `EOF` returns a program with exactly one
node, a page with an empty body: the header takes every token up to `EOF`.
The page's name is the first token of `ts` when that is an identifier, and
its attribute map holds, for every key, the value of the last triple
`Identifier k, Assign, String v` at an attribute position behind the name,
and nothing for the keys without such a triple. -/
theorem page_header_swallows (ts : List Token)
    (h : ∀ t ∈ ts, t.Type_ ≠ .LeftBrace ∧ t.Type_ ≠ .EOF) (page eof : Token)
    (hp : page.Type_ = .Page) (he : eof.Type_ = .EOF) (fuel : Nat)
    (hfuel : ts.length + 3 ≤ fuel) :
    Parse fuel (page :: (ts ++ [eof]))
        = some (some (.ProgramNode [.PageNode (pageName ts)
            (writeAll (attributeTriples (afterPageName ts)) []) []]), none)
      ∧ ∀ k : GoString,
          (writeAll (attributeTriples (afterPageName ts)) []).get? k
            = lastValue k (attributeTriples (afterPageName ts)) := by
  constructor
  · obtain ⟨f, rfl⟩ : ∃ f, fuel = f + 2 := ⟨fuel - 2, by omega⟩
    have hne : page.Type_ ≠ .EOF := by rw [hp]; decide
    have hsb : ShiftInvariant (fun q => parseBlockLoop (parseStatement f) f q []) :=
      fun pre q => parseBlockLoop_shift (parseStatement_shift f) pre f q []
    have hs : parseStatement (f + 1) (NewParser (page :: (ts ++ [eof])))
        = some ((some (.PageNode (pageName ts)
              (writeAll (attributeTriples (afterPageName ts)) []) []), none),
            Parser.shift [page] (Parser.shift ts { tokens := [eof], current := 0 })) := by
      rw [NewParser, parseStatement]
      simp only [match_cons_zero _ _ _ hne, hp, beq_self_eq_true, if_true]
      rw [parsePage_shift hsb f [page], parsePage_header ts eof h he _ f (by omega)]
      rfl
    refine Parse_single _ _ _ f (by simp [NewParser, Parser.isAtEnd, hp]) hs ?_
    rw [isAtEnd_shift, isAtEnd_shift]
    simp [Parser.isAtEnd, he]
  · intro k
    rw [writeAll_get?]
    cases lastValue k (attributeTriples (afterPageName ts)) <;> rfl

theorem page_header_swallows_witness :
    Parse 11 [⟨.Page, "page".toList, 1, 5⟩, ⟨.Identifier, "Home".toList, 1, 9⟩,
        ⟨.Identifier, "title".toList, 1, 14⟩, ⟨.Assign, "=".toList, 1, 14⟩,
        ⟨.String, "A".toList, 1, 18⟩, ⟨.State, "state".toList, 1, 23⟩,
        ⟨.Identifier, "title".toList, 1, 28⟩, ⟨.Assign, "=".toList, 1, 28⟩,
        ⟨.String, "B".toList, 1, 32⟩, ⟨.EOF, [], 1, 32⟩]
      = some (some (.ProgramNode [.PageNode "Home".toList [("title".toList, "B".toList)] []]),
          none) :=
  (page_header_swallows
    [⟨.Identifier, "Home".toList, 1, 9⟩,
      ⟨.Identifier, "title".toList, 1, 14⟩, ⟨.Assign, "=".toList, 1, 14⟩,
      ⟨.String, "A".toList, 1, 18⟩, ⟨.State, "state".toList, 1, 23⟩,
      ⟨.Identifier, "title".toList, 1, 28⟩, ⟨.Assign, "=".toList, 1, 28⟩,
      ⟨.String, "B".toList, 1, 32⟩]
    (by decide) ⟨.Page, "page".toList, 1, 5⟩ ⟨.EOF, [], 1, 32⟩ rfl rfl 11 (by decide)).1

/-! ## Parser: termination without the loops that need not advance -/

theorem skip_tokens (p : Parser) : p.skip.tokens = p.tokens := by
  unfold Parser.skip Parser.advance
  cases p.isAtEnd <;> rfl

theorem skip_current_le (p : Parser) : p.current ≤ p.skip.current := by
  unfold Parser.skip Parser.advance
  cases p.isAtEnd
  · exact Nat.le_succ _
  · exact Nat.le_refl _

theorem skip_current (p : Parser) (h : p.isAtEnd = false) : p.skip.current = p.current + 1 := by
  unfold Parser.skip Parser.advance
  simp [h]

theorem advanceValue_snd (p : Parser) : p.advanceValue.2 = p.skip := by
  unfold Parser.advanceValue Parser.skip
  cases h : p.advance with
  | mk t p1 => cases t <;> rfl

theorem lt_length_of_not_atEnd (p : Parser) (h : p.isAtEnd = false) :
    p.current < p.tokens.length := by
  unfold Parser.isAtEnd at h
  cases hq : p.tokens[p.current]? with
  | none => rw [hq] at h; cases h
  | some t => exact (List.getElem?_eq_some_iff.mp hq).1

theorem not_atEnd_of_check {p : Parser} {k : TokenType} (h : p.check k = true) :
    p.isAtEnd = false := by
  unfold Parser.check at h
  cases hq : p.isAtEnd
  · rfl
  · rw [hq] at h; cases h

theorem mem_of_check {p : Parser} {k : TokenType} (h : p.check k = true) :
    ∃ t ∈ p.tokens, t.Type_ = k := by
  have hne := not_atEnd_of_check h
  unfold Parser.check at h
  rw [hne] at h
  cases hq : p.tokens[p.current]? with
  | none => rw [hq] at h; cases h
  | some t =>
    rw [hq] at h
    exact ⟨t, List.getElem?_mem hq, by simpa using h⟩

theorem optionalName_tokens (p : Parser) : p.optionalName.2.tokens = p.tokens := by
  unfold Parser.optionalName
  split
  · rw [advanceValue_snd, skip_tokens]
  · rfl

theorem optionalName_current (p : Parser) : p.current ≤ p.optionalName.2.current := by
  unfold Parser.optionalName
  split
  · rw [advanceValue_snd]; exact skip_current_le p
  · exact Nat.le_refl _

theorem match_one (p : Parser) (k : TokenType) :
    ((p.match_ [k]).1 = true → p.check k = true ∧ (p.match_ [k]).2 = p.skip)
      ∧ ((p.match_ [k]).1 = false → (p.match_ [k]).2 = p) := by
  simp only [Parser.match_]
  cases h : p.check k
  · simp
  · simp [Parser.skip]

theorem bracedBlock_advancing {toks : List Token} {n : Nat} {b : BlockParser}
    (hb : Advancing toks n b) : Advancing toks n (bracedBlock b) := by
  intro p hp hrem
  unfold bracedBlock
  by_cases hc : p.check .LeftBrace = true
  · rw [if_pos hc]
    have h1 := skip_current_le p
    obtain ⟨r, q, hq, hqt, hqc⟩ := hb p.skip (by rw [skip_tokens, hp]) (by omega)
    rw [hq]
    obtain ⟨body, e⟩ := r
    refine ⟨_, _, rfl, ?_, ?_⟩
    · split
      · rw [skip_tokens, hqt]
      · exact hqt
    · split
      · have := skip_current_le q
        omega
      · omega
  · rw [if_neg hc]
    exact ⟨_, _, rfl, hp, Nat.le_refl _⟩

theorem parsePageAttributes_advancing (toks : List Token) :
    ∀ (fuel : Nat) (m : GoMap), Advancing toks fuel (fun p => parsePageAttributes fuel p m) := by
  intro fuel
  induction fuel with
  | zero => intro m p _ hrem; omega
  | succ n ih =>
    intro m p hp hrem
    simp only []
    rw [parsePageAttributes]
    by_cases hc : (!p.check .LeftBrace && !p.isAtEnd) = true
    · rw [if_pos hc]
      have hne : p.isAtEnd = false := by
        simp only [Bool.and_eq_true, Bool.not_eq_true'] at hc
        exact hc.2
      have h1 := skip_current p hne
      have h2 := lt_length_of_not_atEnd p hne
      rw [hp] at h2
      have hsk : p.skip.tokens = toks := by rw [skip_tokens, hp]
      have hskk : p.skip.skip.tokens = toks := by rw [skip_tokens, hsk]
      have g1 := skip_current_le p.skip
      have g2 := skip_current_le p.skip.skip
      simp only [advanceValue_snd]
      split
      · split
        · split
          · obtain ⟨r, q, hq, hqt, hqc⟩ := ih (m.set p.advanceValue.1 p.skip.skip.advanceValue.1)
              p.skip.skip.skip (by rw [skip_tokens, hskk]) (by omega)
            exact ⟨r, q, hq, hqt, by omega⟩
          · obtain ⟨r, q, hq, hqt, hqc⟩ := ih m p.skip.skip hskk (by omega)
            exact ⟨r, q, hq, hqt, by omega⟩
        · obtain ⟨r, q, hq, hqt, hqc⟩ := ih m p.skip hsk (by omega)
          exact ⟨r, q, hq, hqt, by omega⟩
      · obtain ⟨r, q, hq, hqt, hqc⟩ := ih m p.skip hsk (by omega)
        exact ⟨r, q, hq, hqt, by omega⟩
    · rw [if_neg hc]
      exact ⟨_, _, rfl, hp, Nat.le_refl _⟩

theorem parseStyle_advancing {toks : List Token} {n : Nat} {b : BlockParser}
    (hb : Advancing toks n b) : Advancing toks n (parseStyle b) := by
  intro p hp hrem
  have h1 := optionalName_current p
  obtain ⟨r, q, hq, hqt, hqc⟩ := bracedBlock_advancing hb p.optionalName.2
    (by rw [optionalName_tokens, hp]) (by omega)
  unfold parseStyle
  simp only [hq]
  exact ⟨_, _, rfl, hqt, by omega⟩

theorem parseState_advancing {toks : List Token} {n : Nat} {b : BlockParser}
    (hb : Advancing toks n b) : Advancing toks n (parseState b) := by
  intro p hp hrem
  have h1 := optionalName_current p
  obtain ⟨r, q, hq, hqt, hqc⟩ := bracedBlock_advancing hb p.optionalName.2
    (by rw [optionalName_tokens, hp]) (by omega)
  unfold parseState
  simp only [hq]
  exact ⟨_, _, rfl, hqt, by omega⟩

theorem parseApi_advancing {toks : List Token} {n : Nat} {b : BlockParser}
    (hb : Advancing toks n b) : Advancing toks n (parseApi b) := by
  intro p hp hrem
  have h1 := optionalName_current p
  obtain ⟨r, q, hq, hqt, hqc⟩ := bracedBlock_advancing hb p.optionalName.2
    (by rw [optionalName_tokens, hp]) (by omega)
  unfold parseApi
  simp only [hq]
  exact ⟨_, _, rfl, hqt, by omega⟩

theorem parseLayout_advancing {toks : List Token} {n : Nat} {b : BlockParser}
    (hb : Advancing toks n b) : Advancing toks n (parseLayout b) := by
  intro p hp hrem
  have h1 := optionalName_current p
  obtain ⟨r, q, hq, hqt, hqc⟩ := bracedBlock_advancing hb p.optionalName.2
    (by rw [optionalName_tokens, hp]) (by omega)
  unfold parseLayout
  simp only [hq]
  exact ⟨_, _, rfl, hqt, by omega⟩

theorem parseAnimation_advancing {toks : List Token} {n : Nat} {b : BlockParser}
    (hb : Advancing toks n b) : Advancing toks n (parseAnimation b) := by
  intro p hp hrem
  have h1 := optionalName_current p
  obtain ⟨r, q, hq, hqt, hqc⟩ := bracedBlock_advancing hb p.optionalName.2
    (by rw [optionalName_tokens, hp]) (by omega)
  unfold parseAnimation
  simp only [hq]
  exact ⟨_, _, rfl, hqt, by omega⟩

theorem parseRouter_advancing {toks : List Token} {n : Nat} {b : BlockParser}
    (hb : Advancing toks n b) : Advancing toks n (parseRouter b) := by
  intro p hp hrem
  obtain ⟨r, q, hq, hqt, hqc⟩ := bracedBlock_advancing hb p hp hrem
  unfold parseRouter
  simp only [hq]
  exact ⟨_, _, rfl, hqt, hqc⟩

theorem parseEvent_advancing {toks : List Token} {n : Nat} {b : BlockParser}
    (hb : Advancing toks n b) : Advancing toks n (parseEvent b) := by
  intro p hp hrem
  have h1 := optionalName_current p
  have t1 : p.optionalName.2.tokens = toks := by rw [optionalName_tokens, hp]
  have h2 := skip_current_le p.optionalName.2
  have t2 : p.optionalName.2.skip.tokens = toks := by rw [skip_tokens, t1]
  have h3 := optionalName_current p.optionalName.2.skip
  have t3 : p.optionalName.2.skip.optionalName.2.tokens = toks := by
    rw [optionalName_tokens, t2]
  unfold parseEvent
  simp only []
  by_cases hon : p.optionalName.2.peekIsOn = true
  · simp only [hon, if_true]
    obtain ⟨r, q, hq, hqt, hqc⟩ := bracedBlock_advancing hb _ t3 (by omega)
    simp only [hq]
    exact ⟨_, _, rfl, hqt, by omega⟩
  · simp only [if_neg hon]
    obtain ⟨r, q, hq, hqt, hqc⟩ := bracedBlock_advancing hb _ t1 (by omega)
    simp only [hq]
    exact ⟨_, _, rfl, hqt, by omega⟩

theorem parsePage_advancing {toks : List Token} {n : Nat} {b : BlockParser}
    (hb : Advancing toks n b) : Advancing toks n (parsePage b n) := by
  intro p hp hrem
  have h1 := optionalName_current p
  have t1 : p.optionalName.2.tokens = toks := by rw [optionalName_tokens, hp]
  obtain ⟨a, p2, ha, t2, h2⟩ := parsePageAttributes_advancing toks n [] p.optionalName.2 t1
    (by omega)
  simp only [] at ha
  obtain ⟨r, q, hq, hqt, hqc⟩ := bracedBlock_advancing hb p2 t2 (by omega)
  unfold parsePage
  simp only [ha, hq]
  exact ⟨_, _, rfl, hqt, by omega⟩

theorem check_false_of_absent {toks : List Token} {k : TokenType}
    (h : ∀ t ∈ toks, t.Type_ ≠ k) (p : Parser) (hp : p.tokens = toks) : p.check k = false := by
  cases hc : p.check k
  · rfl
  · obtain ⟨t, ht, hk⟩ := mem_of_check hc
    rw [hp] at ht
    exact absurd hk (h t ht)

theorem parseComponent_advancing {toks : List Token} {n : Nat} {b : BlockParser}
    (hb : Advancing toks n b) (hless : ∀ t ∈ toks, t.Type_ ≠ .Less) :
    Advancing toks n (parseComponent b n) := by
  intro p hp hrem
  have h1 := optionalName_current p
  have t1 : p.optionalName.2.tokens = toks := by rw [optionalName_tokens, hp]
  have hc := check_false_of_absent hless p.optionalName.2 t1
  obtain ⟨r, q, hq, hqt, hqc⟩ := bracedBlock_advancing hb p.optionalName.2 t1 (by omega)
  unfold parseComponent
  simp only [hc, Bool.false_eq_true, if_false, hq]
  exact ⟨_, _, rfl, hqt, by omega⟩

theorem parseHook_advancing {toks : List Token} {n : Nat} {b : BlockParser}
    (hb : Advancing toks n b) (hparen : ∀ t ∈ toks, t.Type_ ≠ .LeftParen) :
    Advancing toks n (parseHook b n) := by
  intro p hp hrem
  have h1 := optionalName_current p
  have t1 : p.optionalName.2.tokens = toks := by rw [optionalName_tokens, hp]
  have hc := check_false_of_absent hparen p.optionalName.2 t1
  obtain ⟨r, q, hq, hqt, hqc⟩ := bracedBlock_advancing hb p.optionalName.2 t1 (by omega)
  unfold parseHook
  simp only [hc, Bool.false_eq_true, if_false, hq]
  exact ⟨_, _, rfl, hqt, by omega⟩

theorem parseType_follows (p : Parser) :
    (parseType p).2.tokens = p.tokens ∧ p.current ≤ (parseType p).2.current := by
  have h1 := optionalName_current p
  have t1 := optionalName_tokens p
  unfold parseType
  simp only []
  constructor
  · split <;> split <;> simp only [skip_tokens, t1]
  · have g1 := skip_current_le p.optionalName.2
    have g2 := skip_current_le p.optionalName.2.skip
    split <;> split <;> omega

theorem emptyBraces_follows (p : Parser) :
    (emptyBraces p).tokens = p.tokens ∧ p.current ≤ (emptyBraces p).current := by
  unfold emptyBraces
  have g1 := skip_current_le p
  have g2 := skip_current_le p.skip
  constructor
  · split
    · simp only []
      split <;> simp only [skip_tokens]
    · rfl
  · split
    · simp only []
      split <;> omega
    · exact Nat.le_refl _

theorem parsePlugin_follows (p : Parser) :
    (parsePlugin p).2.tokens = p.tokens ∧ p.current ≤ (parsePlugin p).2.current := by
  have h1 := optionalName_current p
  have t1 := optionalName_tokens p
  have e := emptyBraces_follows p.optionalName.2
  unfold parsePlugin
  simp only []
  exact ⟨by rw [e.1, t1], by omega⟩

theorem parseConfig_follows (p : Parser) :
    (parseConfig p).2.tokens = p.tokens ∧ p.current ≤ (parseConfig p).2.current := by
  unfold parseConfig
  exact emptyBraces_follows p

theorem parseBlockLoop_advancing {toks : List Token} {n : Nat}
    {s : Parser → Option (NodeResult × Parser)} (hs : AdvancingStrictly toks n s) :
    ∀ (k : Nat) (p : Parser) (a : List ASTNode), p.tokens = toks →
      toks.length - p.current < n → toks.length - p.current < k →
      ∃ r q, parseBlockLoop s k p a = some (r, q) ∧ q.tokens = toks ∧ p.current ≤ q.current := by
  intro k
  induction k with
  | zero => intro p a _ _ hk; omega
  | succ k ih =>
    intro p a hp hn hk
    rw [parseBlockLoop]
    by_cases hc : (!p.check .RightBrace && !p.isAtEnd) = true
    · rw [if_pos hc]
      have hne : p.isAtEnd = false := by
        simp only [Bool.and_eq_true, Bool.not_eq_true'] at hc
        exact hc.2
      have h2 := lt_length_of_not_atEnd p hne
      rw [hp] at h2
      obtain ⟨r, q, hq, hqt, hqc, hstrict⟩ := hs p hp hn
      have hlt := hstrict hne
      obtain ⟨node, err⟩ := r
      rw [hq]
      cases err with
      | some e => cases node <;> exact ⟨_, _, rfl, hqt, hqc⟩
      | none =>
        cases node with
        | none =>
          have g := skip_current_le q
          obtain ⟨r1, q1, hq1, hqt1, hqc1⟩ := ih q.skip a (by rw [skip_tokens, hqt])
            (by omega) (by omega)
          exact ⟨r1, q1, hq1, hqt1, by omega⟩
        | some st =>
          obtain ⟨r1, q1, hq1, hqt1, hqc1⟩ := ih q (a ++ [st]) hqt (by omega) (by omega)
          exact ⟨r1, q1, hq1, hqt1, by omega⟩
    · rw [if_neg hc]
      exact ⟨_, _, rfl, hp, Nat.le_refl _⟩

theorem parseStatement_advancing (toks : List Token)
    (himport : ∀ t ∈ toks, t.Type_ ≠ .Import) (hexport : ∀ t ∈ toks, t.Type_ ≠ .Export)
    (hparen : ∀ t ∈ toks, t.Type_ ≠ .LeftParen) (hless : ∀ t ∈ toks, t.Type_ ≠ .Less) :
    ∀ n : Nat, AdvancingStrictly toks n (parseStatement n) := by
  intro n
  induction n with
  | zero => intro p _ hrem; omega
  | succ n ih =>
    intro p hp hrem
    have hb : Advancing toks n (fun q => parseBlockLoop (parseStatement n) n q []) :=
      fun q hq hr => parseBlockLoop_advancing ih n q [] hq hr hr
    let P : Option (NodeResult × Parser) → Prop := fun x =>
      ∃ r q, x = some (r, q) ∧ q.tokens = toks ∧ p.current ≤ q.current
        ∧ (p.isAtEnd = false → p.current < q.current)
    have key : ∀ (k : TokenType) (f : Parser → Option (NodeResult × Parser)),
        Advancing toks n f → (p.match_ [k]).1 = true → P (f (p.match_ [k]).2) := by
      intro k f hf hk
      obtain ⟨hck, hm⟩ := (match_one p k).1 hk
      have hne := not_atEnd_of_check hck
      have h1 := skip_current p hne
      have h2 := lt_length_of_not_atEnd p hne
      rw [hp] at h2
      obtain ⟨r, q, hq, hqt, hqc⟩ := hf p.skip (by rw [skip_tokens, hp]) (by omega)
      rw [hm]
      exact ⟨r, q, hq, hqt, by omega, fun _ => by omega⟩
    have key2 : ∀ (k : TokenType) (f : Parser → NodeResult × Parser),
        (∀ q, (f q).2.tokens = q.tokens ∧ q.current ≤ (f q).2.current) →
        (p.match_ [k]).1 = true → P (some (f (p.match_ [k]).2)) := by
      intro k f hf hk
      obtain ⟨hck, hm⟩ := (match_one p k).1 hk
      have hne := not_atEnd_of_check hck
      have h1 := skip_current p hne
      obtain ⟨g1, g2⟩ := hf p.skip
      rw [hm]
      exact ⟨_, _, rfl, by rw [g1, skip_tokens, hp], by omega, fun _ => by omega⟩
    show P (parseStatement (n + 1) p)
    rw [parseStatement]
    refine ite_both (P := P) (fun hk => ?_) (fun _ => ?_)
    · exact key _ _ (parsePage_advancing hb) hk
    refine ite_both (P := P) (fun hk => ?_) (fun _ => ?_)
    · exact key _ _ (parseComponent_advancing hb hless) hk
    refine ite_both (P := P) (fun hk => ?_) (fun _ => ?_)
    · exact key _ _ (parseStyle_advancing hb) hk
    refine ite_both (P := P) (fun hk => ?_) (fun _ => ?_)
    · exact key _ _ (parseEvent_advancing hb) hk
    refine ite_both (P := P) (fun hk => ?_) (fun _ => ?_)
    · exact key _ _ (parseState_advancing hb) hk
    refine ite_both (P := P) (fun hk => ?_) (fun _ => ?_)
    · exact key _ _ (parseApi_advancing hb) hk
    refine ite_both (P := P) (fun hk => ?_) (fun _ => ?_)
    · exact key _ _ (parseRouter_advancing hb) hk
    refine ite_both (P := P) (fun hk => ?_) (fun _ => ?_)
    · exact key _ _ (parseLayout_advancing hb) hk
    refine ite_both (P := P) (fun hk => ?_) (fun _ => ?_)
    · exact key _ _ (parseAnimation_advancing hb) hk
    refine ite_both (P := P) (fun hk => ?_) (fun _ => ?_)
    · exact key2 _ _ parseType_follows hk
    refine ite_both (P := P) (fun hk => ?_) (fun _ => ?_)
    · exact key _ _ (parseHook_advancing hb hparen) hk
    refine ite_both (P := P) (fun hk => ?_) (fun _ => ?_)
    · exact key2 _ _ parsePlugin_follows hk
    refine ite_both (P := P) (fun hk => ?_) (fun _ => ?_)
    · exact key2 _ _ parseConfig_follows hk
    refine ite_both (P := P) (fun hk => ?_) (fun _ => ?_)
    · exact absurd ((match_one p _).1 hk).1 (by rw [check_false_of_absent himport p hp]; exact Bool.false_ne_true)
    refine ite_both (P := P) (fun hk => ?_) (fun _ => ?_)
    · exact absurd ((match_one p _).1 hk).1 (by rw [check_false_of_absent hexport p hp]; exact Bool.false_ne_true)
    · have g := skip_current_le p
      exact ⟨_, _, rfl, by rw [skip_tokens, hp], g, fun hne => by
        have := skip_current p hne
        omega⟩

theorem parseLoop_terminates (toks : List Token)
    (hs : ∀ n : Nat, AdvancingStrictly toks n (parseStatement n)) :
    ∀ (f : Nat) (p : Parser) (a : List ASTNode), p.tokens = toks →
      toks.length - p.current < f →
      ∃ statements q, parseLoop (f + 1) p a = some ((some (.ProgramNode statements), none), q)
        ∧ q.tokens = toks ∧ q.isAtEnd = true := by
  intro f
  induction f with
  | zero => intro p a _ hrem; omega
  | succ f ih =>
    intro p a hp hrem
    rw [parseLoop]
    by_cases hc : (!p.isAtEnd) = true
    · rw [if_pos hc]
      have hne : p.isAtEnd = false := by simpa using hc
      have h2 := lt_length_of_not_atEnd p hne
      rw [hp] at h2
      obtain ⟨r, q, hq, hqt, hqc, hstrict⟩ := hs (f + 1) p hp hrem
      have hlt := hstrict hne
      have herr := parseStatement_no_error (f + 1) p _ hq
      obtain ⟨node, err⟩ := r
      simp only [] at herr
      subst herr
      rw [hq]
      cases node with
      | none => exact ih q a hqt (by omega)
      | some st => exact ih q (a ++ [st]) hqt (by omega)
    · rw [if_neg hc]
      exact ⟨_, _, rfl, hp, by simpa using hc⟩

/-- C28: on every token sequence without a token of kind Import, Export,
LeftParen or Less, `Parse` returns (every fuel of at least the number of
tokens plus two suffices), with the nil error, a Program node, and the
cursor at the end of the input: on the `EOF` token or past the last token. -/
theorem parse_terminates (tokens : List Token)
    (h : ∀ t ∈ tokens, isLoopOpener t.Type_ = false) (fuel : Nat)
    (hfuel : tokens.length + 2 ≤ fuel) :
    ∃ statements q,
      parseLoop fuel (NewParser tokens) [] = some ((some (.ProgramNode statements), none), q)
        ∧ q.tokens = tokens ∧ q.isAtEnd = true
        ∧ Parse fuel tokens = some (some (.ProgramNode statements), none) := by
  obtain ⟨f, rfl⟩ : ∃ f, fuel = f + 1 := ⟨fuel - 1, by omega⟩
  have hk : ∀ t ∈ tokens, t.Type_ ≠ .Import ∧ t.Type_ ≠ .Export ∧ t.Type_ ≠ .LeftParen
      ∧ t.Type_ ≠ .Less := by
    intro t ht
    have := h t ht
    simp only [isLoopOpener, Bool.or_eq_false_iff, beq_eq_false_iff_ne, ne_eq] at this
    exact ⟨this.1.1.1, this.1.1.2, this.1.2, this.2⟩
  have hs := parseStatement_advancing tokens (fun t ht => (hk t ht).1)
    (fun t ht => (hk t ht).2.1) (fun t ht => (hk t ht).2.2.1) (fun t ht => (hk t ht).2.2.2)
  obtain ⟨statements, q, hq, hqt, hend⟩ := parseLoop_terminates tokens hs f (NewParser tokens) []
    rfl (by simp only [NewParser]; omega)
  refine ⟨statements, q, hq, hqt, hend, ?_⟩
  unfold Parse
  rw [hq]
  rfl

theorem parse_terminates_witness :
    ∃ statements q,
      parseLoop 6 (NewParser [⟨.Style, "style".toList, 1, 6⟩, ⟨.LeftBrace, "\x7b".toList, 1, 6⟩,
          ⟨.Identifier, "x".toList, 1, 8⟩, ⟨.EOF, [], 1, 8⟩]) []
        = some ((some (.ProgramNode statements), none), q)
        ∧ q.tokens = [⟨.Style, "style".toList, 1, 6⟩, ⟨.LeftBrace, "\x7b".toList, 1, 6⟩,
          ⟨.Identifier, "x".toList, 1, 8⟩, ⟨.EOF, [], 1, 8⟩]
        ∧ q.isAtEnd = true
        ∧ Parse 6 [⟨.Style, "style".toList, 1, 6⟩, ⟨.LeftBrace, "\x7b".toList, 1, 6⟩,
          ⟨.Identifier, "x".toList, 1, 8⟩, ⟨.EOF, [], 1, 8⟩]
          = some (some (.ProgramNode statements), none) :=
  parse_terminates [⟨.Style, "style".toList, 1, 6⟩, ⟨.LeftBrace, "\x7b".toList, 1, 6⟩,
    ⟨.Identifier, "x".toList, 1, 8⟩, ⟨.EOF, [], 1, 8⟩] (by decide) 6 (by decide)

/-! ## Tokenizer: the position of the end of the source -/

theorem commentPosition_plain (c : Char) (w : GoString) (line column : Nat) (h : c ≠ '\n') :
    commentPosition (c :: w) line column = commentPosition w line (column + 1) := by
  have hb : (c == '\n') = false := by simpa using h
  rw [commentPosition, hb]
  simp

theorem commentPosition_newline (w : GoString) (line column : Nat) :
    commentPosition ('\n' :: w) line column = commentPosition w (line + 1) 1 := by
  rw [commentPosition]
  simp

theorem restPosition_plain (l : Lexer) (c : Char) (hc : l.input[l.position]? = some c)
    (h : c ≠ '\n') (line : Nat) (hl : line = l.line) :
    restPosition ⟨l.input, l.position + 1, line, l.column + 1⟩ = restPosition l := by
  subst hl
  unfold restPosition
  simp only []
  rw [drop_eq_cons_of_getElem? hc, commentPosition_plain c _ _ _ h]

theorem restPosition_newline (l : Lexer) (hc : l.input[l.position]? = some '\n') :
    restPosition ⟨l.input, l.position + 1, l.line + 1, 1⟩ = restPosition l := by
  unfold restPosition
  simp only []
  rw [drop_eq_cons_of_getElem? hc, commentPosition_newline]

theorem restPosition_end (l : Lexer) (h : l.input[l.position]? = none) :
    restPosition l = (l.line, l.column) := by
  unfold restPosition
  have : l.input.drop l.position = [] := by
    rw [List.drop_eq_nil_iff]
    exact List.getElem?_eq_none_iff.mp h
  rw [this]
  rfl

theorem readWhileLoop_restPosition (keep : Char → Bool) (hk : keep '\n' = false) :
    ∀ (fuel : Nat) (l : Lexer), restPosition (readWhileLoop keep fuel l) = restPosition l := by
  intro fuel
  induction fuel with
  | zero => intro l; rfl
  | succ n ih =>
    intro l
    rw [readWhileLoop]
    cases hc : l.input[l.position]? with
    | none => rfl
    | some c =>
      simp only []
      by_cases hkc : keep c = true
      · rw [if_pos hkc, ih]
        exact restPosition_plain l c hc (by intro e; rw [e, hk] at hkc; cases hkc) _ rfl
      · rw [if_neg hkc]

theorem readBlockCommentLoop_restPosition :
    ∀ (fuel : Nat) (l : Lexer), restPosition (readBlockCommentLoop fuel l) = restPosition l := by
  intro fuel
  induction fuel with
  | zero => intro l; rfl
  | succ n ih =>
    intro l
    rw [readBlockCommentLoop]
    by_cases hlt : l.position + 1 < l.input.length
    · rw [if_pos hlt]
      have hc : l.input[l.position]? = some l.input[l.position] :=
        List.getElem?_eq_getElem (by omega)
      have hd : l.input[l.position + 1]? = some l.input[l.position + 1] :=
        List.getElem?_eq_getElem hlt
      by_cases hclose : (l.input[l.position]? == some '*' && l.input[l.position + 1]? == some '/')
          = true
      · rw [if_pos hclose]
        simp only [Bool.and_eq_true, beq_iff_eq] at hclose
        have s1 := restPosition_plain l '*' hclose.1 (by decide) _ rfl
        have s2 := restPosition_plain ⟨l.input, l.position + 1, l.line, l.column + 1⟩ '/'
          hclose.2 (by decide) _ rfl
        simp only [] at s2
        rw [← s1, ← s2]
      · rw [if_neg hclose]
        by_cases hnl : (l.input[l.position]? == some '\n') = true
        · rw [if_pos hnl, ih]
          exact restPosition_newline l (by simpa using hnl)
        · rw [if_neg hnl, ih]
          refine restPosition_plain l _ hc ?_ _ rfl
          intro e
          rw [hc, e] at hnl
          simp at hnl
    · rw [if_neg hlt]

theorem readLineCommentLoop_column : ∀ (fuel : Nat) (l : Lexer) (k : Nat),
    (readLineCommentLoop fuel l).line = l.line ∧ (readLineCommentLoop fuel l).column = l.column
      ∧ (readLineCommentLoop fuel l).input = l.input
      ∧ l.position ≤ (readLineCommentLoop fuel l).position
      ∧ commentPosition (l.input.drop (readLineCommentLoop fuel l).position) l.line
          (k + ((readLineCommentLoop fuel l).position - l.position))
        = commentPosition (l.input.drop l.position) l.line k := by
  intro fuel
  induction fuel with
  | zero => intro l k; exact ⟨rfl, rfl, rfl, Nat.le_refl _, by simp [readLineCommentLoop]⟩
  | succ n ih =>
    intro l k
    rw [readLineCommentLoop]
    cases hc : l.input[l.position]? with
    | none => exact ⟨rfl, rfl, rfl, Nat.le_refl _, by simp⟩
    | some c =>
      simp only []
      by_cases hne : (c != '\n') = true
      · rw [if_pos hne]
        obtain ⟨h1, h2, h3, h4, h5⟩ := ih { l with position := l.position + 1 } (k + 1)
        simp only [] at h1 h2 h3 h4 h5
        refine ⟨h1, h2, h3, by omega, ?_⟩
        rw [drop_eq_cons_of_getElem? hc, commentPosition_plain c _ _ _ (by simpa using hne),
          ← h5]
        congr 1
        omega
      · rw [if_neg hne]
        exact ⟨rfl, rfl, rfl, Nat.le_refl _, by simp⟩

theorem tokenizeOperator_restPosition (l : Lexer) (c : Char)
    (hc : l.input[l.position]? = some c) (hne : c ≠ '\n') :
    restPosition (tokenizeOperator l c).2 = restPosition l := by
  have key : ∀ (t : TokenType) (v : String),
      restPosition (emitToken l t v 1).2 = restPosition l :=
    fun t v => restPosition_plain l c hc hne _ rfl
  have key2 : ∀ (t : TokenType) (v : String) (d : Char),
      (l.input[l.position + 1]? == some d) = true → d ≠ '\n' →
      restPosition (emitToken l t v 2).2 = restPosition l := by
    intro t v d hnext hd
    have s1 := restPosition_plain l c hc hne _ rfl
    have s2 := restPosition_plain ⟨l.input, l.position + 1, l.line, l.column + 1⟩ d
      (by simpa using hnext) hd _ rfl
    simp only [] at s2
    rw [← s1, ← s2]
    rfl
  unfold tokenizeOperator
  dsimp only []
  repeat' first
    | (refine ite_both (P := fun r : (Option Token × Option GoError) × Lexer =>
        restPosition r.2 = restPosition l)
        (fun _ => ?_) (fun _ => ?_) <;> beta_reduce)
    | exact key _ _
    | exact key2 _ _ _ ‹_› (by decide)
    | exact restPosition_plain l c hc hne _ rfl

theorem readResult_lexer {r : Except Failure ((Token × Option GoError) × Lexer)}
    {x : (Option Token × Option GoError) × Lexer} (h : readResult r = .ok x) :
    ∃ y, r = .ok y ∧ y.2 = x.2 := by
  cases r with
  | error e => cases h
  | ok y =>
    obtain ⟨⟨tok, err⟩, l1⟩ := y
    cases h
    exact ⟨_, rfl, rfl⟩

theorem readLineComment_restPosition (l : Lexer) (y : (Token × Option GoError) × Lexer)
    (h : readLineComment l = .ok y) : restPosition y.2 = restPosition l := by
  unfold readLineComment at h
  dsimp only [] at h
  obtain ⟨h1, h2, h3, h4, h5⟩ :=
    readLineCommentLoop_column (l.input.length - l.position) l l.column
  obtain ⟨hi, hp, hb⟩ := readLineCommentLoop_reaches (l.input.length - l.position) l
  generalize readLineCommentLoop (l.input.length - l.position) l = l1 at h h1 h2 h3 h4 h5 hi hp hb
  cases hs : slice l1.input l.position l1.position with
  | error e => rw [hs] at h; cases h
  | ok value =>
    rw [hs] at h
    cases h
    have hlen : value.length = l1.position - l.position := by
      unfold slice at hs
      split at hs
      · cases hs
        rename_i hcond
        rw [List.length_take, List.length_drop]
        omega
      · cases hs
    unfold restPosition
    simp only []
    rw [h1, h2, h3, hlen, h5]

theorem readBlockComment_restPosition (l : Lexer) (c : Char)
    (hc : l.input[l.position]? = some c) (hne : c ≠ '\n')
    (hnext : l.input[l.position + 1]? = some '*')
    (y : (Token × Option GoError) × Lexer)
    (h : readBlockComment l = .ok y) : restPosition y.2 = restPosition l := by
  unfold readBlockComment at h
  dsimp only [] at h
  have hloop := readBlockCommentLoop_restPosition (l.input.length - (l.position + 2))
    { l with position := l.position + 2, column := l.column + 2 }
  generalize readBlockCommentLoop (l.input.length - (l.position + 2))
    { l with position := l.position + 2, column := l.column + 2 } = l1 at h hloop
  cases hs : slice l1.input l.position l1.position with
  | error e => rw [hs] at h; cases h
  | ok value =>
    rw [hs] at h
    cases h
    simp only []
    rw [hloop]
    have s1 := restPosition_plain l c hc hne _ rfl
    have s2 := restPosition_plain ⟨l.input, l.position + 1, l.line, l.column + 1⟩ '*'
      hnext (by decide) _ rfl
    simp only [] at s2
    rw [← s1, ← s2]

theorem readNumber_restPosition (l : Lexer) (y : (Token × Option GoError) × Lexer)
    (h : readNumber l = .ok y) : restPosition y.2 = restPosition l := by
  unfold readNumber at h
  dsimp only [] at h
  have hloop := readWhileLoop_restPosition (fun c => isDigit c || c == '.') (by decide)
    (l.input.length - l.position) l
  generalize readWhileLoop (fun c => isDigit c || c == '.') (l.input.length - l.position) l
    = l1 at h hloop
  cases hs : slice l1.input l.position l1.position with
  | error e => rw [hs] at h; cases h
  | ok value =>
    rw [hs] at h
    cases h
    exact hloop

theorem readIdentifier_restPosition (l : Lexer) (y : (Token × Option GoError) × Lexer)
    (h : readIdentifier l = .ok y) : restPosition y.2 = restPosition l := by
  unfold readIdentifier at h
  dsimp only [] at h
  have hloop := readWhileLoop_restPosition (fun c => isAlphaNumeric c || c == '_') (by decide)
    (l.input.length - l.position) l
  generalize readWhileLoop (fun c => isAlphaNumeric c || c == '_') (l.input.length - l.position) l
    = l1 at h hloop
  cases hs : slice l1.input l.position l1.position with
  | error e => rw [hs] at h; cases h
  | ok value =>
    rw [hs] at h
    cases h
    exact hloop

/-- An iteration of the tokenizer loop on a byte that opens no literal
leaves the lexer where counting the bytes passed leads. -/
theorem tokenizeStep_restPosition (l : Lexer) (c : Char) (hc : l.input[l.position]? = some c)
    (hq : isQuoteByte c = false) (x : (Option Token × Option GoError) × Lexer)
    (h : tokenizeStep l c = .ok x) : restPosition x.2 = restPosition l := by
  unfold tokenizeStep at h
  by_cases hw : isWhitespace c = true
  · rw [if_pos hw] at h
    by_cases hn : (c == '\n') = true
    · rw [if_pos hn] at h
      cases h
      have := eq_of_beq hn
      subst this
      exact restPosition_newline l hc
    · rw [if_neg hn] at h
      cases h
      exact restPosition_plain l c hc (by simpa using hn) _ rfl
  rw [if_neg hw] at h
  have hne : c ≠ '\n' := by
    intro e
    subst e
    exact hw (by decide)
  by_cases hlc : (c == '/' && l.input[l.position + 1]? == some '/') = true
  · rw [if_pos hlc] at h
    obtain ⟨y, hy, hyx⟩ := readResult_lexer h
    rw [← hyx]
    exact readLineComment_restPosition l y hy
  rw [if_neg hlc] at h
  by_cases hbc : (c == '/' && l.input[l.position + 1]? == some '*') = true
  · rw [if_pos hbc] at h
    obtain ⟨y, hy, hyx⟩ := readResult_lexer h
    rw [← hyx]
    simp only [Bool.and_eq_true, beq_iff_eq] at hbc
    exact readBlockComment_restPosition l c hc hne hbc.2 y hy
  rw [if_neg hbc] at h
  have hs : ¬ (c == '"' || c == '\'') = true := by
    intro hs
    simp only [isQuoteByte, hs, Bool.true_or] at hq
    cases hq
  rw [if_neg hs] at h
  have ht : ¬ (c == '\x60') = true := by
    intro ht
    simp only [isQuoteByte, ht, Bool.or_true] at hq
    cases hq
  rw [if_neg ht] at h
  by_cases hd : isDigit c = true
  · rw [if_pos hd] at h
    obtain ⟨y, hy, hyx⟩ := readResult_lexer h
    rw [← hyx]
    exact readNumber_restPosition l y hy
  rw [if_neg hd] at h
  by_cases hal : (isAlpha c || c == '_') = true
  · rw [if_pos hal] at h
    obtain ⟨y, hy, hyx⟩ := readResult_lexer h
    rw [← hyx]
    exact readIdentifier_restPosition l y hy
  rw [if_neg hal] at h
  cases h
  exact tokenizeOperator_restPosition l c hc hne

/-- From any lexer inside an input without quote bytes the loop returns, and
the final token is the `EOF` token at the position that counting the rest
of the input leads to. -/
theorem tokenizeLoop_restPosition : ∀ (fuel : Nat) (l : Lexer) (tokens : List Token),
    l.input.length - l.position ≤ fuel →
    (∀ c ∈ l.input, isQuoteByte c = false) →
    ∃ ts, tokenizeLoop fuel l tokens
      = .ok (ts ++ [⟨.EOF, [], (restPosition l).1, (restPosition l).2⟩], none) := by
  intro fuel
  induction fuel with
  | zero =>
    intro l tokens hf _
    have hnone : l.input[l.position]? = none := List.getElem?_eq_none_iff.mpr (by omega)
    refine ⟨tokens, ?_⟩
    rw [tokenizeLoop, restPosition_end l hnone]
  | succ n ih =>
    intro l tokens hf hall
    cases hc : l.input[l.position]? with
    | none =>
      refine ⟨tokens, ?_⟩
      rw [tokenizeLoop_of_none _ l tokens hc, restPosition_end l hc]
      rfl
    | some c =>
      have hq : isQuoteByte c = false := hall c (List.mem_iff_getElem?.mpr ⟨_, hc⟩)
      rcases tokenizeStep_cases l c hc with ⟨x, hx, ha, _⟩ | ⟨hq2, _⟩
      · obtain ⟨⟨tok, err⟩, l1⟩ := x
        obtain ⟨herr, hi, hp, hb⟩ := ha
        simp only [] at herr hi hp hb
        subst herr
        have hrest := tokenizeStep_restPosition l c hc hq _ hx
        simp only [] at hrest
        rw [tokenizeLoop_of_step _ l tokens c tok l1 hc hx, ← hrest]
        exact ih l1 _ (by rw [hi]; omega) (by rw [hi]; exact hall)
      · rw [hq] at hq2
        cases hq2

theorem takeWhile_append_all {α : Type} (p : α → Bool) :
    ∀ (a b : List α), (∀ x ∈ a, p x = true) →
      (a ++ b).takeWhile p = a ++ b.takeWhile p := by
  intro a
  induction a with
  | nil => intro b _; rfl
  | cons x a ih =>
    intro b h
    rw [List.cons_append, List.takeWhile_cons, h x (List.mem_cons_self _ _)]
    simp only [if_true]
    rw [ih b (fun y hy => h y (List.mem_cons_of_mem _ hy))]
    rfl

theorem takeWhile_append_stop {α : Type} (p : α → Bool) :
    ∀ (a b : List α), (∃ x ∈ a, p x = false) →
      (a ++ b).takeWhile p = a.takeWhile p := by
  intro a
  induction a with
  | nil => intro b h; obtain ⟨x, hx, _⟩ := h; cases hx
  | cons x a ih =>
    intro b h
    rw [List.cons_append, List.takeWhile_cons, List.takeWhile_cons]
    cases hp : p x with
    | false => rfl
    | true =>
      simp only [if_true]
      obtain ⟨y, hy, hpy⟩ := h
      rcases List.mem_cons.mp hy with e | hm
      · subst e; rw [hp] at hpy; cases hpy
      · rw [ih b ⟨y, hm, hpy⟩]

/-- The position counted from `line` and `column` over the bytes `w`, in the
words of the specification. -/
theorem commentPosition_eq : ∀ (w : GoString) (line column : Nat),
    commentPosition w line column
      = (line + w.count '\n',
         if '\n' ∈ w then sourceColumn w else column + w.length) := by
  intro w
  induction w with
  | nil => intro line column; simp [commentPosition]
  | cons c w ih =>
    intro line column
    by_cases hc : c = '\n'
    · subst hc
      rw [commentPosition_newline, ih]
      simp only [List.count_cons_self, List.mem_cons, true_or, if_true]
      refine Prod.ext (by simp only []; omega) ?_
      simp only []
      unfold sourceColumn
      rw [List.reverse_cons]
      by_cases hm : '\n' ∈ w
      · rw [if_pos hm, takeWhile_append_stop _ _ _ ⟨'\n', List.mem_reverse.mpr hm, by decide⟩]
      · rw [if_neg hm, takeWhile_append_all _ _ _ (fun x hx => by
          have : x ≠ '\n' := fun e => hm (e ▸ List.mem_reverse.mp hx)
          simpa using this)]
        simp
    · rw [commentPosition_plain c w _ _ hc, ih]
      have hcount : (c :: w).count '\n' = w.count '\n' := by
        rw [List.count_cons]
        simp [hc]
      rw [hcount]
      refine Prod.ext rfl ?_
      simp only []
      by_cases hm : '\n' ∈ w
      · have hm2 : '\n' ∈ c :: w := List.mem_cons_of_mem _ hm
        rw [if_pos hm, if_pos hm2]
        unfold sourceColumn
        rw [List.reverse_cons,
          takeWhile_append_stop _ _ _ ⟨'\n', List.mem_reverse.mpr hm, by decide⟩]
      · have hm2 : ¬ '\n' ∈ c :: w := by
          intro h
          rcases List.mem_cons.mp h with e | h
          · exact hc e.symm
          · exact hm h
        rw [if_neg hm, if_neg hm2, List.length_cons]
        omega

theorem commentPosition_source (input : GoString) :
    commentPosition input 1 1 = (sourceLine input, sourceColumn input) := by
  rw [commentPosition_eq]
  refine Prod.ext rfl ?_
  simp only []
  by_cases hm : '\n' ∈ input
  · rw [if_pos hm]
  · rw [if_neg hm]
    unfold sourceColumn
    have hall : ∀ x ∈ input.reverse, (fun c : Char => c != '\n') x = true := by
      intro x hx
      have : x ≠ '\n' := fun e => hm (e ▸ List.mem_reverse.mp hx)
      simpa using this
    have := takeWhile_append_all (fun c : Char => c != '\n') input.reverse [] hall
    rw [List.append_nil] at this
    rw [this]
    simp

/-- The tokenizer returns on every source without quote bytes, and the final
token is the `EOF` token at the line and column of the specification. -/
theorem Tokenize_eof_position (input : GoString) (h : ∀ c ∈ input, isQuoteByte c = false) :
    ∃ ts, Tokenize input
      = .ok (ts ++ [⟨.EOF, [], sourceLine input, sourceColumn input⟩], none) := by
  obtain ⟨ts, hts⟩ := tokenizeLoop_restPosition input.length (NewLexer input) []
    (by simp [NewLexer]) h
  refine ⟨ts, ?_⟩
  have hpos : restPosition (NewLexer input) = (sourceLine input, sourceColumn input) :=
    commentPosition_source input
  rw [hpos] at hts
  exact hts

/-- C26 (fails on the code): `readString` and `readTemplateLiteral` count a
newline inside a literal as one more column and never start a new line. On
a template literal and on a string that hold `a`, a newline and `b` the
`EOF` token is at line 1, column 6, where the source ends at line 2, column
3. On every source without a quote byte the tokenizer returns and the `EOF`
token is at the position claimed. -/
theorem eof_position_ignores_newline_in_literal :
    Tokenize "\x60a\nb\x60".toList
        = .ok ([⟨.TemplateLiteral, "a\nb".toList, 1, 6⟩, ⟨.EOF, [], 1, 6⟩], none)
      ∧ Tokenize "\"a\nb\"".toList
        = .ok ([⟨.String, "a\nb".toList, 1, 6⟩, ⟨.EOF, [], 1, 6⟩], none)
      ∧ sourceLine "\x60a\nb\x60".toList = 2 ∧ sourceColumn "\x60a\nb\x60".toList = 3
      ∧ sourceLine "\"a\nb\"".toList = 2 ∧ sourceColumn "\"a\nb\"".toList = 3
      ∧ Tokenize "a\n\nbc".toList
        = .ok ([⟨.Identifier, "a".toList, 1, 2⟩, ⟨.Newline, "\n".toList, 1, 2⟩,
                ⟨.Newline, "\n".toList, 2, 1⟩, ⟨.Identifier, "bc".toList, 3, 3⟩,
                ⟨.EOF, [], 3, 3⟩], none)
      ∧ sourceLine "a\n\nbc".toList = 3 ∧ sourceColumn "a\n\nbc".toList = 3
      ∧ (∀ input : GoString, (∀ c ∈ input, isQuoteByte c = false) →
          ∃ ts, Tokenize input
            = .ok (ts ++ [⟨.EOF, [], sourceLine input, sourceColumn input⟩], none)) :=
  ⟨by decide, by decide, by decide, by decide, by decide, by decide, by decide, by decide,
    by decide, Tokenize_eof_position⟩

/-! ## Tokenizer: the kinds it never produces -/

theorem identifierType_produced (value : GoString) :
    isUnproducedKind (identifierType value) = false := by
  unfold identifierType
  cases hk : keywords value with
  | none => rfl
  | some t =>
    obtain ⟨kv, hmem, _, rfl⟩ := (keywords_eq_some_iff value t).mp hk
    have hall : ∀ kv ∈ keywordTable, isUnproducedKind kv.2 = false := by decide
    exact hall kv hmem

theorem readResult_produced (r : Except Failure ((Token × Option GoError) × Lexer))
    (h : ∀ x, r = .ok x → isUnproducedKind x.1.1.Type_ = false) :
    ∀ y, readResult r = .ok y → AppendsProduced y := by
  intro y hy tok htok
  cases r with
  | error e => cases hy
  | ok x =>
    obtain ⟨⟨t, e⟩, l1⟩ := x
    simp only [readResult] at hy
    cases hy
    simp only [Option.some.injEq] at htok
    subst htok
    exact h _ rfl

theorem readLineComment_produced (l : Lexer) (x : (Token × Option GoError) × Lexer)
    (h : readLineComment l = .ok x) : isUnproducedKind x.1.1.Type_ = false := by
  unfold readLineComment at h
  simp only [] at h
  split at h
  · cases h
  · cases h; rfl

theorem readBlockComment_produced (l : Lexer) (x : (Token × Option GoError) × Lexer)
    (h : readBlockComment l = .ok x) : isUnproducedKind x.1.1.Type_ = false := by
  unfold readBlockComment at h
  simp only [] at h
  split at h
  · cases h
  · cases h; rfl

theorem readString_produced (l : Lexer) (x : (Token × Option GoError) × Lexer)
    (h : readString l = .ok x) : isUnproducedKind x.1.1.Type_ = false := by
  unfold readString at h
  split at h
  · cases h
  · simp only [] at h
    split at h
    · cases h
    · cases h; rfl

theorem readTemplateLiteral_produced (l : Lexer) (x : (Token × Option GoError) × Lexer)
    (h : readTemplateLiteral l = .ok x) : isUnproducedKind x.1.1.Type_ = false := by
  unfold readTemplateLiteral at h
  simp only [] at h
  split at h
  · cases h
  · cases h; rfl

theorem readNumber_produced (l : Lexer) (x : (Token × Option GoError) × Lexer)
    (h : readNumber l = .ok x) : isUnproducedKind x.1.1.Type_ = false := by
  unfold readNumber at h
  simp only [] at h
  split at h
  · cases h
  · cases h; rfl

theorem readIdentifier_produced (l : Lexer) (x : (Token × Option GoError) × Lexer)
    (h : readIdentifier l = .ok x) : isUnproducedKind x.1.1.Type_ = false := by
  unfold readIdentifier at h
  simp only [] at h
  split at h
  · cases h
  · cases h
    exact identifierType_produced _

theorem tokenizeOperator_produced (l : Lexer) (c : Char) :
    AppendsProduced (tokenizeOperator l c) := by
  have key : ∀ (t : TokenType) (v : String) (n : Nat), isUnproducedKind t = false →
      AppendsProduced (emitToken l t v n) := by
    intro t v n ht tok h
    simp only [emitToken, Option.some.injEq] at h
    subst h
    exact ht
  unfold tokenizeOperator
  dsimp only []
  repeat' first
    | (refine ite_both (P := AppendsProduced) (fun _ => ?_) (fun _ => ?_))
    | exact key _ _ _ (by decide)
  intro tok h
  cases h

theorem tokenizeStep_produced (l : Lexer) (c : Char)
    (x : (Option Token × Option GoError) × Lexer) (h : tokenizeStep l c = .ok x) :
    AppendsProduced x := by
  revert h
  unfold tokenizeStep
  refine ite_both (P := fun (r : Except Failure ((Option Token × Option GoError) × Lexer)) =>
      r = Except.ok x → AppendsProduced x) (fun _ => ?_) (fun _ => ?_)
  · refine ite_both (P := fun (r : Except Failure ((Option Token × Option GoError) × Lexer)) =>
      r = Except.ok x → AppendsProduced x) (fun _ => ?_) (fun _ => ?_)
    · intro h tok htok
      cases h
      simp only [Option.some.injEq] at htok
      subst htok
      rfl
    · intro h tok htok
      cases h
      simp only [Option.some.injEq] at htok
      subst htok
      rfl
  refine ite_both (P := fun (r : Except Failure ((Option Token × Option GoError) × Lexer)) =>
      r = Except.ok x → AppendsProduced x) (fun _ => ?_) (fun _ => ?_)
  · exact readResult_produced _ (readLineComment_produced l) x
  refine ite_both (P := fun (r : Except Failure ((Option Token × Option GoError) × Lexer)) =>
      r = Except.ok x → AppendsProduced x) (fun _ => ?_) (fun _ => ?_)
  · exact readResult_produced _ (readBlockComment_produced l) x
  refine ite_both (P := fun (r : Except Failure ((Option Token × Option GoError) × Lexer)) =>
      r = Except.ok x → AppendsProduced x) (fun _ => ?_) (fun _ => ?_)
  · exact readResult_produced _ (readString_produced l) x
  refine ite_both (P := fun (r : Except Failure ((Option Token × Option GoError) × Lexer)) =>
      r = Except.ok x → AppendsProduced x) (fun _ => ?_) (fun _ => ?_)
  · exact readResult_produced _ (readTemplateLiteral_produced l) x
  refine ite_both (P := fun (r : Except Failure ((Option Token × Option GoError) × Lexer)) =>
      r = Except.ok x → AppendsProduced x) (fun _ => ?_) (fun _ => ?_)
  · exact readResult_produced _ (readNumber_produced l) x
  refine ite_both (P := fun (r : Except Failure ((Option Token × Option GoError) × Lexer)) =>
      r = Except.ok x → AppendsProduced x) (fun _ => ?_) (fun _ => ?_)
  · exact readResult_produced _ (readIdentifier_produced l) x
  · intro h
    cases h
    exact tokenizeOperator_produced l c

theorem tokenizeLoop_produced : ∀ (fuel : Nat) (l : Lexer) (tokens ts : List Token)
    (e : Option GoError), (∀ t ∈ tokens, isUnproducedKind t.Type_ = false) →
    tokenizeLoop fuel l tokens = .ok (ts, e) →
    ∀ t ∈ ts, isUnproducedKind t.Type_ = false := by
  intro fuel
  induction fuel with
  | zero =>
    intro l tokens ts e hall h
    rw [tokenizeLoop] at h
    cases h
    intro t ht
    rcases List.mem_append.mp ht with ht | ht
    · exact hall t ht
    · rw [List.mem_singleton] at ht
      subst ht
      rfl
  | succ n ih =>
    intro l tokens ts e hall h
    rw [tokenizeLoop] at h
    cases hc : l.input[l.position]? with
    | none =>
      rw [hc] at h
      cases h
      intro t ht
      rcases List.mem_append.mp ht with ht | ht
      · exact hall t ht
      · rw [List.mem_singleton] at ht
        subst ht
        rfl
    | some c =>
      rw [hc] at h
      simp only [] at h
      cases hs : tokenizeStep l c with
      | error f => rw [hs] at h; cases h
      | ok x =>
        obtain ⟨⟨tok, err⟩, l1⟩ := x
        have hnone := tokenizeStep_no_error l c hc _ hs
        have hne := tokenizeStep_produced l c _ hs
        simp only [] at hnone
        subst hnone
        rw [hs] at h
        refine ih _ _ _ _ ?_ h
        intro t ht
        rcases List.mem_append.mp ht with ht | ht
        · exact hall t ht
        · cases tok with
          | none => simp at ht
          | some tk =>
            simp only [Option.toList, List.mem_singleton] at ht
            subst ht
            exact hne _ rfl

theorem Tokenize_produced (input : GoString) (ts : List Token) (e : Option GoError)
    (h : Tokenize input = .ok (ts, e)) : ∀ t ∈ ts, isUnproducedKind t.Type_ = false :=
  tokenizeLoop_produced _ _ _ _ _ (fun t ht => absurd ht (List.not_mem_nil t)) h

theorem tokenizeStep_less (l : Lexer) :
    ∃ k v n, tokenizeStep l '<' = .ok (emitToken l k v n)
      ∧ (k = .OpeningTagStart ∨ k = .ClosingTagStart ∨ k = .LessEqual) := by
  by_cases h1 : l.input[l.position + 1]? = some '/'
  · exact ⟨.ClosingTagStart, "</", 2,
      by simp [tokenizeStep, isWhitespace, isDigit, isAlpha, tokenizeOperator, h1], by simp⟩
  by_cases h2 : l.input[l.position + 1]? = some '='
  · exact ⟨.LessEqual, "<=", 2,
      by simp [tokenizeStep, isWhitespace, isDigit, isAlpha, tokenizeOperator, h2], by simp⟩
  · exact ⟨.OpeningTagStart, "<", 1,
      by simp [tokenizeStep, isWhitespace, isDigit, isAlpha, tokenizeOperator, h1, h2], by simp⟩

theorem tokenizeStep_greater (l : Lexer) :
    ∃ k v n, tokenizeStep l '>' = .ok (emitToken l k v n)
      ∧ (k = .TagEnd ∨ k = .GreaterEqual) := by
  by_cases h2 : l.input[l.position + 1]? = some '='
  · exact ⟨.GreaterEqual, ">=", 2,
      by simp [tokenizeStep, isWhitespace, isDigit, isAlpha, tokenizeOperator, h2], by simp⟩
  · exact ⟨.TagEnd, ">", 1,
      by simp [tokenizeStep, isWhitespace, isDigit, isAlpha, tokenizeOperator, h2], by simp⟩

/-! ## Parser: components without type parameters -/

theorem hasNoTypeParamsList_append (a b : List ASTNode) :
    hasNoTypeParamsList (a ++ b) = (hasNoTypeParamsList a && hasNoTypeParamsList b) := by
  induction a with
  | nil => simp [hasNoTypeParamsList]
  | cons x xs ih => simp [hasNoTypeParamsList, ih, Bool.and_assoc]

theorem hasNoTypeParamsOption_head (body : List ASTNode)
    (h : hasNoTypeParamsList body = true) : hasNoTypeParamsOption body.head? = true := by
  cases body with
  | nil => rfl
  | cons x xs =>
    simp only [hasNoTypeParamsList, Bool.and_eq_true] at h
    exact h.1

theorem match_tokens (p : Parser) (k : TokenType) : (p.match_ [k]).2.tokens = p.tokens := by
  cases h : (p.match_ [k]).1
  · rw [(match_one p k).2 h]
  · rw [((match_one p k).1 h).2, skip_tokens]

theorem ite_tokens (c : Prop) [Decidable c] (p q : Parser) (toks : List Token)
    (hp : p.tokens = toks) (hq : q.tokens = toks) : (if c then p else q).tokens = toks := by
  split
  · exact hp
  · exact hq

theorem parsePageAttributes_tokens : ∀ (n : Nat) (p : Parser) (a : GoMap) (r : GoMap × Parser),
    parsePageAttributes n p a = some r → r.2.tokens = p.tokens := by
  intro n
  induction n with
  | zero => intro p a r h; cases h
  | succ n ih =>
    intro p a r
    rw [parsePageAttributes]
    simp only []
    refine ite_both (P := fun x => x = some r → r.2.tokens = p.tokens) (fun _ => ?_)
      (fun _ => ?_)
    · refine ite_both (P := fun x => x = some r → r.2.tokens = p.tokens) (fun _ => ?_)
        (fun _ => ?_)
      · refine ite_both (P := fun x => x = some r → r.2.tokens = p.tokens) (fun _ => ?_)
          (fun _ => ?_)
        · refine ite_both (P := fun x => x = some r → r.2.tokens = p.tokens) (fun _ => ?_)
            (fun _ => ?_)
          · intro h
            rw [ih _ _ _ h, advanceValue_snd, skip_tokens, skip_tokens, advanceValue_snd,
              skip_tokens]
          · intro h
            rw [ih _ _ _ h, skip_tokens, advanceValue_snd, skip_tokens]
        · intro h
          rw [ih _ _ _ h, advanceValue_snd, skip_tokens]
      · intro h
        rw [ih _ _ _ h, skip_tokens]
    · intro h
      cases h
      rfl

theorem parseNameList_tokens (close : TokenType) :
    ∀ (n : Nat) (p : Parser) (a : List GoString) (r : List GoString × Parser),
      parseNameList close n p a = some r → r.2.tokens = p.tokens := by
  intro n
  induction n with
  | zero => intro p a r h; cases h
  | succ n ih =>
    intro p a r h
    rw [parseNameList] at h
    by_cases hc : (!p.check close && !p.isAtEnd) = true
    · rw [if_pos hc] at h
      simp only [] at h
      rw [ih _ _ _ h]
      have h1 : (if p.peekIs .Identifier = true then p.advanceValue.2 else p).tokens
          = p.tokens :=
        ite_tokens _ _ _ _ (by rw [advanceValue_snd, skip_tokens]) rfl
      exact ite_tokens _ _ _ _ (by rw [skip_tokens, h1]) h1
    · rw [if_neg hc] at h
      cases h
      rfl

theorem parseParametersLoop_tokens : ∀ (n : Nat) (p : Parser) (r : ListResult × Parser),
    parseParametersLoop n p = some r → r.2.tokens = p.tokens := by
  intro n
  induction n with
  | zero => intro p r h; cases h
  | succ n ih =>
    intro p r h
    rw [parseParametersLoop] at h
    by_cases hc : (!p.check .RightParen && !p.isAtEnd) = true
    · rw [if_pos hc] at h
      simp only [] at h
      rw [ih _ _ h]
      have h1 : (if p.peekIs .Identifier = true then p.skip else p).tokens = p.tokens :=
        ite_tokens _ _ _ _ (skip_tokens p) rfl
      exact ite_tokens _ _ _ _ (by rw [skip_tokens, h1]) h1
    · rw [if_neg hc] at h
      cases h
      rfl

theorem emptyBraces_tokens (p : Parser) : (emptyBraces p).tokens = p.tokens := by
  unfold emptyBraces
  simp only []
  refine ite_tokens _ _ _ _ ?_ rfl
  exact ite_tokens _ _ _ _ (by rw [skip_tokens, skip_tokens]) (skip_tokens p)

theorem parseSource_tokens (p : Parser) : (parseSource p).2.tokens = p.tokens := by
  unfold parseSource
  simp only []
  split
  · split
    · rw [advanceValue_snd, skip_tokens, skip_tokens]
    · exact skip_tokens p
  · rfl

theorem bracedBlock_typeless {toks : List Token} {b : BlockParser}
    (hb : ReturnsTypelessList toks b) (p : Parser) (hp : p.tokens = toks)
    (r : List ASTNode × Parser) (h : bracedBlock b p = some r) :
    r.2.tokens = toks ∧ hasNoTypeParamsList r.1 = true := by
  unfold bracedBlock at h
  by_cases hc : p.check .LeftBrace = true
  · rw [if_pos hc] at h
    cases hq : b p.skip with
    | none => rw [hq] at h; cases h
    | some y =>
      rw [hq] at h
      obtain ⟨h1, h2⟩ := hb _ _ (by rw [skip_tokens, hp]) hq
      cases h
      exact ⟨ite_tokens _ _ _ _ (by rw [skip_tokens, h1]) h1, h2⟩
  · rw [if_neg hc] at h
    cases h
    exact ⟨hp, rfl⟩

theorem parsePage_typeless {toks : List Token} {b : BlockParser}
    (hb : ReturnsTypelessList toks b) (n : Nat) : ReturnsTypeless toks (parsePage b n) := by
  intro p r hp h
  unfold parsePage at h
  simp only [] at h
  cases ha : parsePageAttributes n p.optionalName.2 [] with
  | none => rw [ha] at h; cases h
  | some x =>
    have hx : x.2.tokens = toks := by
      rw [parsePageAttributes_tokens _ _ _ _ ha, optionalName_tokens, hp]
    rw [ha] at h
    simp only [] at h
    cases hq : bracedBlock b x.2 with
    | none => rw [hq] at h; cases h
    | some y =>
      rw [hq] at h
      obtain ⟨h1, h2⟩ := bracedBlock_typeless hb _ hx _ hq
      cases h
      exact ⟨h1, by simpa [hasNoTypeParamsOption, hasNoTypeParams] using h2⟩

theorem parseStyle_typeless {toks : List Token} {b : BlockParser}
    (hb : ReturnsTypelessList toks b) : ReturnsTypeless toks (parseStyle b) := by
  intro p r hp h
  unfold parseStyle at h
  simp only [] at h
  cases hq : bracedBlock b p.optionalName.2 with
  | none => rw [hq] at h; cases h
  | some y =>
    rw [hq] at h
    obtain ⟨h1, h2⟩ := bracedBlock_typeless hb _ (by rw [optionalName_tokens, hp]) _ hq
    cases h
    exact ⟨h1, by simpa [hasNoTypeParamsOption, hasNoTypeParams] using h2⟩

theorem parseState_typeless {toks : List Token} {b : BlockParser}
    (hb : ReturnsTypelessList toks b) : ReturnsTypeless toks (parseState b) := by
  intro p r hp h
  unfold parseState at h
  simp only [] at h
  cases hq : bracedBlock b p.optionalName.2 with
  | none => rw [hq] at h; cases h
  | some y =>
    rw [hq] at h
    obtain ⟨h1, h2⟩ := bracedBlock_typeless hb _ (by rw [optionalName_tokens, hp]) _ hq
    cases h
    exact ⟨h1, by simpa [hasNoTypeParamsOption, hasNoTypeParams] using h2⟩

theorem parseApi_typeless {toks : List Token} {b : BlockParser}
    (hb : ReturnsTypelessList toks b) : ReturnsTypeless toks (parseApi b) := by
  intro p r hp h
  unfold parseApi at h
  simp only [] at h
  cases hq : bracedBlock b p.optionalName.2 with
  | none => rw [hq] at h; cases h
  | some y =>
    rw [hq] at h
    obtain ⟨h1, h2⟩ := bracedBlock_typeless hb _ (by rw [optionalName_tokens, hp]) _ hq
    cases h
    exact ⟨h1, by simpa [hasNoTypeParamsOption, hasNoTypeParams] using h2⟩

theorem parseRouter_typeless {toks : List Token} {b : BlockParser}
    (hb : ReturnsTypelessList toks b) : ReturnsTypeless toks (parseRouter b) := by
  intro p r hp h
  unfold parseRouter at h
  cases hq : bracedBlock b p with
  | none => rw [hq] at h; cases h
  | some y =>
    rw [hq] at h
    obtain ⟨h1, h2⟩ := bracedBlock_typeless hb _ hp _ hq
    cases h
    exact ⟨h1, by simpa [hasNoTypeParamsOption, hasNoTypeParams] using h2⟩

theorem parseLayout_typeless {toks : List Token} {b : BlockParser}
    (hb : ReturnsTypelessList toks b) : ReturnsTypeless toks (parseLayout b) := by
  intro p r hp h
  unfold parseLayout at h
  simp only [] at h
  cases hq : bracedBlock b p.optionalName.2 with
  | none => rw [hq] at h; cases h
  | some y =>
    rw [hq] at h
    obtain ⟨h1, h2⟩ := bracedBlock_typeless hb _ (by rw [optionalName_tokens, hp]) _ hq
    have h3 := hasNoTypeParamsOption_head _ h2
    cases h
    exact ⟨h1, by simpa [hasNoTypeParamsOption, hasNoTypeParams] using h3⟩

theorem parseAnimation_typeless {toks : List Token} {b : BlockParser}
    (hb : ReturnsTypelessList toks b) : ReturnsTypeless toks (parseAnimation b) := by
  intro p r hp h
  unfold parseAnimation at h
  simp only [] at h
  cases hq : bracedBlock b p.optionalName.2 with
  | none => rw [hq] at h; cases h
  | some y =>
    rw [hq] at h
    obtain ⟨h1, h2⟩ := bracedBlock_typeless hb _ (by rw [optionalName_tokens, hp]) _ hq
    cases h
    exact ⟨h1, by simpa [hasNoTypeParamsOption, hasNoTypeParams] using h2⟩

theorem parseEvent_typeless {toks : List Token} {b : BlockParser}
    (hb : ReturnsTypelessList toks b) : ReturnsTypeless toks (parseEvent b) := by
  intro p r hp h
  unfold parseEvent at h
  simp only [] at h
  have hp2 : (if p.optionalName.2.peekIsOn = true then p.optionalName.2.skip.optionalName.2
      else p.optionalName.2).tokens = toks :=
    ite_tokens _ _ _ _ (by rw [optionalName_tokens, skip_tokens, optionalName_tokens, hp])
      (by rw [optionalName_tokens, hp])
  revert h hp2
  generalize (if p.optionalName.2.peekIsOn = true then p.optionalName.2.skip.optionalName.2
    else p.optionalName.2) = p2
  intro h hp2
  cases hq : bracedBlock b p2 with
  | none => rw [hq] at h; cases h
  | some y =>
    rw [hq] at h
    obtain ⟨h1, h2⟩ := bracedBlock_typeless hb _ hp2 _ hq
    cases h
    exact ⟨h1, by simpa [hasNoTypeParamsOption, hasNoTypeParams] using h2⟩

/-- Over tokens without a `Less` token `parseComponent` passes the optional
name and the braced block, and the node it builds has no type parameter. -/
theorem parseComponent_typeless {toks : List Token} (hless : ∀ t ∈ toks, t.Type_ ≠ .Less)
    {b : BlockParser} (hb : ReturnsTypelessList toks b) (n : Nat) :
    ReturnsTypeless toks (parseComponent b n) := by
  intro p r hp h
  have hp1 : p.optionalName.2.tokens = toks := by rw [optionalName_tokens, hp]
  have hc : p.optionalName.2.check .Less = false := check_false_of_absent hless _ hp1
  unfold parseComponent at h
  simp only [hc, Bool.false_eq_true, if_false] at h
  cases hq : bracedBlock b p.optionalName.2 with
  | none => rw [hq] at h; cases h
  | some y =>
    rw [hq] at h
    obtain ⟨h1, _⟩ := bracedBlock_typeless hb _ hp1 _ hq
    cases h
    exact ⟨h1, rfl⟩

theorem parseHook_typeless {toks : List Token} {b : BlockParser}
    (hb : ReturnsTypelessList toks b) (n : Nat) : ReturnsTypeless toks (parseHook b n) := by
  intro p r hp h
  have hp1 : p.optionalName.2.tokens = toks := by rw [optionalName_tokens, hp]
  unfold parseHook parseParameters at h
  simp only [] at h
  by_cases hc : p.optionalName.2.check .LeftParen = true
  · simp only [hc, if_true] at h
    cases ha : parseParametersLoop n p.optionalName.2.skip with
    | none => rw [ha] at h; cases h
    | some x =>
      have hnil := parseParametersLoop_nil _ _ _ ha
      have hx : x.2.tokens = toks := by
        rw [parseParametersLoop_tokens _ _ _ ha, skip_tokens, hp1]
      have hp3 : (if x.2.check .RightParen = true then x.2.skip else x.2).tokens = toks :=
        ite_tokens _ _ _ _ (by rw [skip_tokens, hx]) hx
      rw [ha] at h
      simp only [] at h
      revert h hp3
      generalize (if x.2.check .RightParen = true then x.2.skip else x.2) = p3
      intro h hp3
      cases hq : bracedBlock b p3 with
      | none => rw [hq] at h; cases h
      | some y =>
        rw [hq] at h
        obtain ⟨h1, h2⟩ := bracedBlock_typeless hb _ hp3 _ hq
        cases h
        exact ⟨h1, by
          simpa [hasNoTypeParamsOption, hasNoTypeParams, hnil, hasNoTypeParamsList] using h2⟩
  · simp only [if_neg hc] at h
    cases hq : bracedBlock b p.optionalName.2 with
    | none => rw [hq] at h; cases h
    | some y =>
      rw [hq] at h
      obtain ⟨h1, h2⟩ := bracedBlock_typeless hb _ hp1 _ hq
      cases h
      exact ⟨h1, by
        simpa [hasNoTypeParamsOption, hasNoTypeParams, hasNoTypeParamsList] using h2⟩

theorem parseImport_typeless (toks : List Token) (n : Nat) :
    ReturnsTypeless toks (parseImport n) := by
  intro p r hp h
  unfold parseImport at h
  cases ha : parseNameList .From n p [] with
  | none => rw [ha] at h; cases h
  | some x =>
    rw [ha] at h
    cases h
    exact ⟨by rw [parseSource_tokens, parseNameList_tokens _ _ _ _ _ ha, hp], rfl⟩

theorem parseExport_typeless (toks : List Token) (n : Nat) :
    ReturnsTypeless toks (parseExport n) := by
  intro p r hp h
  unfold parseExport at h
  simp only [] at h
  cases ha : parseNameList .From n (if p.peekIsDefault = true then p.skip else p) [] with
  | none => rw [ha] at h; cases h
  | some x =>
    rw [ha] at h
    cases h
    refine ⟨?_, rfl⟩
    rw [parseSource_tokens, parseNameList_tokens _ _ _ _ _ ha]
    exact ite_tokens _ _ _ _ (by rw [skip_tokens, hp]) hp

theorem parseType_tokens (p : Parser) : (parseType p).2.tokens = p.tokens := by
  unfold parseType
  simp only []
  have h1 : (if p.optionalName.2.check .Assign = true then p.optionalName.2.skip
      else p.optionalName.2).tokens = p.tokens :=
    ite_tokens _ _ _ _ (by rw [skip_tokens, optionalName_tokens]) (optionalName_tokens p)
  exact ite_tokens _ _ _ _ (by rw [skip_tokens, h1]) h1

theorem parseBlockLoop_typeless {toks : List Token}
    {s : Parser → Option (NodeResult × Parser)} (hs : ReturnsTypeless toks s) :
    ∀ (n : Nat) (p : Parser) (a : List ASTNode) (r : ListResult × Parser),
      p.tokens = toks → hasNoTypeParamsList a = true → parseBlockLoop s n p a = some r →
      r.2.tokens = toks ∧ hasNoTypeParamsList r.1.1 = true := by
  intro n
  induction n with
  | zero => intro p a r _ _ h; cases h
  | succ n ih =>
    intro p a r hp ha h
    rw [parseBlockLoop] at h
    by_cases hc : (!p.check .RightBrace && !p.isAtEnd) = true
    · rw [if_pos hc] at h
      cases hq : s p with
      | none => rw [hq] at h; cases h
      | some x =>
        obtain ⟨hx1, hx2⟩ := hs _ _ hp hq
        obtain ⟨⟨node, err⟩, p1⟩ := x
        simp only [] at hx1 hx2
        rw [hq] at h
        cases err with
        | some e => cases node <;> (cases h; exact ⟨hx1, rfl⟩)
        | none =>
          cases node with
          | none => exact ih _ _ _ (by rw [skip_tokens, hx1]) ha h
          | some st =>
            refine ih _ _ _ hx1 ?_ h
            rw [hasNoTypeParamsList_append, ha]
            simpa [hasNoTypeParamsList, hasNoTypeParamsOption] using hx2
    · rw [if_neg hc] at h
      cases h
      exact ⟨hp, ha⟩

theorem parseStatement_typeless {toks : List Token} (hless : ∀ t ∈ toks, t.Type_ ≠ .Less) :
    ∀ n : Nat, ReturnsTypeless toks (parseStatement n) := by
  intro n
  induction n with
  | zero => intro p r _ h; cases h
  | succ n ih =>
    intro p r hp
    have hb : ReturnsTypelessList toks (fun q => parseBlockLoop (parseStatement n) n q []) :=
      fun q r hq h => parseBlockLoop_typeless ih n q [] r hq rfl h
    have hm : ∀ k, (p.match_ [k]).2.tokens = toks := fun k => by rw [match_tokens, hp]
    rw [parseStatement]
    refine ite_both (P := fun x => x = some r →
      r.2.tokens = toks ∧ hasNoTypeParamsOption r.1.1 = true) (fun _ => ?_) (fun _ => ?_)
    · exact parsePage_typeless hb _ _ _ (hm _)
    refine ite_both (P := fun x => x = some r →
      r.2.tokens = toks ∧ hasNoTypeParamsOption r.1.1 = true) (fun _ => ?_) (fun _ => ?_)
    · exact parseComponent_typeless hless hb _ _ _ (hm _)
    refine ite_both (P := fun x => x = some r →
      r.2.tokens = toks ∧ hasNoTypeParamsOption r.1.1 = true) (fun _ => ?_) (fun _ => ?_)
    · exact parseStyle_typeless hb _ _ (hm _)
    refine ite_both (P := fun x => x = some r →
      r.2.tokens = toks ∧ hasNoTypeParamsOption r.1.1 = true) (fun _ => ?_) (fun _ => ?_)
    · exact parseEvent_typeless hb _ _ (hm _)
    refine ite_both (P := fun x => x = some r →
      r.2.tokens = toks ∧ hasNoTypeParamsOption r.1.1 = true) (fun _ => ?_) (fun _ => ?_)
    · exact parseState_typeless hb _ _ (hm _)
    refine ite_both (P := fun x => x = some r →
      r.2.tokens = toks ∧ hasNoTypeParamsOption r.1.1 = true) (fun _ => ?_) (fun _ => ?_)
    · exact parseApi_typeless hb _ _ (hm _)
    refine ite_both (P := fun x => x = some r →
      r.2.tokens = toks ∧ hasNoTypeParamsOption r.1.1 = true) (fun _ => ?_) (fun _ => ?_)
    · exact parseRouter_typeless hb _ _ (hm _)
    refine ite_both (P := fun x => x = some r →
      r.2.tokens = toks ∧ hasNoTypeParamsOption r.1.1 = true) (fun _ => ?_) (fun _ => ?_)
    · exact parseLayout_typeless hb _ _ (hm _)
    refine ite_both (P := fun x => x = some r →
      r.2.tokens = toks ∧ hasNoTypeParamsOption r.1.1 = true) (fun _ => ?_) (fun _ => ?_)
    · exact parseAnimation_typeless hb _ _ (hm _)
    refine ite_both (P := fun x => x = some r →
      r.2.tokens = toks ∧ hasNoTypeParamsOption r.1.1 = true) (fun _ => ?_) (fun _ => ?_)
    · intro h; cases h; exact ⟨by rw [parseType_tokens, hm], rfl⟩
    refine ite_both (P := fun x => x = some r →
      r.2.tokens = toks ∧ hasNoTypeParamsOption r.1.1 = true) (fun _ => ?_) (fun _ => ?_)
    · exact parseHook_typeless hb _ _ _ (hm _)
    refine ite_both (P := fun x => x = some r →
      r.2.tokens = toks ∧ hasNoTypeParamsOption r.1.1 = true) (fun _ => ?_) (fun _ => ?_)
    · intro h; cases h
      exact ⟨by simp only [parsePlugin]; rw [emptyBraces_tokens, optionalName_tokens, hm], rfl⟩
    refine ite_both (P := fun x => x = some r →
      r.2.tokens = toks ∧ hasNoTypeParamsOption r.1.1 = true) (fun _ => ?_) (fun _ => ?_)
    · intro h; cases h
      exact ⟨by simp only [parseConfig]; rw [emptyBraces_tokens, hm], rfl⟩
    refine ite_both (P := fun x => x = some r →
      r.2.tokens = toks ∧ hasNoTypeParamsOption r.1.1 = true) (fun _ => ?_) (fun _ => ?_)
    · exact parseImport_typeless toks _ _ _ (hm _)
    refine ite_both (P := fun x => x = some r →
      r.2.tokens = toks ∧ hasNoTypeParamsOption r.1.1 = true) (fun _ => ?_) (fun _ => ?_)
    · exact parseExport_typeless toks _ _ _ (hm _)
    · intro h; cases h; exact ⟨by rw [skip_tokens, hp], rfl⟩

theorem parseLoop_typeless {toks : List Token} (hless : ∀ t ∈ toks, t.Type_ ≠ .Less) :
    ∀ (n : Nat) (p : Parser) (a : List ASTNode) (r : NodeResult × Parser),
      p.tokens = toks → hasNoTypeParamsList a = true → parseLoop n p a = some r →
      hasNoTypeParamsOption r.1.1 = true := by
  intro n
  induction n with
  | zero => intro p a r _ _ h; cases h
  | succ n ih =>
    intro p a r hp ha h
    rw [parseLoop] at h
    by_cases hc : (!p.isAtEnd) = true
    · rw [if_pos hc] at h
      cases hq : parseStatement n p with
      | none => rw [hq] at h; cases h
      | some x =>
        obtain ⟨hx1, hx2⟩ := parseStatement_typeless hless n _ _ hp hq
        obtain ⟨⟨node, err⟩, p1⟩ := x
        simp only [] at hx1 hx2
        rw [hq] at h
        cases err with
        | some e => cases node <;> (cases h; rfl)
        | none =>
          cases node with
          | none => exact ih _ _ _ hx1 ha h
          | some st =>
            refine ih _ _ _ hx1 ?_ h
            rw [hasNoTypeParamsList_append, ha]
            simpa [hasNoTypeParamsList, hasNoTypeParamsOption] using hx2
    · rw [if_neg hc] at h
      cases h
      simpa [hasNoTypeParamsOption, hasNoTypeParams] using ha

/-- Over tokens without a `Less` token every tree `Parse` returns has no
Component node with a type parameter. -/
theorem Parse_typeless (fuel : Nat) (tokens : List Token)
    (hless : ∀ t ∈ tokens, t.Type_ ≠ .Less) (ast : ASTNode) (e : Option GoError)
    (h : Parse fuel tokens = some (some ast, e)) : hasNoTypeParams ast = true := by
  unfold Parse at h
  cases hq : parseLoop fuel (NewParser tokens) [] with
  | none => rw [hq] at h; cases h
  | some x =>
    rw [hq] at h
    have hx := parseLoop_typeless hless fuel (NewParser tokens) [] x rfl
      (by rw [hasNoTypeParamsList]) hq
    simp only [Option.map_some', Option.some.injEq] at h
    rw [h] at hx
    exact hx

/-! ## Unproduced token kinds and type parameters -/

/-- C31: no token that `Tokenize` returns has the kind `Less`, `Greater` or
`SelfClosingTagEnd`; an iteration at the byte `<` appends a token of kind
OpeningTagStart, ClosingTagStart or LessEqual and one at `>` a token of kind
TagEnd or GreaterEqual. So on the tokens returned `check(Less)` is false at
every cursor, `parseComponent` is the parser of an optional name and a
braced block that builds a Component node without type parameters, and no
Component node of a tree that `Parse` returns, at any depth, has a type
parameter. -/
theorem unproduced_token_kinds (input : GoString) (ts : List Token) (e : Option GoError)
    (h : Tokenize input = .ok (ts, e)) :
    (∀ t ∈ ts, t.Type_ ≠ .Less ∧ t.Type_ ≠ .Greater ∧ t.Type_ ≠ .SelfClosingTagEnd)
      ∧ (∀ l : Lexer, ∃ k v n, tokenizeStep l '<' = .ok (emitToken l k v n)
          ∧ (k = .OpeningTagStart ∨ k = .ClosingTagStart ∨ k = .LessEqual))
      ∧ (∀ l : Lexer, ∃ k v n, tokenizeStep l '>' = .ok (emitToken l k v n)
          ∧ (k = .TagEnd ∨ k = .GreaterEqual))
      ∧ (∀ p : Parser, p.tokens = ts → p.check .Less = false)
      ∧ (∀ (b : BlockParser) (fuel : Nat) (p : Parser), p.tokens = ts →
          parseComponent b fuel p
            = (bracedBlock b p.optionalName.2).map (fun r =>
                ((some (.ComponentNode p.optionalName.1 [] [] [] [] [] none), none), r.2)))
      ∧ (∀ (fuel : Nat) (ast : ASTNode) (e2 : Option GoError),
          Parse fuel ts = some (some ast, e2) → hasNoTypeParams ast = true) := by
  have hkinds := Tokenize_produced input ts e h
  have hless : ∀ t ∈ ts, t.Type_ ≠ .Less := by
    intro t ht hk
    have := hkinds t ht
    rw [hk] at this
    cases this
  refine ⟨fun t ht => ?_, tokenizeStep_less, tokenizeStep_greater,
    fun p hp => check_false_of_absent hless p hp, fun b fuel p hp => ?_,
    fun fuel ast e2 hparse => Parse_typeless fuel ts hless ast e2 hparse⟩
  · have := hkinds t ht
    refine ⟨?_, ?_, ?_⟩ <;> (intro hk; rw [hk] at this; cases this)
  · have hc : p.optionalName.2.check .Less = false :=
      check_false_of_absent hless _ (by rw [optionalName_tokens, hp])
    unfold parseComponent
    simp only [hc, Bool.false_eq_true, if_false]
    cases bracedBlock b p.optionalName.2 <;> rfl

set_option maxRecDepth 100000 in
theorem unproduced_token_kinds_witness :
    Tokenize "component<T>\x7b\x7d".toList = .ok (typedComponentTokens, none)
      ∧ Parse 8 typedComponentTokens
        = some (some (.ProgramNode [.ComponentNode [] [] [] [] [] [] none]), none)
      ∧ hasNoTypeParams (.ProgramNode [.ComponentNode [] [] [] [] [] [] none]) = true :=
  ⟨by decide, by rfl,
    (unproduced_token_kinds "component<T>\x7b\x7d".toList typedComponentTokens none
      (by decide)).2.2.2.2.2 8 _ none (by rfl)⟩

/-! ## Emitter: only Page writes markup -/

theorem pageMarkup_split (title : Option GoString) :
    pageMarkup title = pageOpening title ++ pageClosing := by
  unfold pageMarkup pageOpening pageClosing
  cases title <;> simp only [List.append_assoc]

theorem pageHead_opening (Attributes : GoMap) (g : CodeGenerator) :
    (pageHead Attributes g).htmlOutput
      = g.htmlOutput ++ pageOpening (Attributes.get? "title".toList) := by
  unfold pageHead pageOpening
  cases Attributes.get? "title".toList <;>
    simp only [List.nil_append, List.append_nil, List.append_assoc, CodeGenerator.html]

theorem pageTail_closing (g : CodeGenerator) :
    (pageTail g).htmlOutput = g.htmlOutput ++ pageClosing := by
  unfold pageTail pageClosing
  simp only [List.append_assoc, CodeGenerator.html]

theorem eventsText_append (a b : List PageEvent) :
    eventsText (a ++ b) = eventsText a ++ eventsText b := by
  induction a with
  | nil => rfl
  | cons e es ih => rw [List.cons_append, eventsText, eventsText, ih, List.append_assoc]

theorem eventsText_sideBySide (titles : List (Option GoString)) :
    eventsText (sideBySide titles) = skeletons titles := by
  induction titles with
  | nil => rfl
  | cons t ts ih =>
    rw [sideBySide, eventsText, eventsText, ih, skeletons, pageMarkup_split, eventText,
      eventText, List.append_assoc]

/-- Every handler but those of Program and Page leaves the markup buffer as
it is, whatever the fields of the node. -/
theorem Accept_html_of_other (node : ASTNode) (g : CodeGenerator)
    (hpage : isPageNode node = false) (hprog : isProgramNode node = false) :
    (Accept node g).htmlOutput = g.htmlOutput := by
  cases node with
  | ProgramNode _ => cases hprog
  | PageNode _ _ _ => cases hpage
  | ComponentNode _ _ _ _ _ _ _ =>
    simp only [Accept, VisitComponent, CodeGenerator.css, CodeGenerator.js]
  | StyleNode _ _ => simp only [Accept, VisitStyle, CodeGenerator.css]
  | EventNode _ _ _ => simp only [Accept, VisitEvent, CodeGenerator.js]
  | StateNode _ _ => simp only [Accept, VisitState, CodeGenerator.js]
  | ApiNode _ _ _ => simp only [Accept, VisitApi, CodeGenerator.js]
  | RouterNode _ => simp only [Accept, VisitRouter, CodeGenerator.js]
  | RouteNode _ _ _ => simp only [Accept, VisitRoute]
  | LayoutNode _ _ => simp only [Accept, VisitLayout, CodeGenerator.js]
  | AnimationNode _ _ => simp only [Accept, VisitAnimation, CodeGenerator.css]
  | TypeNode _ _ => simp only [Accept, VisitType, CodeGenerator.js]
  | HookNode _ _ _ => simp only [Accept, VisitHook, CodeGenerator.js]
  | PluginNode _ _ => simp only [Accept, VisitPlugin, CodeGenerator.js]
  | ConfigNode _ => simp only [Accept, VisitConfig, CodeGenerator.js]
  | ImportNode Specifiers Source =>
    rw [Accept_append]
    simp only [Accept, VisitImport, writeSpecifiers]
    split <;> split <;>
      simp only [List.nil_append, List.append_nil, CodeGenerator.append,
        CodeGenerator.js, NewCodeGenerator]
  | ExportNode Specifiers Source IsDefault =>
    rw [Accept_append]
    simp only [Accept, VisitExport, writeSpecifiers]
    cases IsDefault <;> split <;> split <;>
      simp only [List.nil_append, List.append_nil, CodeGenerator.append,
        CodeGenerator.js, NewCodeGenerator, Bool.false_eq_true, if_false, if_true]
  | ElementNode _ _ _ _ => simp only [Accept, VisitElement]
  | TextNode _ => simp only [Accept, VisitText]
  | ExpressionNode _ => simp only [Accept, VisitExpression]

theorem pageEvents_of_other (node : ASTNode)
    (hpage : isPageNode node = false) (hprog : isProgramNode node = false) :
    pageEvents node = [] := by
  cases node with
  | ProgramNode _ => cases hprog
  | PageNode _ _ _ => cases hpage
  | _ => rw [pageEvents]

mutual
theorem Accept_markup : ∀ (node : ASTNode) (g : CodeGenerator),
    (Accept node g).htmlOutput = g.htmlOutput ++ eventsText (pageEvents node)
  | .ProgramNode Statements, g => by
    rw [Accept, pageEvents]
    exact acceptEach_markup Statements g
  | .PageNode _ Attributes Body, g => by
    rw [Accept, pageEvents, pageTail_closing, acceptEach_markup Body, pageHead_opening,
      eventsText_append, eventsText_append]
    simp only [eventsText, eventText, List.append_assoc, List.append_nil]
  | .ComponentNode a b c d e f h, g => by
    rw [Accept_html_of_other (.ComponentNode a b c d e f h) g rfl rfl, pageEvents, eventsText, List.append_nil]
  | .StyleNode a b, g => by
    rw [Accept_html_of_other (.StyleNode a b) g rfl rfl, pageEvents, eventsText, List.append_nil]
  | .EventNode a b c, g => by
    rw [Accept_html_of_other (.EventNode a b c) g rfl rfl, pageEvents, eventsText, List.append_nil]
  | .StateNode a b, g => by
    rw [Accept_html_of_other (.StateNode a b) g rfl rfl, pageEvents, eventsText, List.append_nil]
  | .ApiNode a b c, g => by
    rw [Accept_html_of_other (.ApiNode a b c) g rfl rfl, pageEvents, eventsText, List.append_nil]
  | .RouterNode a, g => by
    rw [Accept_html_of_other (.RouterNode a) g rfl rfl, pageEvents, eventsText, List.append_nil]
  | .RouteNode a b c, g => by
    rw [Accept_html_of_other (.RouteNode a b c) g rfl rfl, pageEvents, eventsText, List.append_nil]
  | .LayoutNode a b, g => by
    rw [Accept_html_of_other (.LayoutNode a b) g rfl rfl, pageEvents, eventsText, List.append_nil]
  | .AnimationNode a b, g => by
    rw [Accept_html_of_other (.AnimationNode a b) g rfl rfl, pageEvents, eventsText, List.append_nil]
  | .TypeNode a b, g => by
    rw [Accept_html_of_other (.TypeNode a b) g rfl rfl, pageEvents, eventsText, List.append_nil]
  | .HookNode a b c, g => by
    rw [Accept_html_of_other (.HookNode a b c) g rfl rfl, pageEvents, eventsText, List.append_nil]
  | .PluginNode a b, g => by
    rw [Accept_html_of_other (.PluginNode a b) g rfl rfl, pageEvents, eventsText, List.append_nil]
  | .ConfigNode a, g => by
    rw [Accept_html_of_other (.ConfigNode a) g rfl rfl, pageEvents, eventsText, List.append_nil]
  | .ImportNode a b, g => by
    rw [Accept_html_of_other (.ImportNode a b) g rfl rfl, pageEvents, eventsText, List.append_nil]
  | .ExportNode a b c, g => by
    rw [Accept_html_of_other (.ExportNode a b c) g rfl rfl, pageEvents, eventsText, List.append_nil]
  | .ElementNode a b c d, g => by
    rw [Accept_html_of_other (.ElementNode a b c d) g rfl rfl, pageEvents, eventsText, List.append_nil]
  | .TextNode a, g => by
    rw [Accept_html_of_other (.TextNode a) g rfl rfl, pageEvents, eventsText, List.append_nil]
  | .ExpressionNode a, g => by
    rw [Accept_html_of_other (.ExpressionNode a) g rfl rfl, pageEvents, eventsText, List.append_nil]
theorem acceptEach_markup : ∀ (nodes : List ASTNode) (g : CodeGenerator),
    (acceptEach nodes g).htmlOutput = g.htmlOutput ++ eventsText (pageEventsList nodes)
  | [], g => by rw [acceptEach, pageEventsList, eventsText, List.append_nil]
  | node :: nodes, g => by
    rw [acceptEach, pageEventsList, acceptEach_markup nodes, Accept_markup node,
      eventsText_append, List.append_assoc]
end

theorem pageEventsList_of_others : ∀ (nodes : List ASTNode),
    (∀ x ∈ nodes, isPageNode x = false ∧ isProgramNode x = false) →
      pageEventsList nodes = []
  | [], _ => by rw [pageEventsList]
  | node :: nodes, h => by
    rw [pageEventsList, pageEvents_of_other node (h node (List.mem_cons_self _ _)).1
      (h node (List.mem_cons_self _ _)).2,
      pageEventsList_of_others nodes (fun x hx => h x (List.mem_cons_of_mem _ hx))]
    rfl

set_option maxRecDepth 100000 in
/-- C32 (counterexample): a Program whose only statement is a Program that
holds a Page has no Page node in its top-level statement list, and its
markup is a page skeleton, not the empty string. The source text
`page\x7bpage\x7b\x7d\x7d` compiles (whatever fuel suffices) to the front
part of the skeleton twice and then the back part twice, which is not the
two page skeletons one after the other. -/
theorem markup_of_nested_nodes :
    (∀ x ∈ [ASTNode.ProgramNode [.PageNode [] [] []]], isPageNode x = false)
      ∧ (Generate NewCodeGenerator
          (.ProgramNode [.ProgramNode [.PageNode [] [] []]])).2.GetHTML = pageMarkup none
      ∧ pageMarkup none ≠ []
      ∧ (∀ fuel, 8 ≤ fuel →
          Compile fuel "page\x7bpage\x7b\x7d\x7d".toList
            = some (.ok ⟨true,
                pageOpening none ++ pageOpening none ++ pageClosing ++ pageClosing,
                [], [], [], []⟩))
      ∧ pageOpening none ++ pageOpening none ++ pageClosing ++ pageClosing
          ≠ pageMarkup none ++ pageMarkup none :=
  ⟨by simp [isPageNode], by decide, by decide, Compile_mono _ _ 8 (by decide), by decide⟩

/-- C32 (as amended): every handler but those of Program and Page leaves the
markup buffer as it is. The markup a node adds is the text of the starts and
ends of the Page nodes visited from it, in visiting order: the front part of
the skeleton, with the title entry, where a Page starts and the back part
where it ends. So a Program whose statements are neither Page nor Program
nodes emits the empty markup, Programs with the same visited pages and
titles emit the same markup, and when the visited pages stand side by side
the markup is their whole skeletons one after the other. -/
theorem only_page_writes_markup (node : ASTNode) (g : CodeGenerator) :
    (isPageNode node = false → isProgramNode node = false →
        (Accept node g).htmlOutput = g.htmlOutput)
      ∧ (Accept node g).htmlOutput = g.htmlOutput ++ eventsText (pageEvents node)
      ∧ (∀ Statements : List ASTNode,
          (Generate NewCodeGenerator (.ProgramNode Statements)).2.GetHTML
            = eventsText (pageEventsList Statements))
      ∧ (∀ Statements : List ASTNode,
          (∀ x ∈ Statements, isPageNode x = false ∧ isProgramNode x = false) →
          (Generate NewCodeGenerator (.ProgramNode Statements)).2.GetHTML = [])
      ∧ (∀ xs ys : List ASTNode, pageEventsList xs = pageEventsList ys →
          (Generate NewCodeGenerator (.ProgramNode xs)).2.GetHTML
            = (Generate NewCodeGenerator (.ProgramNode ys)).2.GetHTML)
      ∧ (∀ (Statements : List ASTNode) (titles : List (Option GoString)),
          pageEventsList Statements = sideBySide titles →
          (Generate NewCodeGenerator (.ProgramNode Statements)).2.GetHTML
            = skeletons titles) := by
  have key : ∀ Statements : List ASTNode,
      (Generate NewCodeGenerator (.ProgramNode Statements)).2.GetHTML
        = eventsText (pageEventsList Statements) := by
    intro Statements
    unfold Generate CodeGenerator.GetHTML
    simp only []
    rw [Accept_markup, pageEvents]
    rfl
  refine ⟨Accept_html_of_other node g, Accept_markup node g, key, ?_, ?_, ?_⟩
  · intro Statements h
    rw [key, pageEventsList_of_others Statements h]
    rfl
  · intro xs ys h
    rw [key, key, h]
  · intro Statements titles h
    rw [key, h, eventsText_sideBySide]

set_option maxRecDepth 100000 in
theorem only_page_writes_markup_witness :
    (Generate NewCodeGenerator (.ProgramNode [.PageNode "A".toList
        [("title".toList, "Hi".toList)] [.StyleNode "s".toList []],
        .StateNode "n".toList [.PageNode [] [] []], .PageNode [] [] []])).2.GetHTML
      = pageMarkup (some "Hi".toList) ++ (pageMarkup none ++ []) :=
  (only_page_writes_markup (.TextNode []) NewCodeGenerator).2.2.2.2.2
    [.PageNode "A".toList [("title".toList, "Hi".toList)] [.StyleNode "s".toList []],
      .StateNode "n".toList [.PageNode [] [] []], .PageNode [] [] []]
    [some "Hi".toList, none] (by decide)

/-! ## Tokenizer: round trip with the delimiters put back -/

theorem closesLiteral_cons (q c : Char) (rest : GoString) (hc : (c == q) = false)
    (hb : (c == '\\') = false) : closesLiteral q (c :: rest) = closesLiteral q rest := by
  cases rest with
  | nil => rw [closesLiteral, closesLiteral, hc]
  | cons d r => rw [closesLiteral, hc, hb]; rfl

/-- With enough fuel the loop of `readString` stops on the closing quote, or
at the end of an input in which the literal is not closed. -/
theorem readQuotedLoop_stops (q : Char) : ∀ (fuel : Nat) (l : Lexer),
    l.input.length - l.position ≤ fuel →
    ((readQuotedLoop q fuel l).position < l.input.length →
        l.input[(readQuotedLoop q fuel l).position]? = some q)
      ∧ (¬ (readQuotedLoop q fuel l).position < l.input.length →
          closesLiteral q (l.input.drop l.position) = false) := by
  intro fuel
  induction fuel with
  | zero =>
    intro l hf
    rw [readQuotedLoop]
    refine ⟨fun h => by omega, fun _ => ?_⟩
    rw [List.drop_eq_nil_of_le (by omega)]
    rfl
  | succ n ih =>
    intro l hf
    rw [readQuotedLoop]
    cases hc : l.input[l.position]? with
    | none =>
      have hge : l.input.length ≤ l.position := List.getElem?_eq_none_iff.mp hc
      simp only []
      refine ⟨fun h => by omega, fun _ => ?_⟩
      rw [List.drop_eq_nil_of_le hge]
      rfl
    | some c =>
      have hlt := (List.getElem?_eq_some_iff.mp hc).1
      simp only []
      by_cases hne : (c != q) = true
      · have hcq : (c == q) = false := by simpa using hne
        rw [if_pos hne]
        by_cases hesc : (c == '\\' && decide (l.position + 1 < l.input.length)) = true
        · rw [if_pos hesc]
          simp only [Bool.and_eq_true, decide_eq_true_eq] at hesc
          obtain ⟨h1, h2⟩ := ih { l with position := l.position + 2, column := l.column + 2 }
            (by simp only []; omega)
          simp only [] at h1 h2
          refine ⟨h1, fun h => ?_⟩
          have hd : l.input[l.position + 1]? = some l.input[l.position + 1] :=
            List.getElem?_eq_getElem hesc.2
          rw [drop_eq_cons_of_getElem? hc, drop_eq_cons_of_getElem? hd, closesLiteral, hcq]
          simp only [Bool.false_eq_true, if_false, hesc.1, if_true]
          exact h2 h
        · rw [if_neg hesc]
          obtain ⟨h1, h2⟩ := ih { l with position := l.position + 1, column := l.column + 1 }
            (by simp only []; omega)
          simp only [] at h1 h2
          refine ⟨h1, fun h => ?_⟩
          rw [drop_eq_cons_of_getElem? hc]
          by_cases hb : (c == '\\') = true
          · have hend : ¬ l.position + 1 < l.input.length := by
              intro hl
              exact hesc (by simp [hb, hl])
            rw [List.drop_eq_nil_of_le (by omega), closesLiteral, hcq]
          · rw [closesLiteral_cons q c _ hcq (by simpa using hb)]
            exact h2 h
      · rw [if_neg hne]
        have : c = q := by simpa using hne
        subst this
        exact ⟨fun _ => hc, fun h => absurd hlt h⟩

/-- The shared body of `readString` and `readTemplateLiteral` on a lexer at
the quote `quote`: the bytes passed are the quote, the text of the token
and the quote again, or the literal is not closed and the lexer is at the
end of the input. -/
theorem quoted_source (quote : Char) (t : TokenType) (l : Lexer)
    (hc : l.input[l.position]? = some quote)
    (x : (Token × Option GoError) × Lexer)
    (h : (let l0 : Lexer := { l with position := l.position + 1, column := l.column + 1 }
          let start := l0.position
          let l1 := readQuotedLoop quote (l0.input.length - l0.position) l0
          let l2 : Lexer :=
            if l1.position < l1.input.length then
              { l1 with position := l1.position + 1, column := l1.column + 1 }
            else l1
          match slice l2.input start (l2.position - 1) with
          | .error e => .error e
          | .ok value =>
            .ok (({ Type_ := t, Value := value, Line := l2.line, Column := l2.column }, none), l2))
        = Except.ok x) :
    x.1.1.Type_ = t
      ∧ (quote :: (x.1.1.Value ++ quote :: l.input.drop x.2.position)
            = l.input.drop l.position
          ∨ (l.input.length ≤ x.2.position
              ∧ closesLiteral quote (l.input.drop (l.position + 1)) = false)) := by
  have hlt := (List.getElem?_eq_some_iff.mp hc).1
  obtain ⟨hi, hp, hb⟩ := readQuotedLoop_reaches quote (l.input.length - (l.position + 1))
    { l with position := l.position + 1, column := l.column + 1 }
  obtain ⟨hs1, hs2⟩ := readQuotedLoop_stops quote (l.input.length - (l.position + 1))
    { l with position := l.position + 1, column := l.column + 1 } (Nat.le_refl _)
  simp only [] at hi hp hb hs1 hs2
  have hb := hb hlt
  dsimp only [] at h
  generalize readQuotedLoop quote (l.input.length - (l.position + 1))
    { l with position := l.position + 1, column := l.column + 1 } = l1 at h hi hp hb hs1 hs2
  rw [hi] at h
  by_cases hclosed : l1.position < l.input.length
  · rw [if_pos hclosed] at h
    simp only [Nat.add_sub_cancel] at h
    obtain ⟨v, hv, hcat, _⟩ := slice_append_drop l.input (l.position + 1) l1.position hp
      (Nat.le_of_lt hclosed)
    rw [hv] at h
    cases h
    refine ⟨rfl, Or.inl ?_⟩
    simp only []
    rw [drop_eq_cons_of_getElem? hc, ← hcat, drop_eq_cons_of_getElem? (hs1 hclosed)]
  · rw [if_neg hclosed] at h
    split at h
    · cases h
    · cases h
      exact ⟨rfl, Or.inr ⟨by simp only []; omega, hs2 hclosed⟩⟩

theorem readResult_ok {r : Except Failure ((Token × Option GoError) × Lexer)}
    {x : (Option Token × Option GoError) × Lexer} (h : readResult r = .ok x) :
    ∃ y, r = .ok y ∧ x = ((some y.1.1, y.1.2), y.2) := by
  cases r with
  | error e => cases h
  | ok y =>
    obtain ⟨⟨tok, err⟩, l1⟩ := y
    cases h
    exact ⟨_, rfl, rfl⟩

/-- An iteration of the tokenizer loop at a quote byte: the token appended
is of the kind the quote opens, and the bytes passed are the quote, the
text of the token and the quote again, unless the literal is not closed,
in which case the lexer is at the end of the input. -/
theorem tokenizeStep_quote (l : Lexer) (c : Char) (hc : l.input[l.position]? = some c)
    (hq : isQuoteByte c = true) (x : (Option Token × Option GoError) × Lexer)
    (h : tokenizeStep l c = .ok x) :
    ∃ tok, x.1.1 = some tok ∧ opensKind c tok.Type_ = true
      ∧ (c :: (tok.Value ++ c :: l.input.drop x.2.position) = l.input.drop l.position
          ∨ (l.input.length ≤ x.2.position
              ∧ closesLiteral c (l.input.drop (l.position + 1)) = false)) := by
  have hcases : c = '"' ∨ c = '\'' ∨ c = '\x60' := by
    simpa [isQuoteByte, or_assoc] using hq
  have hstring : ∀ q : Char, l.input[l.position]? = some q → (q = '"' ∨ q = '\'') →
      readResult (readString l) = .ok x →
      ∃ tok, x.1.1 = some tok ∧ opensKind q tok.Type_ = true
        ∧ (q :: (tok.Value ++ q :: l.input.drop x.2.position) = l.input.drop l.position
            ∨ (l.input.length ≤ x.2.position
                ∧ closesLiteral q (l.input.drop (l.position + 1)) = false)) := by
    intro q hcq hqq hr
    obtain ⟨y, hy, hx⟩ := readResult_ok hr
    unfold readString at hy
    rw [hcq] at hy
    obtain ⟨hty, hsrc⟩ := quoted_source q .String l hcq y hy
    subst hx
    refine ⟨y.1.1, rfl, ?_, hsrc⟩
    rw [hty]
    rcases hqq with rfl | rfl <;> rfl
  rcases hcases with rfl | rfl | rfl
  · exact hstring _ hc (Or.inl rfl) (by simpa [tokenizeStep, isWhitespace] using h)
  · exact hstring _ hc (Or.inr rfl) (by simpa [tokenizeStep, isWhitespace] using h)
  · have hr : readResult (readTemplateLiteral l) = .ok x := by
      simpa [tokenizeStep, isWhitespace] using h
    obtain ⟨y, hy, hx⟩ := readResult_ok hr
    unfold readTemplateLiteral at hy
    obtain ⟨hty, hsrc⟩ := quoted_source '\x60' .TemplateLiteral l hc y hy
    subst hx
    refine ⟨y.1.1, rfl, ?_, hsrc⟩
    rw [hty]
    rfl

theorem identifierType_plain (value : GoString) :
    isLiteralKind (identifierType value) = false := by
  unfold identifierType
  cases hk : keywords value with
  | none => rfl
  | some t =>
    obtain ⟨kv, hmem, _, rfl⟩ := (keywords_eq_some_iff value t).mp hk
    have hall : ∀ kv ∈ keywordTable, isLiteralKind kv.2 = false := by decide
    exact hall kv hmem

theorem readResult_plain (r : Except Failure ((Token × Option GoError) × Lexer))
    (h : ∀ x, r = .ok x → isLiteralKind x.1.1.Type_ = false)
    (y : (Option Token × Option GoError) × Lexer) (hy : readResult r = .ok y) :
    ∀ tok, y.1.1 = some tok → isLiteralKind tok.Type_ = false := by
  intro tok htok
  obtain ⟨x, hx, hyx⟩ := readResult_ok hy
  subst hyx
  simp only [Option.some.injEq] at htok
  subst htok
  exact h _ hx

theorem readLineComment_plain (l : Lexer) (x : (Token × Option GoError) × Lexer)
    (h : readLineComment l = .ok x) : isLiteralKind x.1.1.Type_ = false := by
  unfold readLineComment at h
  simp only [] at h
  split at h
  · cases h
  · cases h; rfl

theorem readBlockComment_plain (l : Lexer) (x : (Token × Option GoError) × Lexer)
    (h : readBlockComment l = .ok x) : isLiteralKind x.1.1.Type_ = false := by
  unfold readBlockComment at h
  simp only [] at h
  split at h
  · cases h
  · cases h; rfl

theorem readNumber_plain (l : Lexer) (x : (Token × Option GoError) × Lexer)
    (h : readNumber l = .ok x) : isLiteralKind x.1.1.Type_ = false := by
  unfold readNumber at h
  simp only [] at h
  split at h
  · cases h
  · cases h; rfl

theorem readIdentifier_plain (l : Lexer) (x : (Token × Option GoError) × Lexer)
    (h : readIdentifier l = .ok x) : isLiteralKind x.1.1.Type_ = false := by
  unfold readIdentifier at h
  simp only [] at h
  split at h
  · cases h
  · cases h
    exact identifierType_plain _

theorem tokenizeOperator_plain (l : Lexer) (c : Char) :
    ∀ tok, (tokenizeOperator l c).1.1 = some tok → isLiteralKind tok.Type_ = false := by
  have key : ∀ (t : TokenType) (v : String) (n : Nat), isLiteralKind t = false →
      ∀ tok, (emitToken l t v n).1.1 = some tok → isLiteralKind tok.Type_ = false := by
    intro t v n ht tok h
    simp only [emitToken, Option.some.injEq] at h
    subst h
    exact ht
  unfold tokenizeOperator
  dsimp only []
  repeat' first
    | (refine ite_both (P := fun r : (Option Token × Option GoError) × Lexer =>
        ∀ tok, r.1.1 = some tok → isLiteralKind tok.Type_ = false) (fun _ => ?_) (fun _ => ?_))
    | exact key _ _ _ (by decide)
  intro tok h
  cases h

/-- An iteration at a byte that is no quote appends no String and no
TemplateLiteral token. -/
theorem tokenizeStep_plain (l : Lexer) (c : Char) (hq : isQuoteByte c = false)
    (x : (Option Token × Option GoError) × Lexer) (h : tokenizeStep l c = .ok x) :
    ∀ tok, x.1.1 = some tok → isLiteralKind tok.Type_ = false := by
  have hs : ¬ (c == '"' || c == '\'') = true := by
    intro hs
    simp only [isQuoteByte, hs, Bool.true_or] at hq
    cases hq
  have ht : ¬ (c == '\x60') = true := by
    intro ht
    simp only [isQuoteByte, ht, Bool.or_true] at hq
    cases hq
  unfold tokenizeStep at h
  by_cases hw : isWhitespace c = true
  · rw [if_pos hw] at h
    by_cases hn : (c == '\n') = true
    · rw [if_pos hn] at h
      cases h
      intro tok htok
      simp only [Option.some.injEq] at htok
      subst htok
      rfl
    · rw [if_neg hn] at h
      cases h
      intro tok htok
      simp only [Option.some.injEq] at htok
      subst htok
      rfl
  rw [if_neg hw] at h
  by_cases hlc : (c == '/' && l.input[l.position + 1]? == some '/') = true
  · rw [if_pos hlc] at h
    exact readResult_plain _ (readLineComment_plain l) x h
  rw [if_neg hlc] at h
  by_cases hbc : (c == '/' && l.input[l.position + 1]? == some '*') = true
  · rw [if_pos hbc] at h
    exact readResult_plain _ (readBlockComment_plain l) x h
  rw [if_neg hbc, if_neg hs, if_neg ht] at h
  by_cases hd : isDigit c = true
  · rw [if_pos hd] at h
    exact readResult_plain _ (readNumber_plain l) x h
  rw [if_neg hd] at h
  by_cases hal : (isAlpha c || c == '_') = true
  · rw [if_pos hal] at h
    exact readResult_plain _ (readIdentifier_plain l) x h
  rw [if_neg hal] at h
  cases h
  exact tokenizeOperator_plain l c

theorem IsSourceOf_plain (t : Token) (h : isLiteralKind t.Type_ = false) :
    IsSourceOf t t.Value := by
  unfold IsSourceOf
  rw [if_neg (by rw [h]; exact Bool.false_ne_true)]

theorem IsSourceOf_literal (t : Token) (q : Char) (h : opensKind q t.Type_ = true) :
    IsSourceOf t (q :: (t.Value ++ [q])) := by
  have hk : isLiteralKind t.Type_ = true := by
    simp only [opensKind, Bool.or_eq_true, Bool.and_eq_true] at h
    simp only [isLiteralKind, Bool.or_eq_true]
    rcases h with h | h
    · exact Or.inl h.1
    · exact Or.inr h.1
  unfold IsSourceOf
  rw [if_pos hk]
  exact ⟨q, h, rfl⟩

theorem Restores_option (tok : Option Token) (ts : List Token) (rest : GoString)
    (hk : ∀ t, tok = some t → isLiteralKind t.Type_ = false) (h : Restores ts rest) :
    Restores (tok.toList ++ ts) (appendedText tok ++ rest) := by
  cases tok with
  | none => exact h
  | some t => exact ⟨t.Value, rest, IsSourceOf_plain t (hk t rfl), rfl, h⟩

theorem Restores_append : ∀ (a b : List Token) (p r : GoString),
    Restores a p → Restores b r → Restores (a ++ b) (p ++ r)
  | [], b, p, r, ha, hb => by
    rw [Restores] at ha
    subst ha
    exact hb
  | t :: a, b, p, r, ha, hb => by
    obtain ⟨seg, rest, hs, hp, hr⟩ := ha
    subst hp
    exact ⟨seg, rest ++ r, hs, by rw [List.append_assoc], Restores_append a b rest r hr hb⟩

theorem EndsInOpenLiteral_append (a ts : List Token) (p text : GoString)
    (ha : Restores a p) (h : EndsInOpenLiteral ts text) :
    EndsInOpenLiteral (a ++ ts) (p ++ text) := by
  obtain ⟨pre, lit, eof, p1, q, rest, hts, htext, hpre, hk, hopen, heof⟩ := h
  subst hts htext
  exact ⟨a ++ pre, lit, eof, p ++ p1, q, rest, by rw [List.append_assoc],
    by rw [List.append_assoc], Restores_append a pre p p1 ha hpre, hk, hopen, heof⟩

/-- Restored text of tokens without a literal token is the text of the
tokens. -/
theorem Restores_plain : ∀ (ts : List Token) (text : GoString),
    (∀ t ∈ ts, isLiteralKind t.Type_ = false) → Restores ts text → tokenText ts = text
  | [], text, _, h => by
    rw [Restores] at h
    subst h
    rfl
  | t :: ts, text, hall, h => by
    obtain ⟨seg, rest, hs, hp, hr⟩ := h
    unfold IsSourceOf at hs
    rw [if_neg (by rw [hall t (List.mem_cons_self _ _)]; exact Bool.false_ne_true)] at hs
    subst hs hp
    have := Restores_plain ts rest (fun x hx => hall x (List.mem_cons_of_mem _ hx)) hr
    rw [← this]
    simp [tokenText]

theorem Restores_toList (tok : Option Token)
    (hk : ∀ t, tok = some t → isLiteralKind t.Type_ = false) :
    Restores tok.toList (appendedText tok) := by
  have := Restores_option tok [] [] hk rfl
  rwa [List.append_nil, List.append_nil] at this

theorem Restores_eof (l : Lexer) : Restores [eofToken l] [] :=
  ⟨[], [], IsSourceOf_plain _ rfl, rfl, rfl⟩

/-- From any lexer inside an input of recognized bytes: the tokens the loop
appends restore the rest of the input, or the rest ends inside a literal
that is never closed. -/
theorem tokenizeLoop_restores : ∀ (fuel : Nat) (l : Lexer) (tokens ts : List Token)
    (e : Option GoError), (∀ c ∈ l.input, isRecognizedByte c = true) →
    l.input.length - l.position ≤ fuel → tokenizeLoop fuel l tokens = .ok (ts, e) →
    ∃ new, ts = tokens ++ new
      ∧ (Restores new (l.input.drop l.position)
          ∨ EndsInOpenLiteral new (l.input.drop l.position)) := by
  intro fuel
  induction fuel with
  | zero =>
    intro l tokens ts e _ hf h
    have hnone : l.input[l.position]? = none := List.getElem?_eq_none_iff.mpr (by omega)
    rw [tokenizeLoop_of_none _ l tokens hnone] at h
    cases h
    refine ⟨[eofToken l], rfl, Or.inl ?_⟩
    rw [List.drop_eq_nil_of_le (by omega)]
    exact Restores_eof l
  | succ n ih =>
    intro l tokens ts e hall hf h
    cases hc : l.input[l.position]? with
    | none =>
      rw [tokenizeLoop_of_none _ l tokens hc] at h
      cases h
      refine ⟨[eofToken l], rfl, Or.inl ?_⟩
      rw [List.drop_eq_nil_of_le (List.getElem?_eq_none_iff.mp hc)]
      exact Restores_eof l
    | some c =>
      have hrec : isRecognizedByte c = true := hall c (List.mem_iff_getElem?.mpr ⟨_, hc⟩)
      cases hs : tokenizeStep l c with
      | error f =>
        rw [tokenizeLoop, hc] at h
        simp only [hs] at h
        cases h
      | ok x =>
        obtain ⟨⟨tok, err⟩, l1⟩ := x
        have herr := tokenizeStep_no_error l c hc _ hs
        simp only [] at herr
        subst herr
        rw [tokenizeLoop_of_step _ l tokens c tok l1 hc hs] at h
        have hadv : Advances l ((tok, none), l1) := by
          rcases tokenizeStep_cases l c hc with ⟨y, hy, ha, _⟩ | ⟨_, hq2⟩
          · rw [hs] at hy; cases hy; exact ha
          · exact hq2 _ hs
        obtain ⟨_, hi, hp, hb⟩ := hadv
        simp only [] at hi hp hb
        by_cases hq : isQuoteByte c = true
        · obtain ⟨t, ht, hk, hsrc⟩ := tokenizeStep_quote l c hc hq _ hs
          simp only [] at ht hsrc
          subst ht
          rcases hsrc with hsrc | ⟨hend, hopen⟩
          · obtain ⟨new, hnew, hres⟩ := ih l1 _ ts e (by rw [hi]; exact hall)
              (by rw [hi]; omega) h
            have hone : Restores [t] (c :: (t.Value ++ [c])) :=
              ⟨_, [], IsSourceOf_literal t c hk, by rw [List.append_nil], rfl⟩
            have htext : l.input.drop l.position
                = (c :: (t.Value ++ [c])) ++ l1.input.drop l1.position := by
              rw [hi, ← hsrc]
              simp only [List.cons_append, List.append_assoc, List.singleton_append,
                List.nil_append]
            refine ⟨t :: new, by rw [hnew]; simp, ?_⟩
            rw [htext]
            rcases hres with hres | hres
            · exact Or.inl (Restores_append [t] new _ _ hone hres)
            · exact Or.inr (EndsInOpenLiteral_append [t] new _ _ hone hres)
          · have hnone : l1.input[l1.position]? = none :=
              List.getElem?_eq_none_iff.mpr (by rw [hi]; exact hend)
            rw [tokenizeLoop_of_none _ l1 _ hnone] at h
            cases h
            refine ⟨[t, eofToken l1], by simp, Or.inr ?_⟩
            exact ⟨[], t, eofToken l1, [], c, l.input.drop (l.position + 1), rfl,
              by rw [List.nil_append]; exact drop_eq_cons_of_getElem? hc, rfl, hk, hopen, rfl⟩
        · have hq0 : isQuoteByte c = false := by simpa using hq
          have hkind := tokenizeStep_plain l c hq0 _ hs
          simp only [] at hkind
          have hkeep : appendedText tok ++ l.input.drop l1.position
              = l.input.drop l.position := by
            rcases tokenizeStep_cases l c hc with ⟨y, hy, _, hk⟩ | ⟨hq2, _⟩
            · rw [hs] at hy
              cases hy
              exact hk hq0 hrec
            · exact absurd hq2 hq
          obtain ⟨new, hnew, hres⟩ := ih l1 _ ts e (by rw [hi]; exact hall)
            (by rw [hi]; omega) h
          refine ⟨tok.toList ++ new, by rw [hnew, List.append_assoc], ?_⟩
          rw [← hkeep, ← hi]
          rcases hres with hres | hres
          · exact Or.inl (Restores_append _ new _ _ (Restores_toList tok hkind) hres)
          · exact Or.inr (EndsInOpenLiteral_append _ new _ _ (Restores_toList tok hkind) hres)

/-- C3 (amended): for every input made only of recognized bytes on which
`Tokenize` returns, the error is nil and the `Value` fields of the tokens,
concatenated in order with the delimiter put back on both sides of the
`Value` of every String token (a double or a single quote) and of every
TemplateLiteral token (a backtick), are exactly the input, unless the input
ends inside a string or template literal that is never closed. So whenever
no String and no TemplateLiteral token is returned, the `Value` fields alone
are exactly the input. -/
theorem tokenize_roundtrip_restoring_delimiters (input : GoString) (ts : List Token)
    (e : Option GoError) (hrec : ∀ c ∈ input, isRecognizedByte c = true)
    (h : Tokenize input = .ok (ts, e)) :
    e = none
      ∧ (Restores ts input ∨ EndsInOpenLiteral ts input)
      ∧ ((∀ t ∈ ts, t.Type_ ≠ .String ∧ t.Type_ ≠ .TemplateLiteral) →
          tokenText ts = input) := by
  have he := tokenizeLoop_no_error _ _ _ _ _ h
  obtain ⟨new, hnew, hres⟩ := tokenizeLoop_restores input.length (NewLexer input) [] ts e
    hrec (by simp [NewLexer]) h
  rw [List.nil_append] at hnew
  subst hnew
  have hres : Restores ts input ∨ EndsInOpenLiteral ts input := hres
  refine ⟨he, hres, fun hplain => ?_⟩
  have hkinds : ∀ t ∈ ts, isLiteralKind t.Type_ = false := by
    intro t ht
    obtain ⟨h1, h2⟩ := hplain t ht
    simp only [isLiteralKind, Bool.or_eq_false_iff, beq_eq_false_iff_ne, ne_eq]
    exact ⟨h1, h2⟩
  rcases hres with hres | hopen
  · exact Restores_plain ts input hkinds hres
  · obtain ⟨pre, lit, eof, p, q, rest, hts, _, _, hk, _, _⟩ := hopen
    have hlit := hkinds lit (by rw [hts]; simp)
    have : isLiteralKind lit.Type_ = true := by
      simp only [opensKind, Bool.or_eq_true, Bool.and_eq_true] at hk
      simp only [isLiteralKind, Bool.or_eq_true]
      rcases hk with hk | hk
      · exact Or.inl hk.1
      · exact Or.inr hk.1
    rw [hlit] at this
    cases this

set_option maxRecDepth 100000 in
/-- Witness of C3 (amended): the tokens of `t='a' // it's` restore the
input, the quotes of the String token put back, the quote inside the comment
being part of the Comment token; the tokens of `// it's` alone spell the
input. -/
theorem tokenize_roundtrip_restoring_delimiters_witness :
    Restores [⟨.Identifier, "t".toList, 1, 2⟩, ⟨.Assign, "=".toList, 1, 2⟩,
        ⟨.String, "a".toList, 1, 6⟩, ⟨.Whitespace, " ".toList, 1, 6⟩,
        ⟨.Comment, "// it's".toList, 1, 7⟩, ⟨.EOF, [], 1, 14⟩] "t='a' // it's".toList
      ∧ tokenText [⟨.Comment, "// it's".toList, 1, 1⟩, ⟨.EOF, [], 1, 8⟩]
          = "// it's".toList :=
  ⟨((tokenize_roundtrip_restoring_delimiters "t='a' // it's".toList
        [⟨.Identifier, "t".toList, 1, 2⟩, ⟨.Assign, "=".toList, 1, 2⟩,
          ⟨.String, "a".toList, 1, 6⟩, ⟨.Whitespace, " ".toList, 1, 6⟩,
          ⟨.Comment, "// it's".toList, 1, 7⟩, ⟨.EOF, [], 1, 14⟩] none
        (by decide) (by decide)).2.1).resolve_right (by
      rintro ⟨pre, lit, eof, p, q, rest, hts, _, _, hk, _, _⟩
      have hrev := congrArg List.reverse hts
      simp only [List.reverse_append, List.reverse_cons, List.reverse_nil, List.nil_append,
        List.singleton_append, List.cons_append, List.cons.injEq] at hrev
      rw [← hrev.2.1] at hk
      simp [opensKind] at hk),
    (tokenize_roundtrip_restoring_delimiters "// it's".toList
      [⟨.Comment, "// it's".toList, 1, 1⟩, ⟨.EOF, [], 1, 8⟩] none
      (by decide) (by decide)).2.2 (by decide)⟩

end EmaDocs
